import Mathlib

set_option autoImplicit false

/-!
# bikesharing_data / bustrips : distance computation and distance matrix

Shallow embedding of

* `nodes_distances.cpp` : network loading, improved edges, points, the per-source
  shortest path search with a `std::set` used as a priority queue, and the loop over
  the start nodes;
* `dist_matrix.cpp` : the writer of the binary distance matrix;
* `sample_trips3.cpp` : the `distances` accessor (`open_dists`, `read_dists`, `get_dist`).

Conventions of the embedding.

* `uint64_t` identifiers are natural numbers (no arithmetic is done on them).
* The search of `nodes_distances.cpp` is embedded twice. In `nodes_distances` a distance
  is the exact rational it stands for and sums are exact rational sums; this embedding
  carries the statements on control flow, reachability, counting and the shape of the
  output, none of which depends on rounding. In `nodes_distances.fp` a distance is a value
  of `Bustrips.double`, and `+`, `/`, `<`, `==`, `<=` are the operations of IEEE 754
  binary64 (round to nearest, ties to even; infinities; NaN, with which every comparison
  is false); this embedding carries the statements on the values of the distances. The
  graph, the points and the edge data are shared: the distance of an edge is the exact
  value of the finite `double` read from the network file.
* In the matrix codec a `double` is only copied, never computed with; there it is
  represented by its 64-bit pattern (a natural number below `2 ^ 64`, `0.0` being `0`).
* A `std::unordered_map` is an association list with pairwise distinct keys. The order in
  which such a map is iterated is not fixed by the language; where the program iterates a
  map, results are stated for every association list (every order), or the iteration order
  is an explicit parameter.
-/

namespace Bustrips

/-! ## Associative containers -/

section Maps

variable {K V : Type} [DecidableEq K]

/-- The `find` / `count` / `at` lookup of an associative container. -/
def map_find : List (K × V) → K → Option V
  | [], _ => none
  | (k1, v) :: rest, k => if k1 = k then some v else map_find rest k

/-- Assignment `m[k] = v`: overwrite the value of an existing key, otherwise add the key. -/
def map_set : List (K × V) → K → V → List (K × V)
  | [], k, v => [(k, v)]
  | (k1, v1) :: rest, k, v => if k1 = k then (k1, v) :: rest else (k1, v1) :: map_set rest k v

/-- Member `insert(make_pair(k, v))`: adds the key only when it is absent, never overwrites. -/
def map_insert (m : List (K × V)) (k : K) (v : V) : List (K × V) :=
  match map_find m k with
  | some _ => m
  | none => m ++ [(k, v)]

/-- Keys of an associative container. -/
def map_keys (m : List (K × V)) : List K := m.map Prod.fst

end Maps

/-! ## The type `double` -/

/-- A value of the type `double` (IEEE 754 binary64): not-a-number, an infinity with its
sign (`neg = true` is the negative one), or a finite value, given by the rational number
it stands for. The two zeros are one value `fin 0`. -/
inductive double where
  | nan : double
  | inf (neg : Bool) : double
  | fin (q : ℚ) : double
deriving DecidableEq

namespace double

/-- The power of two with exponent `z`. -/
def pow2 (z : Int) : ℚ :=
  if 0 ≤ z then ((2 ^ z.toNat : Nat) : ℚ) else 1 / ((2 ^ (-z).toNat : Nat) : ℚ)

/-- Rounding to the nearest integer, a tie going to the even one. -/
def rne (x : ℚ) : Int :=
  if x - ⌊x⌋ < 1 / 2 then ⌊x⌋
  else if 1 / 2 < x - ⌊x⌋ then ⌊x⌋ + 1
  else if ⌊x⌋ % 2 = 0 then ⌊x⌋ else ⌊x⌋ + 1

/-- Number of halvings of `n` that leave a positive number, at most `fuel` of them. -/
def log2_aux : Nat → Nat → Nat
  | 0, _ => 0
  | fuel + 1, n => if n < 2 then 0 else log2_aux fuel (n / 2) + 1

/-- The integer part of the binary logarithm of `n` (0 for `n = 0`). -/
def nlog2 (n : Nat) : Nat := log2_aux n n

/-- The exponent `e` with `2 ^ e ≤ a < 2 ^ (e + 1)`, for a positive rational `a`. -/
def ilog2 (a : ℚ) : Int :=
  if pow2 ((nlog2 a.num.natAbs : Int) - (nlog2 a.den : Int)) ≤ a
  then (nlog2 a.num.natAbs : Int) - (nlog2 a.den : Int)
  else (nlog2 a.num.natAbs : Int) - (nlog2 a.den : Int) - 1

/-- Exponent of the unit in the last place of the doubles of the size of `a`: 53
significant bits, and the least exponent `-1022` of the normal numbers (below it the
subnormal numbers have the spacing `2 ^ (-1074)`). -/
def quantum (a : ℚ) : Int := max (ilog2 a) (-1022) - 52

/-- The multiple of `2 ^ e` that is nearest to `x`, a tie going to the even multiple. -/
def scale (x : ℚ) (e : Int) : ℚ := (rne (x / pow2 e) : ℚ) * pow2 e

/-- The double that an exact result `x` is rounded to: the nearest double, ties to even,
and an infinity when that rounding reaches `2 ^ 1024`. -/
def round64 (x : ℚ) : double :=
  if pow2 1024 ≤ |scale x (quantum |x|)| then inf (decide (x < 0))
  else fin (scale x (quantum |x|))

/-- The sum `a + b` of two doubles. -/
def add : double → double → double
  | fin a, fin b => round64 (a + b)
  | fin _, inf s => inf s
  | inf s, fin _ => inf s
  | inf s, inf t => if s = t then inf s else nan
  | _, _ => nan

/-- The quotient `a / b` of two doubles (a zero divisor counts as `+0`). -/
def div : double → double → double
  | fin a, fin b =>
    if b = 0 then (if a = 0 then nan else inf (decide (a < 0))) else round64 (a / b)
  | fin _, inf _ => fin 0
  | inf s, fin b => inf (xor s (decide (b < 0)))
  | _, _ => nan

instance : Add double := ⟨add⟩

instance : Div double := ⟨div⟩

/-- The comparison `a < b` of two doubles. -/
def lt : double → double → Bool
  | fin a, fin b => decide (a < b)
  | fin _, inf s => !s
  | inf s, fin _ => s
  | inf s, inf t => s && !t
  | _, _ => false

/-- The comparison `a == b` of two doubles. -/
def eq : double → double → Bool
  | fin a, fin b => decide (a = b)
  | inf s, inf t => s == t
  | _, _ => false

/-- The comparison `a <= b` of two doubles. -/
def le (a b : double) : Bool := a.lt b || a.eq b

/-- The finite values of the type are the fixed points of the rounding. -/
def representable : double → Bool
  | fin q => decide (round64 q = fin q)
  | _ => true

/-- Place of a double in the chain NaN, minus infinity, the finite values, plus infinity. -/
def key : double → ℕ ×ₗ ℚ
  | nan => toLex (1, 0)
  | inf true => toLex (2, 0)
  | fin q => toLex (3, q)
  | inf false => toLex (4, 0)

/-- The chain NaN, minus infinity, the finite values in their order, plus infinity. This
order is only used in proofs: on operands that are not NaN it is the order that the
comparisons `lt`, `eq` and `le` of the program decide. -/
instance : LinearOrder double :=
  LinearOrder.lift' key (by
    intro a b h
    rcases a with _ | (_ | _) | q <;> rcases b with _ | (_ | _) | r <;> simp [key] at h ⊢
    exact h)

end double

/-! ## nodes_distances.cpp -/

namespace nodes_distances

/-- Entry of the search queue (`struct node`). -/
structure node where
  d : ℚ
  real_d : ℚ
  node_id : Nat
  ancestor : Nat
deriving DecidableEq

/-- The comparison `node::operator <`. -/
def node.lt (a n : node) : Bool :=
  decide (a.d < n.d) || (decide (a.d = n.d) && decide (a.node_id < n.node_id))

/-- Equivalence of two keys for `std::set<node>`: neither is less than the other. -/
def node.equiv (a b : node) : Bool := !(a.lt b) && !(b.lt a)

/-- Edge data (`struct edge_info`). -/
structure edge_info where
  d : ℚ
  cnt : Nat
  first_ts : Nat
  is_improved : Bool
deriving DecidableEq

/-- The constructor `edge_info(double d_)`. -/
def edge_info.new (d : ℚ) : edge_info := ⟨d, 0, 0, false⟩

/-- The adjacency of one node: neighbor id to edge data. -/
abbrev Adj := List (Nat × edge_info)

/-- The graph `n`: node id to adjacency. -/
abbrev Graph := List (Nat × Adj)

/-- The adjacency `n[a]` (empty when `a` is not a key). -/
def adj (n : Graph) (a : Nat) : Adj := (map_find n a).getD []

/-- The assignment `n[a][b] = e`. -/
def graph_set (n : Graph) (a b : Nat) (e : edge_info) : Graph :=
  map_set n a (map_set (adj n a) b e)

/-- One record of the network file: lines 122 and 123. -/
def add_edge (n : Graph) (r : Nat × Nat × ℚ) : Graph :=
  graph_set (graph_set n r.1 r.2.1 (edge_info.new r.2.2)) r.2.1 r.1 (edge_info.new r.2.2)

/-- Reading the whole network file (lines 115 to 130), records given in file order. -/
def read_network (edges : List (Nat × Nat × ℚ)) : Graph :=
  edges.foldl add_edge []

/-- The default constructor `edge_info()`. -/
def edge_info.empty : edge_info := ⟨0, 0, 0, false⟩

/-- The assignment `n[a][b].is_improved = true` (an absent entry would be created by
`operator[]` with the default constructor). -/
def set_improved (n : Graph) (a b : Nat) : Graph :=
  graph_set n a b { (map_find (adj n a) b).getD edge_info.empty with is_improved := true }

/-- One record of the improved edge file (lines 144 to 153); `none` is `return 1`. -/
def mark_improved (n : Graph) (r : Nat × Nat) : Option Graph :=
  if (map_find n r.1).isNone || (map_find n r.2).isNone then none
  else if (map_find (adj n r.1) r.2).isNone || (map_find (adj n r.2) r.1).isNone then none
  else some (set_improved (set_improved n r.1 r.2) r.2 r.1)

/-- The loop of lines 141 to 155 over the records of the improved edge file, in file
order; `none` is the `return 1` of line 146 or 150, at the first record that fails. -/
def mark_all (n : Graph) : List (Nat × Nat) → Option Graph
  | [] => some n
  | r :: rs =>
    match mark_improved n r with
    | none => none
    | some n1 => mark_all n1 rs

/-- The ways in which the program ends with `return 1` after its input is parsed, and the
bound on the number of loop passes of the embedding. -/
inductive Error where
  | weight_not_positive
  | edge_not_in_network
  | node_not_found
  | no_trips
  | not_all_found
  | queue_error
  | out_of_fuel
deriving DecidableEq

/-- Lines 133 to 162. The argument `improved_edges` is the content of the improved edge
file, `none` when the option `-i` is not given. -/
def read_improved_edges (n : Graph) (improved_edge_weight : ℚ) :
    Option (List (Nat × Nat)) → Except Error Graph
  | none => Except.ok n
  | some l =>
    if improved_edge_weight ≤ 0 then Except.error Error.weight_not_positive
    else
      match mark_all n l with
      | none => Except.error Error.edge_not_in_network
      | some n1 => Except.ok n1

/-- One output line: the two point ids, weighted and real distance, the two offsets. -/
structure Record where
  id1 : Nat
  id2 : Nat
  d : ℚ
  real_d : ℚ
  off1 : ℚ
  off2 : ℚ
deriving DecidableEq

/-- Points attached to nodes (`nodes_points`): node id to the list of (point id, offset). -/
abbrev Points := List (Nat × List (Nat × ℚ))

/-- The counter `npoints`: one per point read. -/
def count_points (nodes_points : Points) : Nat :=
  (nodes_points.map (fun x => x.2.length)).sum

/-- The points found at line 216 for the node `current` (none when it is not a key). -/
def points_at (nodes_points : Points) (current : Nat) : List (Nat × ℚ) :=
  (map_find nodes_points current).getD []

/-- The two nested loops of line 219 and 220: records written when a node is extracted. -/
def emit (xs ys : List (Nat × ℚ)) (d real_d : ℚ) : List Record :=
  xs.flatMap (fun n1 => (ys.filter (fun n2 => decide (n1.1 < n2.1))).map
    (fun n2 => ⟨n1.1, n2.1, d, real_d, n1.2, n2.2⟩))

/-- Insertion into `std::set<node>`, kept as a list sorted by `node.lt`; an element that
is equivalent to a present one is not inserted. -/
def set_insert (x : node) : List node → List node
  | [] => [x]
  | y :: ys =>
    if x.lt y then x :: y :: ys
    else if y.lt x then y :: set_insert x ys
    else y :: ys

/-- Member `erase(key)` of `std::set<node>`: removes the element equivalent to the key and
returns the number of removed elements (0 or 1). -/
def set_erase (k : node) : List node → List node × Nat
  | [] => ([], 0)
  | y :: ys =>
    if k.equiv y then (ys, 1)
    else ((y :: (set_erase k ys).1), (set_erase k ys).2)

/-- State of one search: the queue `q`, the map `node_distances`, the counter `found`,
the lines written so far, and the log of extracted queue entries (observation only). -/
structure SearchState where
  q : List node
  node_distances : List (Nat × ℚ)
  found : Nat
  out : List Record
  trace : List node

/-- Body of the loop over `n[current]` (lines 226 to 246) for one neighbor; `none` is the
`return 1` of line 241. -/
def relax_edge (w : ℚ) (current : Nat) (d real_d : ℚ)
    (s : List node × List (Nat × ℚ)) (x : Nat × edge_info) : Option (List node × List (Nat × ℚ)) :=
  let n1 := x.1
  let real_d1 := real_d + x.2.d
  let d1 := if x.2.is_improved then d + x.2.d / w else d + x.2.d
  match map_find s.2 n1 with
  | none => some (set_insert ⟨d1, real_d1, n1, current⟩ s.1, s.2 ++ [(n1, d1)])
  | some old =>
    if d1 < old then
      if (set_erase ⟨old, 0, n1, 0⟩ s.1).2 ≠ 1 then none
      else some (set_insert ⟨d1, real_d1, n1, current⟩ (set_erase ⟨old, 0, n1, 0⟩ s.1).1,
                 map_set s.2 n1 d1)
    else some s

/-- The loop `for(const auto& x : n[current])` of lines 225 to 247. -/
def relax (w : ℚ) (current : Nat) (d real_d : ℚ) :
    List (Nat × edge_info) → List node × List (Nat × ℚ) → Option (List node × List (Nat × ℚ))
  | [], s => some s
  | x :: xs, s =>
    match relax_edge w current d real_d s x with
    | none => none
    | some s1 => relax w current d real_d xs s1

/-- How a search ends. -/
inductive Status where
  | ok
  | not_all_found
  | queue_error
  | out_of_fuel
deriving DecidableEq

/-- Result of a search: how it ended and the state it ended in. -/
structure SearchEnd where
  status : Status
  st : SearchState

/-- The test after the loop, lines 250 to 253. -/
def after_loop (npoints : Nat) (st : SearchState) : SearchEnd :=
  if st.found ≠ npoints then ⟨Status.not_all_found, st⟩ else ⟨Status.ok, st⟩

/-- What one pass through the loop body does: leave the loop with a result, or go on. -/
inductive Step where
  | done (r : SearchEnd)
  | next (st : SearchState)

/-- One pass of the loop of lines 209 to 248, the loop test included. The queue is not
empty when the loop is entered, so the `do ... while(q.size())` is run as
`while(q.size()) ...`. With `early = false` the `break` of line 223 is removed (the
frontier is drained). -/
def search_step (n : Graph) (w : ℚ) (nodes_points : Points) (npoints : Nat)
    (xs : List (Nat × ℚ)) (early : Bool) (st : SearchState) : Step :=
  match st.q with
  | [] => Step.done (after_loop npoints st)
  | it :: q1 =>
    let pts := points_at nodes_points it.node_id
    let found := st.found + pts.length
    let out := st.out ++ emit xs pts it.d it.real_d
    let trace := st.trace ++ [it]
    if early && found = npoints then
      Step.done (after_loop npoints ⟨q1, st.node_distances, found, out, trace⟩)
    else
      match relax w it.node_id it.d it.real_d (adj n it.node_id) (q1, st.node_distances) with
      | none => Step.done ⟨Status.queue_error, ⟨q1, st.node_distances, found, out, trace⟩⟩
      | some s => Step.next ⟨s.1, s.2, found, out, trace⟩

/-- The loop of lines 209 to 248, with a bound on the number of passes. -/
def search_loop (n : Graph) (w : ℚ) (nodes_points : Points) (npoints : Nat)
    (xs : List (Nat × ℚ)) (early : Bool) : Nat → SearchState → SearchEnd
  | 0, st => ⟨Status.out_of_fuel, st⟩
  | fuel + 1, st =>
    match search_step n w nodes_points npoints xs early st with
    | Step.done r => r
    | Step.next st1 => search_loop n w nodes_points npoints xs early fuel st1

/-- Number of directed entries of the graph. -/
def graph_size (n : Graph) : Nat := (n.map (fun x => x.2.length)).sum

/-- State at line 207: the start node is queued at distance 0. -/
def init_state (start_node : Nat) : SearchState :=
  ⟨[⟨0, 0, start_node, start_node⟩], [(start_node, 0)], 0, [], []⟩

/-- One search (lines 200 to 253) from the node `x.1` that carries the points `x.2`. Every
node is extracted at most once, so `graph_size n + 2` iterations are enough. -/
def search_gen (n : Graph) (w : ℚ) (nodes_points : Points) (early : Bool)
    (x : Nat × List (Nat × ℚ)) : SearchEnd :=
  search_loop n w nodes_points (count_points nodes_points) x.2 early (graph_size n + 2)
    (init_state x.1)

/-- The search of the program. -/
def search (n : Graph) (w : ℚ) (nodes_points : Points) (x : Nat × List (Nat × ℚ)) : SearchEnd :=
  search_gen n w nodes_points true x

/-- The search with the early exit of line 223 removed. -/
def search_drain (n : Graph) (w : ℚ) (nodes_points : Points) (x : Nat × List (Nat × ℚ)) :
    SearchEnd :=
  search_gen n w nodes_points false x

/-- Lines 167 to 170: with the option `-N` every node of the network carries one point,
named like the node, at offset 0; `npoints` counts the passes of the loop. -/
def network_points (n : Graph) : Points × Nat :=
  n.foldl (fun s x => (map_insert s.1 x.1 [(x.1, 0)], s.2 + 1)) ([], 0)

/-- One record (ptid, nid, d) of the points file, lines 177 to 183; `none` is the
`return 1` of line 180. -/
def add_point (n : Graph) (s : Points × Nat) (r : Nat × Nat × ℚ) : Option (Points × Nat) :=
  if (map_find n r.2.1).isNone then none
  else some (map_set s.1 r.2.1 (points_at s.1 r.2.1 ++ [(r.1, r.2.2)]), s.2 + 1)

/-- The loop of lines 173 to 184 over the records of the points file. -/
def read_points (n : Graph) : List (Nat × Nat × ℚ) → Points × Nat → Option (Points × Nat)
  | [], s => some s
  | r :: rs, s =>
    match add_point n s r with
    | none => none
    | some s1 => read_points n rs s1

/-- The loop of lines 199 to 257 over the start nodes `x` still to be processed: the lines
written to the standard output so far are `out`; the run stops at the first search that
does not end normally, and what was written stays written. -/
def run_searches (n : Graph) (w : ℚ) (nodes_points : Points) (npoints : Nat) :
    List (Nat × List (Nat × ℚ)) → List Record → List Record × Option Error
  | [], out => (out, none)
  | x :: rest, out =>
    let r := search_loop n w nodes_points npoints x.2 true (graph_size n + 2) (init_state x.1)
    match r.status with
    | Status.ok => run_searches n w nodes_points npoints rest (out ++ r.st.out)
    | Status.not_all_found => (out ++ r.st.out, some Error.not_all_found)
    | Status.queue_error => (out ++ r.st.out, some Error.queue_error)
    | Status.out_of_fuel => (out ++ r.st.out, some Error.out_of_fuel)

/-- The graph `n` with every adjacency map handed out in the order `order_adj`. -/
def iterate_adj (order_adj : Adj → Adj) (n : Graph) : Graph :=
  n.map (fun x => (x.1, order_adj x.2))

/-- The program from line 113 on: the lines written to the standard output and the error,
if any. The arguments are the parsed contents of the network file, of the improved edge
file (`none` without the option `-i`) and of the points file, the value of the option
`-I` and the flag `-N`. The parameters `order_adj` and `order_pts` are the orders in which
the hash maps `n[current]` and `nodes_points` are iterated. -/
def main (order_adj : Adj → Adj) (order_pts : Points → Points)
    (network : List (Nat × Nat × ℚ)) (improved_edges : Option (List (Nat × Nat)))
    (improved_edge_weight : ℚ) (network_distance : Bool) (points : List (Nat × Nat × ℚ)) :
    List Record × Option Error :=
  match read_improved_edges (read_network network) improved_edge_weight improved_edges with
  | Except.error e => ([], some e)
  | Except.ok n =>
    match (if network_distance then some (network_points n)
      else read_points n points ([], 0)) with
    | none => ([], some Error.node_not_found)
    | some s =>
      if s.1.length = 0 then ([], some Error.no_trips)
      else run_searches (iterate_adj order_adj n) improved_edge_weight s.1 s.2
        (order_pts s.1) []

/-! ### Paths of the graph -/

/-- The entry `n[a][b]`, when present. -/
def find_edge (n : Graph) (a b : Nat) : Option edge_info := map_find (adj n a) b

/-- What an edge adds to the weighted distance (lines 228 to 230). -/
def edge_weight (w : ℚ) (e : edge_info) : ℚ := if e.is_improved then e.d / w else e.d

/-- Last node of the path that starts at `a` and then visits the nodes of `p`. -/
def path_last : Nat → List Nat → Nat
  | a, [] => a
  | _, b :: p => path_last b p

/-- Sum of the weighted costs of the edges of the path from `a` along `p`; `none` when
some step is not an edge of the graph. -/
def path_cost (n : Graph) (w : ℚ) : Nat → List Nat → Option ℚ
  | _, [] => some 0
  | a, b :: p =>
    match find_edge n a b, path_cost n w b p with
    | some e, some c => some (edge_weight w e + c)
    | _, _ => none

/-- Sum of the raw distances of the edges of the path from `a` along `p`. -/
def path_real (n : Graph) : Nat → List Nat → Option ℚ
  | _, [] => some 0
  | a, b :: p =>
    match find_edge n a b, path_real n b p with
    | some e, some c => some (e.d + c)
    | _, _ => none

/-- Node `v` can be reached from `a` along edges of the graph. -/
def reachable (n : Graph) (a v : Nat) : Prop :=
  ∃ p, path_last a p = v ∧ (path_real n a p).isSome = true

/-- The number `d` is the least weighted cost of a path from `a` to `v`. -/
def is_min_cost (n : Graph) (w : ℚ) (a v : Nat) (d : ℚ) : Prop :=
  (∃ p, path_last a p = v ∧ path_cost n w a p = some d) ∧
  ∀ p c, path_last a p = v → path_cost n w a p = some c → d ≤ c

/-- Every adjacency is a map: its keys are pairwise distinct. -/
def adj_keys_distinct (n : Graph) : Prop := ∀ x ∈ n, (x.2.map Prod.fst).Nodup

/-- All edge distances are at least 0. -/
def dist_nonneg (n : Graph) : Prop := ∀ x ∈ n, ∀ y ∈ x.2, 0 ≤ y.2.d

/-- The keys of `nodes_points` are pairwise distinct. -/
def points_keys_distinct (nodes_points : Points) : Prop := (nodes_points.map Prod.fst).Nodup

instance (n : Graph) : Decidable (adj_keys_distinct n) := by
  unfold adj_keys_distinct; infer_instance

instance (n : Graph) : Decidable (dist_nonneg n) := by
  unfold dist_nonneg; infer_instance

instance (nodes_points : Points) : Decidable (points_keys_distinct nodes_points) := by
  unfold points_keys_distinct; infer_instance

/-! ### The search in double precision -/

namespace fp

/-- Entry of the search queue (`struct node`). -/
structure node where
  d : double
  real_d : double
  node_id : Nat
  ancestor : Nat
deriving DecidableEq

/-- The comparison `node::operator <` (line 58). -/
def node.lt (a n : node) : Bool :=
  a.d.lt n.d || (a.d.eq n.d && decide (a.node_id < n.node_id))

/-- Equivalence of two keys for `std::set<node>`: neither is less than the other. -/
def node.equiv (a b : node) : Bool := !(a.lt b) && !(b.lt a)

/-- One output line: the two point ids, weighted and real distance, the two offsets. -/
structure Record where
  id1 : Nat
  id2 : Nat
  d : double
  real_d : double
  off1 : ℚ
  off2 : ℚ
deriving DecidableEq

/-- The two nested loops of line 219 and 220: records written when a node is extracted. -/
def emit (xs ys : List (Nat × ℚ)) (d real_d : double) : List Record :=
  xs.flatMap (fun n1 => (ys.filter (fun n2 => decide (n1.1 < n2.1))).map
    (fun n2 => ⟨n1.1, n2.1, d, real_d, n1.2, n2.2⟩))

/-- Insertion into `std::set<node>`, kept as a list sorted by `node.lt`; an element that
is equivalent to a present one is not inserted. -/
def set_insert (x : node) : List node → List node
  | [] => [x]
  | y :: ys =>
    if x.lt y then x :: y :: ys
    else if y.lt x then y :: set_insert x ys
    else y :: ys

/-- Member `erase(key)` of `std::set<node>`: removes the element equivalent to the key and
returns the number of removed elements (0 or 1). -/
def set_erase (k : node) : List node → List node × Nat
  | [] => ([], 0)
  | y :: ys =>
    if k.equiv y then (ys, 1)
    else ((y :: (set_erase k ys).1), (set_erase k ys).2)

/-- State of one search: the queue `q`, the map `node_distances`, the counter `found`,
the lines written so far, and the log of extracted queue entries (observation only). -/
structure SearchState where
  q : List node
  node_distances : List (Nat × double)
  found : Nat
  out : List Record
  trace : List node

/-- What an edge adds to the weighted distance (lines 228 to 230): the distance of the
edge, divided by the factor when the edge is improved. -/
def edge_weight (w : double) (e : edge_info) : double :=
  if e.is_improved then double.fin e.d / w else double.fin e.d

/-- Body of the loop over `n[current]` (lines 226 to 246) for one neighbor; `none` is the
`return 1` of line 241. -/
def relax_edge (w : double) (current : Nat) (d real_d : double)
    (s : List node × List (Nat × double)) (x : Nat × edge_info) :
    Option (List node × List (Nat × double)) :=
  let n1 := x.1
  let real_d1 := real_d + double.fin x.2.d
  let d1 := if x.2.is_improved then d + double.fin x.2.d / w else d + double.fin x.2.d
  match map_find s.2 n1 with
  | none => some (set_insert ⟨d1, real_d1, n1, current⟩ s.1, s.2 ++ [(n1, d1)])
  | some old =>
    if d1.lt old then
      if (set_erase ⟨old, double.fin 0, n1, 0⟩ s.1).2 ≠ 1 then none
      else some (set_insert ⟨d1, real_d1, n1, current⟩
                   (set_erase ⟨old, double.fin 0, n1, 0⟩ s.1).1,
                 map_set s.2 n1 d1)
    else some s

/-- The loop `for(const auto& x : n[current])` of lines 225 to 247. -/
def relax (w : double) (current : Nat) (d real_d : double) :
    List (Nat × edge_info) → List node × List (Nat × double) →
    Option (List node × List (Nat × double))
  | [], s => some s
  | x :: xs, s =>
    match relax_edge w current d real_d s x with
    | none => none
    | some s1 => relax w current d real_d xs s1

/-- Result of a search: how it ended and the state it ended in. -/
structure SearchEnd where
  status : Status
  st : SearchState

/-- The test after the loop, lines 250 to 253. -/
def after_loop (npoints : Nat) (st : SearchState) : SearchEnd :=
  if st.found ≠ npoints then ⟨Status.not_all_found, st⟩ else ⟨Status.ok, st⟩

/-- What one pass through the loop body does: leave the loop with a result, or go on. -/
inductive Step where
  | done (r : SearchEnd)
  | next (st : SearchState)

/-- One pass of the loop of lines 209 to 248, the loop test included. The queue is not
empty when the loop is entered, so the `do ... while(q.size())` is run as
`while(q.size()) ...`. -/
def search_step (n : Graph) (w : double) (nodes_points : Points) (npoints : Nat)
    (xs : List (Nat × ℚ)) (st : SearchState) : Step :=
  match st.q with
  | [] => Step.done (after_loop npoints st)
  | it :: q1 =>
    let pts := points_at nodes_points it.node_id
    let found := st.found + pts.length
    let out := st.out ++ emit xs pts it.d it.real_d
    let trace := st.trace ++ [it]
    if found = npoints then
      Step.done (after_loop npoints ⟨q1, st.node_distances, found, out, trace⟩)
    else
      match relax w it.node_id it.d it.real_d (adj n it.node_id) (q1, st.node_distances) with
      | none => Step.done ⟨Status.queue_error, ⟨q1, st.node_distances, found, out, trace⟩⟩
      | some s => Step.next ⟨s.1, s.2, found, out, trace⟩

/-- The loop of lines 209 to 248, with a bound on the number of passes. -/
def search_loop (n : Graph) (w : double) (nodes_points : Points) (npoints : Nat)
    (xs : List (Nat × ℚ)) : Nat → SearchState → SearchEnd
  | 0, st => ⟨Status.out_of_fuel, st⟩
  | fuel + 1, st =>
    match search_step n w nodes_points npoints xs st with
    | Step.done r => r
    | Step.next st1 => search_loop n w nodes_points npoints xs fuel st1

/-- State at line 207: the start node is queued at distance 0. -/
def init_state (start_node : Nat) : SearchState :=
  ⟨[⟨double.fin 0, double.fin 0, start_node, start_node⟩], [(start_node, double.fin 0)],
    0, [], []⟩

/-- One search (lines 200 to 253) from the node `x.1` that carries the points `x.2`. Every
node is extracted at most once, so `graph_size n + 2` iterations are enough. -/
def search (n : Graph) (w : double) (nodes_points : Points) (x : Nat × List (Nat × ℚ)) :
    SearchEnd :=
  search_loop n w nodes_points (count_points nodes_points) x.2 (graph_size n + 2)
    (init_state x.1)

/-- Lines 133 to 162 with the value of the option `-I` as a double: the test of line 134
is the comparison `improved_edge_weight <= 0` of doubles. -/
def read_improved_edges (n : Graph) (improved_edge_weight : double) :
    Option (List (Nat × Nat)) → Except Error Graph
  | none => Except.ok n
  | some l =>
    if improved_edge_weight.le (double.fin 0) then Except.error Error.weight_not_positive
    else
      match mark_all n l with
      | none => Except.error Error.edge_not_in_network
      | some n1 => Except.ok n1

/-- The weighted cost of the path from `a` along `p` as the program accumulates it:
starting from `acc` at `a`, one addition of doubles per edge, in the order of the path;
`none` when some step is not an edge of the graph. -/
def path_cost (n : Graph) (w : double) (acc : double) : Nat → List Nat → Option double
  | _, [] => some acc
  | a, b :: p =>
    match find_edge n a b with
    | some e => path_cost n w (acc + edge_weight w e) b p
    | none => none

/-- The raw length of the path from `a` along `p` as the program accumulates it: starting
from `acc` at `a`, one addition of doubles per edge, in the order of the path. -/
def path_real (n : Graph) (acc : double) : Nat → List Nat → Option double
  | _, [] => some acc
  | a, b :: p =>
    match find_edge n a b with
    | some e => path_real n (acc + double.fin e.d) b p
    | none => none

/-- The double `d` is the least weighted cost, accumulated in double precision from 0, of
a path from `a` to `v`: some path has this cost, and no path has a cost `c` with `c < d`
(stated as `d <= c`, a comparison of doubles). -/
def is_min_cost (n : Graph) (w : double) (a v : Nat) (d : double) : Prop :=
  (∃ p, path_last a p = v ∧ path_cost n w (double.fin 0) a p = some d) ∧
  ∀ p c, path_last a p = v → path_cost n w (double.fin 0) a p = some c → d.le c = true

end fp

end nodes_distances

/-! ## The binary matrix file: bytes and 64-bit words

The file is a list of bytes. A `uint64_t` and the bit pattern of a `double` are written
least significant byte first (the byte order of the machines the program is built for). -/

/-- The 8 bytes written by `fwrite(&x,8,1,fout)` for a 64-bit word `x`. -/
def le64 (x : Nat) : List Nat :=
  [x % 256, x / 256 % 256, x / 65536 % 256, x / 16777216 % 256, x / 4294967296 % 256,
   x / 1099511627776 % 256, x / 281474976710656 % 256, x / 72057594037927936 % 256]

/-- The byte at offset `i` (0 when outside the data). -/
def byte_at (m : List Nat) (i : Nat) : Nat := m.getD i 0

/-- The 64-bit word stored in the 8 bytes at offset `off`. -/
def read64 (m : List Nat) (off : Nat) : Nat :=
  byte_at m off + 256 * byte_at m (off + 1) + 65536 * byte_at m (off + 2) +
  16777216 * byte_at m (off + 3) + 4294967296 * byte_at m (off + 4) +
  1099511627776 * byte_at m (off + 5) + 281474976710656 * byte_at m (off + 6) +
  72057594037927936 * byte_at m (off + 7)

/-- The constant `file_id`. -/
def file_id : Nat := 0x47a9b290e72d9f21

/-! ## dist_matrix.cpp -/

namespace dist_matrix

/-- The map `dists`: (origin, destination) to the distance (bit pattern of the double). -/
abbrev Dists := List ((Nat × Nat) × Nat)

/-- One record of the distance list, lines 116 and 117: both orientations are inserted,
and `insert` keeps an entry that is already there. -/
def insert_record (dists : Dists) (r : Nat × Nat × Nat) : Dists :=
  map_insert (map_insert dists (r.1, r.2.1) r.2.2) (r.2.1, r.1) r.2.2

/-- Reading the distance list, lines 108 to 124. -/
def read_list (recs : List (Nat × Nat × Nat)) : Dists :=
  recs.foldl insert_record []

/-- Lines 130 to 133 (and 134 to 137): an id not seen before gets the next index. -/
def note_id (s : List (Nat × Nat) × List Nat) (k : Nat) : List (Nat × Nat) × List Nat :=
  if (map_find s.1 k).isNone then (map_set s.1 k s.2.length, s.2 ++ [k]) else s

/-- The loop of lines 129 to 138 over the entries of `dists` in the order `it` in which
the hash map hands them out; the result is (`nids`, `nids2`). -/
def assign_ids (it : Dists) : List (Nat × Nat) × List Nat :=
  it.foldl (fun s x => note_id (note_id s x.1.1) x.1.2) ([], [])

/-- The value `dist` of lines 156 and 157 for the cell (i, j); `none` when `dists.at`
throws `std::out_of_range`. -/
def matrix_cell (dists : Dists) (nids2 : List Nat) (i j : Nat) : Option Nat :=
  if i ≠ j then map_find dists (nids2.getD i 0, nids2.getD j 0) else some 0

/-- All values of a list of results, or `none` as soon as one is missing. -/
def collect : List (Option Nat) → Option (List Nat)
  | [] => some []
  | none :: _ => none
  | some v :: rest =>
    match collect rest with
    | none => none
    | some vs => some (v :: vs)

/-- The two nested loops of lines 155 to 162: the cells in row-major order. -/
def matrix_cells (dists : Dists) (nids2 : List Nat) : Option (List Nat) :=
  collect ((List.range nids2.length).flatMap
    (fun i => (List.range nids2.length).map (fun j => matrix_cell dists nids2 i j)))

/-- How the program can end apart from input and output failures. -/
inductive Error where
  | out_of_range
deriving DecidableEq

/-- The program from line 108 on: the bytes of the matrix file and the id list written to
the standard output. The parameter `order` is the order in which the hash map `dists`
(hashed by `pair_hash`) is iterated. -/
def main (order : Dists → Dists) (recs : List (Nat × Nat × Nat)) :
    Except Error (List Nat × List Nat) :=
  let dists := read_list recs
  let nids2 := (assign_ids (order dists)).2
  match matrix_cells dists nids2 with
  | none => Except.error Error.out_of_range
  | some cells => Except.ok (le64 file_id ++ le64 nids2.length ++ cells.flatMap le64, nids2)

end dist_matrix

/-! ## sample_trips3.cpp : class `distances` -/

namespace sample_trips3

/-- The members of `class distances`: `map` holds the bytes of the mapped file (`none` is
`MAP_FAILED`), `matrix` the bytes reachable from the pointer `matrix` (`none` is the null
pointer), `f` tells whether a file descriptor is held. -/
structure distances where
  map : Option (List Nat)
  matrix : Option (List Nat)
  n : Nat
  map_size : Nat
  ids : List (Nat × Nat)
  f : Bool
deriving DecidableEq

/-- The constructor. -/
def distances.new : distances := ⟨none, none, 0, 0, [], false⟩

/-- Member `clear()`. -/
def clear (_s : distances) : distances := ⟨none, none, 0, 0, [], false⟩

/-- Line 145: `ids.insert(std::make_pair(vids[i],i))` for every position `i`. -/
def insert_ids (vids : List Nat) : List (Nat × Nat) :=
  vids.enum.foldl (fun ids x => map_insert ids x.2 x.1) []

/-- Member `open_dists(df, fids)` for a file `df` with the given bytes and an id file
`fids` holding the ids `vids`; opening, `fstat` and `mmap` are taken to succeed. -/
def open_dists (s : distances) (df : List Nat) (vids : List Nat) : Bool × distances :=
  let s0 := clear s
  let ids := insert_ids vids
  let n := ids.length
  let map_size := df.length
  if map_size ≠ (16 + 8 * n * n) % 2 ^ 64 then
    (false, { s0 with n := n, map_size := map_size })
  else if read64 df 0 ≠ file_id then (false, clear s0)
  else if read64 df 8 ≠ n then (false, clear s0)
  else (true, ⟨some df, some (df.drop 16), n, map_size, ids, true⟩)

/-- How a query can fail: `std::out_of_range` thrown by `ids.at`, or a read outside the
memory the pointer `matrix` gives access to. -/
inductive Error where
  | not_found
  | out_of_bounds
deriving DecidableEq

/-- The double `matrix[k]`, as a bit pattern. -/
def read_double (matrix : Option (List Nat)) (k : Nat) : Except Error Nat :=
  match matrix with
  | none => Except.error Error.out_of_bounds
  | some m => if 8 * k + 8 ≤ m.length then Except.ok (read64 m (8 * k))
              else Except.error Error.out_of_bounds

/-- Member `get_dist(n1, n2)`: the result and the state of the accessor afterwards. -/
def get_dist (s : distances) (n1 n2 : Nat) : Except Error Nat × distances :=
  match map_find s.ids n1 with
  | none => (Except.error Error.not_found, s)
  | some i1 =>
    match map_find s.ids n2 with
    | none => (Except.error Error.not_found, s)
    | some i2 => (read_double s.matrix ((i1 * s.n + i2) % 2 ^ 64), s)

/-- Member `read_dists(rt)` on the records `recs` of the table; `Except.error` is the
`std::out_of_range` thrown by `dists.at`. Lines 206 to 230 are those of the writer, with
the member `ids` in the place of `nids`; the allocation is taken to succeed. -/
def read_dists (order : dist_matrix.Dists → dist_matrix.Dists) (s : distances)
    (recs : List (Nat × Nat × Nat)) : Except dist_matrix.Error (Bool × distances) :=
  let s0 := clear s
  let dists := dist_matrix.read_list recs
  let r := dist_matrix.assign_ids (order dists)
  match dist_matrix.matrix_cells dists r.2 with
  | none => Except.error dist_matrix.Error.out_of_range
  | some cells =>
    Except.ok (true, { s0 with matrix := some (cells.flatMap le64), n := r.2.length, ids := r.1 })

end sample_trips3

end Bustrips

/-! ## Invariants and auxiliary notions used in the proofs -/

namespace Bustrips
namespace nodes_distances

/-- The queue is kept strictly increasing for `node::operator <`. -/
def sorted (q : List node) : Prop := q.Pairwise (fun a b => a.lt b = true)

/-- Invariant tying the queue `q` to the map `node_distances` and to the list `E` of the
nodes extracted so far; `U` lists the ids that can ever be seen. -/
structure queue_inv (U : List Nat) (q : List node) (nd : List (Nat × ℚ)) (E : List Nat) :
    Prop where
  sorted : sorted q
  q_nodup : (q.map node.node_id).Nodup
  q_nd : ∀ e ∈ q, map_find nd e.node_id = some e.d
  e_nodup : E.Nodup
  disj : ∀ e ∈ q, e.node_id ∉ E
  seen : ∀ k, (map_find nd k).isSome = true → k ∈ E ∨ k ∈ q.map node.node_id
  e_seen : ∀ k ∈ E, (map_find nd k).isSome = true
  univ : ∀ k, (map_find nd k).isSome = true → k ∈ U

/-- The new tentative weighted distance computed at lines 228 to 230. -/
def relax_d1 (w d : ℚ) (x : Nat × edge_info) : ℚ := d + edge_weight w x.2

/-- The queue entry built at lines 234 and 244. -/
def relax_entry (w : ℚ) (current : Nat) (d real_d : ℚ) (x : Nat × edge_info) : node :=
  ⟨relax_d1 w d x, real_d + x.2.d, x.1, current⟩

/-- Effect of one pass of the relaxation loop on the queue and the distance map. -/
inductive relax_case (w : ℚ) (current : Nat) (d real_d : ℚ) (x : Nat × edge_info)
    (q : List node) (nd : List (Nat × ℚ)) (q1 : List node) (nd1 : List (Nat × ℚ)) : Prop where
  | fresh (h1 : map_find nd x.1 = none)
      (h2 : q1.Perm (relax_entry w current d real_d x :: q))
      (h3 : nd1 = nd ++ [(x.1, relax_d1 w d x)])
  | decrease (old : ℚ) (y : node) (q0 : List node) (h1 : map_find nd x.1 = some old)
      (h2 : relax_d1 w d x < old) (h3 : y.node_id = x.1) (h4 : y.d = old)
      (h5 : q.Perm (y :: q0)) (h6 : q1.Perm (relax_entry w current d real_d x :: q0))
      (h7 : nd1 = map_set nd x.1 (relax_d1 w d x))
  | keep (old : ℚ) (h1 : map_find nd x.1 = some old) (h2 : ¬ relax_d1 w d x < old)
      (h3 : q1 = q) (h4 : nd1 = nd)

/-- There is a path from `S` to `v` of weighted cost `c` and raw length `r`. -/
def walk (n : Graph) (w : ℚ) (S v : Nat) (c r : ℚ) : Prop :=
  ∃ p, path_last S p = v ∧ path_cost n w S p = some c ∧ path_real n S p = some r

/-- Pointwise comparison of two distance maps: keys are kept and values do not grow. -/
def nd_le (nd nd1 : List (Nat × ℚ)) : Prop :=
  ∀ k v, map_find nd k = some v → ∃ v1, map_find nd1 k = some v1 ∧ v1 ≤ v

/-- All edges leaving the extracted entry `t` have been relaxed. -/
def closed_at (n : Graph) (w : ℚ) (nd : List (Nat × ℚ)) (t : node) : Prop :=
  ∀ v e, find_edge n t.node_id v = some e →
    ∃ dv, map_find nd v = some dv ∧ dv ≤ t.d + edge_weight w e

/-- Invariant on the distances held in the queue and in the map, `T` being the log of
extracted entries. -/
structure dist_inv (n : Graph) (w : ℚ) (S : Nat) (q : List node) (nd : List (Nat × ℚ))
    (T : List node) : Prop where
  mono : ∀ t ∈ T, ∀ e ∈ q, t.d ≤ e.d
  t_nd : ∀ t ∈ T, map_find nd t.node_id = some t.d
  start : map_find nd S = some 0
  q_nonneg : ∀ e ∈ q, 0 ≤ e.d
  q_walk : ∀ e ∈ q, walk n w S e.node_id e.d e.real_d

/-- All neighbor ids stored in the graph, one per directed entry. -/
def all_neighbors (n : Graph) : List Nat := n.flatMap (fun x => x.2.map Prod.fst)

/-- No entry of the graph is marked improved. -/
def no_improved (n : Graph) : Prop := ∀ x ∈ n, ∀ y ∈ x.2, y.2.is_improved = false

/-- Every entry of the graph adds a weighted cost of at least 0. -/
def weights_nonneg (n : Graph) (w : ℚ) : Prop := ∀ x ∈ n, ∀ y ∈ x.2, 0 ≤ edge_weight w y.2

/-- What holds of the log of extracted entries at any time of a search from `S`. -/
structure trace_ok (n : Graph) (w : ℚ) (S : Nat) (nodes_points : Points)
    (xs : List (Nat × ℚ)) (st : SearchState) : Prop where
  ids_nodup : (st.trace.map node.node_id).Nodup
  t_walk : ∀ t ∈ st.trace, walk n w S t.node_id t.d t.real_d
  t_min : ∀ t ∈ st.trace, ∀ p c, path_last S p = t.node_id →
    path_cost n w S p = some c → t.d ≤ c
  found_eq : st.found =
    (st.trace.map (fun t => (points_at nodes_points t.node_id).length)).sum
  out_eq : st.out =
    st.trace.flatMap (fun t => emit xs (points_at nodes_points t.node_id) t.d t.real_d)

/-- Invariant of the search loop, at the loop test. -/
structure head_inv (n : Graph) (w : ℚ) (S : Nat) (nodes_points : Points)
    (xs : List (Nat × ℚ)) (st : SearchState) : Prop where
  tr : trace_ok n w S nodes_points xs st
  qi : queue_inv (S :: all_neighbors n) st.q st.node_distances (st.trace.map node.node_id)
  di : dist_inv n w S st.q st.node_distances st.trace
  cl : ∀ t ∈ st.trace, closed_at n w st.node_distances t

/-- What holds of the result of a search. -/
def end_ok (n : Graph) (w : ℚ) (S : Nat) (nodes_points : Points) (xs : List (Nat × ℚ))
    (npoints : Nat) (early : Bool) (r : SearchEnd) : Prop :=
  trace_ok n w S nodes_points xs r.st ∧
  ((r.status = Status.ok ∧ r.st.found = npoints) ∨
    (r.status = Status.not_all_found ∧ r.st.found ≠ npoints)) ∧
  ((r.st.found ≠ npoints ∨ early = false) → r.st.q = [] ∧ head_inv n w S nodes_points xs r.st)

/-- The state right after the extraction of `it` (lines 210 to 221). -/
def extracted_state (nodes_points : Points) (xs : List (Nat × ℚ)) (st : SearchState)
    (it : node) (q1 : List node) : SearchState :=
  ⟨q1, st.node_distances, st.found + (points_at nodes_points it.node_id).length,
    st.out ++ emit xs (points_at nodes_points it.node_id) it.d it.real_d, st.trace ++ [it]⟩

/-- The state at the end of a loop pass, after the relaxation gave `s`. -/
def relaxed_state (nodes_points : Points) (xs : List (Nat × ℚ)) (st : SearchState)
    (it : node) (s : List node × List (Nat × ℚ)) : SearchState :=
  ⟨s.1, s.2, st.found + (points_at nodes_points it.node_id).length,
    st.out ++ emit xs (points_at nodes_points it.node_id) it.d it.real_d, st.trace ++ [it]⟩

/-- The three ways a loop pass can go when the invariant holds. -/
inductive step_case (n : Graph) (w : ℚ) (S : Nat) (nodes_points : Points) (npoints : Nat)
    (xs : List (Nat × ℚ)) (early : Bool) (st : SearchState) : Prop where
  | empty (h1 : st.q = [])
      (h2 : search_step n w nodes_points npoints xs early st = Step.done (after_loop npoints st))
  | stop (it : node) (q1 : List node) (h1 : st.q = it :: q1)
      (h2 : trace_ok n w S nodes_points xs (extracted_state nodes_points xs st it q1))
      (h3 : early = true)
      (h4 : st.found + (points_at nodes_points it.node_id).length = npoints)
      (h5 : search_step n w nodes_points npoints xs early st =
        Step.done (after_loop npoints (extracted_state nodes_points xs st it q1)))
  | go (it : node) (q1 : List node) (s : List node × List (Nat × ℚ)) (h1 : st.q = it :: q1)
      (h2 : trace_ok n w S nodes_points xs (extracted_state nodes_points xs st it q1))
      (h3 : early = false ∨ st.found + (points_at nodes_points it.node_id).length ≠ npoints)
      (h4 : relax w it.node_id it.d it.real_d (adj n it.node_id) (q1, st.node_distances) = some s)
      (h5 : search_step n w nodes_points npoints xs early st =
        Step.next (relaxed_state nodes_points xs st it s))
      (h6 : head_inv n w S nodes_points xs (relaxed_state nodes_points xs st it s))

/-- Every directed entry `a -> b` has the same data as the entry `b -> a`. -/
def graph_symmetric (n : Graph) : Prop :=
  ∀ x ∈ n, ∀ y ∈ x.2, find_edge n y.1 x.1 = find_edge n x.1 y.1

instance (n : Graph) : Decidable (graph_symmetric n) := by
  unfold graph_symmetric; infer_instance

instance (n : Graph) : Decidable (no_improved n) := by
  unfold no_improved; infer_instance

/-- Network of the counterexample to the symmetry of real distances: two routes from 1 to
2 of weighted cost 2, through 3 (raw length 5/2, first edge improved) and through 4 (raw
length 2). -/
def asym_graph : Graph :=
  [(1, [(3, ⟨1, 0, 0, true⟩), (4, ⟨3/2, 0, 0, false⟩)]),
   (3, [(1, ⟨1, 0, 0, true⟩), (2, ⟨3/2, 0, 0, false⟩)]),
   (2, [(3, ⟨3/2, 0, 0, false⟩), (4, ⟨1/2, 0, 0, false⟩)]),
   (4, [(1, ⟨3/2, 0, 0, false⟩), (2, ⟨1/2, 0, 0, false⟩)])]

/-- Points of the counterexample: one at node 1, one at node 2. -/
def asym_points : Points := [(1, [(100, 0)]), (2, [(200, 0)])]

/-- The path from `u` along `p` walks the edge between `a` and `b`, in either direction. -/
def uses_edge (a b : Nat) : Nat → List Nat → Bool
  | _, [] => false
  | u, x :: p => decide ((u = a ∧ x = b) ∨ (u = b ∧ x = a)) || uses_edge a b x p

/-- Edge data after `is_improved = true`. -/
def improve (e : edge_info) : edge_info := { e with is_improved := true }

/-- Network of the counterexample to "the real distance is unchanged": a direct edge
1 - 2 of length 3 and a detour through 3 of length 2 + 2. -/
def detour_graph : Graph := read_network [(1, 2, 3), (1, 3, 2), (3, 2, 2)]

/-- Network of the counterexample to "strictly decreases": one edge of length 0. -/
def zero_graph : Graph := read_network [(1, 2, 0)]

/-- Points of both counterexamples: one at node 1, one at node 2. -/
def two_points : Points := [(1, [(100, 0)]), (2, [(200, 0)])]

/-- The record `r` of the network file joins the nodes `a` and `b`, in either order. -/
def joins (r : Nat × Nat × ℚ) (a b : Nat) : Prop :=
  (r.1 = a ∧ r.2.1 = b) ∨ (r.1 = b ∧ r.2.1 = a)

end nodes_distances
end Bustrips

namespace Bustrips
namespace dist_matrix

/-- The record `r` of the distance list is about the pair `a`, `b`, in either order. -/
def record_joins (r : Nat × Nat × Nat) (a b : Nat) : Prop :=
  (r.1 = a ∧ r.2.1 = b) ∨ (r.1 = b ∧ r.2.1 = a)

/-- The id `k` occurs in the record `r`. -/
def record_mentions (r : Nat × Nat × Nat) (k : Nat) : Prop := r.1 = k ∨ r.2.1 = k

/-- The list covers every ordered pair of distinct ids it mentions. -/
def complete (recs : List (Nat × Nat × Nat)) : Prop :=
  ∀ r1 ∈ recs, ∀ r2 ∈ recs, ∀ a ∈ [r1.1, r1.2.1], ∀ b ∈ [r2.1, r2.2.1], a ≠ b →
    ∃ r ∈ recs, record_joins r a b

instance (r : Nat × Nat × Nat) (a b : Nat) : Decidable (record_joins r a b) := by
  unfold record_joins; infer_instance

instance (recs : List (Nat × Nat × Nat)) : Decidable (complete recs) := by
  unfold complete; infer_instance

/-- The index map `nids` and the id list `nids2` agree: `nids2` has no repetition and
`nids` sends the id at position `i` to `i`. -/
structure ids_inv (s : List (Nat × Nat) × List Nat) : Prop where
  nodup : s.2.Nodup
  find_iff : ∀ k i, map_find s.1 k = some i ↔ s.2[i]? = some k

end dist_matrix
end Bustrips

namespace Bustrips
namespace sample_trips3
open dist_matrix

/-- The distance the accessor is meant to give for the ids `a`, `b`: 0 on the diagonal,
otherwise the entry of `dists`. -/
def spec_dist (dists : Dists) (a b : Nat) : Nat :=
  if a = b then 0 else (map_find dists (a, b)).getD 0

/-- Number of distinct ids that occur in the distance list. -/
def id_count (recs : List (Nat × Nat × Nat)) : Nat :=
  ((recs.flatMap (fun r => [r.1, r.2.1])).dedup).length

/-- What every opened accessor satisfies, whichever way it was opened. -/
structure accessor_ok (dists : Dists) (idl : List Nat) (st : distances) : Prop where
  inv : ids_inv (st.ids, idl)
  n_eq : st.n = idl.length
  fits : idl.length * idl.length < 2 ^ 64
  cells : ∃ cells, matrix_cells dists idl = some cells ∧ st.matrix = some (cells.flatMap le64)
  bits : ∀ k v, map_find dists k = some v → v < 2 ^ 64

/-- The distance the list stores for the pair `a`, `b`: that of the first record of the
list that is about `a` and `b`, in either order. -/
def stored (recs : List (Nat × Nat × Nat)) (a b : Nat) : Option Nat :=
  (recs.find? (fun r => decide (record_joins r a b))).map (fun r => r.2.2)

end sample_trips3
end Bustrips

namespace Bustrips
namespace nodes_distances

/-- The state in which one pass of the loop leaves the search. -/
def step_state : Step → SearchState
  | Step.done r => r.st
  | Step.next st => st

/-- The result of running at most `k` passes of the search loop from the start node of
`x`: when the search is still going on after `k` passes, this is the state at the loop
test, with status `out_of_fuel`. -/
def after_passes (n : Graph) (w : ℚ) (nodes_points : Points) (early : Bool)
    (x : Nat × List (Nat × ℚ)) (k : Nat) : SearchEnd :=
  search_loop n w nodes_points (count_points nodes_points) x.2 early k (init_state x.1)

/-- The invariant of the queue and the distance map at the loop test, for any graph. -/
def struct_inv (n : Graph) (S : Nat) (st : SearchState) : Prop :=
  queue_inv (S :: all_neighbors n) st.q st.node_distances (st.trace.map node.node_id)

/-- The frontier invariant: the queue `q` has at most one entry per node id, every entry
carries the value that the map `node_distances` holds for its node, and every queued node
is a key of that map. -/
structure frontier_inv (q : List node) (nd : List (Nat × ℚ)) : Prop where
  one_entry : (q.map node.node_id).Nodup
  same_d : ∀ e ∈ q, map_find nd e.node_id = some e.d
  is_key : ∀ e ∈ q, e.node_id ∈ map_keys nd

/-- The pairs (point of the start node, point of the extracted node) in loop order. -/
def point_pairs (xs ys : List (Nat × ℚ)) : List ((Nat × ℚ) × (Nat × ℚ)) :=
  xs.flatMap (fun p => ys.map (fun q => (p, q)))

end nodes_distances
end Bustrips

namespace Bustrips
namespace sample_trips3
open dist_matrix

/-- Adding an id to a list of ids seen so far, unless it is there already. -/
def note_seen (acc : List Nat) (k : Nat) : List Nat := if k ∈ acc then acc else acc ++ [k]

/-- The distinct elements of a list of ids in the order of their first occurrence
(first-seen order). -/
def first_seen (l : List Nat) : List Nat := l.foldl note_seen []

/-- The ids met while the entries of the hash map `dists` are handed out in the order
`it`: for each entry, the first and then the second component of its key. -/
def scan_ids (it : Dists) : List Nat := it.flatMap (fun x => [x.1.1, x.1.2])

/-- The ids met while scanning the input distance list. -/
def listed_ids (recs : List (Nat × Nat × Nat)) : List Nat :=
  recs.flatMap (fun r => [r.1, r.2.1])

/-- The distance list of the scenario: d(10,20) = 3.0, d(10,30) = 4.0, d(20,30) = 5.0,
the doubles being given by their bit patterns. -/
def scenario_list : List (Nat × Nat × Nat) :=
  [(10, 20, 0x4008000000000000), (10, 30, 0x4010000000000000), (20, 30, 0x4014000000000000)]

end sample_trips3
end Bustrips

namespace Bustrips
namespace nodes_distances

/-- Network in which the search from 1 first sees node 2 at distance 10 and then, through
node 3, at distance 4: the entry of node 2 is erased from the queue and inserted anew. -/
def decrease_graph : Graph := read_network [(1, 2, 10), (1, 3, 2), (3, 2, 2)]

/-- The network 1 - 2 - 3 of the scenario with the edge (1,2) marked as improved. -/
def improved_graph : Graph :=
  [(1, [(2, ⟨5, 0, 0, true⟩)]), (2, [(1, ⟨5, 0, 0, true⟩), (3, ⟨7, 0, 0, false⟩)]),
   (3, [(2, ⟨7, 0, 0, false⟩)])]

end nodes_distances
end Bustrips

namespace Bustrips
namespace sample_trips3
open dist_matrix

/-- A matrix file for two ids: the header with the count 2 and four doubles. -/
def two_id_file : List Nat := le64 file_id ++ le64 2 ++ [0, 11, 11, 0].flatMap le64

end sample_trips3
end Bustrips

namespace Bustrips
namespace nodes_distances

/-- Every neighbor id stored in the graph is a node of the graph, and no node is listed
twice. -/
def graph_closed (n : Graph) : Prop :=
  (∀ x ∈ n, ∀ y ∈ x.2, y.1 ∈ map_keys n) ∧ (map_keys n).Nodup

/-- Network with a negative distance: the search from 1 extracts 2, then 3 at distance
-4, and then finds the shorter way to 2, whose entry has left the queue. Node 4 carries a
point and is out of reach. -/
def negative_graph : Graph := read_network [(1, 2, 1), (1, 3, 1), (2, 3, -5), (4, 5, 1)]

/-- Points of the example with a negative distance. -/
def negative_points : Points := [(1, [(100, 0)]), (4, [(200, 0)])]

/-- What the counter `found`, the lines written and the log of a search from `S` satisfy
on any graph: `found` and the lines are those of the extracted entries, and the first
entry extracted is the one queued at line 206. -/
structure log_inv (S : Nat) (nodes_points : Points) (xs : List (Nat × ℚ))
    (st : SearchState) : Prop where
  found_eq : st.found =
    (st.trace.map (fun t => (points_at nodes_points t.node_id).length)).sum
  out_eq : st.out =
    st.trace.flatMap (fun t => emit xs (points_at nodes_points t.node_id) t.d t.real_d)
  first : (st.trace = [] ∧ st.q = [⟨0, 0, S, S⟩]) ∨ st.trace.head? = some ⟨0, 0, S, S⟩

/-- The search with the counter `npoints` given, as the loop over the start nodes runs
it. -/
def search_with (n : Graph) (w : ℚ) (nodes_points : Points) (npoints : Nat)
    (x : Nat × List (Nat × ℚ)) : SearchEnd :=
  search_loop n w nodes_points npoints x.2 true (graph_size n + 2) (init_state x.1)

/-- Number of lines of the output that are written for the point ids `a` and `b`, in
this order. -/
def pair_count (out : List Record) (a b : Nat) : Nat :=
  out.countP (fun r => decide (r.id1 = a ∧ r.id2 = b))

/-- The ids of all points of the assignment, node after node. -/
def point_ids (nodes_points : Points) : List Nat :=
  nodes_points.flatMap (fun x => x.2.map Prod.fst)

/-- What the map `nodes_points` and the counter `npoints` satisfy after the records
`seen` of the points file are read. -/
structure points_inv (s : Points × Nat) (seen : List (Nat × Nat × ℚ)) : Prop where
  keys : points_keys_distinct s.1
  count : s.2 = count_points s.1
  ids : (point_ids s.1).Perm (seen.map Prod.fst)
  at_iff : ∀ nid pt off, (pt, off) ∈ points_at s.1 nid ↔ (pt, nid, off) ∈ seen

/-- The assignment built with the option `-N`: every node carries the point named like
the node, at offset 0. -/
def node_points (n : Graph) : Points := n.map (fun x => (x.1, [(x.1, 0)]))

end nodes_distances
end Bustrips

namespace Bustrips
namespace nodes_distances
namespace fp

/-- The queue is kept strictly increasing for `node::operator <`. -/
def sorted (q : List node) : Prop := q.Pairwise (fun a b => a.lt b = true)

/-- Invariant tying the queue `q` to the map `node_distances` and to the list `E` of the
nodes extracted so far; `U` lists the ids that can ever be seen. -/
structure queue_inv (U : List Nat) (q : List node) (nd : List (Nat × double)) (E : List Nat) :
    Prop where
  sorted : sorted q
  q_nodup : (q.map node.node_id).Nodup
  q_nd : ∀ e ∈ q, map_find nd e.node_id = some e.d
  e_nodup : E.Nodup
  disj : ∀ e ∈ q, e.node_id ∉ E
  seen : ∀ k, (map_find nd k).isSome = true → k ∈ E ∨ k ∈ q.map node.node_id
  e_seen : ∀ k ∈ E, (map_find nd k).isSome = true
  univ : ∀ k, (map_find nd k).isSome = true → k ∈ U
  nd_ok : ∀ k v, map_find nd k = some v → v ≠ double.nan

/-- The new tentative weighted distance computed at lines 228 to 230. -/
def relax_d1 (w d : double) (x : Nat × edge_info) : double := d + edge_weight w x.2

/-- The queue entry built at lines 234 and 244. -/
def relax_entry (w : double) (current : Nat) (d real_d : double) (x : Nat × edge_info) : node :=
  ⟨relax_d1 w d x, real_d + double.fin x.2.d, x.1, current⟩

/-- Effect of one pass of the relaxation loop on the queue and the distance map. -/
inductive relax_case (w : double) (current : Nat) (d real_d : double) (x : Nat × edge_info)
    (q : List node) (nd : List (Nat × double)) (q1 : List node) (nd1 : List (Nat × double)) : Prop where
  | fresh (h1 : map_find nd x.1 = none)
      (h2 : q1.Perm (relax_entry w current d real_d x :: q))
      (h3 : nd1 = nd ++ [(x.1, relax_d1 w d x)])
  | decrease (old : double) (y : node) (q0 : List node) (h1 : map_find nd x.1 = some old)
      (h2 : relax_d1 w d x < old) (h3 : y.node_id = x.1) (h4 : y.d = old)
      (h5 : q.Perm (y :: q0)) (h6 : q1.Perm (relax_entry w current d real_d x :: q0))
      (h7 : nd1 = map_set nd x.1 (relax_d1 w d x))
  | keep (old : double) (h1 : map_find nd x.1 = some old) (h2 : old ≤ relax_d1 w d x)
      (h3 : q1 = q) (h4 : nd1 = nd)

/-- There is a path from `S` to `v` whose weighted cost, accumulated in double precision,
is `c` and whose raw length, accumulated in double precision, is `r`. -/
def walk (n : Graph) (w : double) (S v : Nat) (c r : double) : Prop :=
  ∃ p, path_last S p = v ∧ path_cost n w (double.fin 0) S p = some c ∧
    path_real n (double.fin 0) S p = some r

/-- Pointwise comparison of two distance maps: keys are kept and values do not grow. -/
def nd_le (nd nd1 : List (Nat × double)) : Prop :=
  ∀ k v, map_find nd k = some v → ∃ v1, map_find nd1 k = some v1 ∧ v1 ≤ v

/-- All edges leaving the extracted entry `t` have been relaxed. -/
def closed_at (n : Graph) (w : double) (nd : List (Nat × double)) (t : node) : Prop :=
  ∀ v e, find_edge n t.node_id v = some e →
    ∃ dv, map_find nd v = some dv ∧ dv ≤ t.d + edge_weight w e

/-- Invariant on the distances held in the queue and in the map, `T` being the log of
extracted entries: they are doubles that are not negative (in particular not NaN). -/
structure dist_inv (n : Graph) (w : double) (S : Nat) (q : List node)
    (nd : List (Nat × double)) (T : List node) : Prop where
  mono : ∀ t ∈ T, ∀ e ∈ q, t.d ≤ e.d
  t_nd : ∀ t ∈ T, map_find nd t.node_id = some t.d
  t_nonneg : ∀ t ∈ T, double.fin 0 ≤ t.d
  start : map_find nd S = some (double.fin 0)
  q_nonneg : ∀ e ∈ q, double.fin 0 ≤ e.d
  q_rep : ∀ e ∈ q, e.d.representable = true
  q_walk : ∀ e ∈ q, walk n w S e.node_id e.d e.real_d

/-- Every entry of the graph adds a weighted cost that is at least 0 (and not NaN). -/
def weights_nonneg (n : Graph) (w : double) : Prop :=
  ∀ x ∈ n, ∀ y ∈ x.2, double.fin 0 ≤ edge_weight w y.2

/-- What holds of the log of extracted entries at any time of a search from `S`. -/
structure trace_ok (n : Graph) (w : double) (S : Nat) (nodes_points : Points)
    (xs : List (Nat × ℚ)) (st : SearchState) : Prop where
  ids_nodup : (st.trace.map node.node_id).Nodup
  t_walk : ∀ t ∈ st.trace, walk n w S t.node_id t.d t.real_d
  t_min : ∀ t ∈ st.trace, ∀ p c, path_last S p = t.node_id →
    path_cost n w (double.fin 0) S p = some c → t.d ≤ c
  t_pos : ∀ t ∈ st.trace, double.fin 0 ≤ t.d
  found_eq : st.found =
    (st.trace.map (fun t => (points_at nodes_points t.node_id).length)).sum
  out_eq : st.out =
    st.trace.flatMap (fun t => emit xs (points_at nodes_points t.node_id) t.d t.real_d)

/-- Invariant of the search loop, at the loop test. -/
structure head_inv (n : Graph) (w : double) (S : Nat) (nodes_points : Points)
    (xs : List (Nat × ℚ)) (st : SearchState) : Prop where
  tr : trace_ok n w S nodes_points xs st
  qi : queue_inv (S :: all_neighbors n) st.q st.node_distances (st.trace.map node.node_id)
  di : dist_inv n w S st.q st.node_distances st.trace
  cl : ∀ t ∈ st.trace, closed_at n w st.node_distances t

/-- What holds of the result of a search. -/
def end_ok (n : Graph) (w : double) (S : Nat) (nodes_points : Points) (xs : List (Nat × ℚ))
    (npoints : Nat) (r : SearchEnd) : Prop :=
  trace_ok n w S nodes_points xs r.st ∧
  ((r.status = Status.ok ∧ r.st.found = npoints) ∨
    (r.status = Status.not_all_found ∧ r.st.found ≠ npoints)) ∧
  (r.st.found ≠ npoints → r.st.q = [] ∧ head_inv n w S nodes_points xs r.st)

/-- The state right after the extraction of `it` (lines 210 to 221). -/
def extracted_state (nodes_points : Points) (xs : List (Nat × ℚ)) (st : SearchState)
    (it : node) (q1 : List node) : SearchState :=
  ⟨q1, st.node_distances, st.found + (points_at nodes_points it.node_id).length,
    st.out ++ emit xs (points_at nodes_points it.node_id) it.d it.real_d, st.trace ++ [it]⟩

/-- The state at the end of a loop pass, after the relaxation gave `s`. -/
def relaxed_state (nodes_points : Points) (xs : List (Nat × ℚ)) (st : SearchState)
    (it : node) (s : List node × List (Nat × double)) : SearchState :=
  ⟨s.1, s.2, st.found + (points_at nodes_points it.node_id).length,
    st.out ++ emit xs (points_at nodes_points it.node_id) it.d it.real_d, st.trace ++ [it]⟩

/-- The three ways a loop pass can go when the invariant holds. -/
inductive step_case (n : Graph) (w : double) (S : Nat) (nodes_points : Points)
    (npoints : Nat) (xs : List (Nat × ℚ)) (st : SearchState) : Prop where
  | empty (h1 : st.q = [])
      (h2 : search_step n w nodes_points npoints xs st = Step.done (after_loop npoints st))
  | stop (it : node) (q1 : List node) (h1 : st.q = it :: q1)
      (h2 : trace_ok n w S nodes_points xs (extracted_state nodes_points xs st it q1))
      (h4 : st.found + (points_at nodes_points it.node_id).length = npoints)
      (h5 : search_step n w nodes_points npoints xs st =
        Step.done (after_loop npoints (extracted_state nodes_points xs st it q1)))
  | go (it : node) (q1 : List node) (s : List node × List (Nat × double))
      (h1 : st.q = it :: q1)
      (h2 : trace_ok n w S nodes_points xs (extracted_state nodes_points xs st it q1))
      (h3 : st.found + (points_at nodes_points it.node_id).length ≠ npoints)
      (h4 : relax w it.node_id it.d it.real_d (adj n it.node_id) (q1, st.node_distances) = some s)
      (h5 : search_step n w nodes_points npoints xs st =
        Step.next (relaxed_state nodes_points xs st it s))
      (h6 : head_inv n w S nodes_points xs (relaxed_state nodes_points xs st it s))

end fp
end nodes_distances
end Bustrips

set_option maxRecDepth 100000
namespace Bustrips
namespace nodes_distances
namespace fp

/-- The network 1 - 2 - 3 - 4 with the lengths 1, 1 and 10^16: in double precision
`10^16 + 1` is rounded to `10^16`, while `1 + 1 + 10^16` is exact. -/
def chain_graph : Graph := read_network [(1, 2, 1), (2, 3, 1), (3, 4, 10000000000000000)]

/-- Points of the network `chain_graph`: one at node 4 and one at node 1. -/
def chain_points : Points := [(4, [(100, 0)]), (1, [(200, 0)])]

/-- The state in which one pass of the loop leaves the search. -/
def step_state : Step → SearchState
  | Step.done r => r.st
  | Step.next st => st

/-- The result of running at most `k` passes of the search loop from the start node of
`x`: when the search is still going on after `k` passes, this is the state at the loop
test, with status `out_of_fuel`. -/
def after_passes (n : Graph) (w : double) (nodes_points : Points)
    (x : Nat × List (Nat × ℚ)) (k : Nat) : SearchEnd :=
  search_loop n w nodes_points (count_points nodes_points) x.2 k (init_state x.1)

/-- No value of the map `node_distances` is NaN. -/
def nd_ok (nd : List (Nat × double)) : Prop :=
  ∀ k v, map_find nd k = some v → v ≠ double.nan

/-- The invariant of the queue and the distance map at the loop test, for any graph. -/
def struct_inv (n : Graph) (S : Nat) (st : SearchState) : Prop :=
  queue_inv (S :: all_neighbors n) st.q st.node_distances (st.trace.map node.node_id)

/-- The network 1 - 2 with the edge marked improved. -/
def marked_edge : Graph := [(1, [(2, ⟨5, 0, 0, true⟩)]), (2, [(1, ⟨5, 0, 0, true⟩)])]

/-- The queue entry with which node `v` was extracted by a search, if it was. -/
def extracted (r : SearchEnd) (v : Nat) : Option node :=
  r.st.trace.find? (fun t => decide (t.node_id = v))

/-- Every edge distance is a double: a fixed point of the rounding. -/
def dist_representable (n : Graph) : Prop :=
  ∀ x ∈ n, ∀ y ∈ x.2, double.round64 y.2.d = double.fin y.2.d

instance (n : Graph) : Decidable (dist_representable n) := by
  unfold dist_representable; infer_instance

/-- The network 1 - 2 - 3 with the lengths 10^16 and 1: in double precision both
`10^16 + 1` and `10^16 + 0.5` are rounded to `10^16`. -/
def absorb_graph : Graph := read_network [(1, 2, 10000000000000000), (2, 3, 1)]

/-- Points of the network `absorb_graph`: one at node 1, one at node 3. -/
def absorb_points : Points := [(1, [(100, 0)]), (3, [(200, 0)])]

end fp
end nodes_distances
end Bustrips

/-! ## Theorems -/

namespace Bustrips
section MapLemmas
variable {K V : Type} [DecidableEq K]

/-! ### Associative containers -/

theorem map_find_mem (m : List (K × V)) (k : K) (v : V) (h : map_find m k = some v) :
    (k, v) ∈ m := by
  induction m with
  | nil => simp [map_find] at h
  | cons x rest ih =>
    obtain ⟨k1, v1⟩ := x
    by_cases hk : k1 = k
    · simp [map_find, hk] at h
      simp [hk, h]
    · simp [map_find, hk] at h
      exact List.mem_cons_of_mem _ (ih h)

theorem map_find_of_mem (m : List (K × V)) (k : K) (v : V) (hn : (m.map Prod.fst).Nodup)
    (h : (k, v) ∈ m) : map_find m k = some v := by
  induction m with
  | nil => simp at h
  | cons x rest ih =>
    obtain ⟨k1, v1⟩ := x
    simp only [List.map_cons, List.nodup_cons, List.mem_map, Prod.exists, exists_and_right,
      exists_eq_right, not_exists] at hn
    rcases List.mem_cons.1 h with h1 | h1
    · cases h1
      simp [map_find]
    · have hk : k1 ≠ k := by
        intro e
        subst e
        exact hn.1 v h1
      simp [map_find, hk, ih hn.2 h1]

theorem map_find_isSome_iff (m : List (K × V)) (k : K) :
    (map_find m k).isSome = true ↔ k ∈ map_keys m := by
  induction m with
  | nil => simp [map_find, map_keys]
  | cons x rest ih =>
    obtain ⟨k1, v1⟩ := x
    by_cases hk : k1 = k
    · simp [map_find, map_keys, hk]
    · have hk2 : ¬ k = k1 := fun e => hk e.symm
      simp only [map_find, hk, if_false, ih, map_keys, List.map_cons, List.mem_cons, hk2,
        false_or]

theorem map_find_none_iff (m : List (K × V)) (k : K) :
    map_find m k = none ↔ k ∉ map_keys m := by
  rw [← map_find_isSome_iff]
  cases map_find m k <;> simp

theorem map_find_append (m1 m2 : List (K × V)) (k : K) :
    map_find (m1 ++ m2) k = (map_find m1 k).orElse (fun _ => map_find m2 k) := by
  induction m1 with
  | nil => simp [map_find]
  | cons x rest ih =>
    obtain ⟨k1, v1⟩ := x
    by_cases hk : k1 = k
    · simp [map_find, hk]
    · simp [map_find, hk, ih]

theorem map_find_set_same (m : List (K × V)) (k : K) (v : V) :
    map_find (map_set m k v) k = some v := by
  induction m with
  | nil => simp [map_set, map_find]
  | cons x rest ih =>
    obtain ⟨k1, v1⟩ := x
    by_cases hk : k1 = k
    · simp [map_set, map_find, hk]
    · simp [map_set, map_find, hk, ih]

theorem map_find_set_other (m : List (K × V)) (k k2 : K) (v : V) (h : k ≠ k2) :
    map_find (map_set m k v) k2 = map_find m k2 := by
  induction m with
  | nil => simp [map_set, map_find, h]
  | cons x rest ih =>
    obtain ⟨k1, v1⟩ := x
    by_cases hk : k1 = k
    · subst hk
      simp [map_set, map_find, h]
    · by_cases hk2 : k1 = k2
      · subst hk2
        simp [map_set, map_find, hk]
      · simp [map_set, map_find, hk, hk2, ih]

theorem map_find_set (m : List (K × V)) (k k2 : K) (v : V) :
    map_find (map_set m k v) k2 = if k = k2 then some v else map_find m k2 := by
  by_cases h : k = k2
  · subst h
    simp [map_find_set_same]
  · simp [h, map_find_set_other m k k2 v h]

theorem map_keys_set_nodup (m : List (K × V)) (k : K) (v : V) (h : (map_keys m).Nodup) :
    (map_keys (map_set m k v)).Nodup := by
  induction m with
  | nil => simp [map_set, map_keys]
  | cons x rest ih =>
    obtain ⟨k1, v1⟩ := x
    simp only [map_keys, List.map_cons, List.nodup_cons] at h
    by_cases hk : k1 = k
    · simp only [map_set, hk, if_true, map_keys, List.map_cons, List.nodup_cons]
      subst hk
      exact h
    · simp only [map_set, hk, if_false, map_keys, List.map_cons, List.nodup_cons]
      refine ⟨?_, ih h.2⟩
      intro hmem
      have h1 : (map_find (map_set rest k v) k1).isSome = true :=
        (map_find_isSome_iff _ _).2 hmem
      rw [map_find_set_other rest k k1 v (fun e => hk e.symm)] at h1
      exact h.1 ((map_find_isSome_iff _ _).1 h1)

end MapLemmas
end Bustrips

namespace Bustrips
namespace nodes_distances

/-! ### The queue `std::set<node>` -/

theorem node_lt_iff (a b : node) :
    a.lt b = true ↔ a.d < b.d ∨ (a.d = b.d ∧ a.node_id < b.node_id) := by
  simp [node.lt]

theorem node_lt_irrefl (a : node) : a.lt a = false := by
  simp [node.lt]

theorem node_lt_trans (a b c : node) (h1 : a.lt b = true) (h2 : b.lt c = true) :
    a.lt c = true := by
  rw [node_lt_iff] at *
  rcases h1 with h1 | ⟨h1, h1b⟩ <;> rcases h2 with h2 | ⟨h2, h2b⟩
  · exact Or.inl (lt_trans h1 h2)
  · exact Or.inl (h2 ▸ h1)
  · exact Or.inl (h1 ▸ h2)
  · exact Or.inr ⟨h1.trans h2, lt_trans h1b h2b⟩

theorem node_lt_le (a b : node) (h : a.lt b = true) : a.d ≤ b.d := by
  rw [node_lt_iff] at h
  rcases h with h | ⟨h, _⟩
  · exact le_of_lt h
  · exact le_of_eq h

theorem node_equiv_iff (a b : node) :
    a.equiv b = true ↔ a.d = b.d ∧ a.node_id = b.node_id := by
  simp only [node.equiv, Bool.and_eq_true, Bool.not_eq_true', ← Bool.not_eq_true, node_lt_iff]
  constructor
  · rintro ⟨h1, h2⟩
    push_neg at h1 h2
    have hd : a.d = b.d := le_antisymm h2.1 h1.1
    exact ⟨hd, le_antisymm (h2.2 hd.symm) (h1.2 hd)⟩
  · rintro ⟨h1, h2⟩
    rw [h1, h2]
    simp

theorem node_not_lt_of_id_ne (x y : node) (h1 : x.lt y = false) (h2 : y.lt x = false) :
    y.node_id = x.node_id := by
  have : x.equiv y = true := by simp [node.equiv, h1, h2]
  exact ((node_equiv_iff x y).1 this).2.symm

theorem set_insert_perm (x : node) (q : List node)
    (h : ∀ y ∈ q, y.node_id ≠ x.node_id) : (set_insert x q).Perm (x :: q) := by
  induction q with
  | nil => simp [set_insert]
  | cons y ys ih =>
    have hy : y.node_id ≠ x.node_id := h y (List.mem_cons_self _ _)
    have hys : ∀ z ∈ ys, z.node_id ≠ x.node_id := fun z hz => h z (List.mem_cons_of_mem _ hz)
    by_cases h1 : x.lt y = true
    · simp [set_insert, h1]
    · by_cases h2 : y.lt x = true
      · simp only [set_insert, h1, h2, if_true, if_false]
        exact ((ih hys).cons y).trans (List.Perm.swap x y ys)
      · exact absurd (node_not_lt_of_id_ne x y (by simpa using h1) (by simpa using h2)) hy

theorem mem_set_insert (x y : node) (q : List node) (h : y ∈ set_insert x q) :
    y = x ∨ y ∈ q := by
  induction q with
  | nil => simpa [set_insert] using h
  | cons z zs ih =>
    by_cases h1 : x.lt z = true
    · simpa [set_insert, h1] using h
    · by_cases h2 : z.lt x = true
      · simp only [set_insert, h1, h2, if_true, if_false, List.mem_cons] at h
        rcases List.mem_cons.1 h with h4 | h4
        · exact Or.inr (by rw [h4]; exact List.mem_cons_self _ _)
        · rcases ih h4 with h3 | h3
          · exact Or.inl h3
          · exact Or.inr (List.mem_cons_of_mem _ h3)
      · simp only [set_insert, h1, h2, if_false] at h
        exact Or.inr h

theorem sorted_set_insert (x : node) (q : List node) (h : sorted q) :
    sorted (set_insert x q) := by
  induction q with
  | nil => simp [set_insert, sorted]
  | cons z zs ih =>
    unfold sorted at h ih ⊢
    rw [List.pairwise_cons] at h
    by_cases h1 : x.lt z = true
    · simp only [set_insert, h1, if_true]
      refine List.Pairwise.cons ?_ (List.Pairwise.cons h.1 h.2)
      intro a ha
      rcases List.mem_cons.1 ha with ha | ha
      · exact ha ▸ h1
      · exact node_lt_trans _ _ _ h1 (h.1 a ha)
    · by_cases h2 : z.lt x = true
      · simp only [set_insert, h1, h2, if_true, if_false]
        refine List.Pairwise.cons ?_ (ih h.2)
        intro a ha
        rcases mem_set_insert x a zs ha with ha | ha
        · exact ha ▸ h2
        · exact h.1 a ha
      · simp only [set_insert, h1, h2, if_false]
        exact List.Pairwise.cons h.1 h.2

theorem set_erase_sublist (k : node) (q : List node) : (set_erase k q).1.Sublist q := by
  induction q with
  | nil => simp [set_erase]
  | cons y ys ih =>
    by_cases h : k.equiv y = true
    · simp [set_erase, h]
    · simp only [set_erase, h, if_false]
      exact ih.cons₂ y

theorem sorted_set_erase (k : node) (q : List node) (h : sorted q) :
    sorted (set_erase k q).1 :=
  List.Pairwise.sublist (set_erase_sublist k q) h

theorem set_erase_found (k : node) (q : List node) (h : (set_erase k q).2 = 1) :
    ∃ y, k.equiv y = true ∧ q.Perm (y :: (set_erase k q).1) := by
  induction q with
  | nil => simp [set_erase] at h
  | cons y ys ih =>
    by_cases h1 : k.equiv y = true
    · exact ⟨y, h1, by simp [set_erase, h1]⟩
    · simp only [set_erase, h1, if_false] at h ⊢
      obtain ⟨z, hz, hp⟩ := ih h
      exact ⟨z, hz, (hp.cons y).trans (List.Perm.swap z y _)⟩

theorem set_erase_missing (k : node) (q : List node) (h : (set_erase k q).2 ≠ 1) :
    ∀ y ∈ q, k.equiv y = false := by
  induction q with
  | nil => simp
  | cons y ys ih =>
    by_cases h1 : k.equiv y = true
    · simp [set_erase, h1] at h
    · simp only [set_erase, h1, if_false] at h
      intro z hz
      rcases List.mem_cons.1 hz with hz | hz
      · subst hz
        simpa using h1
      · exact ih h z hz

theorem sorted_head_le (it : node) (q1 : List node) (h : sorted (it :: q1)) :
    ∀ e ∈ q1, it.d ≤ e.d := by
  unfold sorted at h
  rw [List.pairwise_cons] at h
  exact fun e he => node_lt_le _ _ (h.1 e he)

/-! ### One relaxation step and the queue invariant -/

theorem relax_d1_eq (w d : ℚ) (x : Nat × edge_info) :
    (if x.2.is_improved then d + x.2.d / w else d + x.2.d) = relax_d1 w d x := by
  unfold relax_d1 edge_weight
  split <;> rfl

theorem relax_edge_eq (w : ℚ) (current : Nat) (d real_d : ℚ)
    (s : List node × List (Nat × ℚ)) (x : Nat × edge_info) :
    relax_edge w current d real_d s x =
      match map_find s.2 x.1 with
      | none => some (set_insert (relax_entry w current d real_d x) s.1,
                      s.2 ++ [(x.1, relax_d1 w d x)])
      | some old =>
        if relax_d1 w d x < old then
          if (set_erase ⟨old, 0, x.1, 0⟩ s.1).2 ≠ 1 then none
          else some (set_insert (relax_entry w current d real_d x)
                  (set_erase ⟨old, 0, x.1, 0⟩ s.1).1, map_set s.2 x.1 (relax_d1 w d x))
        else some s := by
  cases h : map_find s.2 x.1 <;> simp only [relax_edge, relax_d1_eq, relax_entry, h]

theorem perm_ids_ne (q q0 : List node) (y : node) (hn : (q.map node.node_id).Nodup)
    (hp : q.Perm (y :: q0)) : (q0.map node.node_id).Nodup ∧ ∀ z ∈ q0, z.node_id ≠ y.node_id := by
  have h1 : ((y :: q0).map node.node_id).Nodup := (hp.map node.node_id).nodup_iff.1 hn
  rw [List.map_cons, List.nodup_cons] at h1
  refine ⟨h1.2, fun z hz e => h1.1 ?_⟩
  rw [← e]
  exact List.mem_map_of_mem _ hz

theorem relax_edge_some (U : List Nat) (w : ℚ) (current : Nat) (d real_d : ℚ)
    (q : List node) (nd : List (Nat × ℚ)) (E : List Nat) (x : Nat × edge_info)
    (s1 : List node × List (Nat × ℚ)) (hinv : queue_inv U q nd E)
    (h : relax_edge w current d real_d (q, nd) x = some s1) :
    relax_case w current d real_d x q nd s1.1 s1.2 ∧ sorted s1.1 := by
  rw [relax_edge_eq] at h
  cases hf : map_find nd x.1 with
  | none =>
    simp only [hf] at h
    cases h
    have hne : ∀ y ∈ q, y.node_id ≠ (relax_entry w current d real_d x).node_id := by
      intro y hy e
      have := hinv.q_nd y hy
      rw [e] at this
      simp [relax_entry, hf] at this
    exact ⟨relax_case.fresh hf (set_insert_perm _ _ hne) rfl, sorted_set_insert _ _ hinv.sorted⟩
  | some old =>
    simp only [hf] at h
    by_cases hlt : relax_d1 w d x < old
    · simp only [hlt, if_true] at h
      by_cases hc : (set_erase ⟨old, 0, x.1, 0⟩ q).2 = 1
      · simp only [hc, ne_eq, not_true_eq_false, if_false] at h
        cases h
        obtain ⟨y, hy, hp⟩ := set_erase_found _ _ hc
        rw [node_equiv_iff] at hy
        have hq0 := perm_ids_ne q _ y hinv.q_nodup hp
        have hne : ∀ z ∈ (set_erase ⟨old, 0, x.1, 0⟩ q).1,
            z.node_id ≠ (relax_entry w current d real_d x).node_id := by
          intro z hz
          have := hq0.2 z hz
          rw [← hy.2] at this
          exact this
        exact ⟨relax_case.decrease old y _ hf hlt hy.2.symm hy.1.symm hp
          (set_insert_perm _ _ hne) rfl,
          sorted_set_insert _ _ (sorted_set_erase _ _ hinv.sorted)⟩
      · simp [hc] at h
    · simp only [hlt, if_false] at h
      cases h
      exact ⟨relax_case.keep old hf hlt rfl rfl, hinv.sorted⟩

theorem relax_edge_none (w : ℚ) (current : Nat) (d real_d : ℚ)
    (q : List node) (nd : List (Nat × ℚ)) (x : Nat × edge_info)
    (h : relax_edge w current d real_d (q, nd) x = none) :
    ∃ old, map_find nd x.1 = some old ∧ relax_d1 w d x < old ∧
      ∀ y ∈ q, ¬ (y.d = old ∧ y.node_id = x.1) := by
  rw [relax_edge_eq] at h
  cases hf : map_find nd x.1 with
  | none => simp [hf] at h
  | some old =>
    simp only [hf] at h
    by_cases hlt : relax_d1 w d x < old
    · simp only [hlt, if_true] at h
      by_cases hc : (set_erase ⟨old, 0, x.1, 0⟩ q).2 = 1
      · simp [hc] at h
      · refine ⟨old, rfl, hlt, fun y hy hyy => ?_⟩
        have := set_erase_missing _ _ hc y hy
        have h2 : node.equiv ⟨old, 0, x.1, 0⟩ y = true := by
          rw [node_equiv_iff]
          exact ⟨hyy.1.symm, hyy.2.symm⟩
        rw [h2] at this
        cases this
    · simp [hlt] at h

theorem relax_case_queue_inv (U : List Nat) (w : ℚ) (current : Nat) (d real_d : ℚ)
    (q : List node) (nd : List (Nat × ℚ)) (E : List Nat) (x : Nat × edge_info)
    (q1 : List node) (nd1 : List (Nat × ℚ)) (hinv : queue_inv U q nd E) (hx : x.1 ∈ U)
    (hs : sorted q1) (hc : relax_case w current d real_d x q nd q1 nd1) :
    queue_inv U q1 nd1 E := by
  cases hc with
  | fresh h1 h2 h3 =>
    subst h3
    have hxq : x.1 ∉ q.map node.node_id := by
      intro hm
      obtain ⟨y, hy, e⟩ := List.mem_map.1 hm
      have := hinv.q_nd y hy
      rw [e, h1] at this
      cases this
    have hfind : ∀ k, map_find (nd ++ [(x.1, relax_d1 w d x)]) k =
        if x.1 = k then (map_find nd k).orElse (fun _ => some (relax_d1 w d x))
        else map_find nd k := by
      intro k
      rw [map_find_append]
      by_cases hk : x.1 = k
      · simp [map_find, hk]
      · cases map_find nd k <;> simp [map_find, hk]
    refine ⟨hs, ?_, ?_, hinv.e_nodup, ?_, ?_, ?_, ?_⟩
    · rw [(h2.map node.node_id).nodup_iff, List.map_cons, List.nodup_cons]
      exact ⟨hxq, hinv.q_nodup⟩
    · intro e he
      rcases List.mem_cons.1 (h2.subset he) with he | he
      · subst he
        rw [hfind]
        simp [relax_entry, h1]
      · rw [hfind, hinv.q_nd e he]
        simp
    · intro e he
      rcases List.mem_cons.1 (h2.subset he) with he | he
      · subst he
        intro hE
        have := hinv.e_seen _ hE
        simp [relax_entry, h1] at this
      · exact hinv.disj e he
    · intro k hk
      rw [hfind] at hk
      by_cases hkx : x.1 = k
      · right
        rw [(h2.map node.node_id).mem_iff]
        simp [relax_entry, hkx]
      · simp only [hkx, if_false] at hk
        rcases hinv.seen k hk with h | h
        · exact Or.inl h
        · right
          rw [(h2.map node.node_id).mem_iff]
          exact List.mem_cons_of_mem _ h
    · intro k hk
      rw [hfind]
      have := hinv.e_seen k hk
      by_cases hkx : x.1 = k
      · cases hm : map_find nd k <;> simp [hkx]
      · simpa [hkx] using this
    · intro k hk
      rw [hfind] at hk
      by_cases hkx : x.1 = k
      · exact hkx ▸ hx
      · simp only [hkx, if_false] at hk
        exact hinv.univ k hk
  | decrease old y q0 h1 h2 h3 h4 h5 h6 h7 =>
    subst h7
    have hq0 := perm_ids_ne q q0 y hinv.q_nodup h5
    have hyq : y ∈ q := h5.symm.subset (List.mem_cons_self _ _)
    have hsub : ∀ z ∈ q0, z ∈ q := fun z hz => h5.symm.subset (List.mem_cons_of_mem _ hz)
    refine ⟨hs, ?_, ?_, hinv.e_nodup, ?_, ?_, ?_, ?_⟩
    · rw [(h6.map node.node_id).nodup_iff, List.map_cons, List.nodup_cons]
      refine ⟨?_, hq0.1⟩
      intro hm
      obtain ⟨z, hz, e⟩ := List.mem_map.1 hm
      exact hq0.2 z hz (by rw [e, h3]; rfl)
    · intro e he
      rcases List.mem_cons.1 (h6.subset he) with he | he
      · subst he
        simp [relax_entry, map_find_set_same]
      · have hne : x.1 ≠ e.node_id := by
          intro e1
          exact hq0.2 e he (by rw [h3, e1])
        rw [map_find_set_other _ _ _ _ hne]
        exact hinv.q_nd e (hsub e he)
    · intro e he
      rcases List.mem_cons.1 (h6.subset he) with he | he
      · subst he
        have := hinv.disj y hyq
        rw [h3] at this
        exact this
      · exact hinv.disj e (hsub e he)
    · intro k hk
      by_cases hkx : x.1 = k
      · right
        rw [(h6.map node.node_id).mem_iff]
        simp [relax_entry, hkx]
      · rw [map_find_set_other _ _ _ _ hkx] at hk
        rcases hinv.seen k hk with h | h
        · exact Or.inl h
        · right
          rw [(h6.map node.node_id).mem_iff]
          rw [(h5.map node.node_id).mem_iff, List.map_cons, List.mem_cons] at h
          rcases h with h | h
          · exact absurd (h.trans h3).symm hkx
          · exact List.mem_cons_of_mem _ h
    · intro k hk
      rw [map_find_set]
      have := hinv.e_seen k hk
      by_cases hkx : x.1 = k
      · simp [hkx]
      · simpa [hkx] using this
    · intro k hk
      by_cases hkx : x.1 = k
      · exact hkx ▸ hx
      · rw [map_find_set_other _ _ _ _ hkx] at hk
        exact hinv.univ k hk
  | keep old h1 h2 h3 h4 =>
    subst h3 h4
    exact hinv

/-! ### Paths and the distance invariant -/

theorem path_last_snoc (a v : Nat) (p : List Nat) : path_last a (p ++ [v]) = v := by
  induction p generalizing a with
  | nil => rfl
  | cons b p ih => exact ih b

theorem path_cost_snoc (n : Graph) (w : ℚ) (a v : Nat) (p : List Nat) (c : ℚ) (e : edge_info)
    (h1 : path_cost n w a p = some c) (h2 : find_edge n (path_last a p) v = some e) :
    path_cost n w a (p ++ [v]) = some (c + edge_weight w e) := by
  induction p generalizing a c with
  | nil =>
    simp only [path_cost, Option.some.injEq] at h1
    simp only [path_last] at h2
    simp [path_cost, h2, ← h1]
  | cons b p ih =>
    simp only [path_cost] at h1
    cases he : find_edge n a b with
    | none => simp [he] at h1
    | some e1 =>
      cases hc : path_cost n w b p with
      | none => simp [he, hc] at h1
      | some c1 =>
        simp only [he, hc, Option.some.injEq] at h1
        have := ih b c1 hc h2
        show path_cost n w a (b :: (p ++ [v])) = _
        simp only [path_cost, he, this]
        rw [← h1, add_assoc]

theorem path_real_snoc (n : Graph) (a v : Nat) (p : List Nat) (c : ℚ) (e : edge_info)
    (h1 : path_real n a p = some c) (h2 : find_edge n (path_last a p) v = some e) :
    path_real n a (p ++ [v]) = some (c + e.d) := by
  induction p generalizing a c with
  | nil =>
    simp only [path_real, Option.some.injEq] at h1
    simp only [path_last] at h2
    simp [path_real, h2, ← h1]
  | cons b p ih =>
    simp only [path_real] at h1
    cases he : find_edge n a b with
    | none => simp [he] at h1
    | some e1 =>
      cases hc : path_real n b p with
      | none => simp [he, hc] at h1
      | some c1 =>
        simp only [he, hc, Option.some.injEq] at h1
        have := ih b c1 hc h2
        show path_real n a (b :: (p ++ [v])) = _
        simp only [path_real, he, this]
        rw [← h1, add_assoc]

theorem walk_refl (n : Graph) (w : ℚ) (S : Nat) : walk n w S S 0 0 :=
  ⟨[], rfl, rfl, rfl⟩

theorem walk_snoc (n : Graph) (w : ℚ) (S u v : Nat) (c r : ℚ) (e : edge_info)
    (h : walk n w S u c r) (he : find_edge n u v = some e) :
    walk n w S v (c + edge_weight w e) (r + e.d) := by
  obtain ⟨p, h1, h2, h3⟩ := h
  rw [← h1] at he
  exact ⟨p ++ [v], path_last_snoc _ _ _, path_cost_snoc n w S v p c e h2 he,
    path_real_snoc n S v p r e h3 he⟩

theorem nd_le_refl (nd : List (Nat × ℚ)) : nd_le nd nd :=
  fun _ v h => ⟨v, h, le_refl v⟩

theorem nd_le_trans (a b c : List (Nat × ℚ)) (h1 : nd_le a b) (h2 : nd_le b c) : nd_le a c := by
  intro k v h
  obtain ⟨v1, hv1, hle1⟩ := h1 k v h
  obtain ⟨v2, hv2, hle2⟩ := h2 k v1 hv1
  exact ⟨v2, hv2, le_trans hle2 hle1⟩

theorem closed_at_mono (n : Graph) (w : ℚ) (nd nd1 : List (Nat × ℚ)) (t : node)
    (h : nd_le nd nd1) (hc : closed_at n w nd t) : closed_at n w nd1 t := by
  intro v e he
  obtain ⟨dv, h1, h2⟩ := hc v e he
  obtain ⟨dv1, h3, h4⟩ := h v dv h1
  exact ⟨dv1, h3, le_trans h4 h2⟩

theorem relax_case_nd (w : ℚ) (current : Nat) (d real_d : ℚ) (x : Nat × edge_info)
    (q : List node) (nd : List (Nat × ℚ)) (q1 : List node) (nd1 : List (Nat × ℚ))
    (hc : relax_case w current d real_d x q nd q1 nd1) :
    nd_le nd nd1 ∧ (∃ dv, map_find nd1 x.1 = some dv ∧ dv ≤ relax_d1 w d x) ∧
    (∀ k, k ≠ x.1 → map_find nd1 k = map_find nd k) := by
  cases hc with
  | fresh h1 h2 h3 =>
    subst h3
    refine ⟨?_, ?_, ?_⟩
    · intro k v hk
      exact ⟨v, by rw [map_find_append, hk]; rfl, le_refl v⟩
    · exact ⟨relax_d1 w d x, by rw [map_find_append, h1]; simp [map_find], le_refl _⟩
    · intro k hk
      rw [map_find_append]
      cases map_find nd k <;> simp [map_find, hk.symm]
  | decrease old y q0 h1 h2 h3 h4 h5 h6 h7 =>
    subst h7
    refine ⟨?_, ?_, ?_⟩
    · intro k v hk
      by_cases hkx : x.1 = k
      · subst hkx
        rw [h1] at hk
        cases hk
        exact ⟨_, map_find_set_same _ _ _, le_of_lt h2⟩
      · exact ⟨v, by rw [map_find_set_other _ _ _ _ hkx]; exact hk, le_refl v⟩
    · exact ⟨_, map_find_set_same _ _ _, le_refl _⟩
    · intro k hk
      exact map_find_set_other _ _ _ _ hk.symm
  | keep old h1 h2 h3 h4 =>
    subst h3 h4
    exact ⟨nd_le_refl _, ⟨old, h1, not_lt.1 h2⟩, fun _ _ => rfl⟩

theorem relax_case_dist_inv (U : List Nat) (n : Graph) (w : ℚ) (S : Nat) (it : node)
    (x : Nat × edge_info) (q : List node) (nd : List (Nat × ℚ)) (T : List node)
    (q1 : List node) (nd1 : List (Nat × ℚ))
    (hq : queue_inv U q nd (T.map node.node_id)) (hd : dist_inv n w S q nd T)
    (hwalk : walk n w S it.node_id it.d it.real_d)
    (hedge : find_edge n it.node_id x.1 = some x.2) (hw : 0 ≤ edge_weight w x.2)
    (hle : ∀ t ∈ T, t.d ≤ it.d) (h0 : 0 ≤ it.d)
    (hc : relax_case w it.node_id it.d it.real_d x q nd q1 nd1) :
    dist_inv n w S q1 nd1 T := by
  have hnd := relax_case_nd w it.node_id it.d it.real_d x q nd q1 nd1 hc
  have hd1 : it.d ≤ relax_d1 w it.d x := by
    unfold relax_d1
    linarith
  have hnew_walk : walk n w S x.1 (relax_d1 w it.d x) (it.real_d + x.2.d) :=
    walk_snoc n w S it.node_id x.1 it.d it.real_d x.2 hwalk hedge
  have hT : ∀ t ∈ T, t.node_id ≠ x.1 → map_find nd1 t.node_id = some t.d := by
    intro t ht hne
    rw [hnd.2.2 _ hne]
    exact hd.t_nd t ht
  cases hc with
  | fresh h1 h2 h3 =>
    refine ⟨?_, ?_, ?_, ?_, ?_⟩
    · intro t ht e he
      rcases List.mem_cons.1 (h2.subset he) with he | he
      · subst he
        exact le_trans (hle t ht) hd1
      · exact hd.mono t ht e he
    · intro t ht
      apply hT t ht
      intro e
      have := hd.t_nd t ht
      rw [e, h1] at this
      cases this
    · rw [hnd.2.2 S]
      · exact hd.start
      · intro e
        have := hd.start
        rw [e, h1] at this
        cases this
    · intro e he
      rcases List.mem_cons.1 (h2.subset he) with he | he
      · subst he
        exact le_trans h0 hd1
      · exact hd.q_nonneg e he
    · intro e he
      rcases List.mem_cons.1 (h2.subset he) with he | he
      · subst he
        exact hnew_walk
      · exact hd.q_walk e he
  | decrease old y q0 h1 h2 h3 h4 h5 h6 h7 =>
    have hyq : y ∈ q := h5.symm.subset (List.mem_cons_self _ _)
    have hsub : ∀ z ∈ q0, z ∈ q := fun z hz => h5.symm.subset (List.mem_cons_of_mem _ hz)
    refine ⟨?_, ?_, ?_, ?_, ?_⟩
    · intro t ht e he
      rcases List.mem_cons.1 (h6.subset he) with he | he
      · subst he
        exact le_trans (hle t ht) hd1
      · exact hd.mono t ht e (hsub e he)
    · intro t ht
      apply hT t ht
      intro e
      have := hq.disj y hyq
      rw [h3, ← e] at this
      exact this (List.mem_map_of_mem _ ht)
    · by_cases hS : S = x.1
      · have := hd.start
        rw [hS, h1] at this
        cases this
        exact absurd h2 (not_lt.2 (le_trans h0 hd1))
      · rw [hnd.2.2 S hS]
        exact hd.start
    · intro e he
      rcases List.mem_cons.1 (h6.subset he) with he | he
      · subst he
        exact le_trans h0 hd1
      · exact hd.q_nonneg e (hsub e he)
    · intro e he
      rcases List.mem_cons.1 (h6.subset he) with he | he
      · subst he
        exact hnew_walk
      · exact hd.q_walk e (hsub e he)
  | keep old h1 h2 h3 h4 =>
    subst h3 h4
    exact hd

theorem relax_edge_ne_none (U : List Nat) (n : Graph) (w : ℚ) (S : Nat) (it : node)
    (x : Nat × edge_info) (q : List node) (nd : List (Nat × ℚ)) (T : List node)
    (hq : queue_inv U q nd (T.map node.node_id)) (hd : dist_inv n w S q nd T)
    (hw : 0 ≤ edge_weight w x.2) (hle : ∀ t ∈ T, t.d ≤ it.d) :
    relax_edge w it.node_id it.d it.real_d (q, nd) x ≠ none := by
  intro h
  obtain ⟨old, h1, h2, h3⟩ := relax_edge_none w _ _ _ q nd x h
  have hd1 : it.d ≤ relax_d1 w it.d x := by
    unfold relax_d1
    linarith
  rcases hq.seen x.1 (by rw [h1]; rfl) with hE | hQ
  · obtain ⟨t, ht, e⟩ := List.mem_map.1 hE
    have := hd.t_nd t ht
    rw [e, h1] at this
    cases this
    exact absurd h2 (not_lt.2 (le_trans (hle t ht) hd1))
  · obtain ⟨y, hy, e⟩ := List.mem_map.1 hQ
    have := hq.q_nd y hy
    rw [e, h1] at this
    cases this
    exact h3 y hy ⟨rfl, e⟩

/-! ### The relaxation loop and the lower bound on path costs -/

theorem all_neighbors_length (n : Graph) : (all_neighbors n).length = graph_size n := by
  induction n with
  | nil => rfl
  | cons x rest ih =>
    simp only [all_neighbors, List.flatMap_cons, List.length_append, List.length_map,
      graph_size, List.map_cons, List.sum_cons] at ih ⊢
    rw [ih]

theorem adj_mem (n : Graph) (a : Nat) (x : Nat × edge_info) (h : x ∈ adj n a) :
    (a, adj n a) ∈ n := by
  unfold adj at h ⊢
  cases hf : map_find n a with
  | none => simp [hf] at h
  | some l => exact map_find_mem n a l hf

theorem adj_find_edge (n : Graph) (hk : adj_keys_distinct n) (a : Nat) (x : Nat × edge_info)
    (h : x ∈ adj n a) : find_edge n a x.1 = some x.2 :=
  map_find_of_mem _ _ _ (hk _ (adj_mem n a x h)) h

theorem adj_nonneg (n : Graph) (hn : dist_nonneg n) (a : Nat) (x : Nat × edge_info)
    (h : x ∈ adj n a) : 0 ≤ x.2.d :=
  hn _ (adj_mem n a x h) x h

theorem adj_neighbor (n : Graph) (a : Nat) (x : Nat × edge_info) (h : x ∈ adj n a) :
    x.1 ∈ all_neighbors n := by
  unfold all_neighbors
  rw [List.mem_flatMap]
  exact ⟨_, adj_mem n a x h, List.mem_map_of_mem _ h⟩

theorem weights_nonneg_of_pos (n : Graph) (w : ℚ) (hn : dist_nonneg n) (hw : 0 < w) :
    weights_nonneg n w := by
  intro x hx y hy
  unfold edge_weight
  split
  · exact div_nonneg (hn x hx y hy) (le_of_lt hw)
  · exact hn x hx y hy

theorem weights_nonneg_of_plain (n : Graph) (w : ℚ) (hn : dist_nonneg n)
    (hi : no_improved n) : weights_nonneg n w := by
  intro x hx y hy
  unfold edge_weight
  rw [hi x hx y hy]
  exact hn x hx y hy

theorem adj_weight_nonneg (n : Graph) (w : ℚ) (hwn : weights_nonneg n w) (a : Nat)
    (x : Nat × edge_info) (h : x ∈ adj n a) : 0 ≤ edge_weight w x.2 :=
  hwn _ (adj_mem n a x h) x h

theorem find_edge_nonneg (n : Graph) (w : ℚ) (hwn : weights_nonneg n w) (a b : Nat)
    (e : edge_info) (h : find_edge n a b = some e) : 0 ≤ edge_weight w e :=
  adj_weight_nonneg n w hwn a (b, e) (map_find_mem _ _ _ h)

theorem relax_ok (U : List Nat) (n : Graph) (w : ℚ) (S : Nat) (it : node) (T : List node)
    (hwalk : walk n w S it.node_id it.d it.real_d) (hle : ∀ t ∈ T, t.d ≤ it.d)
    (h0 : 0 ≤ it.d) :
    ∀ (xs : List (Nat × edge_info)) (q : List node) (nd : List (Nat × ℚ)),
    queue_inv U q nd (T.map node.node_id) → dist_inv n w S q nd T →
    (∀ x ∈ xs, find_edge n it.node_id x.1 = some x.2 ∧ 0 ≤ edge_weight w x.2 ∧ x.1 ∈ U) →
    ∃ s1, relax w it.node_id it.d it.real_d xs (q, nd) = some s1 ∧
      queue_inv U s1.1 s1.2 (T.map node.node_id) ∧ dist_inv n w S s1.1 s1.2 T ∧
      nd_le nd s1.2 ∧
      ∀ x ∈ xs, ∃ dv, map_find s1.2 x.1 = some dv ∧ dv ≤ it.d + edge_weight w x.2 := by
  intro xs
  induction xs with
  | nil =>
    intro q nd hq hd _
    exact ⟨(q, nd), rfl, hq, hd, nd_le_refl _, by simp⟩
  | cons x xs ih =>
    intro q nd hq hd hxs
    obtain ⟨hx1, hx2, hx3⟩ := hxs x (List.mem_cons_self _ _)
    cases hr : relax_edge w it.node_id it.d it.real_d (q, nd) x with
    | none => exact absurd hr (relax_edge_ne_none U n w S it x q nd T hq hd hx2 hle)
    | some s =>
      obtain ⟨hcase, hsorted⟩ := relax_edge_some U w _ _ _ q nd _ x s hq hr
      have hq1 := relax_case_queue_inv U w _ _ _ q nd _ x s.1 s.2 hq hx3 hsorted hcase
      have hd1 := relax_case_dist_inv U n w S it x q nd T s.1 s.2 hq hd hwalk hx1 hx2 hle h0
        hcase
      have hnd := relax_case_nd w _ _ _ x q nd s.1 s.2 hcase
      obtain ⟨s1, hs1, hq2, hd2, hle2, hall⟩ :=
        ih s.1 s.2 hq1 hd1 (fun y hy => hxs y (List.mem_cons_of_mem _ hy))
      refine ⟨s1, ?_, hq2, hd2, nd_le_trans _ _ _ hnd.1 hle2, ?_⟩
      · simp only [relax, hr]
        exact hs1
      · intro y hy
        rcases List.mem_cons.1 hy with hy | hy
        · subst hy
          obtain ⟨dv, h1, h2⟩ := hnd.2.1
          obtain ⟨dv1, h3, h4⟩ := hle2 _ _ h1
          exact ⟨dv1, h3, le_trans h4 h2⟩
        · exact hall y hy

theorem lower_bound (U : List Nat) (n : Graph) (w : ℚ) (S : Nat) (q : List node)
    (nd : List (Nat × ℚ)) (T : List node)
    (hq : queue_inv U q nd (T.map node.node_id)) (hd : dist_inv n w S q nd T)
    (hcl : ∀ t ∈ T, closed_at n w nd t)
    (hw : ∀ a b e, find_edge n a b = some e → 0 ≤ edge_weight w e) :
    ∀ (p : List Nat) (a : Nat) (c0 c : ℚ),
    ((∃ t ∈ T, t.node_id = a ∧ t.d ≤ c0) ∨ (∃ e ∈ q, e.d ≤ c0)) →
    path_cost n w a p = some c →
    (∃ t ∈ T, t.node_id = path_last a p ∧ t.d ≤ c0 + c) ∨ (∃ e ∈ q, e.d ≤ c0 + c) := by
  intro p
  induction p with
  | nil =>
    intro a c0 c h hc
    simp only [path_cost, Option.some.injEq] at hc
    subst hc
    simpa [path_last] using h
  | cons b p ih =>
    intro a c0 c h hc
    simp only [path_cost] at hc
    cases he : find_edge n a b with
    | none => simp [he] at hc
    | some e =>
      cases hc1 : path_cost n w b p with
      | none => simp [he, hc1] at hc
      | some c1 =>
        simp only [he, hc1, Option.some.injEq] at hc
        subst hc
        have hwe := hw a b e he
        have hb : (∃ t ∈ T, t.node_id = b ∧ t.d ≤ c0 + edge_weight w e) ∨
            (∃ y ∈ q, y.d ≤ c0 + edge_weight w e) := by
          rcases h with ⟨t, ht, hta, htd⟩ | ⟨y, hy, hyd⟩
          · rw [← hta] at he
            obtain ⟨dv, h1, h2⟩ := hcl t ht b e he
            rcases hq.seen b (by rw [h1]; rfl) with hE | hQ
            · obtain ⟨t1, ht1, e1⟩ := List.mem_map.1 hE
              have := hd.t_nd t1 ht1
              rw [e1, h1] at this
              cases this
              exact Or.inl ⟨t1, ht1, e1, by linarith⟩
            · obtain ⟨y, hy, e1⟩ := List.mem_map.1 hQ
              have := hq.q_nd y hy
              rw [e1, h1] at this
              cases this
              exact Or.inr ⟨y, hy, by linarith⟩
          · exact Or.inr ⟨y, hy, by linarith⟩
        have := ih b (c0 + edge_weight w e) c1 hb hc1
        simpa [path_last, add_assoc] using this

theorem lower_bound_start (U : List Nat) (n : Graph) (w : ℚ) (S : Nat) (q : List node)
    (nd : List (Nat × ℚ)) (T : List node)
    (hq : queue_inv U q nd (T.map node.node_id)) (hd : dist_inv n w S q nd T)
    (hcl : ∀ t ∈ T, closed_at n w nd t)
    (hw : ∀ a b e, find_edge n a b = some e → 0 ≤ edge_weight w e)
    (p : List Nat) (c : ℚ) (hc : path_cost n w S p = some c) :
    (∃ t ∈ T, t.node_id = path_last S p ∧ t.d ≤ c) ∨ (∃ e ∈ q, e.d ≤ c) := by
  have hS : (∃ t ∈ T, t.node_id = S ∧ t.d ≤ 0) ∨ (∃ e ∈ q, e.d ≤ 0) := by
    rcases hq.seen S (by rw [hd.start]; rfl) with hE | hQ
    · obtain ⟨t1, ht1, e1⟩ := List.mem_map.1 hE
      have := hd.t_nd t1 ht1
      rw [e1, hd.start, Option.some.injEq] at this
      exact Or.inl ⟨t1, ht1, e1, le_of_eq this.symm⟩
    · obtain ⟨y, hy, e1⟩ := List.mem_map.1 hQ
      have := hq.q_nd y hy
      rw [e1, hd.start, Option.some.injEq] at this
      exact Or.inr ⟨y, hy, le_of_eq this.symm⟩
  simpa using lower_bound U n w S q nd T hq hd hcl hw p S 0 c hS hc

theorem closed_reach (U : List Nat) (n : Graph) (w : ℚ) (nd : List (Nat × ℚ))
    (T : List node) (hq : queue_inv U [] nd (T.map node.node_id))
    (hcl : ∀ t ∈ T, closed_at n w nd t) :
    ∀ (p : List Nat) (a : Nat), a ∈ T.map node.node_id → (path_real n a p).isSome = true →
    path_last a p ∈ T.map node.node_id := by
  intro p
  induction p with
  | nil =>
    intro a ha _
    exact ha
  | cons b p ih =>
    intro a ha hp
    simp only [path_real] at hp
    cases he : find_edge n a b with
    | none => simp [he] at hp
    | some e =>
      cases hc1 : path_real n b p with
      | none => simp [he, hc1] at hp
      | some c1 =>
        obtain ⟨t, ht, hta⟩ := List.mem_map.1 ha
        rw [← hta] at he
        obtain ⟨dv, h1, _⟩ := hcl t ht b e he
        rcases hq.seen b (by rw [h1]; rfl) with hE | hQ
        · exact ih b hE (by rw [hc1]; rfl)
        · simp at hQ

/-! ### The loop invariant and the extraction of the least entry -/

theorem search_loop_rule (n : Graph) (w : ℚ) (nodes_points : Points) (npoints : Nat)
    (xs : List (Nat × ℚ)) (early : Bool) (I : SearchState → Prop) (P : SearchEnd → Prop)
    (B : Nat)
    (hnext : ∀ st st1, I st → search_step n w nodes_points npoints xs early st = Step.next st1 →
      I st1 ∧ st1.trace.length = st.trace.length + 1)
    (hdone : ∀ st r, I st → search_step n w nodes_points npoints xs early st = Step.done r → P r)
    (hbound : ∀ st, I st → st.trace.length ≤ B) :
    ∀ (fuel : Nat) (st : SearchState), I st → B + 1 ≤ fuel + st.trace.length →
      P (search_loop n w nodes_points npoints xs early fuel st) := by
  intro fuel
  induction fuel with
  | zero =>
    intro st hI hf
    have := hbound st hI
    omega
  | succ fuel ih =>
    intro st hI hf
    simp only [search_loop]
    cases hs : search_step n w nodes_points npoints xs early st with
    | done r => exact hdone st r hI hs
    | next st1 =>
      obtain ⟨h1, h2⟩ := hnext st st1 hI hs
      exact ih st1 h1 (by omega)

theorem after_loop_cases (npoints : Nat) (st : SearchState) :
    (after_loop npoints st).st = st ∧
    (((after_loop npoints st).status = Status.ok ∧ st.found = npoints) ∨
     ((after_loop npoints st).status = Status.not_all_found ∧ st.found ≠ npoints)) := by
  unfold after_loop
  by_cases h : st.found = npoints
  · simp [h]
  · simp [h]

theorem head_inv_init (n : Graph) (w : ℚ) (S : Nat) (nodes_points : Points)
    (xs : List (Nat × ℚ)) : head_inv n w S nodes_points xs (init_state S) := by
  refine ⟨⟨?_, ?_, ?_, ?_, ?_⟩, ⟨?_, ?_, ?_, ?_, ?_, ?_, ?_, ?_⟩, ⟨?_, ?_, ?_, ?_, ?_⟩, ?_⟩ <;>
    simp [init_state, sorted, map_find]
  exact walk_refl n w S

theorem head_inv_length (n : Graph) (w : ℚ) (S : Nat) (nodes_points : Points)
    (xs : List (Nat × ℚ)) (st : SearchState) (h : head_inv n w S nodes_points xs st) :
    st.trace.length ≤ graph_size n + 1 := by
  have hsub : st.trace.map node.node_id ⊆ S :: all_neighbors n :=
    fun k hk => h.qi.univ k (h.qi.e_seen k hk)
  have := (List.subperm_of_subset h.tr.ids_nodup hsub).length_le
  simpa [all_neighbors_length] using this

theorem extract_inv (n : Graph) (w : ℚ) (S : Nat) (nodes_points : Points)
    (xs : List (Nat × ℚ)) (st : SearchState) (it : node) (q1 : List node)
    (hw : ∀ a b e, find_edge n a b = some e → 0 ≤ edge_weight w e)
    (h : head_inv n w S nodes_points xs st) (hq : st.q = it :: q1) :
    trace_ok n w S nodes_points xs
      ⟨q1, st.node_distances, st.found + (points_at nodes_points it.node_id).length,
        st.out ++ emit xs (points_at nodes_points it.node_id) it.d it.real_d,
        st.trace ++ [it]⟩ ∧
    queue_inv (S :: all_neighbors n) q1 st.node_distances
      ((st.trace ++ [it]).map node.node_id) ∧
    dist_inv n w S q1 st.node_distances (st.trace ++ [it]) ∧
    (∀ t ∈ st.trace ++ [it], t.d ≤ it.d) ∧ 0 ≤ it.d ∧
    walk n w S it.node_id it.d it.real_d := by
  have hqi := h.qi
  have hdi := h.di
  rw [hq] at hqi hdi
  have hit : it ∈ it :: q1 := List.mem_cons_self _ _
  have hsub : ∀ e ∈ q1, e ∈ it :: q1 := fun e he => List.mem_cons_of_mem _ he
  have hnd := hqi.q_nodup
  rw [List.map_cons, List.nodup_cons] at hnd
  have hwalk := hdi.q_walk it hit
  have hle : ∀ t ∈ st.trace ++ [it], t.d ≤ it.d := by
    intro t ht
    rcases List.mem_append.1 ht with ht | ht
    · exact hdi.mono t ht it hit
    · rw [List.mem_singleton.1 ht]
  refine ⟨⟨?_, ?_, ?_, ?_, ?_⟩, ⟨?_, hnd.2, ?_, ?_, ?_, ?_, ?_, hqi.univ⟩,
    ⟨?_, ?_, hdi.start, ?_, ?_⟩, hle, hdi.q_nonneg it hit, hwalk⟩
  · show ((st.trace ++ [it]).map node.node_id).Nodup
    rw [List.map_append, List.nodup_append]
    refine ⟨h.tr.ids_nodup, by simp, ?_⟩
    intro a ha hb
    simp only [List.map_cons, List.map_nil, List.mem_singleton] at hb
    subst hb
    exact hqi.disj it hit ha
  · intro t ht
    rcases List.mem_append.1 ht with ht | ht
    · exact h.tr.t_walk t ht
    · rw [List.mem_singleton.1 ht]
      exact hwalk
  · intro t ht
    rcases List.mem_append.1 ht with ht | ht
    · exact h.tr.t_min t ht
    · rw [List.mem_singleton.1 ht]
      intro p c hp hc
      rcases lower_bound_start _ n w S _ _ _ hqi hdi h.cl hw p c hc with ⟨t1, ht1, e1, _⟩ | ⟨y, hy, hyc⟩
      · rw [hp] at e1
        exact absurd (e1 ▸ List.mem_map_of_mem node.node_id ht1) (hqi.disj it hit)
      · rcases List.mem_cons.1 hy with hy | hy
        · rw [← hy]
          exact hyc
        · exact le_trans (sorted_head_le it q1 hqi.sorted y hy) hyc
  · show st.found + _ = ((st.trace ++ [it]).map _).sum
    rw [List.map_append, List.sum_append, ← h.tr.found_eq]
    simp
  · show st.out ++ _ = (st.trace ++ [it]).flatMap _
    rw [List.flatMap_append, ← h.tr.out_eq]
    simp
  · exact (List.pairwise_cons.1 hqi.sorted).2
  · exact fun e he => hqi.q_nd e (hsub e he)
  · rw [List.map_append, List.nodup_append]
    refine ⟨hqi.e_nodup, by simp, ?_⟩
    intro a ha hb
    simp only [List.map_cons, List.map_nil, List.mem_singleton] at hb
    subst hb
    exact hqi.disj it hit ha
  · intro e he hm
    rw [List.map_append, List.mem_append] at hm
    rcases hm with hm | hm
    · exact hqi.disj e (hsub e he) hm
    · simp only [List.map_cons, List.map_nil, List.mem_singleton] at hm
      exact hnd.1 (hm ▸ List.mem_map_of_mem node.node_id he)
  · intro k hk
    rcases hqi.seen k hk with h1 | h1
    · exact Or.inl (by rw [List.map_append]; exact List.mem_append_left _ h1)
    · rw [List.map_cons, List.mem_cons] at h1
      rcases h1 with h1 | h1
      · exact Or.inl (by rw [List.map_append, h1]; simp)
      · exact Or.inr h1
  · intro k hk
    rw [List.map_append, List.mem_append] at hk
    rcases hk with hk | hk
    · exact hqi.e_seen k hk
    · simp only [List.map_cons, List.map_nil, List.mem_singleton] at hk
      rw [hk, hqi.q_nd it hit]
      rfl
  · intro t ht e he
    rcases List.mem_append.1 ht with ht | ht
    · exact hdi.mono t ht e (hsub e he)
    · rw [List.mem_singleton.1 ht]
      exact sorted_head_le it q1 hqi.sorted e he
  · intro t ht
    rcases List.mem_append.1 ht with ht | ht
    · exact hdi.t_nd t ht
    · rw [List.mem_singleton.1 ht]
      exact hqi.q_nd it hit
  · exact fun e he => hdi.q_nonneg e (hsub e he)
  · exact fun e he => hdi.q_walk e (hsub e he)

/-! ### One pass of the search loop -/

theorem search_step_spec (n : Graph) (w : ℚ) (S : Nat) (nodes_points : Points)
    (npoints : Nat) (xs : List (Nat × ℚ)) (early : Bool) (st : SearchState)
    (hk : adj_keys_distinct n) (hwn : weights_nonneg n w)
    (h : head_inv n w S nodes_points xs st) :
    step_case n w S nodes_points npoints xs early st := by
  cases hq : st.q with
  | nil =>
    refine step_case.empty hq ?_
    simp only [search_step, hq]
  | cons it q1 =>
    have hwe : ∀ a b e, find_edge n a b = some e → 0 ≤ edge_weight w e :=
      fun a b e he => find_edge_nonneg n w hwn a b e he
    obtain ⟨htr, hqi, hdi, hle, h0, hwalk⟩ :=
      extract_inv n w S nodes_points xs st it q1 hwe h hq
    by_cases hb : (early && decide (st.found + (points_at nodes_points it.node_id).length
        = npoints)) = true
    · have hb2 := hb
      simp only [Bool.and_eq_true, decide_eq_true_eq] at hb2
      refine step_case.stop it q1 hq htr hb2.1 hb2.2 ?_
      simp only [search_step, hq, hb, if_true, extracted_state]
    · have hadj : ∀ x ∈ adj n it.node_id, find_edge n it.node_id x.1 = some x.2 ∧
          0 ≤ edge_weight w x.2 ∧ x.1 ∈ S :: all_neighbors n := by
        intro x hx
        exact ⟨adj_find_edge n hk _ x hx,
          adj_weight_nonneg n w hwn _ x hx,
          List.mem_cons_of_mem _ (adj_neighbor n _ x hx)⟩
      obtain ⟨s, hs, hq2, hd2, hnd, hall⟩ :=
        relax_ok _ n w S it (st.trace ++ [it]) hwalk hle h0 _ q1 st.node_distances hqi hdi hadj
      have hb3 : early = false ∨
          st.found + (points_at nodes_points it.node_id).length ≠ npoints := by
        cases early
        · exact Or.inl rfl
        · right
          intro e
          exact hb (by simp [e])
      refine step_case.go it q1 s hq htr hb3 hs ?_ ⟨?_, hq2, hd2, ?_⟩
      · simp only [search_step, hq, hb, hs, relaxed_state]
        rfl
      · exact ⟨htr.ids_nodup, htr.t_walk, htr.t_min, htr.found_eq, htr.out_eq⟩
      · intro t ht
        show closed_at n w s.2 t
        rcases List.mem_append.1 ht with ht | ht
        · exact closed_at_mono n w _ _ t hnd (h.cl t ht)
        · rw [List.mem_singleton.1 ht]
          intro v e he
          exact hall (v, e) (map_find_mem _ _ _ he)

theorem search_step_next (n : Graph) (w : ℚ) (S : Nat) (nodes_points : Points)
    (npoints : Nat) (xs : List (Nat × ℚ)) (early : Bool) (st st1 : SearchState)
    (hk : adj_keys_distinct n) (hwn : weights_nonneg n w)
    (h : head_inv n w S nodes_points xs st)
    (hs : search_step n w nodes_points npoints xs early st = Step.next st1) :
    head_inv n w S nodes_points xs st1 ∧ st1.trace.length = st.trace.length + 1 := by
  cases search_step_spec n w S nodes_points npoints xs early st hk hwn h with
  | empty h1 h2 => rw [h2] at hs; cases hs
  | stop it q1 h1 h2 h3 h4 h5 => rw [h5] at hs; cases hs
  | go it q1 s h1 h2 h3 h4 h5 h6 =>
    rw [h5] at hs
    cases hs
    exact ⟨h6, by simp [relaxed_state]⟩

theorem search_step_done (n : Graph) (w : ℚ) (S : Nat) (nodes_points : Points)
    (npoints : Nat) (xs : List (Nat × ℚ)) (early : Bool) (st : SearchState) (r : SearchEnd)
    (hk : adj_keys_distinct n) (hwn : weights_nonneg n w)
    (h : head_inv n w S nodes_points xs st)
    (hs : search_step n w nodes_points npoints xs early st = Step.done r) :
    end_ok n w S nodes_points xs npoints early r := by
  cases search_step_spec n w S nodes_points npoints xs early st hk hwn h with
  | empty h1 h2 =>
    rw [h2] at hs
    cases hs
    obtain ⟨e1, e2⟩ := after_loop_cases npoints st
    refine ⟨by rw [e1]; exact h.tr, by rw [e1]; exact e2, fun _ => ?_⟩
    rw [e1]
    exact ⟨h1, h⟩
  | stop it q1 h1 h2 h3 h4 h5 =>
    rw [h5] at hs
    cases hs
    obtain ⟨e1, e2⟩ := after_loop_cases npoints (extracted_state nodes_points xs st it q1)
    refine ⟨by rw [e1]; exact h2, by rw [e1]; exact e2, fun hc => ?_⟩
    rw [e1] at hc
    rcases hc with hc | hc
    · exact absurd h4 hc
    · rw [h3] at hc
      cases hc
  | go it q1 s h1 h2 h3 h4 h5 h6 => rw [h5] at hs; cases hs

theorem search_gen_end_ok (n : Graph) (w : ℚ) (nodes_points : Points) (early : Bool)
    (x : Nat × List (Nat × ℚ)) (hk : adj_keys_distinct n) (hwn : weights_nonneg n w) :
    end_ok n w x.1 nodes_points x.2 (count_points nodes_points) early
      (search_gen n w nodes_points early x) := by
  unfold search_gen
  refine search_loop_rule n w nodes_points _ x.2 early (head_inv n w x.1 nodes_points x.2)
    _ (graph_size n + 1) ?_ ?_ ?_ _ _ (head_inv_init n w x.1 nodes_points x.2) ?_
  · exact fun st st1 h hs => search_step_next n w x.1 nodes_points _ x.2 early st st1 hk hwn h hs
  · exact fun st r h hs => search_step_done n w x.1 nodes_points _ x.2 early st r hk hwn h hs
  · exact fun st h => head_inv_length n w x.1 nodes_points x.2 st h
  · simp [init_state]

/-! ### Counting the points found -/

theorem points_at_cons (k1 : Nat) (v1 : List (Nat × ℚ)) (rest : Points) (k : Nat) :
    points_at ((k1, v1) :: rest) k = if k1 = k then v1 else points_at rest k := by
  unfold points_at
  by_cases h : k1 = k <;> simp [map_find, h]

theorem points_at_not_key (np : Points) (k : Nat) (h : k ∉ np.map Prod.fst) :
    points_at np k = [] := by
  unfold points_at
  rw [(map_find_none_iff np k).2 h]
  rfl

theorem points_sum_le (np : Points) : ∀ (L : List Nat), L.Nodup →
    (L.map (fun k => (points_at np k).length)).sum ≤ count_points np := by
  induction np with
  | nil =>
    intro L _
    simp [points_at, map_find, count_points]
  | cons x rest ih =>
    obtain ⟨k1, v1⟩ := x
    intro L hL
    have hcount : count_points ((k1, v1) :: rest) = v1.length + count_points rest := by
      simp [count_points]
    by_cases hm : k1 ∈ L
    · have hp := List.perm_cons_erase hm
      have hs := (hp.map (fun k => (points_at ((k1, v1) :: rest) k).length)).sum_eq
      rw [hs, List.map_cons, List.sum_cons, hcount, points_at_cons, if_pos rfl]
      have hne : ∀ k ∈ L.erase k1, k1 ≠ k := by
        intro k hk e
        subst e
        exact (List.Nodup.not_mem_erase hL) hk
      have heq : (L.erase k1).map (fun k => (points_at ((k1, v1) :: rest) k).length) =
          (L.erase k1).map (fun k => (points_at rest k).length) := by
        apply List.map_congr_left
        intro k hk
        rw [points_at_cons, if_neg (hne k hk)]
      rw [heq]
      exact Nat.add_le_add_left (ih _ (hL.erase k1)) _
    · have heq : L.map (fun k => (points_at ((k1, v1) :: rest) k).length) =
          L.map (fun k => (points_at rest k).length) := by
        apply List.map_congr_left
        intro k hk
        have hne : k1 ≠ k := fun e => hm (e ▸ hk)
        rw [points_at_cons, if_neg hne]
      rw [heq, hcount]
      exact le_trans (ih L hL) (Nat.le_add_left _ _)

theorem points_sum_ge (np : Points) (hp : points_keys_distinct np) : ∀ (L : List Nat),
    (∀ k, points_at np k ≠ [] → k ∈ L) →
    count_points np ≤ (L.map (fun k => (points_at np k).length)).sum := by
  induction np with
  | nil =>
    intro L _
    simp [count_points]
  | cons x rest ih =>
    obtain ⟨k1, v1⟩ := x
    intro L hL
    unfold points_keys_distinct at hp
    rw [List.map_cons, List.nodup_cons] at hp
    have hcount : count_points ((k1, v1) :: rest) = v1.length + count_points rest := by
      simp [count_points]
    have hrest : ∀ k, points_at rest k ≠ [] → k1 ≠ k ∧ k ∈ L := by
      intro k hk
      have hne : k1 ≠ k := by
        intro e
        subst e
        exact hk (points_at_not_key rest k1 hp.1)
      refine ⟨hne, hL k ?_⟩
      rw [points_at_cons, if_neg hne]
      exact hk
    by_cases hm : k1 ∈ L
    · have hperm := List.perm_cons_erase hm
      have hs := (hperm.map (fun k => (points_at ((k1, v1) :: rest) k).length)).sum_eq
      rw [hs, List.map_cons, List.sum_cons, hcount, points_at_cons, if_pos rfl]
      have h1 := ih hp.2 (L.erase k1) (fun k hk =>
        (List.mem_erase_of_ne (fun e => (hrest k hk).1 e.symm)).2 (hrest k hk).2)
      have h2 : ((L.erase k1).map (fun k => (points_at rest k).length)).sum ≤
          ((L.erase k1).map (fun k => (points_at ((k1, v1) :: rest) k).length)).sum := by
        apply List.sum_le_sum
        intro k _
        rw [points_at_cons]
        by_cases e : k1 = k
        · rw [if_pos e, ← e, points_at_not_key rest k1 hp.1]
          exact Nat.zero_le _
        · rw [if_neg e]
      omega
    · have hv : v1 = [] := by
        by_contra hv
        exact hm (hL k1 (by rw [points_at_cons, if_pos rfl]; exact hv))
      have h1 := ih hp.2 L (fun k hk => (hrest k hk).2)
      have h2 : (L.map (fun k => (points_at rest k).length)).sum ≤
          (L.map (fun k => (points_at ((k1, v1) :: rest) k).length)).sum := by
        apply List.sum_le_sum
        intro k _
        rw [points_at_cons]
        by_cases e : k1 = k
        · rw [if_pos e, ← e, points_at_not_key rest k1 hp.1]
          exact Nat.zero_le _
        · rw [if_neg e]
      have h3 : v1.length = 0 := by rw [hv]; rfl
      rw [hcount]
      omega

theorem emit_nil (xs : List (Nat × ℚ)) (d real_d : ℚ) : emit xs [] d real_d = [] := by
  simp [emit]

theorem mem_emit (xs ys : List (Nat × ℚ)) (d real_d : ℚ) (r : Record)
    (h : r ∈ emit xs ys d real_d) :
    (r.id1, r.off1) ∈ xs ∧ (r.id2, r.off2) ∈ ys ∧ r.id1 < r.id2 ∧ r.d = d ∧ r.real_d = real_d := by
  simp only [emit, List.mem_flatMap, List.mem_map, List.mem_filter, decide_eq_true_eq] at h
  obtain ⟨n1, h1, n2, ⟨h2, h3⟩, h4⟩ := h
  subst h4
  exact ⟨h1, h2, h3, rfl, rfl⟩

/-- A node that is not in the log and carries a point keeps `found` below `npoints`. -/
theorem found_lt_of_missing (n : Graph) (w : ℚ) (S : Nat) (nodes_points : Points)
    (xs : List (Nat × ℚ)) (st : SearchState) (h : trace_ok n w S nodes_points xs st)
    (v : Nat) (hv : points_at nodes_points v ≠ []) (hm : v ∉ st.trace.map node.node_id) :
    st.found < count_points nodes_points := by
  have h1 := points_sum_le nodes_points (v :: st.trace.map node.node_id)
    (List.nodup_cons.2 ⟨hm, h.ids_nodup⟩)
  rw [List.map_cons, List.sum_cons, List.map_map] at h1
  have h2 : 0 < (points_at nodes_points v).length := List.length_pos.2 hv
  have h3 := h.found_eq
  simp only [Function.comp_def] at h1
  omega

/-! ### Draining the frontier -/

theorem drain_tail (n : Graph) (w : ℚ) (S : Nat) (nodes_points : Points)
    (xs : List (Nat × ℚ)) (out0 : List Record)
    (hk : adj_keys_distinct n) (hwn : weights_nonneg n w) :
    ∀ (fuel : Nat) (st : SearchState),
    (head_inv n w S nodes_points xs st ∧ st.found = count_points nodes_points ∧ st.out = out0) →
    graph_size n + 1 + 1 ≤ fuel + st.trace.length →
    (search_loop n w nodes_points (count_points nodes_points) xs false fuel st).status =
      Status.ok ∧
    (search_loop n w nodes_points (count_points nodes_points) xs false fuel st).st.out =
      out0 := by
  refine search_loop_rule n w nodes_points (count_points nodes_points) xs false
    (fun st => head_inv n w S nodes_points xs st ∧ st.found = count_points nodes_points ∧
      st.out = out0) (fun r => r.status = Status.ok ∧ r.st.out = out0)
    (graph_size n + 1) ?_ ?_ ?_
  · intro st st1 hI hs
    cases search_step_spec n w S nodes_points (count_points nodes_points) xs false st hk hwn
      hI.1 with
    | empty h1 h2 => rw [h2] at hs; cases hs
    | stop it q1 h1 h2 h3 h4 h5 => cases h3
    | go it q1 s h1 h2 h3 h4 h5 h6 =>
      rw [h5] at hs
      cases hs
      have hsum := points_sum_le nodes_points _ h2.ids_nodup
      have hf := h2.found_eq
      rw [List.map_map] at hsum
      simp only [extracted_state, Function.comp_def] at hf hsum
      have hlen : (points_at nodes_points it.node_id).length = 0 := by
        have := hI.2.1
        omega
      have hnil : points_at nodes_points it.node_id = [] := List.length_eq_zero.1 hlen
      refine ⟨⟨h6, ?_, ?_⟩, by simp [relaxed_state]⟩
      · simp only [relaxed_state, hlen]
        exact hI.2.1
      · simp only [relaxed_state, hnil, emit_nil, List.append_nil]
        exact hI.2.2
  · intro st r hI hs
    cases search_step_spec n w S nodes_points (count_points nodes_points) xs false st hk hwn
      hI.1 with
    | empty h1 h2 =>
      rw [h2] at hs
      cases hs
      obtain ⟨e1, e2⟩ := after_loop_cases (count_points nodes_points) st
      rcases e2 with e2 | e2
      · exact ⟨e2.1, by rw [e1]; exact hI.2.2⟩
      · exact absurd hI.2.1 e2.2
    | stop it q1 h1 h2 h3 h4 h5 => cases h3
    | go it q1 s h1 h2 h3 h4 h5 h6 => rw [h5] at hs; cases hs
  · exact fun st hI => head_inv_length n w S nodes_points xs st hI.1

theorem early_drain_sync (n : Graph) (w : ℚ) (S : Nat) (nodes_points : Points)
    (xs : List (Nat × ℚ)) (hk : adj_keys_distinct n) (hwn : weights_nonneg n w) :
    ∀ (fuel : Nat) (st : SearchState), head_inv n w S nodes_points xs st →
    graph_size n + 1 + 1 ≤ fuel + st.trace.length →
    (search_loop n w nodes_points (count_points nodes_points) xs true fuel st).status =
      (search_loop n w nodes_points (count_points nodes_points) xs false fuel st).status ∧
    (search_loop n w nodes_points (count_points nodes_points) xs true fuel st).st.out =
      (search_loop n w nodes_points (count_points nodes_points) xs false fuel st).st.out := by
  intro fuel
  induction fuel with
  | zero =>
    intro st hI hf
    have := head_inv_length n w S nodes_points xs st hI
    omega
  | succ fuel ih =>
    intro st hI hf
    have hT := search_step_spec n w S nodes_points (count_points nodes_points) xs true st hk
      hwn hI
    have hF := search_step_spec n w S nodes_points (count_points nodes_points) xs false st hk
      hwn hI
    simp only [search_loop]
    cases hF with
    | empty f1 f2 =>
      cases hT with
      | empty t1 t2 => rw [t2, f2]; exact ⟨rfl, rfl⟩
      | stop it q1 t1 t2 t3 t4 t5 => rw [f1] at t1; cases t1
      | go it q1 s t1 t2 t3 t4 t5 t6 => rw [f1] at t1; cases t1
    | stop it q1 f1 f2 f3 f4 f5 => cases f3
    | go it q1 s f1 f2 f3 f4 f5 f6 =>
      cases hT with
      | empty t1 t2 => rw [f1] at t1; cases t1
      | stop it2 q2 t1 t2 t3 t4 t5 =>
        rw [f1] at t1
        cases t1
        rw [t5, f5]
        obtain ⟨e1, e2⟩ := after_loop_cases (count_points nodes_points)
          (extracted_state nodes_points xs st it q1)
        have hfound : (extracted_state nodes_points xs st it q1).found =
            count_points nodes_points := t4
        rcases e2 with e2 | e2
        · have := drain_tail n w S nodes_points xs
            (relaxed_state nodes_points xs st it s).out hk hwn fuel
            (relaxed_state nodes_points xs st it s) ⟨f6, t4, rfl⟩
            (by simp only [relaxed_state, List.length_append, List.length_singleton]; omega)
          simp only at this
          rw [e2.1, this.1, this.2, e1]
          exact ⟨rfl, rfl⟩
        · exact absurd hfound e2.2
      | go it2 q2 s2 t1 t2 t3 t4 t5 t6 =>
        rw [f1] at t1
        cases t1
        rw [f4] at t4
        cases t4
        rw [t5, f5]
        exact ih _ f6
          (by simp only [relaxed_state, List.length_append, List.length_singleton]; omega)

theorem walk_reachable (n : Graph) (w : ℚ) (S v : Nat) (c r : ℚ) (h : walk n w S v c r) :
    reachable n S v := by
  obtain ⟨p, h1, _, h3⟩ := h
  exact ⟨p, h1, by rw [h3]; rfl⟩

theorem drained_reach (n : Graph) (w : ℚ) (S : Nat) (nodes_points : Points)
    (xs : List (Nat × ℚ)) (st : SearchState) (h : head_inv n w S nodes_points xs st)
    (hq : st.q = []) (v : Nat) (hv : reachable n S v) : v ∈ st.trace.map node.node_id := by
  have hqi := h.qi
  rw [hq] at hqi
  have hS : S ∈ st.trace.map node.node_id := by
    rcases hqi.seen S (by rw [h.di.start]; rfl) with h1 | h1
    · exact h1
    · simp at h1
  obtain ⟨p, h1, h2⟩ := hv
  rw [← h1]
  exact closed_reach _ n w _ _ hqi h.cl p S hS h2

/-! ### Claim C6, and what a search computes in exact arithmetic -/

/-- The search in exact arithmetic computes least path costs. In a graph whose
adjacencies are maps, with all edge distances at least 0 and an improved-edge factor
above 0, the search of the exact embedding from the node `x.1` ends normally or with "not
all points found"; every record it writes is written for a point of `x.2` and a point
located at some node `current`, with a weighted distance that is the least sum of the
weighted costs of the edges of a path from `x.1` to `current`; the records are, in order,
those written at the extraction of each entry of the log, and every extracted entry
carries the least sum for its node. -/
theorem search_record_min_cost (n : Graph) (w : ℚ) (nodes_points : Points)
    (x : Nat × List (Nat × ℚ)) (hk : adj_keys_distinct n) (hn : dist_nonneg n) (hw : 0 < w) :
    ((search n w nodes_points x).status = Status.ok ∨
      (search n w nodes_points x).status = Status.not_all_found) ∧
    (∀ r ∈ (search n w nodes_points x).st.out, ∃ current,
      (r.id1, r.off1) ∈ x.2 ∧ (r.id2, r.off2) ∈ points_at nodes_points current ∧
      is_min_cost n w x.1 current r.d) ∧
    (search n w nodes_points x).st.out =
      (search n w nodes_points x).st.trace.flatMap
        (fun t => emit x.2 (points_at nodes_points t.node_id) t.d t.real_d) ∧
    ∀ t ∈ (search n w nodes_points x).st.trace, is_min_cost n w x.1 t.node_id t.d := by
  obtain ⟨htr, hst, _⟩ := search_gen_end_ok n w nodes_points true x hk
    (weights_nonneg_of_pos n w hn hw)
  have hmin : ∀ t ∈ (search n w nodes_points x).st.trace, is_min_cost n w x.1 t.node_id t.d := by
    intro t ht
    obtain ⟨p, hp1, hp2, _⟩ := htr.t_walk t ht
    exact ⟨⟨p, hp1, hp2⟩, htr.t_min t ht⟩
  refine ⟨?_, ?_, htr.out_eq, hmin⟩
  · rcases hst with h | h
    · exact Or.inl h.1
    · exact Or.inr h.1
  · intro r hr
    unfold search at hr
    rw [htr.out_eq, List.mem_flatMap] at hr
    obtain ⟨t, ht, hrt⟩ := hr
    obtain ⟨h1, h2, _, h4, _⟩ := mem_emit _ _ _ _ r hrt
    refine ⟨t.node_id, h1, h2, ?_⟩
    rw [h4]
    exact hmin t ht

/-- C6. With all edge distances at least 0 and a factor above 0, the search that stops as
soon as `found == npoints` writes exactly the same sequence of records as the search with
the early exit removed, and both end the same way (normally, or with "not all points
found"). -/
theorem early_exit_same_records (n : Graph) (w : ℚ) (nodes_points : Points)
    (x : Nat × List (Nat × ℚ)) (hk : adj_keys_distinct n) (hn : dist_nonneg n) (hw : 0 < w) :
    (search n w nodes_points x).st.out = (search_drain n w nodes_points x).st.out ∧
    (search n w nodes_points x).status = (search_drain n w nodes_points x).status ∧
    ((search n w nodes_points x).status = Status.ok ∨
      (search n w nodes_points x).status = Status.not_all_found) := by
  have hwn := weights_nonneg_of_pos n w hn hw
  obtain ⟨_, hst, _⟩ := search_gen_end_ok n w nodes_points true x hk hwn
  have hs := early_drain_sync n w x.1 nodes_points x.2 hk hwn (graph_size n + 2)
    (init_state x.1) (head_inv_init n w x.1 nodes_points x.2) (by simp [init_state])
  refine ⟨hs.2, hs.1, ?_⟩
  rcases hst with h | h
  · exact Or.inl h.1
  · exact Or.inr h.1

/-- One search and reachability. With all edge distances at least 0 (and a factor above 0
when some edge is marked improved) the search from `x.1` fails exactly when some node
that carries a point cannot be reached from `x.1`; the only failure is "not all points
found"; and when every node that carries a point can be reached, the search succeeds
with `found == npoints`. -/
theorem search_fails_iff_unreachable (n : Graph) (w : ℚ) (nodes_points : Points)
    (x : Nat × List (Nat × ℚ)) (hk : adj_keys_distinct n) (hn : dist_nonneg n)
    (hw : 0 < w ∨ no_improved n) (hp : points_keys_distinct nodes_points) :
    ((search n w nodes_points x).status ≠ Status.ok ↔
      ∃ v, points_at nodes_points v ≠ [] ∧ ¬ reachable n x.1 v) ∧
    ((search n w nodes_points x).status ≠ Status.ok →
      (search n w nodes_points x).status = Status.not_all_found) ∧
    ((∀ v, points_at nodes_points v ≠ [] → reachable n x.1 v) →
      (search n w nodes_points x).status = Status.ok ∧
      (search n w nodes_points x).st.found = count_points nodes_points) := by
  have hwn : weights_nonneg n w := by
    rcases hw with hw | hw
    · exact weights_nonneg_of_pos n w hn hw
    · exact weights_nonneg_of_plain n w hn hw
  obtain ⟨htr, hst, hend⟩ := search_gen_end_ok n w nodes_points true x hk hwn
  have hiff : (search n w nodes_points x).status ≠ Status.ok ↔
      ∃ v, points_at nodes_points v ≠ [] ∧ ¬ reachable n x.1 v := by
    constructor
    · intro hne
      rcases hst with h | h
      · exact absurd h.1 hne
      · obtain ⟨hq, hinv⟩ := hend (Or.inl h.2)
        by_contra hall
        push_neg at hall
        have h1 := points_sum_ge nodes_points hp _
          (fun v hv => drained_reach n w x.1 nodes_points x.2 _ hinv hq v (hall v hv))
        have h2 := points_sum_le nodes_points _ htr.ids_nodup
        have h3 := htr.found_eq
        rw [List.map_map] at h1 h2
        simp only [Function.comp_def] at h1 h2
        exact h.2 (by omega)
    · rintro ⟨v, hv, hnr⟩ hok
      have hm : v ∉ (search_gen n w nodes_points true x).st.trace.map node.node_id := by
        intro hm
        obtain ⟨t, ht, e⟩ := List.mem_map.1 hm
        exact hnr (e ▸ walk_reachable n w _ _ _ _ (htr.t_walk t ht))
      have hlt := found_lt_of_missing n w x.1 nodes_points x.2 _ htr v hv hm
      rcases hst with h | h
      · omega
      · rw [show search n w nodes_points x = search_gen n w nodes_points true x from rfl,
          h.1] at hok
        cases hok
  refine ⟨hiff, ?_, ?_⟩
  · intro hne
    rcases hst with h | h
    · exact absurd h.1 hne
    · exact h.1
  · intro hall
    rcases hst with h | h
    · exact h
    · have hne : (search n w nodes_points x).status ≠ Status.ok := by
        rw [show search n w nodes_points x = search_gen n w nodes_points true x from rfl, h.1]
        intro e
        cases e
      obtain ⟨v, hv, hnr⟩ := hiff.1 hne
      exact absurd (hall v hv) hnr

/-- Witness of C6 on a network where the early exit happens before node 4 is reached,
while the drained search goes on to extract it. -/
theorem early_exit_same_records_witness :
    ((search (read_network [(1, 2, 5), (2, 3, 7), (3, 4, 1)]) 2
        [(1, [(100, 0)]), (3, [(200, 0)])] (1, [(100, 0)])).st.trace.length = 3 ∧
     (search_drain (read_network [(1, 2, 5), (2, 3, 7), (3, 4, 1)]) 2
        [(1, [(100, 0)]), (3, [(200, 0)])] (1, [(100, 0)])).st.trace.length = 4) ∧
    ((search (read_network [(1, 2, 5), (2, 3, 7), (3, 4, 1)]) 2
        [(1, [(100, 0)]), (3, [(200, 0)])] (1, [(100, 0)])).st.out =
      (search_drain (read_network [(1, 2, 5), (2, 3, 7), (3, 4, 1)]) 2
        [(1, [(100, 0)]), (3, [(200, 0)])] (1, [(100, 0)])).st.out ∧
    (search (read_network [(1, 2, 5), (2, 3, 7), (3, 4, 1)]) 2
        [(1, [(100, 0)]), (3, [(200, 0)])] (1, [(100, 0)])).status =
      (search_drain (read_network [(1, 2, 5), (2, 3, 7), (3, 4, 1)]) 2
        [(1, [(100, 0)]), (3, [(200, 0)])] (1, [(100, 0)])).status ∧
    ((search (read_network [(1, 2, 5), (2, 3, 7), (3, 4, 1)]) 2
        [(1, [(100, 0)]), (3, [(200, 0)])] (1, [(100, 0)])).status = Status.ok ∨
      (search (read_network [(1, 2, 5), (2, 3, 7), (3, 4, 1)]) 2
        [(1, [(100, 0)]), (3, [(200, 0)])] (1, [(100, 0)])).status = Status.not_all_found)) :=
  ⟨by decide!,
   early_exit_same_records (read_network [(1, 2, 5), (2, 3, 7), (3, 4, 1)]) 2
      [(1, [(100, 0)]), (3, [(200, 0)])] (1, [(100, 0)])
      (by decide!) (by decide!) (by norm_num)⟩

/-! ### Symmetric graphs and graphs without improved edges -/

theorem plain_cost_eq_real (n : Graph) (w : ℚ)
    (hp : ∀ a b e, find_edge n a b = some e → edge_weight w e = e.d) :
    ∀ (p : List Nat) (a : Nat), path_cost n w a p = path_real n a p := by
  intro p
  induction p with
  | nil => intro a; rfl
  | cons x p ih =>
    intro a
    simp only [path_cost, path_real, ih x]
    cases he : find_edge n a x with
    | none => rfl
    | some e =>
      cases hr : path_real n x p with
      | none => rfl
      | some r1 => simp [hp a x e he]

theorem edge_weight_plain (n : Graph) (w : ℚ) (h : no_improved n ∨ w = 1) (a b : Nat)
    (e : edge_info) (he : find_edge n a b = some e) : edge_weight w e = e.d := by
  have hm : (b, e) ∈ adj n a := map_find_mem _ _ _ he
  unfold edge_weight
  rcases h with h | h
  · rw [h _ (adj_mem n a _ hm) _ hm]
    rfl
  · rw [h]
    split
    · exact div_one _
    · rfl

/-! ### Marking edges improved -/

theorem mem_map_set {K V : Type} [DecidableEq K] (m : List (K × V)) (k : K) (v : V)
    (x : K × V) (h : x ∈ map_set m k v) : x = (k, v) ∨ x ∈ m := by
  induction m with
  | nil => simpa [map_set] using h
  | cons y rest ih =>
    obtain ⟨k1, v1⟩ := y
    by_cases hk : k1 = k
    · simp only [map_set, hk, if_true, List.mem_cons] at h
      rcases h with h | h
      · exact Or.inl h
      · exact Or.inr (List.mem_cons_of_mem _ h)
    · simp only [map_set, hk, if_false, List.mem_cons] at h
      rcases h with h | h
      · exact Or.inr (h ▸ List.mem_cons_self _ _)
      · rcases ih h with h1 | h1
        · exact Or.inl h1
        · exact Or.inr (List.mem_cons_of_mem _ h1)

theorem adj_map_set (n : Graph) (a c : Nat) (l : Adj) :
    adj (map_set n a l) c = if a = c then l else adj n c := by
  unfold adj
  rw [map_find_set]
  split <;> rfl

theorem find_edge_graph_set (n : Graph) (a b x y : Nat) (e : edge_info) :
    find_edge (graph_set n a b e) x y =
      if a = x ∧ b = y then some e else find_edge n x y := by
  unfold find_edge graph_set
  rw [adj_map_set]
  by_cases h1 : a = x
  · subst h1
    rw [if_pos rfl, map_find_set]
    by_cases h2 : b = y <;> simp [h2]
  · simp [h1]

theorem adj_keys_nodup (n : Graph) (hk : adj_keys_distinct n) (a : Nat) :
    ((adj n a).map Prod.fst).Nodup := by
  unfold adj
  cases hf : map_find n a with
  | none => simp
  | some l => exact hk _ (map_find_mem n a l hf)

theorem adj_dist_nonneg (n : Graph) (hn : dist_nonneg n) (a : Nat) :
    ∀ y ∈ adj n a, 0 ≤ y.2.d := by
  unfold adj
  cases hf : map_find n a with
  | none => simp
  | some l => exact hn _ (map_find_mem n a l hf)

theorem graph_set_keys_distinct (n : Graph) (a b : Nat) (e : edge_info)
    (hk : adj_keys_distinct n) : adj_keys_distinct (graph_set n a b e) := by
  intro x hx
  rcases mem_map_set n a _ x hx with h | h
  · rw [h]
    exact map_keys_set_nodup _ _ _ (adj_keys_nodup n hk a)
  · exact hk x h

theorem graph_set_dist_nonneg (n : Graph) (a b : Nat) (e : edge_info)
    (hn : dist_nonneg n) (he : 0 ≤ e.d) : dist_nonneg (graph_set n a b e) := by
  intro x hx y hy
  rcases mem_map_set n a _ x hx with h | h
  · rw [h] at hy
    rcases mem_map_set _ b e y hy with h1 | h1
    · rw [h1]
      exact he
    · exact adj_dist_nonneg n hn a y h1
  · exact hn x h y hy

theorem find_edge_set_improved (n : Graph) (a b x y : Nat) (e : edge_info)
    (he : find_edge n a b = some e) :
    find_edge (set_improved n a b) x y =
      if a = x ∧ b = y then some (improve e) else find_edge n x y := by
  unfold set_improved
  rw [find_edge_graph_set]
  unfold find_edge at he
  rw [he]
  rfl

theorem set_improved_keys_distinct (n : Graph) (a b : Nat) (hk : adj_keys_distinct n) :
    adj_keys_distinct (set_improved n a b) :=
  graph_set_keys_distinct n a b _ hk

theorem set_improved_dist_nonneg (n : Graph) (a b : Nat) (hn : dist_nonneg n) :
    dist_nonneg (set_improved n a b) := by
  unfold set_improved
  apply graph_set_dist_nonneg n a b _ hn
  cases hf : map_find (adj n a) b with
  | none => exact le_refl _
  | some e => exact adj_dist_nonneg n hn a (b, e) (map_find_mem _ _ _ hf)

theorem mark_improved_eq (n n1 : Graph) (a b : Nat) (h : mark_improved n (a, b) = some n1) :
    n1 = set_improved (set_improved n a b) b a := by
  unfold mark_improved at h
  split at h
  · cases h
  · split at h
    · cases h
    · exact (Option.some.inj h).symm

theorem improve_improve (e : edge_info) : improve (improve e) = improve e := rfl

theorem mark_improved_present (n n1 : Graph) (a b : Nat)
    (h : mark_improved n (a, b) = some n1) :
    (∃ e, find_edge n a b = some e) ∧ ∃ e, find_edge n b a = some e := by
  unfold mark_improved at h
  split at h
  · cases h
  · split at h
    · cases h
    · rename_i h2
      simp only [Bool.or_eq_true, Option.isNone_iff_eq_none, not_or] at h2
      unfold find_edge
      constructor
      · cases hf : map_find (adj n a) b with
        | none => exact absurd hf h2.1
        | some e => exact ⟨e, rfl⟩
      · cases hf : map_find (adj n b) a with
        | none => exact absurd hf h2.2
        | some e => exact ⟨e, rfl⟩

theorem find_edge_mark_improved (n n1 : Graph) (a b x y : Nat)
    (h : mark_improved n (a, b) = some n1) :
    find_edge n1 x y =
      if (x = a ∧ y = b) ∨ (x = b ∧ y = a) then (find_edge n x y).map improve
      else find_edge n x y := by
  obtain ⟨⟨e1, he1⟩, ⟨e2, he2⟩⟩ := mark_improved_present n n1 a b h
  have hmid : ∀ u v, find_edge (set_improved n a b) u v =
      if a = u ∧ b = v then some (improve e1) else find_edge n u v :=
    fun u v => find_edge_set_improved n a b u v e1 he1
  have hba : ∃ e3, find_edge (set_improved n a b) b a = some e3 ∧
      improve e3 = improve e2 := by
    rw [hmid]
    by_cases hab : a = b ∧ b = a
    · rw [if_pos hab]
      refine ⟨improve e1, rfl, ?_⟩
      have : e1 = e2 := by
        have h3 := he1
        rw [hab.1] at h3
        rw [hab.1] at he2
        rw [h3] at he2
        exact Option.some.inj he2
      rw [this]
      rfl
    · rw [if_neg hab]
      exact ⟨e2, he2, rfl⟩
  obtain ⟨e3, he3, himp⟩ := hba
  rw [mark_improved_eq n n1 a b h, find_edge_set_improved _ b a x y e3 he3, hmid, himp]
  by_cases h1 : b = x ∧ a = y
  · have h3 : (x = a ∧ y = b) ∨ (x = b ∧ y = a) := Or.inr ⟨h1.1.symm, h1.2.symm⟩
    rw [if_pos h1, if_pos h3, ← h1.1, ← h1.2, he2]
    rfl
  · by_cases h2 : a = x ∧ b = y
    · have h3 : (x = a ∧ y = b) ∨ (x = b ∧ y = a) := Or.inl ⟨h2.1.symm, h2.2.symm⟩
      rw [if_neg h1, if_pos h2, if_pos h3, ← h2.1, ← h2.2, he1]
      rfl
    · have h3 : ¬ ((x = a ∧ y = b) ∨ (x = b ∧ y = a)) := by
        rintro (h3 | h3)
        · exact h2 ⟨h3.1.symm, h3.2.symm⟩
        · exact h1 ⟨h3.1.symm, h3.2.symm⟩
      rw [if_neg h1, if_neg h2, if_neg h3]

theorem mark_improved_keys_distinct (n n1 : Graph) (a b : Nat) (hk : adj_keys_distinct n)
    (h : mark_improved n (a, b) = some n1) : adj_keys_distinct n1 := by
  rw [mark_improved_eq n n1 a b h]
  exact set_improved_keys_distinct _ _ _ (set_improved_keys_distinct _ _ _ hk)

theorem mark_improved_dist_nonneg (n n1 : Graph) (a b : Nat) (hn : dist_nonneg n)
    (h : mark_improved n (a, b) = some n1) : dist_nonneg n1 := by
  rw [mark_improved_eq n n1 a b h]
  exact set_improved_dist_nonneg _ _ _ (set_improved_dist_nonneg _ _ _ hn)

/-! ### Claim C10: loading the network -/

theorem find_edge_add_edge (n : Graph) (r : Nat × Nat × ℚ) (x y : Nat) :
    find_edge (add_edge n r) x y =
      if (r.1 = x ∧ r.2.1 = y) ∨ (r.1 = y ∧ r.2.1 = x) then some (edge_info.new r.2.2)
      else find_edge n x y := by
  unfold add_edge
  rw [find_edge_graph_set, find_edge_graph_set]
  by_cases h1 : r.2.1 = x ∧ r.1 = y
  · have h3 : (r.1 = x ∧ r.2.1 = y) ∨ (r.1 = y ∧ r.2.1 = x) := Or.inr ⟨h1.2, h1.1⟩
    rw [if_pos h1, if_pos h3]
  · by_cases h2 : r.1 = x ∧ r.2.1 = y
    · rw [if_neg h1, if_pos h2, if_pos (Or.inl h2)]
    · have h3 : ¬ ((r.1 = x ∧ r.2.1 = y) ∨ (r.1 = y ∧ r.2.1 = x)) := by
        rintro (h3 | h3)
        · exact h2 h3
        · exact h1 ⟨h3.2, h3.1⟩
      rw [if_neg h1, if_neg h2, if_neg h3]

theorem find_edge_foldl_other (a b : Nat) : ∀ (l : List (Nat × Nat × ℚ)) (n : Graph),
    (∀ r ∈ l, ¬ joins r a b) →
    find_edge (l.foldl add_edge n) a b = find_edge n a b ∧
    find_edge (l.foldl add_edge n) b a = find_edge n b a := by
  intro l
  induction l with
  | nil => intro n _; exact ⟨rfl, rfl⟩
  | cons r l ih =>
    intro n h
    have hr := h r (List.mem_cons_self _ _)
    obtain ⟨h1, h2⟩ := ih (add_edge n r) (fun s hs => h s (List.mem_cons_of_mem _ hs))
    simp only [List.foldl_cons]
    rw [h1, h2, find_edge_add_edge, find_edge_add_edge]
    unfold joins at hr
    have hx : ¬ ((r.1 = a ∧ r.2.1 = b) ∨ (r.1 = b ∧ r.2.1 = a)) := hr
    have hy : ¬ ((r.1 = b ∧ r.2.1 = a) ∨ (r.1 = a ∧ r.2.1 = b)) := fun h => hr h.symm
    rw [if_neg hx, if_neg hy]
    exact ⟨rfl, rfl⟩

/-- C10, counterexample. The network file (1,2,5), (1,2,7) contains the edge (1,2,5), but
after loading the adjacency of 1 holds 2 with distance 7, and so does the adjacency of 2
for 1: the later record has overwritten the earlier one. -/
theorem symmetrization_counterexample :
    ((1, 2, 5) : Nat × Nat × ℚ) ∈ [((1 : Nat), (2 : Nat), (5 : ℚ)), (1, 2, 7)] ∧
    find_edge (read_network [(1, 2, 5), (1, 2, 7)]) 1 2 = some ⟨7, 0, 0, false⟩ ∧
    find_edge (read_network [(1, 2, 5), (1, 2, 7)]) 2 1 = some ⟨7, 0, 0, false⟩ := by
  refine ⟨by simp, by decide!, by decide!⟩

/-- C10, amended. After loading any edge list, for every record (a,b,d) of the list that
is not followed by another record joining `a` and `b` (in either order), the adjacency of
`a` contains `b` with distance `d` and the adjacency of `b` contains `a` with distance
`d`, both as fresh, not improved entries. -/
theorem symmetrization_last_record (l1 l2 : List (Nat × Nat × ℚ)) (a b : Nat) (d : ℚ)
    (h : ∀ r ∈ l2, ¬ joins r a b) :
    find_edge (read_network (l1 ++ (a, b, d) :: l2)) a b = some (edge_info.new d) ∧
    find_edge (read_network (l1 ++ (a, b, d) :: l2)) b a = some (edge_info.new d) ∧
    (edge_info.new d).d = d := by
  unfold read_network
  rw [List.foldl_append, List.foldl_cons]
  obtain ⟨h1, h2⟩ := find_edge_foldl_other a b l2 (add_edge (l1.foldl add_edge []) (a, b, d)) h
  rw [h1, h2, find_edge_add_edge, find_edge_add_edge]
  refine ⟨?_, ?_, rfl⟩
  · rw [if_pos (Or.inl ⟨rfl, rfl⟩)]
  · rw [if_pos (Or.inr ⟨rfl, rfl⟩)]

/-- Witness of the amended C10: in (1,2,5), (2,3,7), (2,1,9) the record (2,3,7) is the
last one joining 2 and 3. -/
theorem symmetrization_last_record_witness :
    (∀ r ∈ [((2 : Nat), (1 : Nat), (9 : ℚ))], ¬ joins r 2 3) ∧
    (find_edge (read_network ([(1, 2, 5)] ++ (2, 3, 7) :: [(2, 1, 9)])) 2 3 =
        some (edge_info.new 7) ∧
      find_edge (read_network ([(1, 2, 5)] ++ (2, 3, 7) :: [(2, 1, 9)])) 3 2 =
        some (edge_info.new 7) ∧
      (edge_info.new 7).d = 7) :=
  ⟨by simp [joins],
   symmetrization_last_record [(1, 2, 5)] [(2, 1, 9)] 2 3 7 (by simp [joins])⟩

end nodes_distances
end Bustrips

namespace Bustrips

/-! ### Bytes and 64-bit words -/

theorem le64_length (x : Nat) : (le64 x).length = 8 := rfl

theorem byte_at_append_right (pre l : List Nat) (i : Nat) :
    byte_at (pre ++ l) (pre.length + i) = byte_at l i := by
  unfold byte_at
  rw [List.getD_eq_getElem?_getD, List.getD_eq_getElem?_getD,
    List.getElem?_append_right (Nat.le_add_right _ _)]
  simp

theorem read64_append_right (pre l : List Nat) (off : Nat) :
    read64 (pre ++ l) (pre.length + off) = read64 l off := by
  unfold read64
  simp only [Nat.add_assoc, byte_at_append_right]

theorem byte_at_append_left (l post : List Nat) (i : Nat) (h : i < l.length) :
    byte_at (l ++ post) i = byte_at l i := by
  unfold byte_at
  rw [List.getD_eq_getElem?_getD, List.getD_eq_getElem?_getD, List.getElem?_append_left h]

theorem read64_append_left (l post : List Nat) (off : Nat) (h : off + 8 ≤ l.length) :
    read64 (l ++ post) off = read64 l off := by
  unfold read64
  rw [byte_at_append_left l post off (by omega), byte_at_append_left l post (off + 1) (by omega),
    byte_at_append_left l post (off + 2) (by omega),
    byte_at_append_left l post (off + 3) (by omega),
    byte_at_append_left l post (off + 4) (by omega),
    byte_at_append_left l post (off + 5) (by omega),
    byte_at_append_left l post (off + 6) (by omega),
    byte_at_append_left l post (off + 7) (by omega)]

theorem read64_le64 (x : Nat) (h : x < 2 ^ 64) : read64 (le64 x) 0 = x := by
  simp only [read64, le64, byte_at, List.getD_cons_zero, List.getD_cons_succ, Nat.zero_add]
  norm_num at h
  omega

theorem read64_lt (m : List Nat) (off : Nat) (h : ∀ b ∈ m, b < 256) : read64 m off < 2 ^ 64 := by
  have hb : ∀ i, byte_at m i < 256 := by
    intro i
    unfold byte_at
    rw [List.getD_eq_getElem?_getD]
    cases hg : m[i]? with
    | none => simp
    | some v => exact h v (List.getElem?_mem hg)
  have h0 := hb off
  have h1 := hb (off + 1)
  have h2 := hb (off + 2)
  have h3 := hb (off + 3)
  have h4 := hb (off + 4)
  have h5 := hb (off + 5)
  have h6 := hb (off + 6)
  have h7 := hb (off + 7)
  unfold read64
  norm_num
  omega

theorem flatMap_le64_length (l : List Nat) : (l.flatMap le64).length = 8 * l.length := by
  induction l with
  | nil => rfl
  | cons x l ih =>
    rw [List.flatMap_cons, List.length_append, ih, le64_length, List.length_cons]
    omega

theorem read64_flatMap_le64 (l : List Nat) (k : Nat) (v : Nat) (h : l[k]? = some v)
    (hv : v < 2 ^ 64) : read64 (l.flatMap le64) (8 * k) = v := by
  induction l generalizing k with
  | nil => simp at h
  | cons x l ih =>
    rw [List.flatMap_cons]
    cases k with
    | zero =>
      simp only [List.getElem?_cons_zero, Option.some.injEq] at h
      subst h
      rw [Nat.mul_zero, read64_append_left _ _ 0 (by rw [le64_length]), read64_le64 x hv]
    | succ k =>
      simp only [List.getElem?_cons_succ] at h
      have := read64_append_right (le64 x) (l.flatMap le64) (8 * k)
      rw [le64_length] at this
      rw [show 8 * (k + 1) = 8 + 8 * k by omega, this]
      exact ih k h

end Bustrips

namespace Bustrips
namespace dist_matrix

/-! ### The distance map and the assignment of indices -/

theorem map_find_insert {K V : Type} [DecidableEq K] (m : List (K × V)) (k k2 : K) (v : V) :
    map_find (map_insert m k v) k2 =
      (map_find m k2).orElse (fun _ => if k = k2 then some v else none) := by
  unfold map_insert
  cases hf : map_find m k with
  | some x =>
    simp only
    cases hf2 : map_find m k2 with
    | some y => rfl
    | none =>
      have : k ≠ k2 := by
        intro e
        rw [e, hf2] at hf
        cases hf
      simp [this]
  | none =>
    simp only
    rw [map_find_append]
    cases hf2 : map_find m k2 <;> by_cases e : k = k2 <;> simp [map_find, e]

theorem find_insert_record_isSome (dists : Dists) (r : Nat × Nat × Nat) (a b : Nat) :
    (map_find (insert_record dists r) (a, b)).isSome = true ↔
      (map_find dists (a, b)).isSome = true ∨ record_joins r a b := by
  unfold insert_record record_joins
  rw [map_find_insert, map_find_insert]
  cases map_find dists (a, b) with
  | some x => simp
  | none =>
    by_cases h1 : (r.1, r.2.1) = (a, b)
    · have := Prod.mk.inj h1
      simp [this.1, this.2]
    · by_cases h2 : (r.2.1, r.1) = (a, b)
      · have := Prod.mk.inj h2
        simp only [h1, this.1, this.2, if_false, if_true, Option.orElse, true_or, or_true,
          and_self, Option.isSome_some, record_joins]
        split <;> simp
      · have h3 : ¬ (r.1 = a ∧ r.2.1 = b) := fun h => h1 (by rw [h.1, h.2])
        have h4 : ¬ (r.1 = b ∧ r.2.1 = a) := fun h => h2 (by rw [h.1, h.2])
        simp [h1, h2, h3, h4]

theorem find_foldl_isSome (a b : Nat) : ∀ (recs : List (Nat × Nat × Nat)) (acc : Dists),
    (map_find (recs.foldl insert_record acc) (a, b)).isSome = true ↔
      (map_find acc (a, b)).isSome = true ∨ ∃ r ∈ recs, record_joins r a b := by
  intro recs
  induction recs with
  | nil => intro acc; simp
  | cons r recs ih =>
    intro acc
    rw [List.foldl_cons, ih, find_insert_record_isSome]
    constructor
    · rintro ((h | h) | ⟨r1, h1, h2⟩)
      · exact Or.inl h
      · exact Or.inr ⟨r, List.mem_cons_self _ _, h⟩
      · exact Or.inr ⟨r1, List.mem_cons_of_mem _ h1, h2⟩
    · rintro (h | ⟨r1, h1, h2⟩)
      · exact Or.inl (Or.inl h)
      · rcases List.mem_cons.1 h1 with h1 | h1
        · exact Or.inl (Or.inr (h1 ▸ h2))
        · exact Or.inr ⟨r1, h1, h2⟩

theorem find_read_list_isSome (recs : List (Nat × Nat × Nat)) (a b : Nat) :
    (map_find (read_list recs) (a, b)).isSome = true ↔ ∃ r ∈ recs, record_joins r a b := by
  unfold read_list
  rw [find_foldl_isSome]
  simp [map_find]

theorem find_insert_record_lt (dists : Dists) (r : Nat × Nat × Nat) (B : Nat)
    (h : ∀ k v, map_find dists k = some v → v < B) (hr : r.2.2 < B) :
    ∀ k v, map_find (insert_record dists r) k = some v → v < B := by
  intro k v hk
  unfold insert_record at hk
  rw [map_find_insert, map_find_insert] at hk
  cases hf : map_find dists k with
  | some x =>
    rw [hf] at hk
    simp only [Option.orElse] at hk
    rw [← Option.some.inj hk]
    exact h k x hf
  | none =>
    rw [hf] at hk
    by_cases e1 : (r.1, r.2.1) = k
    · simp [e1] at hk
      rw [← hk]
      exact hr
    · by_cases e2 : (r.2.1, r.1) = k
      · simp [e1, e2] at hk
        rw [← hk]
        exact hr
      · simp [e1, e2] at hk

theorem find_read_list_lt (recs : List (Nat × Nat × Nat)) (B : Nat)
    (hr : ∀ r ∈ recs, r.2.2 < B) :
    ∀ k v, map_find (read_list recs) k = some v → v < B := by
  unfold read_list
  have gen : ∀ (l : List (Nat × Nat × Nat)) (acc : Dists),
      (∀ k v, map_find acc k = some v → v < B) → (∀ r ∈ l, r.2.2 < B) →
      ∀ k v, map_find (l.foldl insert_record acc) k = some v → v < B := by
    intro l
    induction l with
    | nil => intro acc h _; exact h
    | cons r l ih =>
      intro acc h hl
      rw [List.foldl_cons]
      exact ih _ (find_insert_record_lt acc r B h (hl r (List.mem_cons_self _ _)))
        (fun s hs => hl s (List.mem_cons_of_mem _ hs))
  exact gen recs [] (by simp [map_find]) hr

theorem note_id_inv (s : List (Nat × Nat) × List Nat) (k : Nat) (h : ids_inv s) :
    ids_inv (note_id s k) ∧ ∀ x, x ∈ (note_id s k).2 ↔ x ∈ s.2 ∨ x = k := by
  unfold note_id
  cases hf : map_find s.1 k with
  | some i =>
    simp only [Option.isNone_some, Bool.false_eq_true, if_false]
    refine ⟨h, fun x => ⟨Or.inl, ?_⟩⟩
    rintro (hx | hx)
    · exact hx
    · rw [hx]
      exact List.getElem?_mem ((h.find_iff k i).1 hf)
  | none =>
    simp only [Option.isNone_none, if_true]
    have hk : k ∉ s.2 := by
      intro hm
      obtain ⟨i, hi⟩ := List.mem_iff_getElem?.1 hm
      rw [(h.find_iff k i).2 hi] at hf
      cases hf
    refine ⟨⟨?_, ?_⟩, ?_⟩
    · exact List.Nodup.append h.nodup (List.nodup_singleton k) (by simpa using hk)
    · intro k2 i
      show map_find (map_set s.1 k s.2.length) k2 = some i ↔ (s.2 ++ [k])[i]? = some k2
      rw [map_find_set]
      by_cases hlt : i < s.2.length
      · rw [List.getElem?_append_left hlt, ← h.find_iff k2 i]
        by_cases e : k = k2
        · subst e
          rw [if_pos rfl, hf]
          constructor
          · intro h1
            have := Option.some.inj h1
            omega
          · intro h1
            cases h1
        · rw [if_neg e]
      · have hge : s.2.length ≤ i := Nat.le_of_not_lt hlt
        rw [List.getElem?_append_right hge]
        have hnone : map_find s.1 k2 ≠ some i := by
          intro h1
          have := (h.find_iff k2 i).1 h1
          rw [List.getElem?_eq_none hge] at this
          cases this
        by_cases e : k = k2
        · subst e
          rw [if_pos rfl]
          constructor
          · intro h1
            have := Option.some.inj h1
            simp [← this]
          · intro h1
            by_cases hi : i = s.2.length
            · rw [hi]
            · have : i - s.2.length ≠ 0 := by omega
              obtain ⟨m, hm⟩ := Nat.exists_eq_succ_of_ne_zero this
              rw [hm] at h1
              simp at h1
        · rw [if_neg e]
          constructor
          · intro h1
            exact absurd h1 hnone
          · intro h1
            have hmem := List.getElem?_mem h1
            simp only [List.mem_singleton] at hmem
            exact absurd hmem.symm e
    · intro x
      simp [List.mem_append]

theorem assign_ids_inv (it : Dists) :
    ids_inv (assign_ids it) ∧
    ∀ x, x ∈ (assign_ids it).2 ↔ ∃ e ∈ it, e.1.1 = x ∨ e.1.2 = x := by
  unfold assign_ids
  have gen : ∀ (l : Dists) (s : List (Nat × Nat) × List Nat), ids_inv s →
      ids_inv (l.foldl (fun s x => note_id (note_id s x.1.1) x.1.2) s) ∧
      ∀ x, x ∈ (l.foldl (fun s x => note_id (note_id s x.1.1) x.1.2) s).2 ↔
        x ∈ s.2 ∨ ∃ e ∈ l, e.1.1 = x ∨ e.1.2 = x := by
    intro l
    induction l with
    | nil => intro s hs; exact ⟨hs, by simp⟩
    | cons e l ih =>
      intro s hs
      obtain ⟨h1, m1⟩ := note_id_inv s e.1.1 hs
      obtain ⟨h2, m2⟩ := note_id_inv _ e.1.2 h1
      obtain ⟨h3, m3⟩ := ih _ h2
      rw [List.foldl_cons]
      refine ⟨h3, fun x => ?_⟩
      rw [m3, m2, m1]
      constructor
      · rintro (((h | h) | h) | ⟨e1, he1, h⟩)
        · exact Or.inl h
        · exact Or.inr ⟨e, List.mem_cons_self _ _, Or.inl h.symm⟩
        · exact Or.inr ⟨e, List.mem_cons_self _ _, Or.inr h.symm⟩
        · exact Or.inr ⟨e1, List.mem_cons_of_mem _ he1, h⟩
      · rintro (h | ⟨e1, he1, h⟩)
        · exact Or.inl (Or.inl (Or.inl h))
        · rcases List.mem_cons.1 he1 with he1 | he1
          · subst he1
            rcases h with h | h
            · exact Or.inl (Or.inl (Or.inr h.symm))
            · exact Or.inl (Or.inr h.symm)
          · exact Or.inr ⟨e1, he1, h⟩
  have := gen it ([], []) ⟨List.nodup_nil, by simp [map_find]⟩
  simpa using this

/-! ### The cells of the matrix -/

theorem collect_eq_some (l : List (Option Nat)) (vs : List Nat) :
    collect l = some vs ↔ l = vs.map some := by
  induction l generalizing vs with
  | nil =>
    simp only [collect, Option.some.injEq]
    constructor
    · intro h; rw [← h]; rfl
    · intro h
      cases vs with
      | nil => rfl
      | cons v vs => simp at h
  | cons x l ih =>
    cases x with
    | none =>
      simp only [collect]
      constructor
      · intro h; cases h
      · intro h
        cases vs with
        | nil => simp at h
        | cons v vs => simp at h
    | some v =>
      simp only [collect]
      cases hc : collect l with
      | none =>
        simp only
        constructor
        · intro h; cases h
        · intro h
          cases vs with
          | nil => simp at h
          | cons v2 vs =>
            simp only [List.map_cons, List.cons.injEq] at h
            rw [(ih vs).2 h.2] at hc
            cases hc
      | some ws =>
        simp only [Option.some.injEq]
        have hl := (ih ws).1 hc
        constructor
        · intro h
          rw [← h, hl]
          rfl
        · intro h
          cases vs with
          | nil => simp at h
          | cons v2 vs =>
            simp only [List.map_cons, List.cons.injEq, Option.some.injEq] at h
            have := (ih vs).2 h.2
            rw [hc] at this
            rw [h.1, Option.some.inj this]

theorem collect_of_all_some (l : List (Option Nat)) (h : ∀ x ∈ l, x.isSome = true) :
    ∃ vs, collect l = some vs := by
  refine ⟨l.map (fun x => x.getD 0), (collect_eq_some _ _).2 ?_⟩
  rw [List.map_map]
  symm
  conv_rhs => rw [← List.map_id l]
  apply List.map_congr_left
  intro x hx
  have := h x hx
  cases x with
  | none => cases this
  | some v => rfl

theorem grid_length {α : Type} (f : Nat → Nat → α) (n m : Nat) :
    ((List.range m).flatMap (fun i => (List.range n).map (fun j => f i j))).length = m * n := by
  induction m with
  | zero => simp
  | succ m ih =>
    rw [List.range_succ, List.flatMap_append, List.length_append, ih]
    simp [Nat.succ_mul]

theorem grid_get {α : Type} (f : Nat → Nat → α) (n m i j : Nat) (hi : i < m) (hj : j < n) :
    ((List.range m).flatMap (fun i => (List.range n).map (fun j => f i j)))[i * n + j]? =
      some (f i j) := by
  induction m with
  | zero => omega
  | succ m ih =>
    rw [List.range_succ, List.flatMap_append]
    by_cases him : i < m
    · have hlt : i * n + j < m * n := by
        have : (i + 1) * n ≤ m * n := Nat.mul_le_mul_right n him
        rw [Nat.succ_mul] at this
        omega
      rw [List.getElem?_append_left (by rw [grid_length]; exact hlt)]
      exact ih him
    · have hEq : i = m := by omega
      subst hEq
      rw [List.getElem?_append_right (by rw [grid_length]; omega), grid_length]
      simp [hj]

theorem grid_mem {α : Type} (f : Nat → Nat → α) (n m : Nat) (x : α)
    (h : x ∈ (List.range m).flatMap (fun i => (List.range n).map (fun j => f i j))) :
    ∃ i j, i < m ∧ j < n ∧ x = f i j := by
  simp only [List.mem_flatMap, List.mem_range, List.mem_map] at h
  obtain ⟨i, hi, j, hj, e⟩ := h
  exact ⟨i, j, hi, hj, e.symm⟩

theorem matrix_cells_some (dists : Dists) (nids2 : List Nat) (cells : List Nat)
    (h : matrix_cells dists nids2 = some cells) :
    cells.length = nids2.length * nids2.length ∧
    ∀ i j, i < nids2.length → j < nids2.length →
      ∃ v, matrix_cell dists nids2 i j = some v ∧ cells[i * nids2.length + j]? = some v := by
  unfold matrix_cells at h
  rw [collect_eq_some] at h
  constructor
  · have := congrArg List.length h
    rw [grid_length, List.length_map] at this
    exact this.symm
  · intro i j hi hj
    have := grid_get (matrix_cell dists nids2) nids2.length nids2.length i j hi hj
    rw [h, List.getElem?_map] at this
    cases hc : cells[i * nids2.length + j]? with
    | none => rw [hc] at this; cases this
    | some v =>
      rw [hc] at this
      exact ⟨v, (Option.some.inj this).symm, rfl⟩

theorem matrix_cells_none (dists : Dists) (nids2 : List Nat)
    (h : matrix_cells dists nids2 = none) :
    ∃ i j, i < nids2.length ∧ j < nids2.length ∧ matrix_cell dists nids2 i j = none := by
  by_contra hne
  push_neg at hne
  obtain ⟨vs, hvs⟩ := collect_of_all_some
    ((List.range nids2.length).flatMap
      (fun i => (List.range nids2.length).map (fun j => matrix_cell dists nids2 i j)))
    (by
      intro x hx
      obtain ⟨i, j, hi, hj, e⟩ := grid_mem _ _ _ x hx
      rw [e]
      cases hc : matrix_cell dists nids2 i j with
      | none => exact absurd hc (hne i j hi hj)
      | some v => rfl)
  unfold matrix_cells at h
  rw [h] at hvs
  cases hvs

theorem mentioned_iff (order : Dists → Dists) (ho : ∀ m, (order m).Perm m)
    (recs : List (Nat × Nat × Nat)) (x : Nat) :
    x ∈ (assign_ids (order (read_list recs))).2 ↔ ∃ r ∈ recs, record_mentions r x := by
  rw [(assign_ids_inv _).2]
  constructor
  · rintro ⟨e, he, hx⟩
    have hm : e ∈ read_list recs := (ho _).subset he
    have hk : (map_find (read_list recs) (e.1.1, e.1.2)).isSome = true :=
      (map_find_isSome_iff _ _).2 (List.mem_map_of_mem Prod.fst hm)
    obtain ⟨r, hr, hj⟩ := (find_read_list_isSome recs _ _).1 hk
    refine ⟨r, hr, ?_⟩
    unfold record_joins at hj
    unfold record_mentions
    rcases hx with hx | hx <;> rcases hj with hj | hj
    · exact Or.inl (hj.1.trans hx)
    · exact Or.inr (hj.2.trans hx)
    · exact Or.inr (hj.2.trans hx)
    · exact Or.inl (hj.1.trans hx)
  · rintro ⟨r, hr, hx⟩
    have hk : (map_find (read_list recs) (r.1, r.2.1)).isSome = true :=
      (find_read_list_isSome recs _ _).2 ⟨r, hr, Or.inl ⟨rfl, rfl⟩⟩
    cases hf : map_find (read_list recs) (r.1, r.2.1) with
    | none => rw [hf] at hk; cases hk
    | some v =>
      exact ⟨((r.1, r.2.1), v), (ho _).symm.subset (map_find_mem _ _ _ hf), hx⟩

theorem complete_find (recs : List (Nat × Nat × Nat)) (hc : complete recs) (a b : Nat)
    (ha : ∃ r ∈ recs, record_mentions r a) (hb : ∃ r ∈ recs, record_mentions r b)
    (hab : a ≠ b) : (map_find (read_list recs) (a, b)).isSome = true := by
  obtain ⟨r1, h1, m1⟩ := ha
  obtain ⟨r2, h2, m2⟩ := hb
  rw [find_read_list_isSome]
  refine hc r1 h1 r2 h2 a ?_ b ?_ hab
  · rcases m1 with m | m <;> simp [m]
  · rcases m2 with m | m <;> simp [m]

theorem getD_of_getElem? (l : List Nat) (i k : Nat) (h : l[i]? = some k) : l.getD i 0 = k := by
  rw [List.getD_eq_getElem?_getD, h]
  rfl

theorem complete_cells (order : Dists → Dists) (ho : ∀ m, (order m).Perm m)
    (recs : List (Nat × Nat × Nat)) (hc : complete recs) :
    ∃ cells, matrix_cells (read_list recs) (assign_ids (order (read_list recs))).2 = some cells := by
  cases h : matrix_cells (read_list recs) (assign_ids (order (read_list recs))).2 with
  | some cells => exact ⟨cells, rfl⟩
  | none =>
    exfalso
    obtain ⟨i, j, hi, hj, hn⟩ := matrix_cells_none _ _ h
    unfold matrix_cell at hn
    by_cases hij : i = j
    · simp [hij] at hn
    · rw [if_pos hij] at hn
      have gi := List.getElem?_eq_getElem hi
      have gj := List.getElem?_eq_getElem hj
      rw [getD_of_getElem? _ i _ gi, getD_of_getElem? _ j _ gj] at hn
      have hne : (assign_ids (order (read_list recs))).2[i] ≠
          (assign_ids (order (read_list recs))).2[j] := by
        intro e
        exact hij ((List.Nodup.getElem_inj_iff (assign_ids_inv _).1.nodup).1 e)
      have := complete_find recs hc _ _
        ((mentioned_iff order ho recs _).1 (List.getElem_mem hi))
        ((mentioned_iff order ho recs _).1 (List.getElem_mem hj)) hne
      rw [hn] at this
      cases this

end dist_matrix
end Bustrips

namespace Bustrips
namespace sample_trips3
open dist_matrix

/-! ### The accessor -/

theorem map_set_absent {K V : Type} [DecidableEq K] (m : List (K × V)) (k : K) (v : V)
    (h : map_find m k = none) : map_set m k v = m ++ [(k, v)] := by
  induction m with
  | nil => rfl
  | cons x rest ih =>
    obtain ⟨k1, v1⟩ := x
    by_cases hk : k1 = k
    · simp [map_find, hk] at h
    · simp only [map_find, hk, if_false] at h
      simp [map_set, hk, ih h]

theorem insert_ids_gen : ∀ (l : List Nat) (acc : List (Nat × Nat)) (done : List Nat),
    ids_inv (acc, done) → (done ++ l).Nodup →
    ids_inv ((l.enumFrom done.length).foldl (fun ids x => map_insert ids x.2 x.1) acc,
      done ++ l) ∧
    ((l.enumFrom done.length).foldl (fun ids x => map_insert ids x.2 x.1) acc).length =
      acc.length + l.length := by
  intro l
  induction l with
  | nil =>
    intro acc done h _
    simpa using h
  | cons x l ih =>
    intro acc done h hn
    have hx : x ∉ done := by
      intro hm
      rw [List.nodup_append] at hn
      exact hn.2.2 hm (List.mem_cons_self _ _)
    have hf : map_find acc x = none := by
      cases hf : map_find acc x with
      | none => rfl
      | some i => exact absurd (List.getElem?_mem ((h.find_iff x i).1 hf)) hx
    have hstep : map_insert acc x done.length = map_set acc x done.length := by
      rw [map_set_absent acc x _ hf]
      unfold map_insert
      rw [hf]
    have hnote : note_id (acc, done) x = (map_set acc x done.length, done ++ [x]) := by
      unfold note_id
      simp [hf]
    have hinv := (note_id_inv (acc, done) x h).1
    rw [hnote] at hinv
    have hn2 : ((done ++ [x]) ++ l).Nodup := by simpa using hn
    obtain ⟨h1, h2⟩ := ih (map_set acc x done.length) (done ++ [x]) hinv hn2
    simp only [List.enumFrom_cons, List.foldl_cons, hstep]
    have hlen : (done ++ [x]).length = done.length + 1 := by simp
    rw [hlen] at h1 h2
    refine ⟨by simpa using h1, ?_⟩
    rw [h2, map_set_absent acc x _ hf]
    simp
    omega

theorem insert_ids_inv (vids : List Nat) (h : vids.Nodup) :
    ids_inv (insert_ids vids, vids) ∧ (insert_ids vids).length = vids.length := by
  have := insert_ids_gen vids [] [] ⟨List.nodup_nil, by simp [map_find]⟩ (by simpa using h)
  simpa [insert_ids, List.enum] using this

theorem read_double_ne_not_found (m : Option (List Nat)) (k : Nat) :
    read_double m k ≠ Except.error Error.not_found := by
  unfold read_double
  cases m with
  | none => simp
  | some l =>
    simp only
    split <;> simp

theorem read_double_cells (cells : List Nat) (k v : Nat) (h : cells[k]? = some v)
    (hv : v < 2 ^ 64) : read_double (some (cells.flatMap le64)) k = Except.ok v := by
  unfold read_double
  have hk : k < cells.length := (List.getElem?_eq_some.1 h).1
  simp only [flatMap_le64_length]
  rw [if_pos (by omega), read64_flatMap_le64 cells k v h hv]

theorem get_dist_known (dists : Dists) (idl : List Nat) (st : distances)
    (h : accessor_ok dists idl st) (a b : Nat) (ha : a ∈ idl) (hb : b ∈ idl) :
    (get_dist st a b).1 = Except.ok (spec_dist dists a b) := by
  obtain ⟨i, hi⟩ := List.mem_iff_getElem?.1 ha
  obtain ⟨j, hj⟩ := List.mem_iff_getElem?.1 hb
  have hil : i < idl.length := (List.getElem?_eq_some.1 hi).1
  have hjl : j < idl.length := (List.getElem?_eq_some.1 hj).1
  obtain ⟨cells, hc, hm⟩ := h.cells
  obtain ⟨_, hget⟩ := matrix_cells_some dists idl cells hc
  obtain ⟨v, hv1, hv2⟩ := hget i j hil hjl
  have hidx : i * idl.length + j < idl.length * idl.length := by
    have : (i + 1) * idl.length ≤ idl.length * idl.length := Nat.mul_le_mul_right _ hil
    rw [Nat.succ_mul] at this
    omega
  have hmod : (i * idl.length + j) % 2 ^ 64 = i * idl.length + j :=
    Nat.mod_eq_of_lt (lt_trans hidx h.fits)
  have hspec : v = spec_dist dists a b ∧ v < 2 ^ 64 := by
    unfold matrix_cell at hv1
    unfold spec_dist
    rw [getD_of_getElem? _ i _ hi, getD_of_getElem? _ j _ hj] at hv1
    by_cases hij : i = j
    · have hab : a = b := by
        rw [hij, hj] at hi
        exact (Option.some.inj hi).symm
      simp only [hij, ne_eq, not_true_eq_false, if_false, Option.some.injEq] at hv1
      rw [if_pos hab, ← hv1]
      exact ⟨rfl, by norm_num⟩
    · have hab : a ≠ b := by
        intro e
        rw [e] at hi
        rw [List.getElem?_eq_some] at hi hj
        obtain ⟨_, hi⟩ := hi
        obtain ⟨_, hj⟩ := hj
        exact hij ((List.Nodup.getElem_inj_iff h.inv.nodup).1 (hi.trans hj.symm))
      rw [if_pos hij] at hv1
      rw [if_neg hab, hv1]
      exact ⟨rfl, h.bits _ _ hv1⟩
  unfold get_dist
  rw [(h.inv.find_iff a i).2 hi, (h.inv.find_iff b j).2 hj]
  simp only
  rw [h.n_eq, hmod, hm, read_double_cells cells _ v hv2 hspec.2, hspec.1]

theorem get_dist_unknown (dists : Dists) (idl : List Nat) (st : distances)
    (h : accessor_ok dists idl st) (a b : Nat) (hab : a ∉ idl ∨ b ∉ idl) :
    (get_dist st a b).1 = Except.error Error.not_found := by
  have hnone : ∀ x, x ∉ idl → map_find st.ids x = none := by
    intro x hx
    cases hf : map_find st.ids x with
    | none => rfl
    | some i => exact absurd (List.getElem?_mem ((h.inv.find_iff x i).1 hf)) hx
  unfold get_dist
  rcases hab with ha | hb
  · rw [hnone a ha]
  · rw [hnone b hb]
    cases map_find st.ids a <;> rfl

theorem id_count_eq (order : Dists → Dists) (ho : ∀ m, (order m).Perm m)
    (recs : List (Nat × Nat × Nat)) :
    (assign_ids (order (read_list recs))).2.length = id_count recs := by
  unfold id_count
  apply List.Perm.length_eq
  rw [List.perm_ext_iff_of_nodup (assign_ids_inv _).1.nodup (List.nodup_dedup _)]
  intro x
  rw [mentioned_iff order ho, List.mem_dedup, List.mem_flatMap]
  unfold record_mentions
  constructor
  · rintro ⟨r, hr, h⟩
    refine ⟨r, hr, ?_⟩
    rcases h with h | h <;> simp [h]
  · rintro ⟨r, hr, h⟩
    refine ⟨r, hr, ?_⟩
    simp only [List.mem_cons, List.mem_singleton, List.not_mem_nil, or_false] at h
    rcases h with h | h
    · exact Or.inl h.symm
    · exact Or.inr h.symm

/-! ### Claim C2: round trip through the matrix file -/

theorem open_dists_true_iff (s : distances) (df vids : List Nat) :
    (open_dists s df vids).1 = true ↔
      df.length = (16 + 8 * (insert_ids vids).length * (insert_ids vids).length) % 2 ^ 64 ∧
      read64 df 0 = file_id ∧ read64 df 8 = (insert_ids vids).length := by
  unfold open_dists
  simp only
  split
  · rename_i h
    simp only [Bool.false_eq_true, false_iff, not_and]
    intro h1
    exact absurd h1 h
  · rename_i h
    split
    · rename_i h2
      simp only [Bool.false_eq_true, false_iff, not_and]
      intro _ h3
      exact absurd h3 h2
    · rename_i h2
      split
      · rename_i h3
        simp only [Bool.false_eq_true, false_iff, not_and]
        intro _ _
        exact h3
      · rename_i h3
        simp only [true_iff]
        exact ⟨not_not.1 h, not_not.1 h2, not_not.1 h3⟩

theorem open_dists_true_state (s : distances) (df vids : List Nat)
    (h : (open_dists s df vids).1 = true) :
    (open_dists s df vids).2 =
      ⟨some df, some (df.drop 16), (insert_ids vids).length, df.length, insert_ids vids, true⟩ := by
  unfold open_dists at h ⊢
  simp only at h ⊢
  split
  · rename_i h1; rw [if_pos h1] at h; cases h
  · rename_i h1
    rw [if_neg h1] at h
    split
    · rename_i h2; rw [if_pos h2] at h; cases h
    · rename_i h2
      rw [if_neg h2] at h
      split
      · rename_i h3; rw [if_pos h3] at h; cases h
      · rfl

theorem open_dists_false_state (s : distances) (df vids : List Nat)
    (h : (open_dists s df vids).1 = false) :
    (open_dists s df vids).2.ids = [] ∧
    ∀ a b, (get_dist (open_dists s df vids).2 a b).1 = Except.error Error.not_found := by
  have hids : (open_dists s df vids).2.ids = [] := by
    unfold open_dists at h ⊢
    simp only at h ⊢
    split
    · rfl
    · rename_i h1
      rw [if_neg h1] at h
      split
      · rfl
      · rename_i h2
        rw [if_neg h2] at h
        split
        · rfl
        · rename_i h3
          rw [if_neg h3] at h
          cases h
  refine ⟨hids, fun a b => ?_⟩
  unfold get_dist
  rw [hids]
  rfl

theorem file_id_lt : file_id < 2 ^ 64 := by decide

theorem written_file_facts (N : Nat) (cells : List Nat) (hN : N < 2 ^ 64) :
    (le64 file_id ++ le64 N ++ cells.flatMap le64).length = 16 + 8 * cells.length ∧
    read64 (le64 file_id ++ le64 N ++ cells.flatMap le64) 0 = file_id ∧
    read64 (le64 file_id ++ le64 N ++ cells.flatMap le64) 8 = N ∧
    (le64 file_id ++ le64 N ++ cells.flatMap le64).drop 16 = cells.flatMap le64 := by
  refine ⟨?_, ?_, ?_, ?_⟩
  · simp only [List.length_append, le64_length, flatMap_le64_length]
  · rw [List.append_assoc, read64_append_left _ _ 0 (by rw [le64_length]),
      read64_le64 _ file_id_lt]
  · have := read64_append_right (le64 file_id) (le64 N ++ cells.flatMap le64) 0
    rw [le64_length] at this
    rw [List.append_assoc, this, read64_append_left _ _ 0 (by rw [le64_length]),
      read64_le64 _ hN]
  · exact List.drop_left' (by simp [le64_length])

theorem main_complete (order : Dists → Dists) (ho : ∀ m, (order m).Perm m)
    (recs : List (Nat × Nat × Nat)) (hc : complete recs) :
    ∃ cells, matrix_cells (read_list recs) (assign_ids (order (read_list recs))).2 = some cells ∧
      main order recs = Except.ok
        (le64 file_id ++ le64 (assign_ids (order (read_list recs))).2.length ++
          cells.flatMap le64, (assign_ids (order (read_list recs))).2) := by
  obtain ⟨cells, h⟩ := complete_cells order ho recs hc
  refine ⟨cells, h, ?_⟩
  unfold main
  simp only [h]

theorem read_dists_complete (order : Dists → Dists) (ho : ∀ m, (order m).Perm m)
    (s : distances) (recs : List (Nat × Nat × Nat)) (hc : complete recs) :
    ∃ cells, matrix_cells (read_list recs) (assign_ids (order (read_list recs))).2 = some cells ∧
      read_dists order s recs = Except.ok (true,
        ⟨none, some (cells.flatMap le64), (assign_ids (order (read_list recs))).2.length, 0,
          (assign_ids (order (read_list recs))).1, false⟩) := by
  obtain ⟨cells, h⟩ := complete_cells order ho recs hc
  refine ⟨cells, h, ?_⟩
  unfold read_dists
  simp only [h, clear]

/-- C2. Matrix round trip. For a distance list that covers every ordered pair of distinct
ids it mentions (doubles given by their 64-bit patterns, and the matrix file small enough
for its size to be a 64-bit number), whatever the iteration orders of the hash maps: the
writer produces a matrix file and an id list, `open_dists` on them succeeds, `read_dists`
on the same list succeeds, `get_dist(a,b)` gives the same result on the mapped accessor
and on the in-memory accessor for all ids `a`, `b`, and `get_dist(id,id)` is 0 for every
id of the list. -/
theorem matrix_round_trip (o1 o2 : Dists → Dists) (ho1 : ∀ m, (o1 m).Perm m)
    (ho2 : ∀ m, (o2 m).Perm m) (recs : List (Nat × Nat × Nat))
    (hwf : ∀ r ∈ recs, r.2.2 < 2 ^ 64) (hc : complete recs)
    (hsize : 16 + 8 * id_count recs * id_count recs < 2 ^ 64) (s1 s2 : distances) :
    ∃ file ids st1 st2,
      main o1 recs = Except.ok (file, ids) ∧
      open_dists s1 file ids = (true, st1) ∧
      read_dists o2 s2 recs = Except.ok (true, st2) ∧
      (∀ a b, (get_dist st1 a b).1 = (get_dist st2 a b).1) ∧
      (∀ id, (∃ r ∈ recs, record_mentions r id) →
        (get_dist st1 id id).1 = Except.ok 0 ∧ (get_dist st2 id id).1 = Except.ok 0) := by
  obtain ⟨cells1, hc1, hmain⟩ := main_complete o1 ho1 recs hc
  obtain ⟨cells2, hc2, hread⟩ := read_dists_complete o2 ho2 s2 recs hc
  have hN1 := id_count_eq o1 ho1 recs
  have hN2 := id_count_eq o2 ho2 recs
  have hinv1 := (assign_ids_inv (o1 (read_list recs))).1
  have hinv2 := (assign_ids_inv (o2 (read_list recs))).1
  have hsize2 : 16 + 8 * (id_count recs * id_count recs) < 2 ^ 64 := by
    rw [← Nat.mul_assoc]
    exact hsize
  have hNN : id_count recs * id_count recs < 2 ^ 64 := by omega
  have hNlt : id_count recs < 2 ^ 64 := by
    rcases Nat.eq_zero_or_pos (id_count recs) with h | h
    · rw [h]; norm_num
    · have : id_count recs * 1 ≤ id_count recs * id_count recs := Nat.mul_le_mul_left _ h
      omega
  obtain ⟨hins, hlen⟩ := insert_ids_inv _ hinv1.nodup
  obtain ⟨hcl, _⟩ := matrix_cells_some _ _ cells1 hc1
  obtain ⟨f1, f2, f3, f4⟩ := written_file_facts (assign_ids (o1 (read_list recs))).2.length
    cells1 (by rw [hN1]; exact hNlt)
  have hopen : (open_dists s1
      (le64 file_id ++ le64 (assign_ids (o1 (read_list recs))).2.length ++ cells1.flatMap le64)
      (assign_ids (o1 (read_list recs))).2).1 = true := by
    rw [open_dists_true_iff, hlen]
    refine ⟨?_, f2, f3⟩
    rw [f1, hcl, hN1, Nat.mod_eq_of_lt hsize, Nat.mul_assoc]
  have hstate := open_dists_true_state _ _ _ hopen
  rw [f4, hlen] at hstate
  have hbits := find_read_list_lt recs (2 ^ 64) hwf
  have ok1 : accessor_ok (read_list recs) (assign_ids (o1 (read_list recs))).2
      ⟨some (le64 file_id ++ le64 (assign_ids (o1 (read_list recs))).2.length ++
          cells1.flatMap le64), some (cells1.flatMap le64),
        (assign_ids (o1 (read_list recs))).2.length,
        (le64 file_id ++ le64 (assign_ids (o1 (read_list recs))).2.length ++
          cells1.flatMap le64).length,
        insert_ids (assign_ids (o1 (read_list recs))).2, true⟩ :=
    ⟨hins, rfl, by rw [hN1]; exact hNN, ⟨cells1, hc1, rfl⟩, hbits⟩
  have ok2 : accessor_ok (read_list recs) (assign_ids (o2 (read_list recs))).2
      ⟨none, some (cells2.flatMap le64), (assign_ids (o2 (read_list recs))).2.length, 0,
        (assign_ids (o2 (read_list recs))).1, false⟩ :=
    ⟨hinv2, rfl, by rw [hN2]; exact hNN, ⟨cells2, hc2, rfl⟩, hbits⟩
  refine ⟨_, _, (open_dists s1
      (le64 file_id ++ le64 (assign_ids (o1 (read_list recs))).2.length ++ cells1.flatMap le64)
      (assign_ids (o1 (read_list recs))).2).2, _, hmain, Prod.ext hopen rfl, hread, ?_, ?_⟩
  · rw [hstate]
    intro a b
    by_cases hab : (∃ r ∈ recs, record_mentions r a) ∧ (∃ r ∈ recs, record_mentions r b)
    · rw [get_dist_known _ _ _ ok1 a b ((mentioned_iff o1 ho1 recs a).2 hab.1)
          ((mentioned_iff o1 ho1 recs b).2 hab.2),
        get_dist_known _ _ _ ok2 a b ((mentioned_iff o2 ho2 recs a).2 hab.1)
          ((mentioned_iff o2 ho2 recs b).2 hab.2)]
    · have h1 : a ∉ (assign_ids (o1 (read_list recs))).2 ∨
          b ∉ (assign_ids (o1 (read_list recs))).2 := by
        by_contra hcon
        push_neg at hcon
        exact hab ⟨(mentioned_iff o1 ho1 recs a).1 hcon.1, (mentioned_iff o1 ho1 recs b).1 hcon.2⟩
      have h2 : a ∉ (assign_ids (o2 (read_list recs))).2 ∨
          b ∉ (assign_ids (o2 (read_list recs))).2 := by
        by_contra hcon
        push_neg at hcon
        exact hab ⟨(mentioned_iff o2 ho2 recs a).1 hcon.1, (mentioned_iff o2 ho2 recs b).1 hcon.2⟩
      rw [get_dist_unknown _ _ _ ok1 a b h1, get_dist_unknown _ _ _ ok2 a b h2]
  · rw [hstate]
    intro id hid
    have e1 := get_dist_known _ _ _ ok1 id id ((mentioned_iff o1 ho1 recs id).2 hid)
      ((mentioned_iff o1 ho1 recs id).2 hid)
    have e2 := get_dist_known _ _ _ ok2 id id ((mentioned_iff o2 ho2 recs id).2 hid)
      ((mentioned_iff o2 ho2 recs id).2 hid)
    simp only [spec_dist, if_true] at e1 e2
    exact ⟨e1, e2⟩

/-! ### Claims C3, C4 and C5: layout of the file, opening, queries -/

theorem insert_record_find (acc : Dists) (r : Nat × Nat × Nat) (a b : Nat) :
    map_find (insert_record acc r) (a, b) =
      (map_find acc (a, b)).orElse
        (fun _ => if record_joins r a b then some r.2.2 else none) := by
  unfold insert_record
  rw [map_find_insert, map_find_insert]
  cases hf : map_find acc (a, b) with
  | some x => rfl
  | none =>
    by_cases h1 : (r.1, r.2.1) = (a, b)
    · have hj : record_joins r a b := Or.inl ⟨(Prod.mk.inj h1).1, (Prod.mk.inj h1).2⟩
      rw [if_pos h1, if_pos hj]
      rfl
    · by_cases h2 : (r.2.1, r.1) = (a, b)
      · have hj : record_joins r a b := Or.inr ⟨(Prod.mk.inj h2).2, (Prod.mk.inj h2).1⟩
        rw [if_neg h1, if_pos h2, if_pos hj]
        rfl
      · have hj : ¬ record_joins r a b := by
          rintro (h | h)
          · exact h1 (by rw [h.1, h.2])
          · exact h2 (by rw [h.1, h.2])
        rw [if_neg h1, if_neg h2, if_neg hj]
        rfl

theorem find_foldl_first (a b : Nat) : ∀ (recs : List (Nat × Nat × Nat)) (acc : Dists),
    map_find (recs.foldl insert_record acc) (a, b) =
      (map_find acc (a, b)).orElse (fun _ => stored recs a b) := by
  intro recs
  induction recs with
  | nil =>
    intro acc
    simp only [List.foldl_nil]
    cases map_find acc (a, b) <;> rfl
  | cons r recs ih =>
    intro acc
    rw [List.foldl_cons, ih, insert_record_find]
    cases hf : map_find acc (a, b) with
    | some x => rfl
    | none =>
      by_cases hj : record_joins r a b
      · have hs : stored (r :: recs) a b = some r.2.2 := by
          simp [stored, List.find?, hj]
        rw [if_pos hj, hs]
        rfl
      · have hs : stored (r :: recs) a b = stored recs a b := by
          simp [stored, List.find?, hj]
        rw [if_neg hj, hs]
        rfl

theorem find_read_list_eq_first (recs : List (Nat × Nat × Nat)) (a b : Nat) :
    map_find (read_list recs) (a, b) = stored recs a b := by
  unfold read_list
  rw [find_foldl_first]
  rfl

/-- C3. For a distance list that covers every ordered pair of distinct ids it mentions,
and whatever the iteration order of the hash map, the writer ends normally; its id list
`ids` names each id of the list once; and the matrix file is exactly the 8 bytes of the
magic number 0x47a9b290e72d9f21, the 8 bytes of the count `N = ids.length`, and the
8-byte patterns of `N * N` doubles, where the double at position `i * N + j` is 0.0 when
`i = j` (whatever the list says about that id and itself) and otherwise the distance the
list stores for the i-th and the j-th id. -/
theorem writer_output (order : Dists → Dists) (ho : ∀ m, (order m).Perm m)
    (recs : List (Nat × Nat × Nat)) (hc : complete recs) :
    ∃ (ids : List Nat) (cells : List Nat),
      main order recs =
        Except.ok (le64 file_id ++ le64 ids.length ++ cells.flatMap le64, ids) ∧
      ids.Nodup ∧ (∀ x, x ∈ ids ↔ ∃ r ∈ recs, record_mentions r x) ∧
      cells.length = ids.length * ids.length ∧
      (le64 file_id ++ le64 ids.length ++ cells.flatMap le64).length =
        16 + 8 * (ids.length * ids.length) ∧
      ∀ i j, i < ids.length → j < ids.length →
        (i = j → cells[i * ids.length + j]? = some 0) ∧
        (i ≠ j → ∃ d, stored recs (ids.getD i 0) (ids.getD j 0) = some d ∧
          cells[i * ids.length + j]? = some d) := by
  obtain ⟨cells, hcells, hmain⟩ := main_complete order ho recs hc
  obtain ⟨hlen, hget⟩ := matrix_cells_some _ _ cells hcells
  refine ⟨_, cells, hmain, (assign_ids_inv _).1.nodup, mentioned_iff order ho recs, hlen,
    by simp only [List.length_append, le64_length, flatMap_le64_length, hlen], ?_⟩
  intro i j hi hj
  obtain ⟨v, hv1, hv2⟩ := hget i j hi hj
  unfold matrix_cell at hv1
  constructor
  · intro e
    rw [if_neg (not_not.2 e)] at hv1
    rw [hv2, ← Option.some.inj hv1]
  · intro e
    rw [if_pos e, find_read_list_eq_first] at hv1
    exact ⟨v, hv1, hv2⟩

/-- Witness of C3 on the list (10,20,3), (10,30,4), (20,30,5), (10,10,9), the hash map
being iterated in insertion order. -/
theorem writer_output_witness :
    main id [(10, 20, 3), (10, 30, 4), (20, 30, 5), (10, 10, 9)] =
      Except.ok (le64 file_id ++ le64 3 ++ [0, 3, 4, 3, 0, 5, 4, 5, 0].flatMap le64,
        [10, 20, 30]) ∧
    ∃ (ids : List Nat) (cells : List Nat),
      main id [(10, 20, 3), (10, 30, 4), (20, 30, 5), (10, 10, 9)] =
        Except.ok (le64 file_id ++ le64 ids.length ++ cells.flatMap le64, ids) ∧
      ids.Nodup ∧
      (∀ x, x ∈ ids ↔
        ∃ r ∈ [((10 : Nat), (20 : Nat), (3 : Nat)), (10, 30, 4), (20, 30, 5), (10, 10, 9)],
          record_mentions r x) ∧
      cells.length = ids.length * ids.length ∧
      (le64 file_id ++ le64 ids.length ++ cells.flatMap le64).length =
        16 + 8 * (ids.length * ids.length) ∧
      ∀ i j, i < ids.length → j < ids.length →
        (i = j → cells[i * ids.length + j]? = some 0) ∧
        (i ≠ j → ∃ d, stored [(10, 20, 3), (10, 30, 4), (20, 30, 5), (10, 10, 9)]
            (ids.getD i 0) (ids.getD j 0) = some d ∧
          cells[i * ids.length + j]? = some d) :=
  ⟨by rfl,
   writer_output id (fun m => List.Perm.refl m)
     [(10, 20, 3), (10, 30, 4), (20, 30, 5), (10, 10, 9)] (by decide)⟩

/-- Witness of C2 on the list (10,20,3), (10,30,4), (20,30,5), the writer iterating its
hash map in insertion order and `read_dists` in the opposite order. -/
theorem matrix_round_trip_witness :
    ∃ file ids st1 st2,
      main id [(10, 20, 3), (10, 30, 4), (20, 30, 5)] = Except.ok (file, ids) ∧
      open_dists distances.new file ids = (true, st1) ∧
      read_dists List.reverse distances.new [(10, 20, 3), (10, 30, 4), (20, 30, 5)] =
        Except.ok (true, st2) ∧
      (∀ a b, (get_dist st1 a b).1 = (get_dist st2 a b).1) ∧
      (∀ id, (∃ r ∈ [((10 : Nat), (20 : Nat), (3 : Nat)), (10, 30, 4), (20, 30, 5)],
          record_mentions r id) →
        (get_dist st1 id id).1 = Except.ok 0 ∧ (get_dist st2 id id).1 = Except.ok 0) :=
  matrix_round_trip id List.reverse (fun m => List.Perm.refl m) (fun m => List.reverse_perm m)
    [(10, 20, 3), (10, 30, 4), (20, 30, 5)] (by decide) (by decide) (by decide)
    distances.new distances.new

/-- C4, the code at the failing input. The id file holds the id 5 twice and the matrix
file declares the count 1 (magic number, count 1, one double): `open_dists` succeeds,
although the declared count 1 is not the length 2 of the id list. -/
theorem open_dists_accepts_repeated_id :
    (open_dists distances.new (le64 file_id ++ le64 1 ++ le64 0) [5, 5]).1 = true ∧
    read64 (le64 file_id ++ le64 1 ++ le64 0) 8 = 1 ∧ ([5, 5] : List Nat).length = 2 := by
  decide

theorem open_dists_iff_of_nodup (s : distances) (df vids : List Nat) (hn : vids.Nodup)
    (hsize : 16 + 8 * vids.length * vids.length < 2 ^ 64) :
    (open_dists s df vids).1 = true ↔
      read64 df 0 = file_id ∧ read64 df 8 = vids.length ∧
      df.length = 16 + 8 * vids.length * vids.length := by
  rw [open_dists_true_iff, (insert_ids_inv vids hn).2, Nat.mod_eq_of_lt hsize]
  constructor
  · rintro ⟨h1, h2, h3⟩
    exact ⟨h2, h3, h1⟩
  · rintro ⟨h1, h2, h3⟩
    exact ⟨h3, h1, h2⟩

/-- C5. For any state of the accessor, `get_dist(a,b)` fails with the not-found error
exactly when `a` or `b` is not a key of the dictionary `ids`; otherwise it is the read of
`matrix[ids(a)*n + ids(b)]` (the index being computed in 64-bit arithmetic); and the state
of the accessor is left as it was. -/
theorem get_dist_spec (s : distances) (a b : Nat) :
    ((get_dist s a b).1 = Except.error Error.not_found ↔
      (map_find s.ids a = none ∨ map_find s.ids b = none)) ∧
    (∀ ia ib, map_find s.ids a = some ia → map_find s.ids b = some ib →
      (get_dist s a b).1 = read_double s.matrix ((ia * s.n + ib) % 2 ^ 64) ∧
      (ia * s.n + ib < 2 ^ 64 → (get_dist s a b).1 = read_double s.matrix (ia * s.n + ib))) ∧
    (get_dist s a b).2 = s := by
  unfold get_dist
  cases ha : map_find s.ids a with
  | none => simp
  | some ia =>
    cases hb : map_find s.ids b with
    | none => simp
    | some ib =>
      dsimp only
      refine ⟨⟨fun h => absurd h (read_double_ne_not_found _ _), fun h => ?_⟩, ?_, rfl⟩
      · rcases h with h | h <;> cases h
      · intro ia2 ib2 e1 e2
        cases e1
        cases e2
        exact ⟨rfl, fun h => by rw [Nat.mod_eq_of_lt h]⟩

/-- Witness of C5 on the accessor opened on a 2 x 2 matrix for the ids 7 and 9: a known
pair is read from the matrix, an unknown id gives the not-found error. -/
theorem get_dist_spec_witness :
    (get_dist (open_dists distances.new
        (le64 file_id ++ le64 2 ++ [0, 11, 11, 0].flatMap le64) [7, 9]).2 7 9).1 =
      Except.ok 11 ∧
    (get_dist (open_dists distances.new
        (le64 file_id ++ le64 2 ++ [0, 11, 11, 0].flatMap le64) [7, 9]).2 7 8).1 =
      Except.error Error.not_found ∧
    (get_dist (open_dists distances.new
        (le64 file_id ++ le64 2 ++ [0, 11, 11, 0].flatMap le64) [7, 9]).2 7 9).2 =
      (open_dists distances.new
        (le64 file_id ++ le64 2 ++ [0, 11, 11, 0].flatMap le64) [7, 9]).2 :=
  ⟨by rfl, by rfl,
   (get_dist_spec (open_dists distances.new
        (le64 file_id ++ le64 2 ++ [0, 11, 11, 0].flatMap le64) [7, 9]).2 7 9).2.2⟩

end sample_trips3
end Bustrips

namespace Bustrips
namespace nodes_distances

/-! ### The queue invariant on any graph -/

theorem search_step_shape (n : Graph) (w : ℚ) (nodes_points : Points) (npoints : Nat)
    (xs : List (Nat × ℚ)) (early : Bool) (st : SearchState) (it : node) (q1 : List node)
    (hq : st.q = it :: q1) :
    search_step n w nodes_points npoints xs early st =
        Step.done (after_loop npoints (extracted_state nodes_points xs st it q1)) ∨
    (relax w it.node_id it.d it.real_d (adj n it.node_id) (q1, st.node_distances) = none ∧
      search_step n w nodes_points npoints xs early st =
        Step.done ⟨Status.queue_error, extracted_state nodes_points xs st it q1⟩) ∨
    (∃ s, relax w it.node_id it.d it.real_d (adj n it.node_id) (q1, st.node_distances) =
        some s ∧
      search_step n w nodes_points npoints xs early st =
        Step.next (relaxed_state nodes_points xs st it s)) := by
  by_cases hb : (early && decide (st.found + (points_at nodes_points it.node_id).length
      = npoints)) = true
  · left
    simp only [search_step, hq, hb, if_true, extracted_state]
  · right
    cases hr : relax w it.node_id it.d it.real_d (adj n it.node_id) (q1, st.node_distances) with
    | none =>
      left
      refine ⟨rfl, ?_⟩
      simp only [search_step, hq, hb, hr, extracted_state]
      rfl
    | some s =>
      right
      refine ⟨s, rfl, ?_⟩
      simp only [search_step, hq, hb, hr, relaxed_state]
      rfl

theorem search_step_empty (n : Graph) (w : ℚ) (nodes_points : Points) (npoints : Nat)
    (xs : List (Nat × ℚ)) (early : Bool) (st : SearchState) (hq : st.q = []) :
    search_step n w nodes_points npoints xs early st = Step.done (after_loop npoints st) := by
  simp only [search_step, hq]

theorem after_loop_st (npoints : Nat) (st : SearchState) : (after_loop npoints st).st = st :=
  (after_loop_cases npoints st).1

theorem queue_inv_extract (U : List Nat) (it : node) (q1 : List node) (nd : List (Nat × ℚ))
    (E : List Nat) (h : queue_inv U (it :: q1) nd E) :
    queue_inv U q1 nd (E ++ [it.node_id]) := by
  have hit : it ∈ it :: q1 := List.mem_cons_self _ _
  have hsub : ∀ e ∈ q1, e ∈ it :: q1 := fun e he => List.mem_cons_of_mem _ he
  have hnd := h.q_nodup
  rw [List.map_cons, List.nodup_cons] at hnd
  refine ⟨(List.pairwise_cons.1 h.sorted).2, hnd.2, fun e he => h.q_nd e (hsub e he), ?_, ?_,
    ?_, ?_, h.univ⟩
  · rw [List.nodup_append]
    refine ⟨h.e_nodup, by simp, ?_⟩
    intro a ha hb
    rw [List.mem_singleton] at hb
    subst hb
    exact h.disj it hit ha
  · intro e he hm
    rw [List.mem_append] at hm
    rcases hm with hm | hm
    · exact h.disj e (hsub e he) hm
    · rw [List.mem_singleton] at hm
      exact hnd.1 (hm ▸ List.mem_map_of_mem node.node_id he)
  · intro k hk
    rcases h.seen k hk with h1 | h1
    · exact Or.inl (List.mem_append_left _ h1)
    · rw [List.map_cons, List.mem_cons] at h1
      rcases h1 with h1 | h1
      · exact Or.inl (by rw [h1]; simp)
      · exact Or.inr h1
  · intro k hk
    rw [List.mem_append] at hk
    rcases hk with hk | hk
    · exact h.e_seen k hk
    · rw [List.mem_singleton] at hk
      rw [hk, h.q_nd it hit]
      rfl

theorem relax_queue_inv (U : List Nat) (w : ℚ) (current : Nat) (d real_d : ℚ)
    (E : List Nat) : ∀ (xs : List (Nat × edge_info)) (q : List node) (nd : List (Nat × ℚ))
    (s : List node × List (Nat × ℚ)), queue_inv U q nd E → (∀ x ∈ xs, x.1 ∈ U) →
    relax w current d real_d xs (q, nd) = some s → queue_inv U s.1 s.2 E := by
  intro xs
  induction xs with
  | nil =>
    intro q nd s h _ hr
    simp only [relax, Option.some.injEq] at hr
    rw [← hr]
    exact h
  | cons x xs ih =>
    intro q nd s h hx hr
    simp only [relax] at hr
    cases he : relax_edge w current d real_d (q, nd) x with
    | none => rw [he] at hr; cases hr
    | some s1 =>
      rw [he] at hr
      obtain ⟨hcase, hsorted⟩ := relax_edge_some U w current d real_d q nd E x s1 h he
      have h1 := relax_case_queue_inv U w current d real_d q nd E x s1.1 s1.2 h
        (hx x (List.mem_cons_self _ _)) hsorted hcase
      exact ih s1.1 s1.2 s h1 (fun y hy => hx y (List.mem_cons_of_mem _ hy)) hr

theorem struct_inv_init (n : Graph) (S : Nat) : struct_inv n S (init_state S) := by
  unfold struct_inv
  refine ⟨?_, ?_, ?_, ?_, ?_, ?_, ?_, ?_⟩ <;> simp [init_state, sorted, map_find]

theorem struct_inv_extracted (n : Graph) (S : Nat) (nodes_points : Points)
    (xs : List (Nat × ℚ)) (st : SearchState) (it : node) (q1 : List node)
    (h : struct_inv n S st) (hq : st.q = it :: q1) :
    struct_inv n S (extracted_state nodes_points xs st it q1) := by
  unfold struct_inv at h ⊢
  rw [hq] at h
  have := queue_inv_extract _ it q1 _ _ h
  simpa [extracted_state] using this

theorem search_step_struct (n : Graph) (w : ℚ) (S : Nat) (nodes_points : Points)
    (npoints : Nat) (xs : List (Nat × ℚ)) (early : Bool) (st : SearchState)
    (h : struct_inv n S st) :
    struct_inv n S (step_state (search_step n w nodes_points npoints xs early st)) := by
  cases hq : st.q with
  | nil =>
    rw [search_step_empty n w nodes_points npoints xs early st hq]
    simp only [step_state, after_loop_st]
    exact h
  | cons it q1 =>
    have hex := struct_inv_extracted n S nodes_points xs st it q1 h hq
    rcases search_step_shape n w nodes_points npoints xs early st it q1 hq with
      h1 | ⟨_, h1⟩ | ⟨s, hs, h1⟩
    · rw [h1]
      simp only [step_state, after_loop_st]
      exact hex
    · rw [h1]
      exact hex
    · rw [h1]
      unfold struct_inv at hex ⊢
      have := relax_queue_inv _ w it.node_id it.d it.real_d _ (adj n it.node_id) q1
        st.node_distances s (by simpa [extracted_state] using hex)
        (fun x hx => List.mem_cons_of_mem _ (adj_neighbor n _ x hx)) hs
      simpa [step_state, relaxed_state] using this

theorem search_loop_struct (n : Graph) (w : ℚ) (S : Nat) (nodes_points : Points)
    (npoints : Nat) (xs : List (Nat × ℚ)) (early : Bool) :
    ∀ (fuel : Nat) (st : SearchState), struct_inv n S st →
      struct_inv n S (search_loop n w nodes_points npoints xs early fuel st).st := by
  intro fuel
  induction fuel with
  | zero => intro st h; exact h
  | succ fuel ih =>
    intro st h
    have hs := search_step_struct n w S nodes_points npoints xs early st h
    simp only [search_loop]
    cases hstep : search_step n w nodes_points npoints xs early st with
    | done r =>
      rw [hstep] at hs
      exact hs
    | next st1 =>
      rw [hstep] at hs
      exact ih st1 hs

theorem after_passes_struct (n : Graph) (w : ℚ) (nodes_points : Points) (early : Bool)
    (x : Nat × List (Nat × ℚ)) (k : Nat) :
    struct_inv n x.1 (after_passes n w nodes_points early x k).st :=
  search_loop_struct n w x.1 nodes_points _ x.2 early k _ (struct_inv_init n x.1)

/-! ### Claims C15 and C17: the frontier and the records of a pass -/

theorem frontier_of_queue_inv (U : List Nat) (q : List node) (nd : List (Nat × ℚ))
    (E : List Nat) (h : queue_inv U q nd E) : frontier_inv q nd := by
  refine ⟨h.q_nodup, h.q_nd, fun e he => ?_⟩
  rw [← map_find_isSome_iff, h.q_nd e he]
  rfl

theorem queue_inv_of_frontier (q : List node) (nd : List (Nat × ℚ)) (k : Nat)
    (hs : sorted q) (h : frontier_inv q nd) :
    queue_inv (k :: map_keys nd) q nd
      ((map_keys nd).dedup.filter (fun i => decide (i ∉ q.map node.node_id))) := by
  refine ⟨hs, h.one_entry, h.same_d, ?_, ?_, ?_, ?_, ?_⟩
  · exact (List.nodup_dedup _).filter _
  · intro e he hm
    rw [List.mem_filter, decide_eq_true_eq] at hm
    exact hm.2 (List.mem_map_of_mem _ he)
  · intro i hi
    rw [map_find_isSome_iff] at hi
    by_cases hq : i ∈ q.map node.node_id
    · exact Or.inr hq
    · left
      rw [List.mem_filter, decide_eq_true_eq]
      exact ⟨List.mem_dedup.2 hi, hq⟩
  · intro i hi
    rw [List.mem_filter] at hi
    rw [map_find_isSome_iff]
    exact List.mem_dedup.1 hi.1
  · intro i hi
    rw [map_find_isSome_iff] at hi
    exact List.mem_cons_of_mem _ hi

theorem relax_edge_frontier (w : ℚ) (current : Nat) (d real_d : ℚ) (q : List node)
    (nd : List (Nat × ℚ)) (x : Nat × edge_info) (s : List node × List (Nat × ℚ))
    (hs : sorted q) (h : frontier_inv q nd)
    (hr : relax_edge w current d real_d (q, nd) x = some s) :
    sorted s.1 ∧ frontier_inv s.1 s.2 := by
  have hq := queue_inv_of_frontier q nd x.1 hs h
  obtain ⟨hcase, hsorted⟩ := relax_edge_some _ w current d real_d q nd _ x s hq hr
  exact ⟨hsorted, frontier_of_queue_inv _ _ _ _
    (relax_case_queue_inv _ w current d real_d q nd _ x s.1 s.2 hq (List.mem_cons_self _ _)
      hsorted hcase)⟩

theorem relax_frontier (w : ℚ) (current : Nat) (d real_d : ℚ) :
    ∀ (xs : List (Nat × edge_info)) (q : List node) (nd : List (Nat × ℚ))
      (s : List node × List (Nat × ℚ)), sorted q → frontier_inv q nd →
      relax w current d real_d xs (q, nd) = some s → sorted s.1 ∧ frontier_inv s.1 s.2 := by
  intro xs
  induction xs with
  | nil =>
    intro q nd s hs h hr
    simp only [relax, Option.some.injEq] at hr
    rw [← hr]
    exact ⟨hs, h⟩
  | cons x xs ih =>
    intro q nd s hs h hr
    simp only [relax] at hr
    cases he : relax_edge w current d real_d (q, nd) x with
    | none => rw [he] at hr; cases hr
    | some s1 =>
      rw [he] at hr
      obtain ⟨h1, h2⟩ := relax_edge_frontier w current d real_d q nd x s1 hs h he
      exact ih s1.1 s1.2 s h1 h2 hr

theorem frontier_extract (it : node) (q1 : List node) (nd : List (Nat × ℚ))
    (h : frontier_inv (it :: q1) nd) : frontier_inv q1 nd := by
  have hn := h.one_entry
  rw [List.map_cons, List.nodup_cons] at hn
  exact ⟨hn.2, fun e he => h.same_d e (List.mem_cons_of_mem _ he),
    fun e he => h.is_key e (List.mem_cons_of_mem _ he)⟩

theorem sorted_tail (it : node) (q1 : List node) (h : sorted (it :: q1)) : sorted q1 :=
  (List.pairwise_cons.1 h).2

theorem emit_eq_pairs (xs ys : List (Nat × ℚ)) (d real_d : ℚ) :
    emit xs ys d real_d =
      ((point_pairs xs ys).filter (fun pq => decide (pq.1.1 < pq.2.1))).map
        (fun pq => ⟨pq.1.1, pq.2.1, d, real_d, pq.1.2, pq.2.2⟩) := by
  unfold emit point_pairs
  induction xs with
  | nil => rfl
  | cons p xs ih =>
    rw [List.flatMap_cons, List.flatMap_cons, List.filter_append, List.map_append, ih,
      List.filter_map, List.map_map]
    rfl

theorem step_state_extract (n : Graph) (w : ℚ) (nodes_points : Points) (npoints : Nat)
    (xs : List (Nat × ℚ)) (early : Bool) (st : SearchState) (it : node) (q1 : List node)
    (hq : st.q = it :: q1) :
    (step_state (search_step n w nodes_points npoints xs early st)).out =
      st.out ++ emit xs (points_at nodes_points it.node_id) it.d it.real_d ∧
    (step_state (search_step n w nodes_points npoints xs early st)).found =
      st.found + (points_at nodes_points it.node_id).length ∧
    (step_state (search_step n w nodes_points npoints xs early st)).trace =
      st.trace ++ [it] := by
  rcases search_step_shape n w nodes_points npoints xs early st it q1 hq with
    h1 | ⟨_, h1⟩ | ⟨s, _, h1⟩
  · rw [h1]
    simp only [step_state, after_loop_st]
    exact ⟨rfl, rfl, rfl⟩
  · rw [h1]
    exact ⟨rfl, rfl, rfl⟩
  · rw [h1]
    exact ⟨rfl, rfl, rfl⟩

/-- C15. In every search, on any graph, the frontier invariant (at most one queue entry
per node id; every entry carries the value of `node_distances` for its node; every queued
node is a key of `node_distances`) holds at the loop test after any number of passes, and
inside a pass after the relaxation of any number of the neighbors of the extracted node.
It is preserved by the extraction of the first entry and by the body of the relaxation
loop, which inserts the entry of a node not seen before, and, for a node seen at a
larger distance, erases its entry and inserts the new one. -/
theorem frontier_invariant (n : Graph) (w : ℚ) (nodes_points : Points) (early : Bool)
    (x : Nat × List (Nat × ℚ)) :
    (∀ k, frontier_inv (after_passes n w nodes_points early x k).st.q
      (after_passes n w nodes_points early x k).st.node_distances) ∧
    (∀ k it q1 j s, (after_passes n w nodes_points early x k).st.q = it :: q1 →
      relax w it.node_id it.d it.real_d ((adj n it.node_id).take j)
        (q1, (after_passes n w nodes_points early x k).st.node_distances) = some s →
      frontier_inv s.1 s.2) ∧
    (∀ it q1 nd, frontier_inv (it :: q1) nd → frontier_inv q1 nd) ∧
    (∀ current d real_d q nd e s, sorted q → frontier_inv q nd →
      relax_edge w current d real_d (q, nd) e = some s → sorted s.1 ∧ frontier_inv s.1 s.2) ∧
    (∀ current d real_d q nd e, map_find nd e.1 = none →
      relax_edge w current d real_d (q, nd) e =
        some (set_insert (relax_entry w current d real_d e) q,
          nd ++ [(e.1, relax_d1 w d e)])) ∧
    (∀ current d real_d q nd e old, map_find nd e.1 = some old → relax_d1 w d e < old →
      (set_erase ⟨old, 0, e.1, 0⟩ q).2 = 1 →
      relax_edge w current d real_d (q, nd) e =
        some (set_insert (relax_entry w current d real_d e) (set_erase ⟨old, 0, e.1, 0⟩ q).1,
          map_set nd e.1 (relax_d1 w d e))) := by
  have hall : ∀ k, queue_inv (x.1 :: all_neighbors n)
      (after_passes n w nodes_points early x k).st.q
      (after_passes n w nodes_points early x k).st.node_distances
      ((after_passes n w nodes_points early x k).st.trace.map node.node_id) :=
    fun k => after_passes_struct n w nodes_points early x k
  refine ⟨fun k => frontier_of_queue_inv _ _ _ _ (hall k), ?_, frontier_extract, ?_, ?_, ?_⟩
  · intro k it q1 j s hq hr
    have h1 := hall k
    rw [hq] at h1
    have hf := frontier_extract it q1 _ (frontier_of_queue_inv _ _ _ _ h1)
    exact (relax_frontier w it.node_id it.d it.real_d _ q1 _ s (sorted_tail it q1 h1.sorted)
      hf hr).2
  · intro current d real_d q nd e s hs h hr
    exact relax_edge_frontier w current d real_d q nd e s hs h hr
  · intro current d real_d q nd e hf
    rw [relax_edge_eq]
    simp only [hf]
  · intro current d real_d q nd e old hf hlt he
    rw [relax_edge_eq]
    simp only [hf, hlt, he, if_true, ne_eq, not_true_eq_false, if_false]

/-- C17. When the pass of the loop of the search with start points `xs` takes the entry
`it` from the queue, the lines written by that pass are those of `emit`, the found counter
grows by the number of points of the node of `it`, and `emit` writes, in loop order, one
record (p.id, q.id, d, rd, p.offset, q.offset) for each pair of a point `p` of the start
node and a point `q` of the extracted node with `p.id < q.id`: nothing when the extracted
node has no point. -/
theorem extraction_records (n : Graph) (w : ℚ) (nodes_points : Points) (npoints : Nat)
    (xs : List (Nat × ℚ)) (early : Bool) (st : SearchState) (it : node) (q1 : List node)
    (hq : st.q = it :: q1) :
    (step_state (search_step n w nodes_points npoints xs early st)).out =
      st.out ++ emit xs (points_at nodes_points it.node_id) it.d it.real_d ∧
    (step_state (search_step n w nodes_points npoints xs early st)).found =
      st.found + (points_at nodes_points it.node_id).length ∧
    emit xs (points_at nodes_points it.node_id) it.d it.real_d =
      ((point_pairs xs (points_at nodes_points it.node_id)).filter
        (fun pq => decide (pq.1.1 < pq.2.1))).map
        (fun pq => ⟨pq.1.1, pq.2.1, it.d, it.real_d, pq.1.2, pq.2.2⟩) ∧
    (∀ pq, pq ∈ point_pairs xs (points_at nodes_points it.node_id) ↔
      pq.1 ∈ xs ∧ pq.2 ∈ points_at nodes_points it.node_id) ∧
    (map_find nodes_points it.node_id = none → points_at nodes_points it.node_id = []) ∧
    (points_at nodes_points it.node_id = [] →
      (step_state (search_step n w nodes_points npoints xs early st)).out = st.out ∧
      (step_state (search_step n w nodes_points npoints xs early st)).found = st.found) := by
  obtain ⟨h1, h2, _⟩ := step_state_extract n w nodes_points npoints xs early st it q1 hq
  refine ⟨h1, h2, emit_eq_pairs _ _ _ _, ?_, ?_, ?_⟩
  · intro pq
    unfold point_pairs
    simp only [List.mem_flatMap, List.mem_map]
    constructor
    · rintro ⟨p, hp, q, hq, e⟩
      subst e
      exact ⟨hp, hq⟩
    · rintro ⟨hp, hq⟩
      exact ⟨pq.1, hp, pq.2, hq, rfl⟩
  · intro h
    unfold points_at
    rw [h]
    rfl
  · intro h
    rw [h1, h2, h, emit_nil]
    simp

/-! ### Claim C16: the decrease-key branch -/

theorem end_ok_status (n : Graph) (w : ℚ) (S : Nat) (nodes_points : Points)
    (xs : List (Nat × ℚ)) (npoints : Nat) (early : Bool) (r : SearchEnd)
    (h : end_ok n w S nodes_points xs npoints early r) :
    r.status = Status.ok ∨ r.status = Status.not_all_found := by
  rcases h.2.1 with h1 | h1
  · exact Or.inl h1.1
  · exact Or.inr h1.1

theorem search_loop_running (n : Graph) (w : ℚ) (S : Nat) (nodes_points : Points)
    (npoints : Nat) (xs : List (Nat × ℚ)) (early : Bool) (hk : adj_keys_distinct n)
    (hwn : weights_nonneg n w) :
    ∀ (fuel : Nat) (st : SearchState), head_inv n w S nodes_points xs st →
      (search_loop n w nodes_points npoints xs early fuel st).status ≠ Status.queue_error ∧
      ((search_loop n w nodes_points npoints xs early fuel st).status = Status.out_of_fuel →
        head_inv n w S nodes_points xs
          (search_loop n w nodes_points npoints xs early fuel st).st) := by
  intro fuel
  induction fuel with
  | zero =>
    intro st h
    exact ⟨by simp [search_loop], fun _ => h⟩
  | succ fuel ih =>
    intro st h
    simp only [search_loop]
    cases hs : search_step n w nodes_points npoints xs early st with
    | done r =>
      have := end_ok_status _ _ _ _ _ _ _ _
        (search_step_done n w S nodes_points npoints xs early st r hk hwn h hs)
      simp only
      constructor
      · rcases this with e | e <;> rw [e] <;> simp
      · intro e2
        rcases this with e | e <;> rw [e] at e2 <;> cases e2
    | next st1 =>
      exact ih st1 (search_step_next n w S nodes_points npoints xs early st st1 hk hwn h hs).1

theorem head_inv_relax (n : Graph) (w : ℚ) (S : Nat) (nodes_points : Points)
    (xs : List (Nat × ℚ)) (st : SearchState) (it : node) (q1 : List node)
    (hk : adj_keys_distinct n) (hwn : weights_nonneg n w)
    (h : head_inv n w S nodes_points xs st) (hq : st.q = it :: q1) :
    ∃ s, relax w it.node_id it.d it.real_d (adj n it.node_id) (q1, st.node_distances) =
      some s := by
  cases search_step_spec n w S nodes_points 0 xs false st hk hwn h with
  | empty h1 h2 => rw [hq] at h1; cases h1
  | stop it1 q2 h1 h2 h3 h4 h5 => cases h3
  | go it1 q2 s h1 h2 h3 h4 h5 h6 =>
    rw [hq] at h1
    cases h1
    exact ⟨s, h4⟩

/-- C16. On a graph whose adjacencies are maps, with all edge distances at least 0 and a
factor above 0, no search ends with the error "node not found in the queue": not the
search of the program, not the search without the early exit (which relaxes the
neighbors of every extracted node), and not after any number of passes; and whenever a
pass of a running search relaxes the neighbors of the extracted node, every erase of the
decrease-key branch finds its target, so that the relaxation loop runs to its end. -/
theorem queue_error_unreachable (n : Graph) (w : ℚ) (nodes_points : Points)
    (x : Nat × List (Nat × ℚ)) (hk : adj_keys_distinct n) (hn : dist_nonneg n) (hw : 0 < w) :
    (search n w nodes_points x).status ≠ Status.queue_error ∧
    (search_drain n w nodes_points x).status ≠ Status.queue_error ∧
    (∀ early k, (after_passes n w nodes_points early x k).status ≠ Status.queue_error) ∧
    (∀ early k it q1,
      (after_passes n w nodes_points early x k).status = Status.out_of_fuel →
      (after_passes n w nodes_points early x k).st.q = it :: q1 →
      ∃ s, relax w it.node_id it.d it.real_d (adj n it.node_id)
        (q1, (after_passes n w nodes_points early x k).st.node_distances) = some s) := by
  have hwn := weights_nonneg_of_pos n w hn hw
  have hrun := fun early => search_loop_running n w x.1 nodes_points
    (count_points nodes_points) x.2 early hk hwn
  refine ⟨?_, ?_, ?_, ?_⟩
  · exact (hrun true _ _ (head_inv_init n w x.1 nodes_points x.2)).1
  · exact (hrun false _ _ (head_inv_init n w x.1 nodes_points x.2)).1
  · exact fun early k => (hrun early k _ (head_inv_init n w x.1 nodes_points x.2)).1
  · intro early k it q1 hst hq
    have h := (hrun early k _ (head_inv_init n w x.1 nodes_points x.2)).2 hst
    exact head_inv_relax n w x.1 nodes_points x.2 _ it q1 hk hwn h hq

/-! ### Claims C11 and C19: improved edges and the symmetry of the graph -/

theorem mark_improved_none_iff (n : Graph) (a b : Nat) :
    mark_improved n (a, b) = none ↔
      map_find n a = none ∨ map_find n b = none ∨
        find_edge n a b = none ∨ find_edge n b a = none := by
  unfold mark_improved find_edge
  simp only [Bool.or_eq_true, Option.isNone_iff_eq_none]
  by_cases h1 : map_find n a = none ∨ map_find n b = none
  · rw [if_pos h1]
    simp only [true_iff]
    rcases h1 with h1 | h1
    · exact Or.inl h1
    · exact Or.inr (Or.inl h1)
  · rw [if_neg h1]
    by_cases h2 : map_find (adj n a) b = none ∨ map_find (adj n b) a = none
    · rw [if_pos h2]
      simp only [true_iff]
      exact Or.inr (Or.inr h2)
    · rw [if_neg h2]
      simp only [reduceCtorEq, false_iff]
      rintro (h | h | h)
      · exact h1 (Or.inl h)
      · exact h1 (Or.inr h)
      · exact h2 h

theorem mark_all_append (l1 l2 : List (Nat × Nat)) : ∀ (n : Graph),
    mark_all n (l1 ++ l2) = (mark_all n l1).bind (fun n1 => mark_all n1 l2) := by
  induction l1 with
  | nil => intro n; rfl
  | cons r l1 ih =>
    intro n
    simp only [List.cons_append, mark_all]
    cases mark_improved n r with
    | none => rfl
    | some n1 => exact ih n1

theorem mark_improved_flags (n n1 : Graph) (a b : Nat)
    (h : mark_improved n (a, b) = some n1) :
    (∃ e, find_edge n a b = some e ∧ find_edge n1 a b = some (improve e)) ∧
    (∃ e, find_edge n b a = some e ∧ find_edge n1 b a = some (improve e)) := by
  obtain ⟨⟨e1, he1⟩, ⟨e2, he2⟩⟩ := mark_improved_present n n1 a b h
  constructor
  · refine ⟨e1, he1, ?_⟩
    rw [find_edge_mark_improved n n1 a b a b h, if_pos (Or.inl ⟨rfl, rfl⟩), he1]
    rfl
  · refine ⟨e2, he2, ?_⟩
    rw [find_edge_mark_improved n n1 a b b a h, if_pos (Or.inr ⟨rfl, rfl⟩), he2]
    rfl

theorem find_edge_nil (a b : Nat) : find_edge [] a b = none := rfl

theorem read_network_symmetric (edges : List (Nat × Nat × ℚ)) :
    ∀ a b, find_edge (read_network edges) a b = find_edge (read_network edges) b a := by
  unfold read_network
  have gen : ∀ (l : List (Nat × Nat × ℚ)) (n : Graph),
      (∀ a b, find_edge n a b = find_edge n b a) →
      ∀ a b, find_edge (l.foldl add_edge n) a b = find_edge (l.foldl add_edge n) b a := by
    intro l
    induction l with
    | nil => intro n h; exact h
    | cons r l ih =>
      intro n h
      rw [List.foldl_cons]
      apply ih
      intro a b
      rw [find_edge_add_edge, find_edge_add_edge, h a b]
      by_cases hc : (r.1 = a ∧ r.2.1 = b) ∨ (r.1 = b ∧ r.2.1 = a)
      · rw [if_pos hc, if_pos hc.symm]
      · rw [if_neg hc, if_neg (fun hx => hc hx.symm)]
  exact gen edges [] (fun a b => rfl)

theorem mark_improved_symmetric (n n1 : Graph) (r : Nat × Nat)
    (hs : ∀ a b, find_edge n a b = find_edge n b a) (h : mark_improved n r = some n1) :
    ∀ a b, find_edge n1 a b = find_edge n1 b a := by
  intro a b
  rw [find_edge_mark_improved n n1 r.1 r.2 a b h, find_edge_mark_improved n n1 r.1 r.2 b a h,
    hs a b]
  have hsw : ((b = r.1 ∧ a = r.2) ∨ (b = r.2 ∧ a = r.1)) ↔
      ((a = r.1 ∧ b = r.2) ∨ (a = r.2 ∧ b = r.1)) := by
    constructor
    · rintro (⟨h1, h2⟩ | ⟨h1, h2⟩)
      · exact Or.inr ⟨h2, h1⟩
      · exact Or.inl ⟨h2, h1⟩
    · rintro (⟨h1, h2⟩ | ⟨h1, h2⟩)
      · exact Or.inr ⟨h2, h1⟩
      · exact Or.inl ⟨h2, h1⟩
  by_cases hc : (a = r.1 ∧ b = r.2) ∨ (a = r.2 ∧ b = r.1)
  · rw [if_pos hc, if_pos (hsw.2 hc)]
  · rw [if_neg hc, if_neg (fun hx => hc (hsw.1 hx))]

theorem mark_all_symmetric (marks : List (Nat × Nat)) : ∀ (n g : Graph),
    (∀ a b, find_edge n a b = find_edge n b a) → mark_all n marks = some g →
    ∀ a b, find_edge g a b = find_edge g b a := by
  induction marks with
  | nil =>
    intro n g hs h
    simp only [mark_all, Option.some.injEq] at h
    rw [← h]
    exact hs
  | cons r marks ih =>
    intro n g hs h
    simp only [mark_all] at h
    cases hm : mark_improved n r with
    | none => rw [hm] at h; cases h
    | some n1 =>
      rw [hm] at h
      exact ih n1 g (mark_improved_symmetric n n1 r hs hm) h

/-- C11. Marking the edge (a, b) fails exactly when `a` or `b` is not a node of the graph
or one of the entries `n[a][b]`, `n[b][a]` is absent, and a failing record stops the whole
run with the error "not in network", nothing being written. When an improved edge list is
given, a factor of 0 or less stops the run with the error "weight must be positive"
whatever the list (so before any edge is marked), while with any factor above 0, at most
1 included, the list is processed and the graph obtained does not depend on the factor.
After a successful marking of (a, b) the entries `n[a][b]` and `n[b][a]` are the former
ones with `is_improved` set. -/
theorem mark_improved_contract (n : Graph) (w : ℚ) (a b : Nat) :
    (mark_improved n (a, b) = none ↔
      map_find n a = none ∨ map_find n b = none ∨
        find_edge n a b = none ∨ find_edge n b a = none) ∧
    (∀ l1 l2 n1, 0 < w → mark_all n l1 = some n1 → mark_improved n1 (a, b) = none →
      read_improved_edges n w (some (l1 ++ (a, b) :: l2)) =
        Except.error Error.edge_not_in_network) ∧
    (∀ order_adj order_pts network l1 l2 n1 network_distance points, 0 < w →
      mark_all (read_network network) l1 = some n1 → mark_improved n1 (a, b) = none →
      main order_adj order_pts network (some (l1 ++ (a, b) :: l2)) w network_distance points =
        ([], some Error.edge_not_in_network)) ∧
    (∀ l, w ≤ 0 → read_improved_edges n w (some l) = Except.error Error.weight_not_positive) ∧
    (∀ order_adj order_pts network l network_distance points, w ≤ 0 →
      main order_adj order_pts network (some l) w network_distance points =
        ([], some Error.weight_not_positive)) ∧
    (∀ l n1, 0 < w → (read_improved_edges n w (some l) = Except.ok n1 ↔
      mark_all n l = some n1)) ∧
    (∀ n1, mark_improved n (a, b) = some n1 →
      (∃ e, find_edge n a b = some e ∧
        find_edge n1 a b = some { e with is_improved := true }) ∧
      (∃ e, find_edge n b a = some e ∧
        find_edge n1 b a = some { e with is_improved := true })) := by
  have hfail : ∀ (g : Graph) (l1 l2 : List (Nat × Nat)) (n1 : Graph), 0 < w →
      mark_all g l1 = some n1 → mark_improved n1 (a, b) = none →
      read_improved_edges g w (some (l1 ++ (a, b) :: l2)) =
        Except.error Error.edge_not_in_network := by
    intro g l1 l2 n1 hw h1 h2
    have : mark_all g (l1 ++ (a, b) :: l2) = none := by
      rw [mark_all_append, h1]
      simp only [Option.some_bind, mark_all, h2]
    simp only [read_improved_edges, not_le.2 hw, if_false, this]
  have hneg : ∀ (g : Graph) (l : List (Nat × Nat)), w ≤ 0 →
      read_improved_edges g w (some l) = Except.error Error.weight_not_positive := by
    intro g l hw
    simp only [read_improved_edges, hw, if_true]
  refine ⟨mark_improved_none_iff n a b, hfail n, ?_, hneg n, ?_, ?_,
    fun n1 h => mark_improved_flags n n1 a b h⟩
  · intro order_adj order_pts network l1 l2 n1 network_distance points hw h1 h2
    simp only [main, hfail _ l1 l2 n1 hw h1 h2]
  · intro order_adj order_pts network l network_distance points hw
    simp only [main, hneg _ l hw]
  · intro l n1 hw
    simp only [read_improved_edges, not_le.2 hw, if_false]
    cases mark_all n l with
    | none => simp
    | some g => simp

/-- C19. After the network file is loaded and any list of improved edges is marked with
success, the entries `n[a][b]` and `n[b][a]` are the same for all `a` and `b`: one is
present exactly when the other is, and then they hold the same distance and the same
`is_improved` flag. -/
theorem loaded_graph_symmetric (edges : List (Nat × Nat × ℚ)) (marks : List (Nat × Nat))
    (g : Graph) (h : mark_all (read_network edges) marks = some g) (a b : Nat) :
    find_edge g a b = find_edge g b a ∧
    ((find_edge g a b).isSome = true ↔ (find_edge g b a).isSome = true) ∧
    ∀ e1 e2, find_edge g a b = some e1 → find_edge g b a = some e2 →
      e1.d = e2.d ∧ e1.is_improved = e2.is_improved := by
  have hs := mark_all_symmetric marks _ g (read_network_symmetric edges) h a b
  refine ⟨hs, by rw [hs], fun e1 e2 h1 h2 => ?_⟩
  rw [hs, h2] at h1
  cases h1
  exact ⟨rfl, rfl⟩

end nodes_distances
end Bustrips

namespace Bustrips
namespace sample_trips3
open dist_matrix

/-! ### Claim C14: the matrix is square, symmetric, with a zero diagonal -/

theorem record_joins_symm (r : Nat × Nat × Nat) (a b : Nat) :
    record_joins r a b ↔ record_joins r b a := by
  unfold record_joins
  exact Or.comm

theorem stored_symm (recs : List (Nat × Nat × Nat)) (a b : Nat) :
    stored recs a b = stored recs b a := by
  unfold stored
  have : (fun r => decide (record_joins r a b)) = (fun r => decide (record_joins r b a)) := by
    funext r
    exact decide_eq_decide.2 (record_joins_symm r a b)
  rw [this]

theorem matrix_cell_symm (recs : List (Nat × Nat × Nat)) (ids : List Nat) (i j : Nat) :
    matrix_cell (read_list recs) ids i j = matrix_cell (read_list recs) ids j i := by
  unfold matrix_cell
  by_cases h : i = j
  · subst h
    rfl
  · rw [if_pos h, if_pos (fun e => h e.symm), find_read_list_eq_first,
      find_read_list_eq_first, stored_symm]

theorem cells_facts (recs : List (Nat × Nat × Nat)) (ids cells : List Nat)
    (h : matrix_cells (read_list recs) ids = some cells) :
    cells.length = ids.length * ids.length ∧
    ∀ i j, i < ids.length → j < ids.length →
      cells[i * ids.length + i]? = some 0 ∧
      cells[i * ids.length + j]? = cells[j * ids.length + i]? ∧
      (i ≠ j → cells[i * ids.length + j]? = stored recs (ids.getD i 0) (ids.getD j 0)) := by
  obtain ⟨hlen, hget⟩ := matrix_cells_some _ _ cells h
  refine ⟨hlen, fun i j hi hj => ⟨?_, ?_, ?_⟩⟩
  · obtain ⟨v, hv1, hv2⟩ := hget i i hi hi
    simp only [matrix_cell, ne_eq, not_true_eq_false, if_false, Option.some.injEq] at hv1
    rw [hv2, hv1]
  · obtain ⟨v, hv1, hv2⟩ := hget i j hi hj
    obtain ⟨u, hu1, hu2⟩ := hget j i hj hi
    rw [matrix_cell_symm, hu1] at hv1
    rw [hv2, hu2, Option.some.inj hv1]
  · intro hne
    obtain ⟨v, hv1, hv2⟩ := hget i j hi hj
    rw [hv2, ← hv1]
    unfold matrix_cell
    rw [if_pos hne, find_read_list_eq_first]

/-- C14. For every distance list, repeated or reversed pairs with other distances
included, and every iteration order of the hash map: when the writer ends normally, its
id list `ids` has no repetition and the file is the header followed by the 8-byte
patterns of `N * N` doubles, `N = ids.length`, where the double at `i * N + i` is 0.0 and
the doubles at `i * N + j` and at `j * N + i` are the same (same bit pattern); and when
`read_dists` ends normally it returns true, the dictionary `ids` numbers `N` distinct ids
from 0, `n` is `N`, and the matrix holds `N * N` doubles with the same two properties. -/
theorem matrix_square_symmetric (order : Dists → Dists) (recs : List (Nat × Nat × Nat)) :
    (∀ file ids, main order recs = Except.ok (file, ids) →
      ∃ cells : List Nat, file = le64 file_id ++ le64 ids.length ++ cells.flatMap le64 ∧
        ids.Nodup ∧ cells.length = ids.length * ids.length ∧
        ∀ i j, i < ids.length → j < ids.length →
          cells[i * ids.length + i]? = some 0 ∧
          cells[i * ids.length + j]? = cells[j * ids.length + i]?) ∧
    (∀ s b s1, read_dists order s recs = Except.ok (b, s1) →
      ∃ (ids : List Nat) (cells : List Nat), b = true ∧
        s1.matrix = some (cells.flatMap le64) ∧ ids.Nodup ∧ s1.n = ids.length ∧
        (∀ k i, map_find s1.ids k = some i ↔ ids[i]? = some k) ∧
        cells.length = s1.n * s1.n ∧
        ∀ i j, i < s1.n → j < s1.n →
          cells[i * s1.n + i]? = some 0 ∧
          cells[i * s1.n + j]? = cells[j * s1.n + i]?) := by
  have hinv := (assign_ids_inv (order (read_list recs))).1
  constructor
  · intro file ids h
    unfold main at h
    cases hc : matrix_cells (read_list recs) (assign_ids (order (read_list recs))).2 with
    | none => simp only [hc] at h; cases h
    | some cells =>
      simp only [hc, Except.ok.injEq, Prod.mk.injEq] at h
      obtain ⟨h1, h2⟩ := h
      subst h2
      obtain ⟨hlen, hcells⟩ := cells_facts recs _ cells hc
      exact ⟨cells, h1.symm, hinv.nodup, hlen,
        fun i j hi hj => ⟨(hcells i j hi hj).1, (hcells i j hi hj).2.1⟩⟩
  · intro s b s1 h
    unfold read_dists at h
    cases hc : matrix_cells (read_list recs) (assign_ids (order (read_list recs))).2 with
    | none => simp only [hc] at h; cases h
    | some cells =>
      simp only [hc, Except.ok.injEq, Prod.mk.injEq] at h
      obtain ⟨h1, h2⟩ := h
      subst h2
      obtain ⟨hlen, hcells⟩ := cells_facts recs _ cells hc
      exact ⟨(assign_ids (order (read_list recs))).2, cells, h1.symm, rfl, hinv.nodup, rfl,
        hinv.find_iff, hlen,
        fun i j hi hj => ⟨(hcells i j hi hj).1, (hcells i j hi hj).2.1⟩⟩

/-- Witness of C14 on a list with the pair (1,2) given three times, once reversed, with
three distances: the first one is kept in both orientations. -/
theorem matrix_square_symmetric_witness :
    main List.reverse [(1, 2, 7), (2, 1, 9), (1, 2, 8), (2, 3, 5), (3, 1, 6)] =
      Except.ok (le64 file_id ++ le64 3 ++ [0, 6, 7, 6, 0, 5, 7, 5, 0].flatMap le64,
        [1, 3, 2]) ∧
    ∃ cells : List Nat,
      le64 file_id ++ le64 3 ++ [0, 6, 7, 6, 0, 5, 7, 5, 0].flatMap le64 =
        le64 file_id ++ le64 [1, 3, 2].length ++ cells.flatMap le64 ∧
      [1, 3, 2].Nodup ∧ cells.length = [1, 3, 2].length * [1, 3, 2].length ∧
      ∀ i j, i < [1, 3, 2].length → j < [1, 3, 2].length →
        cells[i * [1, 3, 2].length + i]? = some 0 ∧
        cells[i * [1, 3, 2].length + j]? = cells[j * [1, 3, 2].length + i]? :=
  ⟨by rfl, (matrix_square_symmetric List.reverse
    [(1, 2, 7), (2, 1, 9), (1, 2, 8), (2, 3, 5), (3, 1, 6)]).1 _ _ (by rfl)⟩

/-! ### Claim C13: the order of the matrix indices -/

theorem mem_foldl_note_seen (x : Nat) : ∀ (l acc : List Nat),
    x ∈ l.foldl note_seen acc ↔ x ∈ acc ∨ x ∈ l := by
  intro l
  induction l with
  | nil => intro acc; simp
  | cons k l ih =>
    intro acc
    rw [List.foldl_cons, ih]
    unfold note_seen
    by_cases hk : k ∈ acc
    · rw [if_pos hk]
      constructor
      · rintro (h | h)
        · exact Or.inl h
        · exact Or.inr (List.mem_cons_of_mem _ h)
      · rintro (h | h)
        · exact Or.inl h
        · rcases List.mem_cons.1 h with h | h
          · exact Or.inl (h ▸ hk)
          · exact Or.inr h
    · rw [if_neg hk]
      simp only [List.mem_append, List.mem_singleton, List.mem_cons]
      tauto

theorem note_seen_of_mem (acc : List Nat) (k : Nat) (h : k ∈ acc) : note_seen acc k = acc := by
  unfold note_seen
  rw [if_pos h]

theorem mem_note_seen (acc : List Nat) (k x : Nat) : x ∈ note_seen acc k ↔ x ∈ acc ∨ x = k := by
  have := mem_foldl_note_seen x [k] acc
  simpa using this

theorem note_id_snd (s : List (Nat × Nat) × List Nat) (k : Nat) (h : ids_inv s) :
    (note_id s k).2 = note_seen s.2 k := by
  unfold note_id note_seen
  by_cases hk : k ∈ s.2
  · obtain ⟨i, hi⟩ := List.mem_iff_getElem?.1 hk
    have := (h.find_iff k i).2 hi
    rw [this, if_pos hk]
    rfl
  · have hn : map_find s.1 k = none := by
      cases hf : map_find s.1 k with
      | none => rfl
      | some i => exact absurd (List.getElem?_mem ((h.find_iff k i).1 hf)) hk
    rw [hn, if_neg hk]
    rfl

theorem assign_ids_first_seen (it : Dists) : (assign_ids it).2 = first_seen (scan_ids it) := by
  unfold assign_ids first_seen scan_ids
  have gen : ∀ (l : Dists) (s : List (Nat × Nat) × List Nat), ids_inv s →
      (l.foldl (fun s x => note_id (note_id s x.1.1) x.1.2) s).2 =
        (l.flatMap (fun x => [x.1.1, x.1.2])).foldl note_seen s.2 := by
    intro l
    induction l with
    | nil => intro s _; rfl
    | cons x l ih =>
      intro s hs
      obtain ⟨h1, _⟩ := note_id_inv s x.1.1 hs
      obtain ⟨h2, _⟩ := note_id_inv _ x.1.2 h1
      rw [List.foldl_cons, ih _ h2, List.flatMap_cons, List.foldl_append,
        note_id_snd _ _ h1, note_id_snd _ _ hs]
      rfl
  exact gen it ([], []) ⟨List.nodup_nil, by simp [map_find]⟩

theorem scan_ids_append (d1 d2 : Dists) : scan_ids (d1 ++ d2) = scan_ids d1 ++ scan_ids d2 := by
  unfold scan_ids
  rw [List.flatMap_append]

theorem mem_scan_of_find (d : Dists) (a b : Nat) (h : (map_find d (a, b)).isSome = true) :
    a ∈ scan_ids d ∧ b ∈ scan_ids d := by
  rw [map_find_isSome_iff] at h
  obtain ⟨x, hx, e⟩ := List.mem_map.1 h
  unfold scan_ids
  simp only [List.mem_flatMap, List.mem_cons, List.mem_singleton]
  exact ⟨⟨x, hx, Or.inl (by rw [e])⟩, ⟨x, hx, Or.inr (Or.inl (by rw [e]))⟩⟩

theorem insert_record_scan (d : Dists) (r : Nat × Nat × Nat)
    (hsym : ∀ a b, (map_find d (a, b)).isSome = true ↔ (map_find d (b, a)).isSome = true) :
    ∃ e0, scan_ids (insert_record d r) = scan_ids d ++ e0 ∧
      ∀ acc, (∀ k ∈ scan_ids d, k ∈ acc) →
        e0.foldl note_seen acc = note_seen (note_seen acc r.1) r.2.1 := by
  unfold insert_record
  cases h1 : map_find d (r.1, r.2.1) with
  | some v =>
    have h2 : (map_find d (r.2.1, r.1)).isSome = true := (hsym _ _).1 (by rw [h1]; rfl)
    obtain ⟨v2, hv2⟩ := Option.isSome_iff_exists.1 h2
    refine ⟨[], ?_, ?_⟩
    · simp only [map_insert, h1, hv2, List.append_nil]
    · intro acc hacc
      obtain ⟨m1, m2⟩ := mem_scan_of_find d r.1 r.2.1 (by rw [h1]; rfl)
      rw [note_seen_of_mem acc r.1 (hacc _ m1), note_seen_of_mem acc r.2.1 (hacc _ m2)]
      rfl
  | none =>
    have h2 : map_find d (r.2.1, r.1) = none := by
      cases hf : map_find d (r.2.1, r.1) with
      | none => rfl
      | some v =>
        have := (hsym r.2.1 r.1).1 (by rw [hf]; rfl)
        rw [h1] at this
        cases this
    by_cases he : r.1 = r.2.1
    · refine ⟨[r.1, r.2.1], ?_, fun acc _ => rfl⟩
      have h3 : map_find (d ++ [((r.1, r.2.1), r.2.2)]) (r.2.1, r.1) = some r.2.2 := by
        rw [map_find_append, h2, ← he]
        simp [map_find]
      simp only [map_insert, h1, h3]
      rw [scan_ids_append]
      rfl
    · refine ⟨[r.1, r.2.1, r.2.1, r.1], ?_, ?_⟩
      · have hne : (r.1, r.2.1) ≠ (r.2.1, r.1) := fun e => he (Prod.mk.inj e).1
        have h3 : map_find (d ++ [((r.1, r.2.1), r.2.2)]) (r.2.1, r.1) = none := by
          rw [map_find_append, h2]
          simp [map_find, hne]
        simp only [map_insert, h1, h3]
        rw [scan_ids_append, scan_ids_append, List.append_assoc]
        rfl
      · intro acc _
        simp only [List.foldl_cons, List.foldl_nil]
        have m2 : r.2.1 ∈ note_seen (note_seen acc r.1) r.2.1 :=
          (mem_note_seen _ _ _).2 (Or.inr rfl)
        have m1 : r.1 ∈ note_seen (note_seen acc r.1) r.2.1 :=
          (mem_note_seen _ _ _).2 (Or.inl ((mem_note_seen _ _ _).2 (Or.inr rfl)))
        rw [note_seen_of_mem _ _ m2, note_seen_of_mem _ _ m1]

theorem insert_record_sym (d : Dists) (r : Nat × Nat × Nat)
    (hsym : ∀ a b, (map_find d (a, b)).isSome = true ↔ (map_find d (b, a)).isSome = true)
    (a b : Nat) : (map_find (insert_record d r) (a, b)).isSome = true ↔
      (map_find (insert_record d r) (b, a)).isSome = true := by
  rw [find_insert_record_isSome, find_insert_record_isSome, hsym a b, record_joins_symm]

theorem read_list_scan : ∀ (recs : List (Nat × Nat × Nat)) (d : Dists),
    (∀ a b, (map_find d (a, b)).isSome = true ↔ (map_find d (b, a)).isSome = true) →
    ∃ ext, scan_ids (recs.foldl insert_record d) = scan_ids d ++ ext ∧
      ∀ acc, (∀ k ∈ scan_ids d, k ∈ acc) →
        ext.foldl note_seen acc = (listed_ids recs).foldl note_seen acc := by
  intro recs
  induction recs with
  | nil =>
    intro d _
    exact ⟨[], by simp, fun acc _ => rfl⟩
  | cons r recs ih =>
    intro d hsym
    obtain ⟨e0, h0, h0b⟩ := insert_record_scan d r hsym
    obtain ⟨e1, h1, h1b⟩ := ih (insert_record d r) (insert_record_sym d r hsym)
    refine ⟨e0 ++ e1, ?_, ?_⟩
    · rw [List.foldl_cons, h1, h0, List.append_assoc]
    · intro acc hacc
      rw [List.foldl_append, h0b acc hacc]
      have hsub : ∀ k ∈ scan_ids (insert_record d r),
          k ∈ note_seen (note_seen acc r.1) r.2.1 := by
        intro k hk
        rw [← h0b acc hacc, mem_foldl_note_seen]
        rw [h0, List.mem_append] at hk
        rcases hk with hk | hk
        · exact Or.inl (hacc k hk)
        · exact Or.inr hk
      rw [h1b _ hsub]
      rfl

theorem first_seen_insertion_order (recs : List (Nat × Nat × Nat)) :
    first_seen (scan_ids (read_list recs)) = first_seen (listed_ids recs) := by
  obtain ⟨ext, h1, h2⟩ := read_list_scan recs [] (fun a b => by simp [map_find])
  unfold first_seen read_list
  rw [h1]
  have : scan_ids ([] : Dists) = [] := rfl
  rw [this, List.nil_append]
  exact h2 [] (by simp [this])

/-- C13, counterexample. Reversing a list permutes it, so the reverse of the insertion
order is an order in which the hash map may hand out its entries; with it the writer, on
the distance list (10,20,3.0), (10,30,4.0), (20,30,5.0), gives the indices 0, 1, 2 to the
ids 30, 20, 10 and writes the rows [0,5,4], [5,0,3], [4,3,0], while the first-seen order
of the input list is 10, 20, 30. -/
theorem index_order_counterexample :
    (∀ m : Dists, (List.reverse m).Perm m) ∧
    main List.reverse scenario_list =
      Except.ok (le64 file_id ++ le64 3 ++
        [0, 0x4014000000000000, 0x4010000000000000,
         0x4014000000000000, 0, 0x4008000000000000,
         0x4010000000000000, 0x4008000000000000, 0].flatMap le64, [30, 20, 10]) ∧
    first_seen (listed_ids scenario_list) = [10, 20, 30] :=
  ⟨fun m => List.reverse_perm m, by rfl, by rfl⟩

/-- C13, amended. For a distance list that covers every ordered pair of distinct ids it
mentions, and whatever the order in which the hash map `dists` hands out its entries, the
writer ends normally and gives the indices to the ids in the order in which they are
first seen while that hash map is iterated (first, then second component of each key);
the id list it writes is in that same order, has the ids of the input list, each once,
and the matrix entry (i, j) is 0.0 for `i = j` and otherwise the distance that the list
stores for the i-th and j-th id of the id list. When the hash map is iterated in
insertion order, this is the first-seen order of the input list. -/
theorem index_order_of_map_iteration (order : Dists → Dists) (ho : ∀ m, (order m).Perm m)
    (recs : List (Nat × Nat × Nat)) (hc : complete recs) :
    ∃ (ids : List Nat) (cells : List Nat),
      main order recs =
        Except.ok (le64 file_id ++ le64 ids.length ++ cells.flatMap le64, ids) ∧
      ids = first_seen (scan_ids (order (read_list recs))) ∧
      (∀ k i, map_find (assign_ids (order (read_list recs))).1 k = some i ↔
        ids[i]? = some k) ∧
      ids.Perm (first_seen (listed_ids recs)) ∧
      cells.length = ids.length * ids.length ∧
      (∀ i j, i < ids.length → j < ids.length →
        cells[i * ids.length + j]? =
          if i = j then some 0 else stored recs (ids.getD i 0) (ids.getD j 0)) ∧
      ((∀ m, order m = m) → ids = first_seen (listed_ids recs)) := by
  obtain ⟨cells, hcells, hmain⟩ := main_complete order ho recs hc
  obtain ⟨hlen, hfacts⟩ := cells_facts recs _ cells hcells
  have hinv := (assign_ids_inv (order (read_list recs))).1
  have hfs := assign_ids_first_seen (order (read_list recs))
  have hfs0 : (assign_ids (read_list recs)).2 = first_seen (listed_ids recs) := by
    rw [assign_ids_first_seen, first_seen_insertion_order]
  refine ⟨_, cells, hmain, hfs, hinv.find_iff, ?_, hlen, ?_, ?_⟩
  · rw [← hfs0]
    rw [List.perm_ext_iff_of_nodup hinv.nodup (assign_ids_inv (read_list recs)).1.nodup]
    intro x
    rw [mentioned_iff order ho]
    exact (mentioned_iff id (fun m => List.Perm.refl m) recs x).symm
  · intro i j hi hj
    by_cases hij : i = j
    · subst hij
      rw [if_pos rfl]
      exact (hfacts i i hi hi).1
    · rw [if_neg hij]
      exact (hfacts i j hi hj).2.2 hij
  · intro hid
    rw [hid, hfs0]

/-- Witness of C13, amended, with the hash map iterated in insertion order: the ids are
10, 20, 30 and the rows are [0,3,4], [3,0,5], [4,5,0]. -/
theorem index_order_of_map_iteration_witness :
    main id scenario_list =
      Except.ok (le64 file_id ++ le64 3 ++
        [0, 0x4008000000000000, 0x4010000000000000,
         0x4008000000000000, 0, 0x4014000000000000,
         0x4010000000000000, 0x4014000000000000, 0].flatMap le64, [10, 20, 30]) ∧
    ∃ (ids : List Nat) (cells : List Nat),
      main id scenario_list =
        Except.ok (le64 file_id ++ le64 ids.length ++ cells.flatMap le64, ids) ∧
      ids = first_seen (scan_ids (id (read_list scenario_list))) ∧
      (∀ k i, map_find (assign_ids (id (read_list scenario_list))).1 k = some i ↔
        ids[i]? = some k) ∧
      ids.Perm (first_seen (listed_ids scenario_list)) ∧
      cells.length = ids.length * ids.length ∧
      (∀ i j, i < ids.length → j < ids.length →
        cells[i * ids.length + j]? =
          if i = j then some 0 else stored scenario_list (ids.getD i 0) (ids.getD j 0)) ∧
      ((∀ m : Dists, id m = m) → ids = first_seen (listed_ids scenario_list)) :=
  ⟨by rfl, index_order_of_map_iteration id (fun m => List.Perm.refl m) scenario_list
    (by decide)⟩

end sample_trips3
end Bustrips

namespace Bustrips
namespace nodes_distances

/-! ### Claim C12: the scenario of the network 1 - 2 - 3 -/

theorem perm_pair {α : Type} (l : List α) (a b : α) (h : l.Perm [a, b]) :
    l = [a, b] ∨ l = [b, a] := by
  have hlen := h.length_eq
  match l, hlen, h with
  | [x, y], _, h =>
    have hx : x ∈ [a, b] := h.subset (List.mem_cons_self _ _)
    have hy : y ∈ [a, b] := h.subset (List.mem_cons_of_mem _ (List.mem_cons_self _ _))
    have ha : a ∈ [x, y] := h.symm.subset (List.mem_cons_self _ _)
    have hb : b ∈ [x, y] := h.symm.subset (List.mem_cons_of_mem _ (List.mem_cons_self _ _))
    simp only [List.mem_cons, List.mem_singleton, List.not_mem_nil, or_false] at hx hy ha hb
    rcases hx with hx | hx <;> rcases hy with hy | hy
    · subst hx; subst hy
      rcases hb with hb | hb <;> exact Or.inl (by rw [hb])
    · subst hx; subst hy
      exact Or.inl rfl
    · subst hx; subst hy
      exact Or.inr rfl
    · subst hx; subst hy
      rcases ha with ha | ha <;> exact Or.inl (by rw [ha])

theorem adj_iterate_adj (order_adj : Adj → Adj) (h0 : order_adj [] = []) (n : Graph) (k : Nat) :
    adj (iterate_adj order_adj n) k = order_adj (adj n k) := by
  unfold adj iterate_adj
  induction n with
  | nil => simp [map_find, h0]
  | cons x n ih =>
    by_cases hk : x.1 = k
    · simp [map_find, hk]
    · simp only [List.map_cons, map_find, hk, if_false]
      exact ih

theorem graph_size_iterate_adj (order_adj : Adj → Adj) (ha : ∀ l, (order_adj l).Perm l)
    (n : Graph) : graph_size (iterate_adj order_adj n) = graph_size n := by
  unfold graph_size iterate_adj
  rw [List.map_map]
  congr 1
  apply List.map_congr_left
  intro x _
  exact (ha x.2).length_eq

theorem run_searches_two (n : Graph) (w : ℚ) (nodes_points : Points) (npoints : Nat)
    (x y : Nat × List (Nat × ℚ))
    (hx : (search_loop n w nodes_points npoints x.2 true (graph_size n + 2)
      (init_state x.1)).status = Status.ok)
    (hy : (search_loop n w nodes_points npoints y.2 true (graph_size n + 2)
      (init_state y.1)).status = Status.ok) :
    run_searches n w nodes_points npoints [x, y] [] =
      ((search_loop n w nodes_points npoints x.2 true (graph_size n + 2)
          (init_state x.1)).st.out ++
        (search_loop n w nodes_points npoints y.2 true (graph_size n + 2)
          (init_state y.1)).st.out, none) := by
  simp only [run_searches, hx, hy, List.nil_append]

theorem scenario_from_1 (A B : Nat) (hAB : A < B) (g : Graph) (w : ℚ) (np : Points)
    (imp : Bool) (hw : imp = true → w = 2)
    (h1 : adj g 1 = [(2, ⟨5, 0, 0, imp⟩)])
    (h2 : adj g 2 = [(1, ⟨5, 0, 0, imp⟩), (3, ⟨7, 0, 0, false⟩)] ∨
      adj g 2 = [(3, ⟨7, 0, 0, false⟩), (1, ⟨5, 0, 0, imp⟩)])
    (h3 : adj g 3 = [(2, ⟨7, 0, 0, false⟩)])
    (hp1 : points_at np 1 = [(A, 0)]) (hp2 : points_at np 2 = [])
    (hp3 : points_at np 3 = [(B, 0)]) (fuel : Nat) :
    (search_loop g w np 2 [(A, 0)] true (fuel + 3) (init_state 1)).status = Status.ok ∧
    (search_loop g w np 2 [(A, 0)] true (fuel + 3) (init_state 1)).st.out =
      [⟨A, B, if imp then 19 / 2 else 12, 12, 0, 0⟩] := by
  cases imp with
  | false =>
    rcases h2 with h2 | h2 <;>
    norm_num [search_loop, search_step, init_state, map_find, emit, relax, relax_edge,
      h1, h2, h3, hp1, hp2, hp3, set_insert, set_erase, node.lt, node.equiv, after_loop,
      map_set, hAB]
  | true =>
    have := hw rfl
    subst this
    rcases h2 with h2 | h2 <;>
    norm_num [search_loop, search_step, init_state, map_find, emit, relax, relax_edge,
      h1, h2, h3, hp1, hp2, hp3, set_insert, set_erase, node.lt, node.equiv, after_loop,
      map_set, hAB]

theorem scenario_from_3 (A B : Nat) (hAB : A < B) (g : Graph) (w : ℚ) (np : Points)
    (imp : Bool) (hw : imp = true → w = 2)
    (h1 : adj g 1 = [(2, ⟨5, 0, 0, imp⟩)])
    (h2 : adj g 2 = [(1, ⟨5, 0, 0, imp⟩), (3, ⟨7, 0, 0, false⟩)] ∨
      adj g 2 = [(3, ⟨7, 0, 0, false⟩), (1, ⟨5, 0, 0, imp⟩)])
    (h3 : adj g 3 = [(2, ⟨7, 0, 0, false⟩)])
    (hp1 : points_at np 1 = [(A, 0)]) (hp2 : points_at np 2 = [])
    (hp3 : points_at np 3 = [(B, 0)]) (fuel : Nat) :
    (search_loop g w np 2 [(B, 0)] true (fuel + 3) (init_state 3)).status = Status.ok ∧
    (search_loop g w np 2 [(B, 0)] true (fuel + 3) (init_state 3)).st.out = [] := by
  have hBA : ¬ B < A := not_lt.2 hAB.le
  cases imp with
  | false =>
    rcases h2 with h2 | h2 <;>
    norm_num [search_loop, search_step, init_state, map_find, emit, relax, relax_edge,
      h1, h2, h3, hp1, hp2, hp3, set_insert, set_erase, node.lt, node.equiv, after_loop,
      map_set, hBA]
  | true =>
    have := hw rfl
    subst this
    rcases h2 with h2 | h2 <;>
    norm_num [search_loop, search_step, init_state, map_find, emit, relax, relax_edge,
      h1, h2, h3, hp1, hp2, hp3, set_insert, set_erase, node.lt, node.equiv, after_loop,
      map_set, hBA]

theorem scenario_run (A B : Nat) (hAB : A < B) (order_adj : Adj → Adj)
    (order_pts : Points → Points) (ha : ∀ l, (order_adj l).Perm l)
    (hp : ∀ m, (order_pts m).Perm m) (n0 : Graph) (np0 : Points) (w : ℚ)
    (imp : Bool) (hw : imp = true → w = 2)
    (h1 : adj n0 1 = [(2, ⟨5, 0, 0, imp⟩)])
    (h2 : (adj n0 2).Perm [(1, ⟨5, 0, 0, imp⟩), (3, ⟨7, 0, 0, false⟩)])
    (h3 : adj n0 3 = [(2, ⟨7, 0, 0, false⟩)])
    (hsize : graph_size n0 = 4)
    (hnp : np0.Perm [(1, [(A, 0)]), (3, [(B, 0)])]) :
    run_searches (iterate_adj order_adj n0) w np0 2 (order_pts np0) [] =
      ([⟨A, B, if imp then 19 / 2 else 12, 12, 0, 0⟩], none) := by
  have h0 : order_adj [] = [] := List.perm_nil.1 (ha [])
  have g1 : adj (iterate_adj order_adj n0) 1 = [(2, ⟨5, 0, 0, imp⟩)] := by
    rw [adj_iterate_adj order_adj h0, h1]
    exact List.perm_singleton.1 (ha _)
  have g3 : adj (iterate_adj order_adj n0) 3 = [(2, ⟨7, 0, 0, false⟩)] := by
    rw [adj_iterate_adj order_adj h0, h3]
    exact List.perm_singleton.1 (ha _)
  have g2 := perm_pair _ _ _ ((adj_iterate_adj order_adj h0 n0 2) ▸ (ha (adj n0 2)).trans h2)
  have gs : graph_size (iterate_adj order_adj n0) + 2 = 3 + 3 := by
    rw [graph_size_iterate_adj order_adj ha, hsize]
  have hpts : points_at np0 1 = [(A, 0)] ∧ points_at np0 2 = [] ∧
      points_at np0 3 = [(B, 0)] := by
    rcases perm_pair _ _ _ hnp with e | e <;> rw [e] <;> exact ⟨rfl, rfl, rfl⟩
  obtain ⟨p1, p2, p3⟩ := hpts
  have s1 := scenario_from_1 A B hAB _ w np0 imp hw g1 g2 g3 p1 p2 p3 3
  have s3 := scenario_from_3 A B hAB _ w np0 imp hw g1 g2 g3 p1 p2 p3 3
  rw [← gs] at s1 s3
  rcases perm_pair _ _ _ ((hp np0).trans hnp) with e | e
  · rw [e, run_searches_two _ _ _ _ _ _ s1.1 s3.1]
    simp only [s1.2, s3.2, List.append_nil]
  · rw [e, run_searches_two _ _ _ _ _ _ s3.1 s1.1]
    simp only [s1.2, s3.2, List.nil_append]

theorem scenario_main (A B : Nat) (hAB : A < B) (order_adj : Adj → Adj)
    (order_pts : Points → Points) (ha : ∀ l, (order_adj l).Perm l)
    (hp : ∀ m, (order_pts m).Perm m) (network : List (Nat × Nat × ℚ))
    (improved_edges : Option (List (Nat × Nat))) (w : ℚ) (points : List (Nat × Nat × ℚ))
    (n0 : Graph) (np0 : Points) (imp : Bool) (hw : imp = true → w = 2)
    (hread : read_improved_edges (read_network network) w improved_edges = Except.ok n0)
    (hpoints : read_points n0 points ([], 0) = some (np0, 2))
    (h1 : adj n0 1 = [(2, ⟨5, 0, 0, imp⟩)])
    (h2 : (adj n0 2).Perm [(1, ⟨5, 0, 0, imp⟩), (3, ⟨7, 0, 0, false⟩)])
    (h3 : adj n0 3 = [(2, ⟨7, 0, 0, false⟩)])
    (hsize : graph_size n0 = 4)
    (hnp : np0.Perm [(1, [(A, 0)]), (3, [(B, 0)])]) :
    main order_adj order_pts network improved_edges w false points =
      ([⟨A, B, if imp then 19 / 2 else 12, 12, 0, 0⟩], none) := by
  have hlen : np0.length ≠ 0 := by
    rw [hnp.length_eq]
    exact Nat.succ_ne_zero 1
  unfold main
  rw [hread]
  simp only [Bool.false_eq_true, if_false, hpoints, hlen]
  exact scenario_run A B hAB order_adj order_pts ha hp n0 np0 w imp hw h1 h2 h3 hsize hnp

/-- C12. On the network file (1,2,5.0), (2,3,7.0) and the points file with the point `A`
at node 1 and the point `B` at node 3, both at offset 0 and with `A < B` (the records of
either file in any order, and whatever the iteration orders of the hash maps), the whole
run ends normally and writes exactly one line: without improved edge file, and whatever
the factor, the line (A, B, 12, 12, 0, 0); with the improved edge file (1,2) and the
factor 2, the line (A, B, 9.5, 12, 0, 0). -/
theorem scenario_batch (A B : Nat) (hAB : A < B) (order_adj : Adj → Adj)
    (order_pts : Points → Points) (ha : ∀ l, (order_adj l).Perm l)
    (hp : ∀ m, (order_pts m).Perm m) (network : List (Nat × Nat × ℚ))
    (hnet : network.Perm [(1, 2, 5), (2, 3, 7)]) (points : List (Nat × Nat × ℚ))
    (hpts : points.Perm [(A, 1, 0), (B, 3, 0)]) :
    (∀ w, main order_adj order_pts network none w false points =
      ([⟨A, B, 12, 12, 0, 0⟩], none)) ∧
    main order_adj order_pts network (some [(1, 2)]) 2 false points =
      ([⟨A, B, 19 / 2, 12, 0, 0⟩], none) := by
  have hw2 : ¬ ((2 : ℚ) ≤ 0) := by norm_num
  constructor
  · intro w
    rcases perm_pair _ _ _ hnet with e1 | e1 <;> rcases perm_pair _ _ _ hpts with e2 | e2 <;>
      subst e1 <;> subst e2
    · exact scenario_main A B hAB order_adj order_pts ha hp _ none w _ _ _ false
        (by intro h; cases h) rfl rfl rfl (List.Perm.refl _) rfl rfl (List.Perm.refl _)
    · exact scenario_main A B hAB order_adj order_pts ha hp _ none w _ _ _ false
        (by intro h; cases h) rfl rfl rfl (List.Perm.refl _) rfl rfl
        (List.Perm.swap _ _ _)
    · exact scenario_main A B hAB order_adj order_pts ha hp _ none w _ _ _ false
        (by intro h; cases h) rfl rfl rfl (List.Perm.swap _ _ _) rfl rfl (List.Perm.refl _)
    · exact scenario_main A B hAB order_adj order_pts ha hp _ none w _ _ _ false
        (by intro h; cases h) rfl rfl rfl (List.Perm.swap _ _ _) rfl rfl
        (List.Perm.swap _ _ _)
  · have hread : ∀ (net : List (Nat × Nat × ℚ)) (n1 : Graph),
        mark_all (read_network net) [(1, 2)] = some n1 →
        read_improved_edges (read_network net) 2 (some [(1, 2)]) = Except.ok n1 := by
      intro net n1 h
      simp only [read_improved_edges, hw2, if_false, h]
    rcases perm_pair _ _ _ hnet with e1 | e1 <;> rcases perm_pair _ _ _ hpts with e2 | e2 <;>
      subst e1 <;> subst e2
    · exact scenario_main A B hAB order_adj order_pts ha hp _ _ 2 _ _ _ true
        (fun _ => rfl) (hread _ _ rfl) rfl rfl (List.Perm.refl _) rfl rfl (List.Perm.refl _)
    · exact scenario_main A B hAB order_adj order_pts ha hp _ _ 2 _ _ _ true
        (fun _ => rfl) (hread _ _ rfl) rfl rfl (List.Perm.refl _) rfl rfl
        (List.Perm.swap _ _ _)
    · exact scenario_main A B hAB order_adj order_pts ha hp _ _ 2 _ _ _ true
        (fun _ => rfl) (hread _ _ rfl) rfl rfl (List.Perm.swap _ _ _) rfl rfl
        (List.Perm.refl _)
    · exact scenario_main A B hAB order_adj order_pts ha hp _ _ 2 _ _ _ true
        (fun _ => rfl) (hread _ _ rfl) rfl rfl (List.Perm.swap _ _ _) rfl rfl
        (List.Perm.swap _ _ _)

/-! ### Instances of the claims on the search -/

/-- Witness of C12 with the points 100 and 200 and both hash maps iterated backwards. -/
theorem scenario_batch_witness :
    (∀ w, main List.reverse List.reverse [(1, 2, 5), (2, 3, 7)] none w false
      [(100, 1, 0), (200, 3, 0)] = ([⟨100, 200, 12, 12, 0, 0⟩], none)) ∧
    main List.reverse List.reverse [(1, 2, 5), (2, 3, 7)] (some [(1, 2)]) 2 false
      [(100, 1, 0), (200, 3, 0)] = ([⟨100, 200, 19 / 2, 12, 0, 0⟩], none) :=
  scenario_batch 100 200 (by decide) List.reverse List.reverse
    (fun l => List.reverse_perm l) (fun m => List.reverse_perm m) _ (List.Perm.refl _) _
    (List.Perm.refl _)

/-- Witness of C16 on a search in which the decrease-key branch is taken for node 2. -/
theorem queue_error_unreachable_witness :
    (search decrease_graph 2 two_points (1, [(100, 0)])).st.trace =
      [⟨0, 0, 1, 1⟩, ⟨2, 2, 3, 1⟩, ⟨4, 4, 2, 3⟩] ∧
    (search decrease_graph 2 two_points (1, [(100, 0)])).status ≠ Status.queue_error :=
  ⟨by decide!,
   (queue_error_unreachable decrease_graph 2 two_points (1, [(100, 0)])
      (by decide!) (by decide!) (by norm_num)).1⟩

/-- Witness of C17: the first pass of a search from node 1, which carries the points 100,
300 and 200, with the start points 100 and 300. -/
theorem extraction_records_witness :
    emit [(100, 0), (300, 1)] [(100, 0), (300, 1), (200, 2)] 0 0 =
      [⟨100, 300, 0, 0, 0, 1⟩, ⟨100, 200, 0, 0, 0, 2⟩] ∧
    (step_state (search_step decrease_graph 2 [(1, [(100, 0), (300, 1), (200, 2)])] 3
      [(100, 0), (300, 1)] true (init_state 1))).out =
      (init_state 1).out ++ emit [(100, 0), (300, 1)]
        (points_at [(1, [(100, 0), (300, 1), (200, 2)])] (⟨0, 0, 1, 1⟩ : node).node_id)
        (⟨0, 0, 1, 1⟩ : node).d (⟨0, 0, 1, 1⟩ : node).real_d :=
  ⟨by decide!,
   (extraction_records decrease_graph 2 [(1, [(100, 0), (300, 1), (200, 2)])] 3
      [(100, 0), (300, 1)] true (init_state 1) ⟨0, 0, 1, 1⟩ [] rfl).1⟩

/-- Witness of C19 on a network file that gives the edge (1,2) twice, then marked improved
as (2,1). -/
theorem loaded_graph_symmetric_witness :
    ∃ g, mark_all (read_network [(1, 2, 5), (2, 1, 7), (2, 3, 1)]) [(2, 1)] = some g ∧
      find_edge g 1 2 = some ⟨7, 0, 0, true⟩ ∧
      (find_edge g 1 2 = find_edge g 2 1 ∧
        ((find_edge g 1 2).isSome = true ↔ (find_edge g 2 1).isSome = true) ∧
        ∀ e1 e2, find_edge g 1 2 = some e1 → find_edge g 2 1 = some e2 →
          e1.d = e2.d ∧ e1.is_improved = e2.is_improved) :=
  ⟨_, rfl, rfl,
    loaded_graph_symmetric [(1, 2, 5), (2, 1, 7), (2, 3, 1)] [(2, 1)] _ rfl 1 2⟩

/-! ### The bound on the number of passes -/

theorem struct_inv_length (n : Graph) (S : Nat) (st : SearchState) (h : struct_inv n S st) :
    st.trace.length ≤ graph_size n + 1 := by
  unfold struct_inv at h
  have hsub : st.trace.map node.node_id ⊆ S :: all_neighbors n :=
    fun k hk => h.univ k (h.e_seen k hk)
  have := (List.subperm_of_subset h.e_nodup hsub).length_le
  simpa [all_neighbors_length] using this

/-- The bound on the number of passes is never reached, on any graph: every search of the
embedding ends the way the loop of the program ends. -/
theorem search_loop_fuel_enough (n : Graph) (w : ℚ) (nodes_points : Points) (npoints : Nat)
    (x : Nat × List (Nat × ℚ)) (early : Bool) :
    (search_loop n w nodes_points npoints x.2 early (graph_size n + 2)
      (init_state x.1)).status ≠ Status.out_of_fuel := by
  refine search_loop_rule n w nodes_points npoints x.2 early (struct_inv n x.1)
    (fun r => r.status ≠ Status.out_of_fuel) (graph_size n + 1) ?_ ?_ ?_ _ _
    (struct_inv_init n x.1) ?_
  · intro st st1 h hs
    have h1 := search_step_struct n w x.1 nodes_points npoints x.2 early st h
    rw [hs] at h1
    refine ⟨h1, ?_⟩
    cases hq : st.q with
    | nil =>
      rw [search_step_empty n w nodes_points npoints x.2 early st hq] at hs
      cases hs
    | cons it q1 =>
      have h2 := (step_state_extract n w nodes_points npoints x.2 early st it q1 hq).2.2
      rw [hs] at h2
      simp only [step_state] at h2
      rw [h2, List.length_append]
      rfl
  · intro st r _ hs
    cases hq : st.q with
    | nil =>
      rw [search_step_empty n w nodes_points npoints x.2 early st hq] at hs
      cases hs
      rcases (after_loop_cases npoints st).2 with e | e <;> rw [e.1] <;> simp
    | cons it q1 =>
      rcases search_step_shape n w nodes_points npoints x.2 early st it q1 hq with
        h1 | ⟨_, h1⟩ | ⟨s, _, h1⟩
      · rw [h1] at hs
        cases hs
        rcases (after_loop_cases npoints (extracted_state nodes_points x.2 st it q1)).2 with
          e | e <;> rw [e.1] <;> simp
      · rw [h1] at hs
        cases hs
        simp
      · rw [h1] at hs
        cases hs
  · exact fun st h => struct_inv_length n x.1 st h
  · simp [init_state]

end nodes_distances
end Bustrips

namespace Bustrips
namespace sample_trips3
open dist_matrix

/-! ### Claim C24: when the construction of the matrix completes -/

theorem complete_of_cells (order : Dists → Dists) (ho : ∀ m, (order m).Perm m)
    (recs : List (Nat × Nat × Nat)) (cells : List Nat)
    (h : matrix_cells (read_list recs) (assign_ids (order (read_list recs))).2 = some cells) :
    complete recs := by
  obtain ⟨_, hget⟩ := matrix_cells_some _ _ cells h
  intro r1 h1 r2 h2 a ha b hb hab
  have hma : a ∈ (assign_ids (order (read_list recs))).2 := by
    rw [mentioned_iff order ho]
    refine ⟨r1, h1, ?_⟩
    simp only [List.mem_cons, List.mem_singleton, List.not_mem_nil, or_false] at ha
    rcases ha with e | e
    · exact Or.inl e.symm
    · exact Or.inr e.symm
  have hmb : b ∈ (assign_ids (order (read_list recs))).2 := by
    rw [mentioned_iff order ho]
    refine ⟨r2, h2, ?_⟩
    simp only [List.mem_cons, List.mem_singleton, List.not_mem_nil, or_false] at hb
    rcases hb with e | e
    · exact Or.inl e.symm
    · exact Or.inr e.symm
  obtain ⟨i, hi⟩ := List.mem_iff_getElem?.1 hma
  obtain ⟨j, hj⟩ := List.mem_iff_getElem?.1 hmb
  have hil := (List.getElem?_eq_some.1 hi).1
  have hjl := (List.getElem?_eq_some.1 hj).1
  have hij : i ≠ j := by
    intro e
    rw [e, hj] at hi
    exact hab (Option.some.inj hi).symm
  obtain ⟨v, hv, _⟩ := hget i j hil hjl
  unfold matrix_cell at hv
  rw [if_pos hij, getD_of_getElem? _ _ _ hi, getD_of_getElem? _ _ _ hj] at hv
  exact (find_read_list_isSome recs a b).1 (by rw [hv]; rfl)

theorem stored_some (recs : List (Nat × Nat × Nat)) (a b d : Nat)
    (h : stored recs a b = some d) : ∃ r ∈ recs, record_joins r a b ∧ r.2.2 = d := by
  unfold stored at h
  cases hf : recs.find? (fun r => decide (record_joins r a b)) with
  | none => rw [hf] at h; cases h
  | some r =>
    rw [hf] at h
    have h1 := List.find?_some hf
    exact ⟨r, List.mem_of_find?_eq_some hf, of_decide_eq_true h1, Option.some.inj h⟩

theorem cells_from_list (recs : List (Nat × Nat × Nat)) (ids cells : List Nat)
    (h : matrix_cells (read_list recs) ids = some cells) (i j : Nat) (hi : i < ids.length)
    (hj : j < ids.length) (hij : i ≠ j) :
    ∃ r ∈ recs, record_joins r (ids.getD i 0) (ids.getD j 0) ∧
      cells[i * ids.length + j]? = some r.2.2 := by
  obtain ⟨_, hcells⟩ := cells_facts recs ids cells h
  obtain ⟨hlen, hget⟩ := matrix_cells_some _ _ cells h
  obtain ⟨v, _, hv⟩ := hget i j hi hj
  have hs := (hcells i j hi hj).2.2 hij
  rw [hv] at hs
  obtain ⟨r, hr, hjoin, hd⟩ := stored_some recs _ _ v hs.symm
  exact ⟨r, hr, hjoin, by rw [hv, hd]⟩

/-- C24. Whatever the order in which the hash map is iterated, the writer ends normally
exactly when the distance list has, for every ordered pair of distinct ids it mentions, a
record about that pair in one of the two orientations, and so does `read_dists`.
Otherwise both stop with the `std::out_of_range` of `dists.at`, no matrix being
produced. In a matrix that is produced, every entry off the diagonal is the distance of
a record of the list about the two ids of the entry: no value is made up. -/
theorem construction_completes_iff (order : Dists → Dists) (ho : ∀ m, (order m).Perm m)
    (recs : List (Nat × Nat × Nat)) (s : distances) :
    ((∃ r, main order recs = Except.ok r) ↔ complete recs) ∧
    ((∃ r, read_dists order s recs = Except.ok r) ↔ complete recs) ∧
    (¬ complete recs →
      main order recs = Except.error dist_matrix.Error.out_of_range ∧
      read_dists order s recs = Except.error dist_matrix.Error.out_of_range) ∧
    (∀ file ids, main order recs = Except.ok (file, ids) →
      ∃ cells : List Nat, file = le64 file_id ++ le64 ids.length ++ cells.flatMap le64 ∧
        ∀ i j, i < ids.length → j < ids.length → i ≠ j →
          ∃ r ∈ recs, record_joins r (ids.getD i 0) (ids.getD j 0) ∧
            cells[i * ids.length + j]? = some r.2.2) ∧
    (∀ b s1, read_dists order s recs = Except.ok (b, s1) →
      ∃ (ids : List Nat) (cells : List Nat), s1.matrix = some (cells.flatMap le64) ∧
        s1.n = ids.length ∧ (∀ k i, map_find s1.ids k = some i ↔ ids[i]? = some k) ∧
        ∀ i j, i < ids.length → j < ids.length → i ≠ j →
          ∃ r ∈ recs, record_joins r (ids.getD i 0) (ids.getD j 0) ∧
            cells[i * ids.length + j]? = some r.2.2) := by
  have hinv := (assign_ids_inv (order (read_list recs))).1
  have hm : ∀ r, main order recs = Except.ok r → complete recs := by
    intro r h
    unfold main at h
    cases hc : matrix_cells (read_list recs) (assign_ids (order (read_list recs))).2 with
    | none => simp only [hc] at h; cases h
    | some cells => exact complete_of_cells order ho recs cells hc
  have hr : ∀ r, read_dists order s recs = Except.ok r → complete recs := by
    intro r h
    unfold read_dists at h
    cases hc : matrix_cells (read_list recs) (assign_ids (order (read_list recs))).2 with
    | none => simp only [hc] at h; cases h
    | some cells => exact complete_of_cells order ho recs cells hc
  refine ⟨⟨fun ⟨r, h⟩ => hm r h, fun hc => ?_⟩, ⟨fun ⟨r, h⟩ => hr r h, fun hc => ?_⟩, ?_, ?_, ?_⟩
  · obtain ⟨cells, _, h⟩ := main_complete order ho recs hc
    exact ⟨_, h⟩
  · obtain ⟨cells, _, h⟩ := read_dists_complete order ho s recs hc
    exact ⟨_, h⟩
  · intro hnc
    cases hc : matrix_cells (read_list recs) (assign_ids (order (read_list recs))).2 with
    | none =>
      constructor
      · unfold main
        simp only [hc]
      · unfold read_dists
        simp only [hc]
    | some cells => exact absurd (complete_of_cells order ho recs cells hc) hnc
  · intro file ids h
    unfold main at h
    cases hc : matrix_cells (read_list recs) (assign_ids (order (read_list recs))).2 with
    | none => simp only [hc] at h; cases h
    | some cells =>
      simp only [hc, Except.ok.injEq, Prod.mk.injEq] at h
      obtain ⟨h1, h2⟩ := h
      subst h2
      exact ⟨cells, h1.symm, fun i j hi hj hij => cells_from_list recs _ cells hc i j hi hj hij⟩
  · intro b s1 h
    unfold read_dists at h
    cases hc : matrix_cells (read_list recs) (assign_ids (order (read_list recs))).2 with
    | none => simp only [hc] at h; cases h
    | some cells =>
      simp only [hc, Except.ok.injEq, Prod.mk.injEq] at h
      obtain ⟨_, h2⟩ := h
      subst h2
      exact ⟨(assign_ids (order (read_list recs))).2, cells, rfl, rfl, hinv.find_iff,
        fun i j hi hj hij => cells_from_list recs _ cells hc i j hi hj hij⟩

/-- Witness of C24: the list (10,20), (10,30), (20,30) is complete and gives a matrix; the
list (10,20), (30,40) mentions the ids 10 and 30 and has no record about them, and the
construction stops with the out-of-range error. -/
theorem construction_completes_iff_witness :
    main List.reverse [(10, 20, 3), (30, 40, 4)] =
      Except.error dist_matrix.Error.out_of_range ∧
    ¬ complete [(10, 20, 3), (30, 40, 4)] ∧
    ((∃ r, main List.reverse [(10, 20, 3), (10, 30, 4), (20, 30, 5)] = Except.ok r) ↔
      complete [(10, 20, 3), (10, 30, 4), (20, 30, 5)]) ∧
    complete [(10, 20, 3), (10, 30, 4), (20, 30, 5)] :=
  ⟨by rfl, by decide,
   (construction_completes_iff List.reverse (fun m => List.reverse_perm m)
      [(10, 20, 3), (10, 30, 4), (20, 30, 5)] distances.new).1, by decide⟩

/-! ### Claim C21: the indices of the dictionary -/

/-- C21, the code at the failing input. The id file holds 5, 5, 7 and the matrix file is
one for two ids. The second 5 is dropped by `ids.insert` but the positions keep counting,
so `n = ids.size()` is 2 while the id 7 has the index 2: `open_dists` succeeds, the index
of 7 is not below `N = 2`, and `get_dist(7,7)` reads `matrix[6]`, outside the `N * N = 4`
doubles of the mapped matrix. -/
theorem open_dists_index_not_below_n :
    (open_dists distances.new two_id_file [5, 5, 7]).1 = true ∧
    (open_dists distances.new two_id_file [5, 5, 7]).2.n = 2 ∧
    map_find (open_dists distances.new two_id_file [5, 5, 7]).2.ids 7 = some 2 ∧
    (get_dist (open_dists distances.new two_id_file [5, 5, 7]).2 7 7).1 =
      Except.error Error.out_of_bounds ∧
    (get_dist (open_dists distances.new two_id_file [5, 5, 7]).2 7 5).1 =
      Except.error Error.out_of_bounds ∧
    (get_dist (open_dists distances.new two_id_file [5, 5, 7]).2 5 7).1 = Except.ok 11 :=
  ⟨by rfl, by rfl, by rfl, by rfl, by rfl, by rfl⟩

theorem open_dists_index_bound_of_nodup (s : distances) (df vids : List Nat)
    (hn : vids.Nodup) (hsize : 16 + 8 * vids.length * vids.length < 2 ^ 64)
    (h : (open_dists s df vids).1 = true) :
    (open_dists s df vids).2.n = vids.length ∧
    (∀ a i, map_find (open_dists s df vids).2.ids a = some i → i < vids.length) ∧
    ∀ a b ia ib, map_find (open_dists s df vids).2.ids a = some ia →
      map_find (open_dists s df vids).2.ids b = some ib →
      ia * vids.length + ib < vids.length * vids.length ∧
      (get_dist (open_dists s df vids).2 a b).1 =
        Except.ok (read64 df (16 + 8 * (ia * vids.length + ib))) := by
  obtain ⟨hinv, hlen⟩ := insert_ids_inv vids hn
  have hst := open_dists_true_state s df vids h
  have hdf := ((open_dists_true_iff s df vids).1 h).1
  rw [hlen, Nat.mod_eq_of_lt hsize] at hdf
  rw [hst]
  simp only [hlen]
  have hidx : ∀ a i, map_find (insert_ids vids) a = some i → i < vids.length :=
    fun a i hf => (List.getElem?_eq_some.1 ((hinv.find_iff a i).1 hf)).1
  refine ⟨trivial, hidx, ?_⟩
  intro a b ia ib ha hb
  have h1 := hidx a ia ha
  have h2 := hidx b ib hb
  have hlt : ia * vids.length + ib < vids.length * vids.length := by
    have : (ia + 1) * vids.length ≤ vids.length * vids.length := Nat.mul_le_mul_right _ h1
    rw [Nat.succ_mul] at this
    omega
  refine ⟨hlt, ?_⟩
  have hmul : 8 * vids.length * vids.length = 8 * (vids.length * vids.length) :=
    Nat.mul_assoc _ _ _
  unfold get_dist
  simp only [ha, hb, read_double]
  rw [Nat.mod_eq_of_lt (by omega)]
  have hl : (df.drop 16).length = 8 * (vids.length * vids.length) := by
    rw [List.length_drop, hdf]
    omega
  rw [hl, if_pos (by omega)]
  congr 1
  unfold read64 byte_at
  simp only [List.getD_eq_getElem?_getD, List.getElem?_drop]
  simp only [Nat.add_assoc]

end sample_trips3
end Bustrips

namespace Bustrips
namespace nodes_distances

/-! ### Claim C22: every node is extracted at most once -/

theorem mem_keys_map_set {K V : Type} [DecidableEq K] (m : List (K × V)) (k k2 : K) (v : V) :
    k2 ∈ map_keys (map_set m k v) ↔ k2 ∈ map_keys m ∨ k2 = k := by
  rw [← map_find_isSome_iff, ← map_find_isSome_iff, map_find_set]
  by_cases h : k = k2
  · rw [if_pos h]
    simp [h]
  · rw [if_neg h]
    constructor
    · exact Or.inl
    · rintro (h1 | h1)
      · exact h1
      · exact absurd h1.symm h

theorem graph_set_entries (n : Graph) (a b : Nat) (e : edge_info) (x : Nat × Adj)
    (hx : x ∈ graph_set n a b e) (y : Nat × edge_info) (hy : y ∈ x.2) :
    y = (b, e) ∨ ∃ x1 ∈ n, y ∈ x1.2 := by
  unfold graph_set at hx
  rcases mem_map_set n a _ x hx with h | h
  · rw [h] at hy
    rcases mem_map_set _ b e y hy with h1 | h1
    · exact Or.inl h1
    · exact Or.inr ⟨_, adj_mem n a y h1, h1⟩
  · exact Or.inr ⟨x, h, hy⟩

theorem graph_set_keys (n : Graph) (a b : Nat) (e : edge_info) (k : Nat) :
    k ∈ map_keys (graph_set n a b e) ↔ k ∈ map_keys n ∨ k = a :=
  mem_keys_map_set n a k _

theorem graph_set_two_closed (n : Graph) (a b : Nat) (e1 e2 : edge_info)
    (h : graph_closed n) : graph_closed (graph_set (graph_set n a b e1) b a e2) := by
  constructor
  · intro x hx y hy
    rw [graph_set_keys, graph_set_keys]
    rcases graph_set_entries _ b a e2 x hx y hy with h1 | ⟨x1, hx1, hy1⟩
    · rw [h1]
      exact Or.inl (Or.inr rfl)
    · rcases graph_set_entries n a b e1 x1 hx1 y hy1 with h2 | ⟨x2, hx2, hy2⟩
      · rw [h2]
        exact Or.inr rfl
      · exact Or.inl (Or.inl (h.1 x2 hx2 y hy2))
  · exact map_keys_set_nodup _ _ _ (map_keys_set_nodup _ _ _ h.2)

theorem read_network_closed (edges : List (Nat × Nat × ℚ)) :
    graph_closed (read_network edges) := by
  unfold read_network
  have gen : ∀ (l : List (Nat × Nat × ℚ)) (n : Graph), graph_closed n →
      graph_closed (l.foldl add_edge n) := by
    intro l
    induction l with
    | nil => intro n h; exact h
    | cons r l ih =>
      intro n h
      rw [List.foldl_cons]
      exact ih _ (graph_set_two_closed n r.1 r.2.1 _ _ h)
  exact gen edges [] ⟨by simp, by simp [map_keys]⟩

theorem mark_all_closed (marks : List (Nat × Nat)) : ∀ (n g : Graph), graph_closed n →
    mark_all n marks = some g → graph_closed g := by
  induction marks with
  | nil =>
    intro n g h hm
    simp only [mark_all, Option.some.injEq] at hm
    rw [← hm]
    exact h
  | cons r marks ih =>
    intro n g h hm
    simp only [mark_all] at hm
    cases hr : mark_improved n r with
    | none => rw [hr] at hm; cases hm
    | some n1 =>
      rw [hr] at hm
      refine ih n1 g ?_ hm
      rw [mark_improved_eq n n1 r.1 r.2 hr]
      exact graph_set_two_closed n r.1 r.2 _ _ h

theorem struct_inv_nodes (n : Graph) (S : Nat) (st : SearchState) (h : struct_inv n S st)
    (hc : graph_closed n) (hS : S ∈ map_keys n) : st.trace.length ≤ n.length := by
  unfold struct_inv at h
  have hsub : st.trace.map node.node_id ⊆ map_keys n := by
    intro k hk
    rcases List.mem_cons.1 (h.univ k (h.e_seen k hk)) with e | e
    · exact e ▸ hS
    · unfold all_neighbors at e
      rw [List.mem_flatMap] at e
      obtain ⟨x, hx, hy⟩ := e
      obtain ⟨y, hy1, hy2⟩ := List.mem_map.1 hy
      exact hy2 ▸ hc.1 x hx y hy1
  have := (List.subperm_of_subset h.e_nodup hsub).length_le
  simpa [map_keys] using this

theorem log_inv_init (S : Nat) (nodes_points : Points) (xs : List (Nat × ℚ)) :
    log_inv S nodes_points xs (init_state S) :=
  ⟨rfl, rfl, Or.inl ⟨rfl, rfl⟩⟩

theorem search_step_log (n : Graph) (w : ℚ) (S : Nat) (nodes_points : Points)
    (npoints : Nat) (xs : List (Nat × ℚ)) (early : Bool) (st : SearchState)
    (h : log_inv S nodes_points xs st) :
    log_inv S nodes_points xs (step_state (search_step n w nodes_points npoints xs early st)) := by
  cases hq : st.q with
  | nil =>
    rw [search_step_empty n w nodes_points npoints xs early st hq]
    simp only [step_state, after_loop_st]
    exact h
  | cons it q1 =>
    obtain ⟨h1, h2, h3⟩ := step_state_extract n w nodes_points npoints xs early st it q1 hq
    refine ⟨?_, ?_, ?_⟩
    · rw [h2, h3, h.found_eq]
      simp
    · rw [h1, h3, h.out_eq]
      simp
    · right
      rw [h3]
      rcases h.first with ⟨e1, e2⟩ | e
      · rw [hq] at e2
        rw [e1, (List.cons.inj e2).1]
        rfl
      · cases ht : st.trace with
        | nil => rw [ht] at e; cases e
        | cons t ts =>
          rw [ht] at e
          simpa using e

theorem search_loop_log (n : Graph) (w : ℚ) (S : Nat) (nodes_points : Points)
    (npoints : Nat) (xs : List (Nat × ℚ)) (early : Bool) :
    ∀ (fuel : Nat) (st : SearchState), log_inv S nodes_points xs st →
      log_inv S nodes_points xs (search_loop n w nodes_points npoints xs early fuel st).st := by
  intro fuel
  induction fuel with
  | zero => intro st h; exact h
  | succ fuel ih =>
    intro st h
    have hs := search_step_log n w S nodes_points npoints xs early st h
    simp only [search_loop]
    cases hstep : search_step n w nodes_points npoints xs early st with
    | done r =>
      rw [hstep] at hs
      exact hs
    | next st1 =>
      rw [hstep] at hs
      exact ih st1 hs

theorem search_loop_ok_found (n : Graph) (w : ℚ) (nodes_points : Points)
    (npoints : Nat) (xs : List (Nat × ℚ)) (early : Bool) :
    ∀ (fuel : Nat) (st : SearchState),
      (search_loop n w nodes_points npoints xs early fuel st).status = Status.ok →
      (search_loop n w nodes_points npoints xs early fuel st).st.found = npoints := by
  intro fuel
  induction fuel with
  | zero => intro st h; simp [search_loop] at h
  | succ fuel ih =>
    intro st h
    simp only [search_loop] at h ⊢
    cases hq : st.q with
    | nil =>
      rw [search_step_empty n w nodes_points npoints xs early st hq] at h ⊢
      simp only at h ⊢
      rcases (after_loop_cases npoints st).2 with e | e
      · rw [after_loop_st]
        exact e.2
      · rw [e.1] at h
        cases h
    | cons it q1 =>
      rcases search_step_shape n w nodes_points npoints xs early st it q1 hq with
        h1 | ⟨_, h1⟩ | ⟨s, _, h1⟩
      · rw [h1] at h ⊢
        simp only at h ⊢
        rcases (after_loop_cases npoints (extracted_state nodes_points xs st it q1)).2 with
          e | e
        · rw [after_loop_st]
          exact e.2
        · rw [e.1] at h
          cases h
      · rw [h1] at h
        cases h
      · rw [h1] at h ⊢
        exact ih _ h

theorem search_with_facts (n : Graph) (w : ℚ) (nodes_points : Points)
    (x : Nat × List (Nat × ℚ))
    (hok : (search_with n w nodes_points (count_points nodes_points) x).status = Status.ok) :
    ((search_with n w nodes_points (count_points nodes_points) x).st.trace.map
      node.node_id).Nodup ∧
    (search_with n w nodes_points (count_points nodes_points) x).st.out =
      (search_with n w nodes_points (count_points nodes_points) x).st.trace.flatMap
        (fun t => emit x.2 (points_at nodes_points t.node_id) t.d t.real_d) ∧
    (∀ v, points_at nodes_points v ≠ [] →
      v ∈ (search_with n w nodes_points (count_points nodes_points) x).st.trace.map
        node.node_id) ∧
    ∀ t ∈ (search_with n w nodes_points (count_points nodes_points) x).st.trace,
      t.node_id = x.1 → t.d = 0 ∧ t.real_d = 0 := by
  have hs : struct_inv n x.1
      (search_with n w nodes_points (count_points nodes_points) x).st :=
    search_loop_struct n w x.1 nodes_points _ x.2 true _ _ (struct_inv_init n x.1)
  have hl : log_inv x.1 nodes_points x.2
      (search_with n w nodes_points (count_points nodes_points) x).st :=
    search_loop_log n w x.1 nodes_points _ x.2 true _ _ (log_inv_init x.1 nodes_points x.2)
  have hfound := search_loop_ok_found n w nodes_points (count_points nodes_points) x.2 true
    _ _ hok
  have hnd : ((search_with n w nodes_points (count_points nodes_points) x).st.trace.map
      node.node_id).Nodup := hs.e_nodup
  refine ⟨hnd, hl.out_eq, ?_, ?_⟩
  · intro v hv
    by_contra hm
    have h1 := points_sum_le nodes_points
      (v :: (search_with n w nodes_points (count_points nodes_points) x).st.trace.map
        node.node_id) (List.nodup_cons.2 ⟨hm, hnd⟩)
    rw [List.map_cons, List.sum_cons, List.map_map] at h1
    have h2 : 0 < (points_at nodes_points v).length := List.length_pos.2 hv
    have h3 := hl.found_eq
    simp only [Function.comp_def] at h1
    have h4 : (search_with n w nodes_points (count_points nodes_points) x).st.found =
        count_points nodes_points := hfound
    omega
  · intro t ht hid
    rcases hl.first with ⟨e1, _⟩ | e
    · rw [e1] at ht
      cases ht
    · cases htr : (search_with n w nodes_points (count_points nodes_points) x).st.trace with
      | nil => rw [htr] at ht; cases ht
      | cons t0 ts =>
        rw [htr] at e ht hnd
        simp only [List.head?_cons, Option.some.injEq] at e
        rw [List.map_cons, List.nodup_cons] at hnd
        rcases List.mem_cons.1 ht with h1 | h1
        · rw [h1, e]
          exact ⟨rfl, rfl⟩
        · exfalso
          apply hnd.1
          rw [e]
          exact List.mem_map.2 ⟨t, h1, hid⟩

/-! ### Counting the lines of a pair of points -/

theorem countP_eq_one {α K : Type} (key : α → K) (pred : α → Bool) :
    ∀ (l : List α) (a : α), (l.map key).Nodup → a ∈ l → pred a = true →
      (∀ b ∈ l, pred b = true → key b = key a) → l.countP pred = 1 := by
  intro l
  induction l with
  | nil => intro a _ ha; cases ha
  | cons b l ih =>
    intro a hn ha hpa huniq
    rw [List.map_cons, List.nodup_cons] at hn
    rcases List.mem_cons.1 ha with e | hal
    · subst e
      rw [List.countP_cons_of_pos pred l hpa]
      have : l.countP pred = 0 := by
        rw [List.countP_eq_zero]
        intro c hc hpc
        apply hn.1
        rw [← huniq c (List.mem_cons_of_mem _ hc) hpc]
        exact List.mem_map_of_mem key hc
      rw [this]
    · have hpb : ¬ pred b = true := by
        intro hpb
        apply hn.1
        rw [huniq b (List.mem_cons_self _ _) hpb]
        exact List.mem_map_of_mem key hal
      rw [List.countP_cons_of_neg pred l hpb]
      exact ih a hn.2 hal hpa (fun c hc => huniq c (List.mem_cons_of_mem _ hc))

theorem countP_flatMap_eq_one {α β K : Type} (key : α → K) (f : α → List β)
    (pred : β → Bool) :
    ∀ (l : List α) (a : α), (l.map key).Nodup → a ∈ l → (f a).countP pred = 1 →
      (∀ b ∈ l, key b ≠ key a → ∀ r ∈ f b, ¬ pred r = true) →
      (l.flatMap f).countP pred = 1 := by
  intro l
  induction l with
  | nil => intro a _ ha; cases ha
  | cons b l ih =>
    intro a hn ha hfa hothers
    rw [List.map_cons, List.nodup_cons] at hn
    rw [List.flatMap_cons, List.countP_append]
    rcases List.mem_cons.1 ha with e | hal
    · subst e
      have : (l.flatMap f).countP pred = 0 := by
        rw [List.countP_eq_zero]
        intro r hr
        obtain ⟨c, hc, hrc⟩ := List.mem_flatMap.1 hr
        have hne : key c ≠ key a := fun e => hn.1 (e ▸ List.mem_map_of_mem key hc)
        exact hothers c (List.mem_cons_of_mem _ hc) hne r hrc
      rw [hfa, this]
    · have hne : key b ≠ key a := fun e => hn.1 (e ▸ List.mem_map_of_mem key hal)
      have : (f b).countP pred = 0 := by
        rw [List.countP_eq_zero]
        exact hothers b (List.mem_cons_self _ _) hne
      rw [this, Nat.zero_add]
      exact ih a hn.2 hal hfa (fun c hc => hothers c (List.mem_cons_of_mem _ hc))

theorem emit_pair (xs ys : List (Nat × ℚ)) (d real_d : ℚ) (p q : Nat × ℚ)
    (hx : (xs.map Prod.fst).Nodup) (hy : (ys.map Prod.fst).Nodup) (hp : p ∈ xs)
    (hq : q ∈ ys) (hlt : p.1 < q.1) :
    pair_count (emit xs ys d real_d) p.1 q.1 = 1 ∧
    (⟨p.1, q.1, d, real_d, p.2, q.2⟩ : Record) ∈ emit xs ys d real_d := by
  constructor
  · unfold pair_count emit
    refine countP_flatMap_eq_one Prod.fst _ _ xs p hx hp ?_ ?_
    · rw [List.countP_map]
      refine countP_eq_one Prod.fst _ _ q ?_ ?_ ?_ ?_
      · exact ((List.filter_sublist ys).map Prod.fst).nodup hy
      · rw [List.mem_filter]
        exact ⟨hq, by simpa using hlt⟩
      · simp
      · intro b _ hb
        simp only [Function.comp_apply, decide_eq_true_eq] at hb
        exact hb.2
    · intro b _ hne r hr
      simp only [List.mem_map, List.mem_filter] at hr
      obtain ⟨n2, _, e⟩ := hr
      subst e
      simp only [decide_eq_true_eq, not_and]
      intro e1
      exact absurd e1 hne
  · unfold emit
    simp only [List.mem_flatMap, List.mem_map, List.mem_filter, decide_eq_true_eq]
    exact ⟨p, hp, q, ⟨hq, hlt⟩, rfl⟩

theorem points_at_mem (nodes_points : Points) (a : Nat) (p : Nat × ℚ)
    (h : p ∈ points_at nodes_points a) : (a, points_at nodes_points a) ∈ nodes_points := by
  unfold points_at at h ⊢
  cases hf : map_find nodes_points a with
  | none => simp [hf] at h
  | some l => exact map_find_mem nodes_points a l hf

theorem points_at_of_mem (nodes_points : Points) (hk : points_keys_distinct nodes_points)
    (x : Nat × List (Nat × ℚ)) (h : x ∈ nodes_points) : points_at nodes_points x.1 = x.2 := by
  unfold points_at
  rw [map_find_of_mem nodes_points x.1 x.2 hk h]
  rfl

theorem point_ids_entry (nodes_points : Points) (h : (point_ids nodes_points).Nodup)
    (a : Nat) : ((points_at nodes_points a).map Prod.fst).Nodup := by
  cases hl : points_at nodes_points a with
  | nil => simp
  | cons p l =>
    have hm := points_at_mem nodes_points a p (by rw [hl]; exact List.mem_cons_self _ _)
    rw [← hl]
    exact (List.nodup_flatMap.1 h).1 _ hm

theorem point_ids_node (nodes_points : Points) (h : (point_ids nodes_points).Nodup)
    (a b : Nat) (p q : Nat × ℚ) (hp : p ∈ points_at nodes_points a)
    (hq : q ∈ points_at nodes_points b) (e : p.1 = q.1) : a = b := by
  have ha := points_at_mem nodes_points a p hp
  have hb := points_at_mem nodes_points b q hq
  by_contra hab
  have hne : (a, points_at nodes_points a) ≠ (b, points_at nodes_points b) :=
    fun e => hab (Prod.mk.inj e).1
  have hsym : Symmetric (Function.onFun List.Disjoint
      (fun x : Nat × List (Nat × ℚ) => x.2.map Prod.fst)) :=
    fun x y hxy => List.Disjoint.symm hxy
  have hd := List.Pairwise.forall hsym (List.nodup_flatMap.1 h).2 ha hb hne
  exact hd (List.mem_map_of_mem Prod.fst hp) (e ▸ List.mem_map_of_mem Prod.fst hq)

theorem run_searches_ok (n : Graph) (w : ℚ) (nodes_points : Points) (npoints : Nat) :
    ∀ (l : List (Nat × List (Nat × ℚ))) (acc out : List Record),
      run_searches n w nodes_points npoints l acc = (out, none) →
      (∀ x ∈ l, (search_with n w nodes_points npoints x).status = Status.ok) ∧
      out = acc ++ l.flatMap (fun x => (search_with n w nodes_points npoints x).st.out) := by
  intro l
  induction l with
  | nil =>
    intro acc out h
    simp only [run_searches, Prod.mk.injEq, and_true] at h
    exact ⟨by simp, by simp [h]⟩
  | cons x l ih =>
    intro acc out h
    simp only [run_searches] at h
    cases hs : (search_loop n w nodes_points npoints x.2 true (graph_size n + 2)
        (init_state x.1)).status with
    | ok =>
      rw [hs] at h
      obtain ⟨h1, h2⟩ := ih _ _ h
      refine ⟨?_, ?_⟩
      · intro y hy
        rcases List.mem_cons.1 hy with e | e
        · rw [e]
          exact hs
        · exact h1 y e
      · rw [h2, List.flatMap_cons, List.append_assoc]
        rfl
    | not_all_found => rw [hs] at h; simp at h
    | queue_error => rw [hs] at h; simp at h
    | out_of_fuel => rw [hs] at h; simp at h

theorem search_pair (n : Graph) (w : ℚ) (nodes_points : Points)
    (hids : (point_ids nodes_points).Nodup) (u v : Nat) (p q : Nat × ℚ)
    (hp : p ∈ points_at nodes_points u) (hq : q ∈ points_at nodes_points v)
    (hlt : p.1 < q.1)
    (hok : (search_with n w nodes_points (count_points nodes_points)
      (u, points_at nodes_points u)).status = Status.ok) :
    pair_count (search_with n w nodes_points (count_points nodes_points)
      (u, points_at nodes_points u)).st.out p.1 q.1 = 1 ∧
    ∃ d real_d, (⟨p.1, q.1, d, real_d, p.2, q.2⟩ : Record) ∈
      (search_with n w nodes_points (count_points nodes_points)
        (u, points_at nodes_points u)).st.out ∧ (u = v → d = 0 ∧ real_d = 0) := by
  obtain ⟨hnd, hout, hall, hzero⟩ := search_with_facts n w nodes_points _ hok
  have hv : v ∈ (search_with n w nodes_points (count_points nodes_points)
      (u, points_at nodes_points u)).st.trace.map node.node_id :=
    hall v (List.ne_nil_of_mem hq)
  obtain ⟨t, ht, htv⟩ := List.mem_map.1 hv
  have hem := emit_pair (points_at nodes_points u) (points_at nodes_points t.node_id)
    t.d t.real_d p q (point_ids_entry nodes_points hids u)
    (point_ids_entry nodes_points hids t.node_id) hp (by rw [htv]; exact hq) hlt
  constructor
  · rw [hout]
    unfold pair_count
    refine countP_flatMap_eq_one node.node_id _ _ _ t hnd ht hem.1 ?_
    intro t2 _ hne r hr
    obtain ⟨_, h2, _, _, _⟩ := mem_emit _ _ _ _ r hr
    simp only [decide_eq_true_eq, not_and]
    intro _ e2
    apply hne
    rw [htv]
    exact point_ids_node nodes_points hids _ _ _ q h2 hq e2
  · refine ⟨t.d, t.real_d, ?_, ?_⟩
    · rw [hout, List.mem_flatMap]
      exact ⟨t, ht, hem.2⟩
    · intro huv
      exact hzero t ht (by rw [htv, huv])

theorem run_searches_pairs (n : Graph) (w : ℚ) (nodes_points : Points)
    (l : List (Nat × List (Nat × ℚ))) (out : List Record)
    (hk : points_keys_distinct nodes_points) (hids : (point_ids nodes_points).Nodup)
    (hl : l.Perm nodes_points)
    (hrun : run_searches n w nodes_points (count_points nodes_points) l [] = (out, none)) :
    out = l.flatMap
      (fun x => (search_with n w nodes_points (count_points nodes_points) x).st.out) ∧
    (∀ r ∈ out, r.id1 < r.id2 ∧
      ∃ u v, (r.id1, r.off1) ∈ points_at nodes_points u ∧
        (r.id2, r.off2) ∈ points_at nodes_points v) ∧
    ∀ u v p q, p ∈ points_at nodes_points u → q ∈ points_at nodes_points v → p.1 < q.1 →
      pair_count out p.1 q.1 = 1 ∧
      ∃ d real_d, (⟨p.1, q.1, d, real_d, p.2, q.2⟩ : Record) ∈ out ∧
        (⟨p.1, q.1, d, real_d, p.2, q.2⟩ : Record) ∈
          (search_with n w nodes_points (count_points nodes_points)
            (u, points_at nodes_points u)).st.out ∧
        (u = v → d = 0 ∧ real_d = 0) := by
  obtain ⟨hok, hout⟩ := run_searches_ok n w nodes_points _ l [] out hrun
  rw [List.nil_append] at hout
  have hmem : ∀ x ∈ l, x ∈ nodes_points := fun x hx => hl.subset hx
  have hrec : ∀ x ∈ l, ∀ r ∈ (search_with n w nodes_points (count_points nodes_points)
      x).st.out, r.id1 < r.id2 ∧ (r.id1, r.off1) ∈ points_at nodes_points x.1 ∧
      ∃ v, (r.id2, r.off2) ∈ points_at nodes_points v := by
    intro x hx r hr
    obtain ⟨_, ho, _, _⟩ := search_with_facts n w nodes_points x (hok x hx)
    rw [ho, List.mem_flatMap] at hr
    obtain ⟨t, _, hrt⟩ := hr
    obtain ⟨h1, h2, h3, _, _⟩ := mem_emit _ _ _ _ r hrt
    rw [points_at_of_mem nodes_points hk x (hmem x hx)]
    exact ⟨h3, h1, t.node_id, h2⟩
  refine ⟨hout, ?_, ?_⟩
  · intro r hr
    rw [hout, List.mem_flatMap] at hr
    obtain ⟨x, hx, hrx⟩ := hr
    obtain ⟨h1, h2, v, h3⟩ := hrec x hx r hrx
    exact ⟨h1, x.1, v, h2, h3⟩
  · intro u v p q hp hq hlt
    have hu : (u, points_at nodes_points u) ∈ l :=
      hl.symm.subset (points_at_mem nodes_points u p hp)
    obtain ⟨hc, d, real_d, hin, hz⟩ := search_pair n w nodes_points hids u v p q hp hq hlt
      (hok _ hu)
    refine ⟨?_, d, real_d, ?_, hin, hz⟩
    · rw [hout]
      unfold pair_count
      refine countP_flatMap_eq_one Prod.fst _ _ l _ ?_ hu hc ?_
      · exact (hl.map Prod.fst).nodup_iff.2 hk
      · intro x hx hne r hr
        obtain ⟨_, h2, _⟩ := hrec x hx r hr
        simp only [decide_eq_true_eq, not_and]
        intro e1 _
        apply hne
        exact point_ids_node nodes_points hids _ _ (r.id1, r.off1) p h2 hp e1
    · rw [hout, List.mem_flatMap]
      exact ⟨_, hu, hin⟩

/-! ### Claim C23: every pair of points is written once -/

theorem points_at_map_set (m : Points) (k k2 : Nat) (v : List (Nat × ℚ)) :
    points_at (map_set m k v) k2 = if k = k2 then v else points_at m k2 := by
  unfold points_at
  rw [map_find_set]
  split <;> rfl

theorem count_points_add (x : Nat × ℚ) (k : Nat) : ∀ (m : Points),
    count_points (map_set m k (points_at m k ++ [x])) = count_points m + 1 := by
  intro m
  induction m with
  | nil => simp [map_set, points_at, map_find, count_points]
  | cons y rest ih =>
    obtain ⟨k1, v1⟩ := y
    rw [points_at_cons]
    by_cases hk : k1 = k
    · simp only [map_set, hk, if_true, count_points, List.map_cons, List.sum_cons,
        List.length_append, List.length_singleton]
      omega
    · simp only [map_set, hk, if_false]
      have : count_points ((k1, v1) :: map_set rest k (points_at rest k ++ [x])) =
          v1.length + count_points (map_set rest k (points_at rest k ++ [x])) := by
        simp [count_points]
      rw [this, ih]
      simp only [count_points, List.map_cons, List.sum_cons]
      omega

theorem point_ids_add (x : Nat × ℚ) (k : Nat) : ∀ (m : Points),
    (point_ids (map_set m k (points_at m k ++ [x]))).Perm (point_ids m ++ [x.1]) := by
  intro m
  induction m with
  | nil => simp [map_set, points_at, map_find, point_ids]
  | cons y rest ih =>
    obtain ⟨k1, v1⟩ := y
    rw [points_at_cons]
    by_cases hk : k1 = k
    · simp only [map_set, hk, if_true, point_ids, List.flatMap_cons, List.map_append,
        List.map_cons, List.map_nil, List.append_assoc]
      exact List.Perm.append_left _ List.perm_append_comm
    · simp only [map_set, hk, if_false]
      have h1 : point_ids ((k1, v1) :: map_set rest k (points_at rest k ++ [x])) =
          v1.map Prod.fst ++ point_ids (map_set rest k (points_at rest k ++ [x])) := by
        simp [point_ids]
      have h2 : point_ids ((k1, v1) :: rest) = v1.map Prod.fst ++ point_ids rest := by
        simp [point_ids]
      rw [h1, h2, List.append_assoc]
      exact List.Perm.append_left _ ih

theorem add_point_inv (n : Graph) (s s1 : Points × Nat) (r : Nat × Nat × ℚ)
    (seen : List (Nat × Nat × ℚ)) (h : points_inv s seen) (ha : add_point n s r = some s1) :
    points_inv s1 (seen ++ [r]) := by
  unfold add_point at ha
  split at ha
  · cases ha
  · simp only [Option.some.injEq] at ha
    subst ha
    refine ⟨?_, ?_, ?_, ?_⟩
    · exact map_keys_set_nodup _ _ _ h.keys
    · show s.2 + 1 = count_points _
      rw [count_points_add, h.count]
    · show (point_ids (map_set s.1 r.2.1 (points_at s.1 r.2.1 ++ [(r.1, r.2.2)]))).Perm _
      rw [List.map_append]
      exact (point_ids_add (r.1, r.2.2) r.2.1 s.1).trans (List.Perm.append_right _ h.ids)
    · intro nid pt off
      show (pt, off) ∈ points_at (map_set s.1 r.2.1 (points_at s.1 r.2.1 ++ [(r.1, r.2.2)]))
        nid ↔ _
      rw [points_at_map_set, List.mem_append, List.mem_singleton]
      by_cases hk : r.2.1 = nid
      · rw [if_pos hk, List.mem_append, List.mem_singleton, hk, h.at_iff]
        constructor
        · rintro (h1 | h1)
          · exact Or.inl h1
          · right
            rw [← hk, (Prod.mk.inj h1).1, (Prod.mk.inj h1).2]
        · rintro (h1 | h1)
          · exact Or.inl h1
          · right
            rw [← h1]
      · rw [if_neg hk, h.at_iff]
        constructor
        · exact Or.inl
        · rintro (h1 | h1)
          · exact h1
          · exact absurd (by rw [← h1]) hk

theorem read_points_inv (n : Graph) : ∀ (points : List (Nat × Nat × ℚ)) (s s1 : Points × Nat)
    (seen : List (Nat × Nat × ℚ)), points_inv s seen → read_points n points s = some s1 →
    points_inv s1 (seen ++ points) := by
  intro points
  induction points with
  | nil =>
    intro s s1 seen h hr
    simp only [read_points, Option.some.injEq] at hr
    rw [← hr, List.append_nil]
    exact h
  | cons r points ih =>
    intro s s1 seen h hr
    simp only [read_points] at hr
    cases ha : add_point n s r with
    | none => rw [ha] at hr; cases hr
    | some s2 =>
      rw [ha] at hr
      have := ih s2 s1 (seen ++ [r]) (add_point_inv n s s2 r seen h ha) hr
      rwa [List.append_assoc] at this

theorem points_inv_nil : points_inv ([], 0) [] :=
  ⟨List.nodup_nil, rfl, List.Perm.refl _, fun nid pt off => by simp [points_at, map_find]⟩

/-- C23. In every run on a points file with pairwise distinct point ids that ends
normally, whatever the network, the improved edges, the factor and the iteration orders
of the hash maps: the output is the concatenation, in the iteration order of
`nodes_points`, of the outputs of the searches from the nodes that carry points; every
line has its smaller id first and is about two points of the file; and for any two
points `p`, `q` of the file with `p.id < q.id` exactly one line of the whole output is
about `p.id`, `q.id` in this order (and none in the other order): it carries the offsets
of `p` and `q`, it is written by the search from the node of `p`, and it has the
weighted and the real distance 0 when both points are at the same node. -/
theorem batch_pairs_once (order_adj : Adj → Adj) (order_pts : Points → Points)
    (hp : ∀ m, (order_pts m).Perm m) (network : List (Nat × Nat × ℚ))
    (improved_edges : Option (List (Nat × Nat))) (w : ℚ) (points : List (Nat × Nat × ℚ))
    (out : List Record) (hid : (points.map Prod.fst).Nodup)
    (hrun : main order_adj order_pts network improved_edges w false points = (out, none)) :
    ∃ (n : Graph) (np : Points),
      read_improved_edges (read_network network) w improved_edges = Except.ok n ∧
      read_points n points ([], 0) = some (np, count_points np) ∧
      (∀ nid pt off, (pt, off) ∈ points_at np nid ↔ (pt, nid, off) ∈ points) ∧
      out = (order_pts np).flatMap (fun x =>
        (search_with (iterate_adj order_adj n) w np (count_points np) x).st.out) ∧
      (∀ r ∈ out, r.id1 < r.id2 ∧
        ∃ n1 n2, (r.id1, n1, r.off1) ∈ points ∧ (r.id2, n2, r.off2) ∈ points) ∧
      ∀ p ∈ points, ∀ q ∈ points, p.1 < q.1 →
        pair_count out p.1 q.1 = 1 ∧ pair_count out q.1 p.1 = 0 ∧
        ∃ d real_d, (⟨p.1, q.1, d, real_d, p.2.2, q.2.2⟩ : Record) ∈ out ∧
          (⟨p.1, q.1, d, real_d, p.2.2, q.2.2⟩ : Record) ∈
            (search_with (iterate_adj order_adj n) w np (count_points np)
              (p.2.1, points_at np p.2.1)).st.out ∧
          (p.2.1 = q.2.1 → d = 0 ∧ real_d = 0) := by
  unfold main at hrun
  cases hread : read_improved_edges (read_network network) w improved_edges with
  | error e => rw [hread] at hrun; simp at hrun
  | ok n =>
    rw [hread] at hrun
    simp only [Bool.false_eq_true, if_false] at hrun
    cases hpts : read_points n points ([], 0) with
    | none => rw [hpts] at hrun; simp at hrun
    | some s =>
      rw [hpts] at hrun
      simp only at hrun
      have hinv := read_points_inv n points ([], 0) s [] points_inv_nil hpts
      rw [List.nil_append] at hinv
      by_cases hlen : s.1.length = 0
      · rw [if_pos hlen] at hrun
        simp at hrun
      · rw [if_neg hlen, hinv.count] at hrun
        have hids : (point_ids s.1).Nodup := hinv.ids.nodup_iff.2 hid
        obtain ⟨hout, hrec, hpair⟩ := run_searches_pairs (iterate_adj order_adj n) w s.1
          (order_pts s.1) out hinv.keys hids (hp s.1) hrun
        have hs : s = (s.1, count_points s.1) := Prod.ext rfl hinv.count
        refine ⟨n, s.1, rfl, hpts.trans (congrArg some hs), hinv.at_iff, hout, ?_, ?_⟩
        · intro r hr
          obtain ⟨h1, u, v, h2, h3⟩ := hrec r hr
          exact ⟨h1, u, v, (hinv.at_iff u _ _).1 h2, (hinv.at_iff v _ _).1 h3⟩
        · intro p hpm q hqm hlt
          have h1 : (p.1, p.2.2) ∈ points_at s.1 p.2.1 := (hinv.at_iff _ _ _).2 hpm
          have h2 : (q.1, q.2.2) ∈ points_at s.1 q.2.1 := (hinv.at_iff _ _ _).2 hqm
          obtain ⟨hc, d, real_d, hin, hsrc, hz⟩ :=
            hpair p.2.1 q.2.1 (p.1, p.2.2) (q.1, q.2.2) h1 h2 hlt
          refine ⟨hc, ?_, d, real_d, hin, hsrc, hz⟩
          unfold pair_count
          rw [List.countP_eq_zero]
          intro r hr
          simp only [decide_eq_true_eq, not_and]
          intro e1 e2
          have := (hrec r hr).1
          omega

/-- Witness of C23 on the network 1 - 2 - 3 with the points 100 and 300 at node 1 and the
point 200 at node 3: three lines, one per pair. -/
theorem batch_pairs_once_witness :
    main id id [(1, 2, 5), (2, 3, 7)] none 2 false [(100, 1, 0), (300, 1, 1), (200, 3, 2)] =
      ([⟨100, 300, 0, 0, 0, 1⟩, ⟨100, 200, 12, 12, 0, 2⟩, ⟨200, 300, 12, 12, 2, 1⟩], none) ∧
    ∃ (n : Graph) (np : Points),
      read_improved_edges (read_network [(1, 2, 5), (2, 3, 7)]) 2 none = Except.ok n ∧
      read_points n [(100, 1, 0), (300, 1, 1), (200, 3, 2)] ([], 0) =
        some (np, count_points np) ∧
      (∀ nid pt off, (pt, off) ∈ points_at np nid ↔
        (pt, nid, off) ∈ [((100 : Nat), (1 : Nat), (0 : ℚ)), (300, 1, 1), (200, 3, 2)]) ∧
      [⟨100, 300, 0, 0, 0, 1⟩, ⟨100, 200, 12, 12, 0, 2⟩, ⟨200, 300, 12, 12, 2, 1⟩] =
        (id np).flatMap (fun x =>
          (search_with (iterate_adj id n) 2 np (count_points np) x).st.out) ∧
      (∀ r ∈ [(⟨100, 300, 0, 0, 0, 1⟩ : Record), ⟨100, 200, 12, 12, 0, 2⟩,
          ⟨200, 300, 12, 12, 2, 1⟩], r.id1 < r.id2 ∧
        ∃ n1 n2,
          (r.id1, n1, r.off1) ∈ [((100 : Nat), (1 : Nat), (0 : ℚ)), (300, 1, 1), (200, 3, 2)] ∧
          (r.id2, n2, r.off2) ∈ [((100 : Nat), (1 : Nat), (0 : ℚ)), (300, 1, 1), (200, 3, 2)]) ∧
      ∀ p ∈ [((100 : Nat), (1 : Nat), (0 : ℚ)), (300, 1, 1), (200, 3, 2)],
        ∀ q ∈ [((100 : Nat), (1 : Nat), (0 : ℚ)), (300, 1, 1), (200, 3, 2)], p.1 < q.1 →
        pair_count [⟨100, 300, 0, 0, 0, 1⟩, ⟨100, 200, 12, 12, 0, 2⟩,
          ⟨200, 300, 12, 12, 2, 1⟩] p.1 q.1 = 1 ∧
        pair_count [⟨100, 300, 0, 0, 0, 1⟩, ⟨100, 200, 12, 12, 0, 2⟩,
          ⟨200, 300, 12, 12, 2, 1⟩] q.1 p.1 = 0 ∧
        ∃ d real_d, (⟨p.1, q.1, d, real_d, p.2.2, q.2.2⟩ : Record) ∈
            [(⟨100, 300, 0, 0, 0, 1⟩ : Record), ⟨100, 200, 12, 12, 0, 2⟩,
              ⟨200, 300, 12, 12, 2, 1⟩] ∧
          (⟨p.1, q.1, d, real_d, p.2.2, q.2.2⟩ : Record) ∈
            (search_with (iterate_adj id n) 2 np (count_points np)
              (p.2.1, points_at np p.2.1)).st.out ∧
          (p.2.1 = q.2.1 → d = 0 ∧ real_d = 0) :=
  ⟨by decide!,
   batch_pairs_once id id (fun m => List.Perm.refl m) [(1, 2, 5), (2, 3, 7)] none 2
     [(100, 1, 0), (300, 1, 1), (200, 3, 2)] _ (by decide) (by decide!)⟩

/-! ### The run on the nodes of the network -/

theorem network_points_gen : ∀ (l : Graph) (acc : Points) (k : Nat),
    (map_keys acc ++ map_keys l).Nodup →
    l.foldl (fun s x => (map_insert s.1 x.1 [(x.1, (0 : ℚ))], s.2 + 1)) (acc, k) =
      (acc ++ node_points l, k + l.length) := by
  intro l
  induction l with
  | nil => intro acc k _; simp [node_points]
  | cons x l ih =>
    intro acc k h
    have hx : map_find acc x.1 = none := by
      rw [map_find_none_iff]
      intro hm
      have := (List.nodup_append.1 h).2.2 hm
      exact this (by simp [map_keys])
    have hins : map_insert acc x.1 [(x.1, (0 : ℚ))] = acc ++ [(x.1, [(x.1, 0)])] := by
      unfold map_insert
      rw [hx]
    rw [List.foldl_cons]
    simp only [hins]
    rw [ih]
    · simp only [node_points, List.map_cons, List.append_assoc, List.singleton_append,
        List.length_cons, Prod.mk.injEq, true_and]
      omega
    · have : map_keys (acc ++ [(x.1, [(x.1, (0 : ℚ))])]) ++ map_keys l =
          map_keys acc ++ map_keys (x :: l) := by
        simp [map_keys]
      rw [this]
      exact h

theorem network_points_eq (n : Graph) (h : (map_keys n).Nodup) :
    network_points n = (node_points n, n.length) := by
  unfold network_points
  rw [network_points_gen n [] 0 (by simpa [map_keys] using h)]
  simp

theorem point_ids_node_points (n : Graph) : point_ids (node_points n) = map_keys n := by
  induction n with
  | nil => rfl
  | cons x n ih =>
    have h1 : point_ids (node_points (x :: n)) = x.1 :: point_ids (node_points n) := by
      simp [point_ids, node_points]
    rw [h1, ih]
    rfl

theorem node_points_facts (n : Graph) (h : (map_keys n).Nodup) :
    points_keys_distinct (node_points n) ∧ count_points (node_points n) = n.length ∧
    point_ids (node_points n) = map_keys n ∧
    ∀ a p, p ∈ points_at (node_points n) a ↔ a ∈ map_keys n ∧ p = (a, 0) := by
  have hkeys : (node_points n).map Prod.fst = map_keys n := by
    simp [node_points, map_keys, Function.comp_def]
  refine ⟨?_, ?_, ?_, ?_⟩
  · unfold points_keys_distinct
    rw [hkeys]
    exact h
  · unfold count_points node_points
    rw [List.map_map]
    simp [Function.comp_def]
  · exact point_ids_node_points n
  · intro a p
    constructor
    · intro hp
      have hm := points_at_mem _ a p hp
      obtain ⟨x, hx, e⟩ := List.mem_map.1 hm
      have e1 : x.1 = a := (Prod.mk.inj e).1
      have e2 : [(x.1, (0 : ℚ))] = points_at (node_points n) a := (Prod.mk.inj e).2
      refine ⟨?_, ?_⟩
      · rw [← e1]
        exact List.mem_map_of_mem Prod.fst hx
      · rw [← e2] at hp
        rw [List.mem_singleton] at hp
        rw [hp, e1]
    · rintro ⟨ha, hp⟩
      obtain ⟨x, hx, e⟩ := List.mem_map.1 ha
      have hm : (a, [(a, (0 : ℚ))]) ∈ node_points n := by
        unfold node_points
        exact List.mem_map.2 ⟨x, hx, by rw [e]⟩
      have hpk : points_keys_distinct (node_points n) := by
        unfold points_keys_distinct
        rw [hkeys]
        exact h
      have := points_at_of_mem (node_points n) hpk _ hm
      simp only at this
      rw [this, hp]
      exact List.mem_singleton.2 rfl

theorem read_improved_edges_closed (network : List (Nat × Nat × ℚ)) (w : ℚ)
    (improved_edges : Option (List (Nat × Nat))) (n : Graph)
    (h : read_improved_edges (read_network network) w improved_edges = Except.ok n) :
    graph_closed n := by
  cases improved_edges with
  | none =>
    simp only [read_improved_edges, Except.ok.injEq] at h
    rw [← h]
    exact read_network_closed network
  | some l =>
    simp only [read_improved_edges] at h
    split at h
    · cases h
    · cases hm : mark_all (read_network network) l with
      | none => rw [hm] at h; cases h
      | some g =>
        rw [hm] at h
        simp only [Except.ok.injEq] at h
        rw [← h]
        exact mark_all_closed l _ g (read_network_closed network) hm

/-- The run with the option `-N`: when it ends normally, for any two
nodes `a < b` of the network exactly one line of the output is about `a`, `b`, written by
the search from `a`, with the offsets 0. -/
theorem batch_pairs_once_network (order_adj : Adj → Adj) (order_pts : Points → Points)
    (hp : ∀ m, (order_pts m).Perm m) (network : List (Nat × Nat × ℚ))
    (improved_edges : Option (List (Nat × Nat))) (w : ℚ) (points : List (Nat × Nat × ℚ))
    (out : List Record)
    (hrun : main order_adj order_pts network improved_edges w true points = (out, none)) :
    ∃ n : Graph,
      read_improved_edges (read_network network) w improved_edges = Except.ok n ∧
      out = (order_pts (node_points n)).flatMap (fun x =>
        (search_with (iterate_adj order_adj n) w (node_points n) n.length x).st.out) ∧
      (∀ r ∈ out, r.id1 < r.id2 ∧ r.id1 ∈ map_keys n ∧ r.id2 ∈ map_keys n) ∧
      ∀ a ∈ map_keys n, ∀ b ∈ map_keys n, a < b →
        pair_count out a b = 1 ∧
        ∃ d real_d, (⟨a, b, d, real_d, 0, 0⟩ : Record) ∈ out ∧
          (⟨a, b, d, real_d, 0, 0⟩ : Record) ∈
            (search_with (iterate_adj order_adj n) w (node_points n) n.length
              (a, [(a, 0)])).st.out := by
  unfold main at hrun
  cases hread : read_improved_edges (read_network network) w improved_edges with
  | error e => rw [hread] at hrun; simp at hrun
  | ok n =>
    rw [hread] at hrun
    have hc := read_improved_edges_closed network w improved_edges n hread
    obtain ⟨hkeys, hcount, hids, hat⟩ := node_points_facts n hc.2
    simp only [if_true, network_points_eq n hc.2] at hrun
    by_cases hlen : (node_points n).length = 0
    · rw [if_pos hlen] at hrun
      simp at hrun
    · rw [if_neg hlen, ← hcount] at hrun
      have hnd : (point_ids (node_points n)).Nodup := by
        rw [hids]
        exact hc.2
      obtain ⟨hout, hrec, hpair⟩ := run_searches_pairs (iterate_adj order_adj n) w
        (node_points n) (order_pts (node_points n)) out hkeys hnd (hp _) hrun
      rw [hcount] at hout hpair
      refine ⟨n, rfl, hout, ?_, ?_⟩
      · intro r hr
        obtain ⟨h1, u, v, h2, h3⟩ := hrec r hr
        have e2 := (hat u _).1 h2
        have e3 := (hat v _).1 h3
        refine ⟨h1, ?_, ?_⟩
        · rw [(Prod.mk.inj e2.2).1]
          exact e2.1
        · rw [(Prod.mk.inj e3.2).1]
          exact e3.1
      · intro a ha b hb hlt
        have h1 : (a, (0 : ℚ)) ∈ points_at (node_points n) a := (hat a _).2 ⟨ha, rfl⟩
        have h2 : (b, (0 : ℚ)) ∈ points_at (node_points n) b := (hat b _).2 ⟨hb, rfl⟩
        obtain ⟨hcnt, d, real_d, hin, hsrc, _⟩ := hpair a b (a, 0) (b, 0) h1 h2 hlt
        have hpa : points_at (node_points n) a = [(a, 0)] := by
          obtain ⟨x, hx, e⟩ := List.mem_map.1 ha
          have hm : (a, [(a, (0 : ℚ))]) ∈ node_points n := by
            unfold node_points
            exact List.mem_map.2 ⟨x, hx, by rw [e]⟩
          exact points_at_of_mem (node_points n) hkeys _ hm
        rw [hpa] at hsrc
        exact ⟨hcnt, d, real_d, hin, hsrc⟩

end nodes_distances
end Bustrips

namespace Bustrips
namespace double

/-! ### Rounding to double precision, and the order of the doubles -/

theorem pow2_eq (z : Int) : pow2 z = (2:ℚ) ^ z := by
  unfold pow2
  split_ifs with h
  · lift z to ℕ using h
    simp
  · push_neg at h
    have hz : z = -((-z).toNat : Int) := by omega
    conv_rhs => rw [hz]
    rw [zpow_neg, zpow_natCast]
    simp

theorem pow2_pos (z : Int) : 0 < pow2 z := by
  rw [pow2_eq]; positivity

theorem pow2_add (a b : Int) : pow2 (a + b) = pow2 a * pow2 b := by
  rw [pow2_eq, pow2_eq, pow2_eq, zpow_add₀ (by norm_num)]

theorem pow2_le (a b : Int) (h : a ≤ b) : pow2 a ≤ pow2 b := by
  rw [pow2_eq, pow2_eq]
  exact zpow_le_zpow_right₀ (by norm_num) h

theorem pow2_lt (a b : Int) (h : a < b) : pow2 a < pow2 b := by
  rw [pow2_eq, pow2_eq]
  exact zpow_lt_zpow_right₀ (by norm_num) h

theorem pow2_lt_iff (a b : Int) : pow2 a < pow2 b ↔ a < b := by
  constructor
  · intro h
    by_contra hc
    push_neg at hc
    exact absurd (pow2_le b a hc) (not_le.mpr h)
  · exact pow2_lt a b

theorem log2_aux_eq (f n : Nat) (h : n ≤ f) : log2_aux f n = Nat.log 2 n := by
  induction f generalizing n with
  | zero =>
    have : n = 0 := by omega
    subst this
    simp [log2_aux]
  | succ f ih =>
    unfold log2_aux
    split_ifs with h2
    · rw [Nat.log_of_lt h2]
    · rw [Nat.log_of_one_lt_of_le (by norm_num) (by omega), ih]
      omega

theorem nlog2_eq (n : Nat) : nlog2 n = Nat.log 2 n := log2_aux_eq n n (le_refl n)

theorem nlog2_spec (n : Nat) (h : 0 < n) : 2 ^ nlog2 n ≤ n ∧ n < 2 ^ (nlog2 n + 1) := by
  rw [nlog2_eq]
  exact ⟨Nat.pow_log_le_self 2 (by omega), Nat.lt_pow_succ_log_self (by norm_num) n⟩

theorem ilog2_spec (a : ℚ) (h : 0 < a) : pow2 (ilog2 a) ≤ a ∧ a < pow2 (ilog2 a + 1) := by
  have hn : 0 < a.num := Rat.num_pos.mpr h
  have hN : 0 < a.num.natAbs := Int.natAbs_pos.mpr (ne_of_gt hn)
  have hD : 0 < a.den := a.den_pos
  obtain ⟨n1, n2⟩ := nlog2_spec _ hN
  obtain ⟨d1, d2⟩ := nlog2_spec _ hD
  have ha : a = (a.num.natAbs : ℚ) / (a.den : ℚ) := by
    have h1 : ((a.num.natAbs : Int) : ℚ) = (a.num : ℚ) := by
      rw [Int.natAbs_of_nonneg (le_of_lt hn)]
    have h2 : ((a.num.natAbs : Int) : ℚ) = (a.num.natAbs : ℚ) := Int.cast_natCast _
    rw [← h2, h1]
    exact (Rat.num_div_den a).symm
  have hDq : (0:ℚ) < (a.den : ℚ) := by exact_mod_cast hD
  have n1q : (2:ℚ) ^ (nlog2 a.num.natAbs) ≤ (a.num.natAbs : ℚ) := by exact_mod_cast n1
  have n2q : (a.num.natAbs : ℚ) < (2:ℚ) ^ (nlog2 a.num.natAbs + 1) := by exact_mod_cast n2
  have d1q : (2:ℚ) ^ (nlog2 a.den) ≤ (a.den : ℚ) := by exact_mod_cast d1
  have d2q : (a.den : ℚ) < (2:ℚ) ^ (nlog2 a.den + 1) := by exact_mod_cast d2
  have hup : a < pow2 ((nlog2 a.num.natAbs : Int) - (nlog2 a.den : Int) + 1) := by
    rw [pow2_eq]
    have e : (2:ℚ) ^ ((nlog2 a.num.natAbs : Int) - (nlog2 a.den : Int) + 1)
        = (2:ℚ) ^ (nlog2 a.num.natAbs + 1) / (2:ℚ) ^ (nlog2 a.den) := by
      rw [show ((nlog2 a.num.natAbs : Int) - (nlog2 a.den : Int) + 1)
        = ((nlog2 a.num.natAbs + 1 : ℕ) : Int) - ((nlog2 a.den : ℕ) : Int) by push_cast; ring]
      rw [zpow_sub₀ (by norm_num), zpow_natCast, zpow_natCast]
    rw [e]
    refine lt_of_eq_of_lt ha ?_
    rw [div_lt_div_iff₀ hDq (by positivity)]
    calc (a.num.natAbs : ℚ) * 2 ^ nlog2 a.den
        ≤ (a.num.natAbs : ℚ) * (a.den : ℚ) := by
          apply mul_le_mul_of_nonneg_left d1q (by positivity)
      _ < 2 ^ (nlog2 a.num.natAbs + 1) * (a.den : ℚ) := by
          apply mul_lt_mul_of_pos_right n2q hDq
  have hlow : pow2 ((nlog2 a.num.natAbs : Int) - (nlog2 a.den : Int) - 1) ≤ a := by
    rw [pow2_eq]
    have e : (2:ℚ) ^ ((nlog2 a.num.natAbs : Int) - (nlog2 a.den : Int) - 1)
        = (2:ℚ) ^ (nlog2 a.num.natAbs) / (2:ℚ) ^ (nlog2 a.den + 1) := by
      rw [show ((nlog2 a.num.natAbs : Int) - (nlog2 a.den : Int) - 1)
        = ((nlog2 a.num.natAbs : ℕ) : Int) - ((nlog2 a.den + 1 : ℕ) : Int) by push_cast; ring]
      rw [zpow_sub₀ (by norm_num), zpow_natCast, zpow_natCast]
    rw [e]
    refine le_of_le_of_eq ?_ ha.symm
    rw [div_le_div_iff₀ (by positivity) hDq]
    calc (2:ℚ) ^ nlog2 a.num.natAbs * (a.den : ℚ)
        ≤ (a.num.natAbs : ℚ) * (a.den : ℚ) := by
          apply mul_le_mul_of_nonneg_right n1q (le_of_lt hDq)
      _ ≤ (a.num.natAbs : ℚ) * 2 ^ (nlog2 a.den + 1) := by
          apply mul_le_mul_of_nonneg_left (le_of_lt d2q) (by positivity)
  unfold ilog2
  split_ifs with hc
  · exact ⟨hc, hup⟩
  · push_neg at hc
    refine ⟨hlow, ?_⟩
    rw [show ((nlog2 a.num.natAbs : Int) - (nlog2 a.den : Int) - 1 + 1)
      = (nlog2 a.num.natAbs : Int) - (nlog2 a.den : Int) by ring]
    exact hc

theorem ilog2_unique (a : ℚ) (e : Int) (h1 : pow2 e ≤ a) (h2 : a < pow2 (e + 1)) :
    ilog2 a = e := by
  have ha : 0 < a := lt_of_lt_of_le (pow2_pos e) h1
  obtain ⟨s1, s2⟩ := ilog2_spec a ha
  have k1 : e < ilog2 a + 1 := (pow2_lt_iff _ _).mp (lt_of_le_of_lt h1 s2)
  have k2 : ilog2 a < e + 1 := (pow2_lt_iff _ _).mp (lt_of_le_of_lt s1 h2)
  omega

theorem ilog2_mono (a b : ℚ) (ha : 0 < a) (h : a ≤ b) : ilog2 a ≤ ilog2 b := by
  obtain ⟨s1, _⟩ := ilog2_spec a ha
  obtain ⟨_, t2⟩ := ilog2_spec b (lt_of_lt_of_le ha h)
  have k : ilog2 a < ilog2 b + 1 := (pow2_lt_iff _ _).mp (lt_of_le_of_lt (le_trans s1 h) t2)
  omega

theorem rne_cases (x : ℚ) : rne x = ⌊x⌋ ∨ rne x = ⌊x⌋ + 1 := by
  unfold rne
  split_ifs <;> simp

theorem rne_int (m : Int) : rne (m : ℚ) = m := by
  unfold rne
  simp

theorem rne_mono (u v : ℚ) (h : u ≤ v) : rne u ≤ rne v := by
  have hm : ⌊u⌋ ≤ ⌊v⌋ := Int.floor_mono h
  rcases lt_or_eq_of_le hm with hlt | heq
  · rcases rne_cases u with e1 | e1 <;> rcases rne_cases v with e2 | e2 <;> omega
  · unfold rne
    rw [heq]
    rw [heq] at hm
    split_ifs <;> first | omega | (exfalso; linarith)

theorem rne_nonneg (u : ℚ) (h : 0 ≤ u) : 0 ≤ rne u := by
  have := rne_mono 0 u h
  rwa [show rne (0:ℚ) = 0 from by simpa using rne_int 0] at this

theorem pow2_natCast (n : ℕ) : pow2 (n : Int) = (2:ℚ) ^ n := by
  rw [pow2_eq, zpow_natCast]

theorem scale_zero (e : Int) : scale 0 e = 0 := by
  unfold scale
  rw [zero_div]
  have := rne_int 0
  simp only [Int.cast_zero] at this
  rw [this]
  simp

theorem scale_nonneg (x : ℚ) (e : Int) (hx : 0 ≤ x) : 0 ≤ scale x e := by
  unfold scale
  have h1 : 0 ≤ x / pow2 e := div_nonneg hx (le_of_lt (pow2_pos e))
  have h2 : (0:ℚ) ≤ (rne (x / pow2 e) : ℚ) := by exact_mod_cast rne_nonneg _ h1
  exact mul_nonneg h2 (le_of_lt (pow2_pos e))

theorem scale_mono (x y : ℚ) (e : Int) (h : x ≤ y) : scale x e ≤ scale y e := by
  unfold scale
  have h1 : x / pow2 e ≤ y / pow2 e := div_le_div_of_nonneg_right h (le_of_lt (pow2_pos e))
  have h2 : (rne (x / pow2 e) : ℚ) ≤ (rne (y / pow2 e) : ℚ) := by exact_mod_cast rne_mono _ _ h1
  exact mul_le_mul_of_nonneg_right h2 (le_of_lt (pow2_pos e))

theorem scale_int (m e : Int) : scale ((m : ℚ) * pow2 e) e = (m : ℚ) * pow2 e := by
  unfold scale
  rw [mul_div_assoc, div_self (ne_of_gt (pow2_pos e)), mul_one, rne_int]

theorem quantum_ge (x : ℚ) : -1074 ≤ quantum x := by
  unfold quantum
  have := le_max_right (ilog2 x) (-1022)
  omega

theorem quantum_upper (x : ℚ) (hx : 0 < x) : x < pow2 (quantum x + 53) := by
  obtain ⟨_, s2⟩ := ilog2_spec x hx
  refine lt_of_lt_of_le s2 (pow2_le _ _ ?_)
  unfold quantum
  have := le_max_left (ilog2 x) (-1022)
  omega

theorem quantum_lower (x : ℚ) (hx : 0 < x) (hn : -1074 < quantum x) :
    pow2 (quantum x + 52) ≤ x := by
  obtain ⟨s1, _⟩ := ilog2_spec x hx
  have e : quantum x + 52 = ilog2 x := by
    unfold quantum at hn ⊢
    rcases max_cases (ilog2 x) (-1022) with ⟨h1, _⟩ | ⟨h1, _⟩ <;> omega
  rw [e]
  exact s1

theorem quantum_mono (x y : ℚ) (hx : 0 < x) (h : x ≤ y) : quantum x ≤ quantum y := by
  unfold quantum
  have := max_le_max (ilog2_mono x y hx h) (le_refl (-1022 : Int))
  omega

theorem quantum_of_bounds (y : ℚ) (e : Int) (he : -1074 ≤ e) (hy : 0 < y)
    (h1 : y < pow2 (e + 53)) (h2 : -1074 < e → pow2 (e + 52) ≤ y) : quantum y = e := by
  obtain ⟨s1, s2⟩ := ilog2_spec y hy
  have k1 : ilog2 y < e + 53 := (pow2_lt_iff _ _).mp (lt_of_le_of_lt s1 h1)
  unfold quantum
  rcases max_cases (ilog2 y) (-1022) with ⟨h3, h4⟩ | ⟨h3, h4⟩
  · rw [h3]
    rcases eq_or_lt_of_le he with h5 | h5
    · omega
    · have k2 : e + 52 < ilog2 y + 1 := (pow2_lt_iff _ _).mp (lt_of_le_of_lt (h2 h5) s2)
      omega
  · rw [h3]
    rcases eq_or_lt_of_le he with h5 | h5
    · omega
    · have k2 : e + 52 < ilog2 y + 1 := (pow2_lt_iff _ _).mp (lt_of_le_of_lt (h2 h5) s2)
      omega

theorem scale_le (x : ℚ) (hx : 0 < x) : scale x (quantum x) ≤ pow2 (quantum x + 53) := by
  have h1 : x ≤ pow2 (quantum x + 53) := le_of_lt (quantum_upper x hx)
  have h2 := scale_mono _ _ (quantum x) h1
  have e : pow2 (quantum x + 53) = (((2:Int) ^ 53 : Int) : ℚ) * pow2 (quantum x) := by
    rw [add_comm, pow2_add]
    congr 1
  rw [e] at h2 ⊢
  rwa [scale_int] at h2

theorem scale_ge (x : ℚ) (hx : 0 < x) (hn : -1074 < quantum x) :
    pow2 (quantum x + 52) ≤ scale x (quantum x) := by
  have h1 := quantum_lower x hx hn
  have h2 := scale_mono _ _ (quantum x) h1
  have e : pow2 (quantum x + 52) = (((2:Int) ^ 52 : Int) : ℚ) * pow2 (quantum x) := by
    rw [add_comm, pow2_add]
    congr 1
  rw [e] at h2 ⊢
  rwa [scale_int] at h2

/-- Rounding to the nearest double is monotone (before the overflow test). -/
theorem nearest_mono (x y : ℚ) (hx : 0 ≤ x) (h : x ≤ y) :
    scale x (quantum x) ≤ scale y (quantum y) := by
  rcases eq_or_lt_of_le hx with h0 | hpos
  · rw [← h0, scale_zero]
    exact scale_nonneg _ _ (le_trans hx h)
  · have hy : 0 < y := lt_of_lt_of_le hpos h
    rcases eq_or_lt_of_le (quantum_mono x y hpos h) with he | hlt
    · rw [he]
      exact scale_mono _ _ _ h
    · have hn : -1074 < quantum y := lt_of_le_of_lt (quantum_ge x) hlt
      refine le_trans (scale_le x hpos) (le_trans (pow2_le _ _ ?_) (scale_ge y hy hn))
      omega

/-- The nearest double of a non-negative number is a fixed point of the rounding. -/
theorem nearest_idem (x : ℚ) (hx : 0 ≤ x) :
    scale (scale x (quantum x)) (quantum (scale x (quantum x))) = scale x (quantum x) := by
  rcases eq_or_lt_of_le hx with h0 | hpos
  · rw [← h0, scale_zero, scale_zero]
  · rcases eq_or_lt_of_le (scale_nonneg x (quantum x) hx) with hz | hypos
    · rw [← hz, scale_zero]
    · rcases eq_or_lt_of_le (scale_le x hpos) with htop | hlt
      · have e1 : pow2 (quantum x + 53) = (((2:Int) ^ 52 : Int) : ℚ) * pow2 (quantum x + 1) := by
          rw [show quantum x + 53 = 52 + (quantum x + 1) by ring, pow2_add]
          congr 1
        have q : quantum (scale x (quantum x)) = quantum x + 1 := by
          apply quantum_of_bounds _ _ (by have := quantum_ge x; omega) hypos
          · rw [htop]
            exact pow2_lt _ _ (by omega)
          · intro _
            rw [htop]
            exact pow2_le _ _ (by omega)
        rw [q, htop, e1, scale_int]
      · have q : quantum (scale x (quantum x)) = quantum x := by
          apply quantum_of_bounds _ _ (quantum_ge x) hypos hlt
          intro hn
          exact scale_ge x hpos hn
        rw [q]
        unfold scale
        rw [mul_div_assoc, div_self (ne_of_gt (pow2_pos _)), mul_one, rne_int]

theorem le_def (a b : double) : a ≤ b ↔ key a ≤ key b := Iff.rfl

theorem lt_def (a b : double) : a < b ↔ key a < key b := Iff.rfl

theorem fin_le_fin (a b : ℚ) : fin a ≤ fin b ↔ a ≤ b := by
  rw [le_def]
  simp [key, Prod.Lex.le_iff]

theorem fin_lt_fin (a b : ℚ) : fin a < fin b ↔ a < b := by
  rw [lt_def]
  simp [key, Prod.Lex.lt_iff]

theorem fin_lt_inf (a : ℚ) : fin a < inf false := by
  rw [lt_def]
  simp [key, Prod.Lex.lt_iff]

theorem le_inf (a : double) : a ≤ inf false := by
  rw [le_def]
  rcases a with _ | (_ | _) | q <;> simp [key, Prod.Lex.le_iff]

theorem nan_le (a : double) : nan ≤ a := by
  rw [le_def]
  rcases a with _ | (_ | _) | q <;> simp [key, Prod.Lex.le_iff]

theorem nonneg_iff (a : double) : fin 0 ≤ a ↔ a = inf false ∨ ∃ q, a = fin q ∧ 0 ≤ q := by
  rw [le_def]
  rcases a with _ | (_ | _) | q <;> simp [key, Prod.Lex.le_iff]

theorem lt_iff (a b : double) (ha : a ≠ nan) (hb : b ≠ nan) : a.lt b = true ↔ a < b := by
  rw [lt_def]
  rcases a with _ | (_ | _) | q <;> rcases b with _ | (_ | _) | r <;>
    simp [key, Prod.Lex.lt_iff, lt] at ha hb ⊢

theorem eq_iff (a b : double) (ha : a ≠ nan) : a.eq b = true ↔ a = b := by
  rcases a with _ | (_ | _) | q <;> rcases b with _ | (_ | _) | r <;>
    simp [eq] at ha ⊢

theorem round64_ne_nan (x : ℚ) : round64 x ≠ nan := by
  unfold round64
  split_ifs <;> simp

theorem round64_zero : round64 0 = fin 0 := by
  unfold round64
  rw [abs_zero, scale_zero, abs_zero, if_neg (not_le.mpr (pow2_pos 1024))]

theorem round64_of_nonneg (x : ℚ) (hx : 0 ≤ x) :
    round64 x = if pow2 1024 ≤ scale x (quantum x) then inf false else fin (scale x (quantum x)) := by
  unfold round64
  rw [abs_of_nonneg hx, abs_of_nonneg (scale_nonneg x _ hx)]
  simp [not_lt.mpr hx]

/-- Rounding is monotone. -/
theorem round64_mono (x y : ℚ) (hx : 0 ≤ x) (h : x ≤ y) : round64 x ≤ round64 y := by
  rw [round64_of_nonneg x hx, round64_of_nonneg y (le_trans hx h)]
  have hm := nearest_mono x y hx h
  split_ifs with h1 h2 h2
  · exact le_refl _
  · exact absurd (le_trans h1 hm) h2
  · exact le_inf _
  · exact (fin_le_fin _ _).mpr hm

theorem round64_nonneg (x : ℚ) (hx : 0 ≤ x) : fin 0 ≤ round64 x := by
  have := round64_mono 0 x (le_refl 0) hx
  rwa [round64_zero] at this

/-- Rounding returns doubles: a finite result is its own rounding. -/
theorem round64_idem (x y : ℚ) (hx : 0 ≤ x) (h : round64 x = fin y) :
    0 ≤ y ∧ round64 y = fin y := by
  rw [round64_of_nonneg x hx] at h
  split_ifs at h with h1
  have hy : y = scale x (quantum x) := (fin.inj h).symm
  have h0 : 0 ≤ y := hy ▸ scale_nonneg x _ hx
  refine ⟨h0, ?_⟩
  rw [round64_of_nonneg y h0]
  have := nearest_idem x hx
  rw [← hy] at this h1
  rw [this, if_neg h1]

theorem add_fin (a b : ℚ) : fin a + fin b = round64 (a + b) := rfl

theorem add_inf_right (a : double) (h : fin 0 ≤ a) : a + inf false = inf false := by
  rcases (nonneg_iff a).mp h with h1 | ⟨q, h1, _⟩ <;> subst h1 <;> rfl

theorem add_inf_left (a : double) (h : fin 0 ≤ a) : inf false + a = inf false := by
  rcases (nonneg_iff a).mp h with h1 | ⟨q, h1, _⟩ <;> subst h1 <;> rfl

theorem nonneg_add (a c : double) (ha : fin 0 ≤ a) (hc : fin 0 ≤ c) : fin 0 ≤ a + c := by
  rcases (nonneg_iff c).mp hc with h2 | ⟨r, h2, hr⟩
  · rw [h2, add_inf_right a ha]
    exact le_inf _
  · rcases (nonneg_iff a).mp ha with h1 | ⟨q, h1, hq⟩
    · rw [h1, add_inf_left c hc]
      exact le_inf _
    · rw [h1, h2, add_fin]
      exact round64_nonneg _ (add_nonneg hq hr)

theorem representable_round64 (x : ℚ) (hx : 0 ≤ x) : representable (round64 x) = true := by
  rcases h : round64 x with _ | s | y
  · rfl
  · rfl
  · simp only [representable, decide_eq_true_eq]
    exact (round64_idem x y hx h).2

theorem representable_add (a c : double) (ha : fin 0 ≤ a) (hc : fin 0 ≤ c) :
    representable (a + c) = true := by
  rcases (nonneg_iff c).mp hc with h2 | ⟨r, h2, hr⟩
  · rw [h2, add_inf_right a ha]
    rfl
  · rcases (nonneg_iff a).mp ha with h1 | ⟨q, h1, hq⟩
    · rw [h1, add_inf_left c hc]
      rfl
    · rw [h1, h2, add_fin]
      exact representable_round64 _ (add_nonneg hq hr)

/-- Addition is monotone in both arguments on non-negative doubles. -/
theorem add_mono (a b c e : double) (ha : fin 0 ≤ a) (hab : a ≤ b) (hc : fin 0 ≤ c)
    (hce : c ≤ e) : a + c ≤ b + e := by
  have hb : fin 0 ≤ b := le_trans ha hab
  have he : fin 0 ≤ e := le_trans hc hce
  rcases (nonneg_iff b).mp hb with h1 | ⟨q, h1, hq⟩
  · rw [h1, add_inf_left e he]
    exact le_inf _
  · rcases (nonneg_iff e).mp he with h2 | ⟨r, h2, hr⟩
    · rw [h2, add_inf_right b hb]
      exact le_inf _
    · rcases (nonneg_iff a).mp ha with h3 | ⟨p, h3, hp⟩
      · rw [h3, h1] at hab
        exact absurd (fin_lt_inf q) (not_lt.mpr hab)
      · rcases (nonneg_iff c).mp hc with h4 | ⟨t, h4, ht⟩
        · rw [h4, h2] at hce
          exact absurd (fin_lt_inf r) (not_lt.mpr hce)
        · subst h1 h2 h3 h4
          rw [add_fin, add_fin]
          exact round64_mono _ _ (add_nonneg hp ht)
            (add_le_add ((fin_le_fin _ _).mp hab) ((fin_le_fin _ _).mp hce))

/-- Adding a non-negative double to a non-negative double does not make it smaller. -/
theorem le_add (a c : double) (ha : fin 0 ≤ a) (hr : representable a = true)
    (hc : fin 0 ≤ c) : a ≤ a + c := by
  rcases (nonneg_iff a).mp ha with h1 | ⟨q, h1, hq⟩
  · rw [h1, add_inf_left c hc]
  · rcases (nonneg_iff c).mp hc with h2 | ⟨r, h2, hr2⟩
    · rw [h2, add_inf_right a ha]
      exact le_inf _
    · subst h1 h2
      simp only [representable, decide_eq_true_eq] at hr
      rw [add_fin]
      have := round64_mono q (q + r) hq (by linarith)
      rwa [hr] at this

theorem div_fin (a b : ℚ) (hb : b ≠ 0) : fin a / fin b = round64 (a / b) := by
  show div (fin a) (fin b) = _
  simp [div, hb]

theorem pos_iff (w : double) : (fin 0).lt w = true ↔ w = inf false ∨ ∃ q, w = fin q ∧ 0 < q := by
  rcases w with _ | (_ | _) | q <;> simp [lt]

theorem nonneg_div (x : ℚ) (w : double) (hx : 0 ≤ x) (hw : (fin 0).lt w = true) :
    fin 0 ≤ fin x / w := by
  rcases (pos_iff w).mp hw with h | ⟨q, h, hq⟩
  · subst h
    exact le_refl _
  · subst h
    rw [div_fin _ _ (ne_of_gt hq)]
    exact round64_nonneg _ (div_nonneg hx (le_of_lt hq))

theorem div_le (x : ℚ) (w : double) (hx : 0 ≤ x) (hr : round64 x = fin x)
    (hw : (fin 1).le w = true) : fin x / w ≤ fin x := by
  rcases w with _ | (_ | _) | q
  · simp [le, lt, eq] at hw
  · exact (fin_le_fin _ _).mpr hx
  · simp [le, lt, eq] at hw
  · have hq : 1 ≤ q := by
      simp only [le, lt, eq, Bool.or_eq_true, decide_eq_true_eq] at hw
      rcases hw with h | h
      · exact le_of_lt h
      · exact le_of_eq h
    rw [div_fin _ _ (by linarith)]
    have h1 : x / q ≤ x := div_le_self hx hq
    have := round64_mono _ _ (div_nonneg hx (by linarith)) h1
    rwa [hr] at this

theorem lt_ne_nan (a b : double) (h : a.lt b = true) : a ≠ nan ∧ b ≠ nan := by
  rcases a with _ | (_ | _) | q <;> rcases b with _ | (_ | _) | r <;> simp [lt] at h ⊢

theorem eq_ne_nan (a b : double) (h : a.eq b = true) : a ≠ nan ∧ b ≠ nan := by
  rcases a with _ | (_ | _) | q <;> rcases b with _ | (_ | _) | r <;> simp [eq] at h ⊢

theorem eq_true_iff (a b : double) : a.eq b = true ↔ a ≠ nan ∧ a = b := by
  rcases a with _ | (_ | _) | q <;> rcases b with _ | (_ | _) | r <;> simp [eq]

theorem le_iff (a b : double) (ha : a ≠ nan) (hb : b ≠ nan) : a.le b = true ↔ a ≤ b := by
  unfold le
  rw [Bool.or_eq_true, lt_iff a b ha hb, eq_iff a b ha, le_iff_lt_or_eq]

theorem lt_false_iff (a b : double) (ha : a ≠ nan) (hb : b ≠ nan) :
    a.lt b = false ↔ b ≤ a := by
  rw [← not_lt, ← lt_iff a b ha hb]
  simp

theorem lt_irrefl (a : double) : a.lt a = false := by
  rcases a with _ | (_ | _) | q <;> simp [lt]

theorem ne_nan_of_nonneg (a : double) (h : fin 0 ≤ a) : a ≠ nan := by
  rcases (nonneg_iff a).mp h with h1 | ⟨q, h1, _⟩ <;> simp [h1]

theorem representable_zero : representable (fin 0) = true := by
  simp [representable, round64_zero]

theorem nonneg_of_pos (w : double) (hw : (fin 0).lt w = true) : fin 0 ≤ w := by
  have h := lt_ne_nan _ _ hw
  exact le_of_lt ((lt_iff _ _ h.1 h.2).mp hw)

end double
end Bustrips

namespace Bustrips
namespace nodes_distances
namespace fp

/-! ### Double precision: the queue and one relaxation step -/

theorem node_lt_iff_fp (a b : node) (ha : a.d ≠ double.nan) (hb : b.d ≠ double.nan) :
    a.lt b = true ↔ a.d < b.d ∨ (a.d = b.d ∧ a.node_id < b.node_id) := by
  simp only [node.lt, Bool.or_eq_true, Bool.and_eq_true, decide_eq_true_eq,
    double.lt_iff _ _ ha hb, double.eq_iff _ _ ha]

theorem node_lt_ne_nan (a b : node) (h : a.lt b = true) :
    a.d ≠ double.nan ∧ b.d ≠ double.nan := by
  simp only [node.lt, Bool.or_eq_true, Bool.and_eq_true] at h
  rcases h with h | ⟨h, _⟩
  · exact double.lt_ne_nan _ _ h
  · exact double.eq_ne_nan _ _ h

theorem node_lt_irrefl_fp (a : node) : a.lt a = false := by
  simp [node.lt, double.lt_irrefl]

theorem node_lt_trans_fp (a b c : node) (h1 : a.lt b = true) (h2 : b.lt c = true) :
    a.lt c = true := by
  have n1 := node_lt_ne_nan a b h1
  have n2 := node_lt_ne_nan b c h2
  rw [node_lt_iff_fp a b n1.1 n1.2] at h1
  rw [node_lt_iff_fp b c n2.1 n2.2] at h2
  rw [node_lt_iff_fp a c n1.1 n2.2]
  rcases h1 with h1 | ⟨h1, h1b⟩ <;> rcases h2 with h2 | ⟨h2, h2b⟩
  · exact Or.inl (lt_trans h1 h2)
  · exact Or.inl (h2 ▸ h1)
  · exact Or.inl (h1 ▸ h2)
  · exact Or.inr ⟨h1.trans h2, lt_trans h1b h2b⟩

theorem node_lt_le_fp (a b : node) (h : a.lt b = true) : a.d ≤ b.d := by
  have n1 := node_lt_ne_nan a b h
  rw [node_lt_iff_fp a b n1.1 n1.2] at h
  rcases h with h | ⟨h, _⟩
  · exact le_of_lt h
  · exact le_of_eq h

theorem node_equiv_iff_fp (a b : node) (ha : a.d ≠ double.nan) (hb : b.d ≠ double.nan) :
    a.equiv b = true ↔ a.d = b.d ∧ a.node_id = b.node_id := by
  simp only [node.equiv, Bool.and_eq_true, Bool.not_eq_true', ← Bool.not_eq_true,
    node_lt_iff_fp a b ha hb, node_lt_iff_fp b a hb ha]
  constructor
  · rintro ⟨h1, h2⟩
    push_neg at h1 h2
    have hd : a.d = b.d := le_antisymm h2.1 h1.1
    exact ⟨hd, le_antisymm (h2.2 hd.symm) (h1.2 hd)⟩
  · rintro ⟨h1, h2⟩
    rw [h1, h2]
    simp

theorem node_not_lt_of_id_ne_fp (x y : node) (hx : x.d ≠ double.nan) (hy : y.d ≠ double.nan)
    (h1 : x.lt y = false) (h2 : y.lt x = false) : y.node_id = x.node_id := by
  have : x.equiv y = true := by simp [node.equiv, h1, h2]
  exact ((node_equiv_iff_fp x y hx hy).1 this).2.symm

theorem set_insert_perm_fp (x : node) (q : List node) (hx : x.d ≠ double.nan)
    (hq : ∀ y ∈ q, y.d ≠ double.nan)
    (h : ∀ y ∈ q, y.node_id ≠ x.node_id) : (set_insert x q).Perm (x :: q) := by
  induction q with
  | nil => simp [set_insert]
  | cons y ys ih =>
    have hy : y.node_id ≠ x.node_id := h y (List.mem_cons_self _ _)
    have hys : ∀ z ∈ ys, z.node_id ≠ x.node_id := fun z hz => h z (List.mem_cons_of_mem _ hz)
    have hqs : ∀ z ∈ ys, z.d ≠ double.nan := fun z hz => hq z (List.mem_cons_of_mem _ hz)
    by_cases h1 : x.lt y = true
    · simp [set_insert, h1]
    · by_cases h2 : y.lt x = true
      · simp only [set_insert, h1, h2, if_true, if_false]
        exact ((ih hqs hys).cons y).trans (List.Perm.swap x y ys)
      · exact absurd (node_not_lt_of_id_ne_fp x y hx (hq y (List.mem_cons_self _ _))
          (by simpa using h1) (by simpa using h2)) hy

theorem mem_set_insert_fp (x y : node) (q : List node) (h : y ∈ set_insert x q) :
    y = x ∨ y ∈ q := by
  induction q with
  | nil => simpa [set_insert] using h
  | cons z zs ih =>
    by_cases h1 : x.lt z = true
    · simpa [set_insert, h1] using h
    · by_cases h2 : z.lt x = true
      · simp only [set_insert, h1, h2, if_true, if_false, List.mem_cons] at h
        rcases List.mem_cons.1 h with h4 | h4
        · exact Or.inr (by rw [h4]; exact List.mem_cons_self _ _)
        · rcases ih h4 with h3 | h3
          · exact Or.inl h3
          · exact Or.inr (List.mem_cons_of_mem _ h3)
      · simp only [set_insert, h1, h2, if_false] at h
        exact Or.inr h

theorem sorted_set_insert_fp (x : node) (q : List node) (h : sorted q) :
    sorted (set_insert x q) := by
  induction q with
  | nil => simp [set_insert, sorted]
  | cons z zs ih =>
    unfold sorted at h ih ⊢
    rw [List.pairwise_cons] at h
    by_cases h1 : x.lt z = true
    · simp only [set_insert, h1, if_true]
      refine List.Pairwise.cons ?_ (List.Pairwise.cons h.1 h.2)
      intro a ha
      rcases List.mem_cons.1 ha with ha | ha
      · exact ha ▸ h1
      · exact node_lt_trans_fp _ _ _ h1 (h.1 a ha)
    · by_cases h2 : z.lt x = true
      · simp only [set_insert, h1, h2, if_true, if_false]
        refine List.Pairwise.cons ?_ (ih h.2)
        intro a ha
        rcases mem_set_insert_fp x a zs ha with ha | ha
        · exact ha ▸ h2
        · exact h.1 a ha
      · simp only [set_insert, h1, h2, if_false]
        exact List.Pairwise.cons h.1 h.2

theorem set_erase_sublist_fp (k : node) (q : List node) : (set_erase k q).1.Sublist q := by
  induction q with
  | nil => simp [set_erase]
  | cons y ys ih =>
    by_cases h : k.equiv y = true
    · simp [set_erase, h]
    · simp only [set_erase, h, if_false]
      exact ih.cons₂ y

theorem sorted_set_erase_fp (k : node) (q : List node) (h : sorted q) :
    sorted (set_erase k q).1 :=
  List.Pairwise.sublist (set_erase_sublist_fp k q) h

theorem set_erase_found_fp (k : node) (q : List node) (h : (set_erase k q).2 = 1) :
    ∃ y, k.equiv y = true ∧ q.Perm (y :: (set_erase k q).1) := by
  induction q with
  | nil => simp [set_erase] at h
  | cons y ys ih =>
    by_cases h1 : k.equiv y = true
    · exact ⟨y, h1, by simp [set_erase, h1]⟩
    · simp only [set_erase, h1, if_false] at h ⊢
      obtain ⟨z, hz, hp⟩ := ih h
      exact ⟨z, hz, (hp.cons y).trans (List.Perm.swap z y _)⟩

theorem set_erase_missing_fp (k : node) (q : List node) (h : (set_erase k q).2 ≠ 1) :
    ∀ y ∈ q, k.equiv y = false := by
  induction q with
  | nil => simp
  | cons y ys ih =>
    by_cases h1 : k.equiv y = true
    · simp [set_erase, h1] at h
    · simp only [set_erase, h1, if_false] at h
      intro z hz
      rcases List.mem_cons.1 hz with hz | hz
      · subst hz
        simpa using h1
      · exact ih h z hz

theorem sorted_head_le_fp (it : node) (q1 : List node) (h : sorted (it :: q1)) :
    ∀ e ∈ q1, it.d ≤ e.d := by
  unfold sorted at h
  rw [List.pairwise_cons] at h
  exact fun e he => node_lt_le_fp _ _ (h.1 e he)

theorem relax_d1_eq_fp (w d : double) (x : Nat × edge_info) :
    (if x.2.is_improved then d + double.fin x.2.d / w else d + double.fin x.2.d) =
      relax_d1 w d x := by
  unfold relax_d1 edge_weight
  split <;> rfl

theorem relax_edge_eq_fp (w : double) (current : Nat) (d real_d : double)
    (s : List node × List (Nat × double)) (x : Nat × edge_info) :
    relax_edge w current d real_d s x =
      match map_find s.2 x.1 with
      | none => some (set_insert (relax_entry w current d real_d x) s.1,
                      s.2 ++ [(x.1, relax_d1 w d x)])
      | some old =>
        if (relax_d1 w d x).lt old then
          if (set_erase ⟨old, double.fin 0, x.1, 0⟩ s.1).2 ≠ 1 then none
          else some (set_insert (relax_entry w current d real_d x)
                  (set_erase ⟨old, double.fin 0, x.1, 0⟩ s.1).1, map_set s.2 x.1 (relax_d1 w d x))
        else some s := by
  cases h : map_find s.2 x.1 <;> simp only [relax_edge, relax_d1_eq_fp, relax_entry, h]

theorem perm_ids_ne_fp (q q0 : List node) (y : node) (hn : (q.map node.node_id).Nodup)
    (hp : q.Perm (y :: q0)) : (q0.map node.node_id).Nodup ∧ ∀ z ∈ q0, z.node_id ≠ y.node_id := by
  have h1 : ((y :: q0).map node.node_id).Nodup := (hp.map node.node_id).nodup_iff.1 hn
  rw [List.map_cons, List.nodup_cons] at h1
  refine ⟨h1.2, fun z hz e => h1.1 ?_⟩
  rw [← e]
  exact List.mem_map_of_mem _ hz

theorem queue_inv_q_ok (U : List Nat) (q : List node) (nd : List (Nat × double))
    (E : List Nat) (hinv : queue_inv U q nd E) : ∀ y ∈ q, y.d ≠ double.nan :=
  fun y hy => hinv.nd_ok _ _ (hinv.q_nd y hy)

theorem relax_edge_some_fp (U : List Nat) (w : double) (current : Nat) (d real_d : double)
    (q : List node) (nd : List (Nat × double)) (E : List Nat) (x : Nat × edge_info)
    (s1 : List node × List (Nat × double)) (hinv : queue_inv U q nd E)
    (hd1 : relax_d1 w d x ≠ double.nan)
    (h : relax_edge w current d real_d (q, nd) x = some s1) :
    relax_case w current d real_d x q nd s1.1 s1.2 ∧ sorted s1.1 := by
  have hqok := queue_inv_q_ok U q nd E hinv
  rw [relax_edge_eq_fp] at h
  cases hf : map_find nd x.1 with
  | none =>
    simp only [hf] at h
    cases h
    have hne : ∀ y ∈ q, y.node_id ≠ (relax_entry w current d real_d x).node_id := by
      intro y hy e
      have := hinv.q_nd y hy
      rw [e] at this
      simp [relax_entry, hf] at this
    exact ⟨relax_case.fresh hf (set_insert_perm_fp _ _ hd1 hqok hne) rfl,
      sorted_set_insert_fp _ _ hinv.sorted⟩
  | some old =>
    simp only [hf] at h
    have hold : old ≠ double.nan := hinv.nd_ok _ _ hf
    by_cases hlt : (relax_d1 w d x).lt old = true
    · simp only [hlt, if_true] at h
      by_cases hc : (set_erase ⟨old, double.fin 0, x.1, 0⟩ q).2 = 1
      · simp only [hc, ne_eq, not_true_eq_false, if_false] at h
        cases h
        obtain ⟨y, hy, hp⟩ := set_erase_found_fp _ _ hc
        have hyq : y ∈ q := hp.symm.subset (List.mem_cons_self _ _)
        rw [node_equiv_iff_fp _ _ hold (hqok y hyq)] at hy
        have hq0 := perm_ids_ne_fp q _ y hinv.q_nodup hp
        have hne : ∀ z ∈ (set_erase ⟨old, double.fin 0, x.1, 0⟩ q).1,
            z.node_id ≠ (relax_entry w current d real_d x).node_id := by
          intro z hz
          have := hq0.2 z hz
          rw [← hy.2] at this
          exact this
        have hok0 : ∀ z ∈ (set_erase ⟨old, double.fin 0, x.1, 0⟩ q).1, z.d ≠ double.nan :=
          fun z hz => hqok z (hp.symm.subset (List.mem_cons_of_mem _ hz))
        exact ⟨relax_case.decrease old y _ hf ((double.lt_iff _ _ hd1 hold).1 hlt)
          hy.2.symm hy.1.symm hp (set_insert_perm_fp _ _ hd1 hok0 hne) rfl,
          sorted_set_insert_fp _ _ (sorted_set_erase_fp _ _ hinv.sorted)⟩
      · simp [hc] at h
    · simp only [hlt, if_false] at h
      cases h
      exact ⟨relax_case.keep old hf
        ((double.lt_false_iff _ _ hd1 hold).1 (by simpa using hlt)) rfl rfl, hinv.sorted⟩

theorem relax_edge_none_fp (w : double) (current : Nat) (d real_d : double)
    (q : List node) (nd : List (Nat × double)) (x : Nat × edge_info)
    (hqok : ∀ y ∈ q, y.d ≠ double.nan)
    (h : relax_edge w current d real_d (q, nd) x = none) :
    ∃ old, map_find nd x.1 = some old ∧ relax_d1 w d x < old ∧
      ∀ y ∈ q, ¬ (y.d = old ∧ y.node_id = x.1) := by
  rw [relax_edge_eq_fp] at h
  cases hf : map_find nd x.1 with
  | none => simp [hf] at h
  | some old =>
    simp only [hf] at h
    by_cases hlt : (relax_d1 w d x).lt old = true
    · simp only [hlt, if_true] at h
      have hn := double.lt_ne_nan _ _ hlt
      by_cases hc : (set_erase ⟨old, double.fin 0, x.1, 0⟩ q).2 = 1
      · simp [hc] at h
      · refine ⟨old, rfl, (double.lt_iff _ _ hn.1 hn.2).1 hlt, fun y hy hyy => ?_⟩
        have := set_erase_missing_fp _ _ hc y hy
        have h2 : node.equiv ⟨old, double.fin 0, x.1, 0⟩ y = true := by
          rw [node_equiv_iff_fp _ _ hn.2 (hqok y hy)]
          exact ⟨hyy.1.symm, hyy.2.symm⟩
        rw [h2] at this
        cases this
    · simp [hlt] at h

theorem relax_case_queue_inv_fp (U : List Nat) (w : double) (current : Nat) (d real_d : double)
    (q : List node) (nd : List (Nat × double)) (E : List Nat) (x : Nat × edge_info)
    (q1 : List node) (nd1 : List (Nat × double)) (hinv : queue_inv U q nd E) (hx : x.1 ∈ U)
    (hd1 : relax_d1 w d x ≠ double.nan)
    (hs : sorted q1) (hc : relax_case w current d real_d x q nd q1 nd1) :
    queue_inv U q1 nd1 E := by
  cases hc with
  | fresh h1 h2 h3 =>
    subst h3
    have hxq : x.1 ∉ q.map node.node_id := by
      intro hm
      obtain ⟨y, hy, e⟩ := List.mem_map.1 hm
      have := hinv.q_nd y hy
      rw [e, h1] at this
      cases this
    have hfind : ∀ k, map_find (nd ++ [(x.1, relax_d1 w d x)]) k =
        if x.1 = k then (map_find nd k).orElse (fun _ => some (relax_d1 w d x))
        else map_find nd k := by
      intro k
      rw [map_find_append]
      by_cases hk : x.1 = k
      · simp [map_find, hk]
      · cases map_find nd k <;> simp [map_find, hk]
    refine ⟨hs, ?_, ?_, hinv.e_nodup, ?_, ?_, ?_, ?_, ?_⟩
    · rw [(h2.map node.node_id).nodup_iff, List.map_cons, List.nodup_cons]
      exact ⟨hxq, hinv.q_nodup⟩
    · intro e he
      rcases List.mem_cons.1 (h2.subset he) with he | he
      · subst he
        rw [hfind]
        simp [relax_entry, h1]
      · rw [hfind, hinv.q_nd e he]
        simp
    · intro e he
      rcases List.mem_cons.1 (h2.subset he) with he | he
      · subst he
        intro hE
        have := hinv.e_seen _ hE
        simp [relax_entry, h1] at this
      · exact hinv.disj e he
    · intro k hk
      rw [hfind] at hk
      by_cases hkx : x.1 = k
      · right
        rw [(h2.map node.node_id).mem_iff]
        simp [relax_entry, hkx]
      · simp only [hkx, if_false] at hk
        rcases hinv.seen k hk with h | h
        · exact Or.inl h
        · right
          rw [(h2.map node.node_id).mem_iff]
          exact List.mem_cons_of_mem _ h
    · intro k hk
      rw [hfind]
      have := hinv.e_seen k hk
      by_cases hkx : x.1 = k
      · cases hm : map_find nd k <;> simp [hkx]
      · simpa [hkx] using this
    · intro k hk
      rw [hfind] at hk
      by_cases hkx : x.1 = k
      · exact hkx ▸ hx
      · simp only [hkx, if_false] at hk
        exact hinv.univ k hk
    · intro k v hk
      rw [hfind] at hk
      by_cases hkx : x.1 = k
      · subst hkx
        simp only [if_true, h1, Option.orElse, Option.some.injEq] at hk
        rw [← hk]
        exact hd1
      · simp only [hkx, if_false] at hk
        exact hinv.nd_ok k v hk
  | decrease old y q0 h1 h2 h3 h4 h5 h6 h7 =>
    subst h7
    have hq0 := perm_ids_ne_fp q q0 y hinv.q_nodup h5
    have hyq : y ∈ q := h5.symm.subset (List.mem_cons_self _ _)
    have hsub : ∀ z ∈ q0, z ∈ q := fun z hz => h5.symm.subset (List.mem_cons_of_mem _ hz)
    refine ⟨hs, ?_, ?_, hinv.e_nodup, ?_, ?_, ?_, ?_, ?_⟩
    · rw [(h6.map node.node_id).nodup_iff, List.map_cons, List.nodup_cons]
      refine ⟨?_, hq0.1⟩
      intro hm
      obtain ⟨z, hz, e⟩ := List.mem_map.1 hm
      exact hq0.2 z hz (by rw [e, h3]; rfl)
    · intro e he
      rcases List.mem_cons.1 (h6.subset he) with he | he
      · subst he
        simp [relax_entry, map_find_set_same]
      · have hne : x.1 ≠ e.node_id := by
          intro e1
          exact hq0.2 e he (by rw [h3, e1])
        rw [map_find_set_other _ _ _ _ hne]
        exact hinv.q_nd e (hsub e he)
    · intro e he
      rcases List.mem_cons.1 (h6.subset he) with he | he
      · subst he
        have := hinv.disj y hyq
        rw [h3] at this
        exact this
      · exact hinv.disj e (hsub e he)
    · intro k hk
      by_cases hkx : x.1 = k
      · right
        rw [(h6.map node.node_id).mem_iff]
        simp [relax_entry, hkx]
      · rw [map_find_set_other _ _ _ _ hkx] at hk
        rcases hinv.seen k hk with h | h
        · exact Or.inl h
        · right
          rw [(h6.map node.node_id).mem_iff]
          rw [(h5.map node.node_id).mem_iff, List.map_cons, List.mem_cons] at h
          rcases h with h | h
          · exact absurd (h.trans h3).symm hkx
          · exact List.mem_cons_of_mem _ h
    · intro k hk
      rw [map_find_set]
      have := hinv.e_seen k hk
      by_cases hkx : x.1 = k
      · simp [hkx]
      · simpa [hkx] using this
    · intro k hk
      by_cases hkx : x.1 = k
      · exact hkx ▸ hx
      · rw [map_find_set_other _ _ _ _ hkx] at hk
        exact hinv.univ k hk
    · intro k v hk
      by_cases hkx : x.1 = k
      · subst hkx
        rw [map_find_set_same, Option.some.injEq] at hk
        rw [← hk]
        exact hd1
      · rw [map_find_set_other _ _ _ _ hkx] at hk
        exact hinv.nd_ok k v hk
  | keep old h1 h2 h3 h4 =>
    subst h3 h4
    exact hinv

/-! ### Double precision: paths, the distance invariant and the lower bound on path costs -/

theorem path_cost_snoc_fp (n : Graph) (w : double) (a v : Nat) (p : List Nat)
    (acc c : double) (e : edge_info)
    (h1 : path_cost n w acc a p = some c) (h2 : find_edge n (path_last a p) v = some e) :
    path_cost n w acc a (p ++ [v]) = some (c + edge_weight w e) := by
  induction p generalizing a acc with
  | nil =>
    simp only [path_cost, Option.some.injEq] at h1
    simp only [path_last] at h2
    simp [path_cost, h2, ← h1]
  | cons b p ih =>
    simp only [path_cost] at h1
    cases he : find_edge n a b with
    | none => simp [he] at h1
    | some e1 =>
      simp only [he] at h1
      have := ih b (acc + edge_weight w e1) h1 h2
      show path_cost n w acc a (b :: (p ++ [v])) = _
      simp only [path_cost, he, this]

theorem path_real_snoc_fp (n : Graph) (a v : Nat) (p : List Nat) (acc c : double)
    (e : edge_info)
    (h1 : path_real n acc a p = some c) (h2 : find_edge n (path_last a p) v = some e) :
    path_real n acc a (p ++ [v]) = some (c + double.fin e.d) := by
  induction p generalizing a acc with
  | nil =>
    simp only [path_real, Option.some.injEq] at h1
    simp only [path_last] at h2
    simp [path_real, h2, ← h1]
  | cons b p ih =>
    simp only [path_real] at h1
    cases he : find_edge n a b with
    | none => simp [he] at h1
    | some e1 =>
      simp only [he] at h1
      have := ih b (acc + double.fin e1.d) h1 h2
      show path_real n acc a (b :: (p ++ [v])) = _
      simp only [path_real, he, this]

theorem walk_refl_fp (n : Graph) (w : double) (S : Nat) :
    walk n w S S (double.fin 0) (double.fin 0) :=
  ⟨[], rfl, rfl, rfl⟩

theorem walk_snoc_fp (n : Graph) (w : double) (S u v : Nat) (c r : double) (e : edge_info)
    (h : walk n w S u c r) (he : find_edge n u v = some e) :
    walk n w S v (c + edge_weight w e) (r + double.fin e.d) := by
  obtain ⟨p, h1, h2, h3⟩ := h
  rw [← h1] at he
  exact ⟨p ++ [v], path_last_snoc _ _ _, path_cost_snoc_fp n w S v p _ c e h2 he,
    path_real_snoc_fp n S v p _ r e h3 he⟩

theorem nd_le_refl_fp (nd : List (Nat × double)) : nd_le nd nd :=
  fun _ v h => ⟨v, h, le_refl v⟩

theorem nd_le_trans_fp (a b c : List (Nat × double)) (h1 : nd_le a b) (h2 : nd_le b c) :
    nd_le a c := by
  intro k v h
  obtain ⟨v1, hv1, hle1⟩ := h1 k v h
  obtain ⟨v2, hv2, hle2⟩ := h2 k v1 hv1
  exact ⟨v2, hv2, le_trans hle2 hle1⟩

theorem closed_at_mono_fp (n : Graph) (w : double) (nd nd1 : List (Nat × double)) (t : node)
    (h : nd_le nd nd1) (hc : closed_at n w nd t) : closed_at n w nd1 t := by
  intro v e he
  obtain ⟨dv, h1, h2⟩ := hc v e he
  obtain ⟨dv1, h3, h4⟩ := h v dv h1
  exact ⟨dv1, h3, le_trans h4 h2⟩

theorem relax_case_nd_fp (w : double) (current : Nat) (d real_d : double)
    (x : Nat × edge_info)
    (q : List node) (nd : List (Nat × double)) (q1 : List node) (nd1 : List (Nat × double))
    (hc : relax_case w current d real_d x q nd q1 nd1) :
    nd_le nd nd1 ∧ (∃ dv, map_find nd1 x.1 = some dv ∧ dv ≤ relax_d1 w d x) ∧
    (∀ k, k ≠ x.1 → map_find nd1 k = map_find nd k) := by
  cases hc with
  | fresh h1 h2 h3 =>
    subst h3
    refine ⟨?_, ?_, ?_⟩
    · intro k v hk
      exact ⟨v, by rw [map_find_append, hk]; rfl, le_refl v⟩
    · exact ⟨relax_d1 w d x, by rw [map_find_append, h1]; simp [map_find], le_refl _⟩
    · intro k hk
      rw [map_find_append]
      cases map_find nd k <;> simp [map_find, hk.symm]
  | decrease old y q0 h1 h2 h3 h4 h5 h6 h7 =>
    subst h7
    refine ⟨?_, ?_, ?_⟩
    · intro k v hk
      by_cases hkx : x.1 = k
      · subst hkx
        rw [h1] at hk
        cases hk
        exact ⟨_, map_find_set_same _ _ _, le_of_lt h2⟩
      · exact ⟨v, by rw [map_find_set_other _ _ _ _ hkx]; exact hk, le_refl v⟩
    · exact ⟨_, map_find_set_same _ _ _, le_refl _⟩
    · intro k hk
      exact map_find_set_other _ _ _ _ hk.symm
  | keep old h1 h2 h3 h4 =>
    subst h3 h4
    exact ⟨nd_le_refl_fp _, ⟨old, h1, h2⟩, fun _ _ => rfl⟩

theorem relax_d1_facts (w : double) (d : double) (x : Nat × edge_info)
    (h0 : double.fin 0 ≤ d) (hr : d.representable = true)
    (hw : double.fin 0 ≤ edge_weight w x.2) :
    d ≤ relax_d1 w d x ∧ double.fin 0 ≤ relax_d1 w d x ∧
    (relax_d1 w d x).representable = true ∧ relax_d1 w d x ≠ double.nan := by
  unfold relax_d1
  have h1 := double.le_add d _ h0 hr hw
  have h2 := double.nonneg_add d _ h0 hw
  exact ⟨h1, h2, double.representable_add d _ h0 hw, double.ne_nan_of_nonneg _ h2⟩

theorem relax_case_dist_inv_fp (U : List Nat) (n : Graph) (w : double) (S : Nat) (it : node)
    (x : Nat × edge_info) (q : List node) (nd : List (Nat × double)) (T : List node)
    (q1 : List node) (nd1 : List (Nat × double))
    (hq : queue_inv U q nd (T.map node.node_id)) (hd : dist_inv n w S q nd T)
    (hwalk : walk n w S it.node_id it.d it.real_d)
    (hedge : find_edge n it.node_id x.1 = some x.2)
    (hw : double.fin 0 ≤ edge_weight w x.2)
    (hle : ∀ t ∈ T, t.d ≤ it.d) (h0 : double.fin 0 ≤ it.d)
    (hr : it.d.representable = true)
    (hc : relax_case w it.node_id it.d it.real_d x q nd q1 nd1) :
    dist_inv n w S q1 nd1 T := by
  have hnd := relax_case_nd_fp w it.node_id it.d it.real_d x q nd q1 nd1 hc
  obtain ⟨hd1, hd0, hdr, _⟩ := relax_d1_facts w it.d x h0 hr hw
  have hnew_walk : walk n w S x.1 (relax_d1 w it.d x) (it.real_d + double.fin x.2.d) :=
    walk_snoc_fp n w S it.node_id x.1 it.d it.real_d x.2 hwalk hedge
  have hT : ∀ t ∈ T, t.node_id ≠ x.1 → map_find nd1 t.node_id = some t.d := by
    intro t ht hne
    rw [hnd.2.2 _ hne]
    exact hd.t_nd t ht
  cases hc with
  | fresh h1 h2 h3 =>
    refine ⟨?_, ?_, hd.t_nonneg, ?_, ?_, ?_, ?_⟩
    · intro t ht e he
      rcases List.mem_cons.1 (h2.subset he) with he | he
      · subst he
        exact le_trans (hle t ht) hd1
      · exact hd.mono t ht e he
    · intro t ht
      apply hT t ht
      intro e
      have := hd.t_nd t ht
      rw [e, h1] at this
      cases this
    · rw [hnd.2.2 S]
      · exact hd.start
      · intro e
        have := hd.start
        rw [e, h1] at this
        cases this
    · intro e he
      rcases List.mem_cons.1 (h2.subset he) with he | he
      · subst he
        exact hd0
      · exact hd.q_nonneg e he
    · intro e he
      rcases List.mem_cons.1 (h2.subset he) with he | he
      · subst he
        exact hdr
      · exact hd.q_rep e he
    · intro e he
      rcases List.mem_cons.1 (h2.subset he) with he | he
      · subst he
        exact hnew_walk
      · exact hd.q_walk e he
  | decrease old y q0 h1 h2 h3 h4 h5 h6 h7 =>
    have hyq : y ∈ q := h5.symm.subset (List.mem_cons_self _ _)
    have hsub : ∀ z ∈ q0, z ∈ q := fun z hz => h5.symm.subset (List.mem_cons_of_mem _ hz)
    refine ⟨?_, ?_, hd.t_nonneg, ?_, ?_, ?_, ?_⟩
    · intro t ht e he
      rcases List.mem_cons.1 (h6.subset he) with he | he
      · subst he
        exact le_trans (hle t ht) hd1
      · exact hd.mono t ht e (hsub e he)
    · intro t ht
      apply hT t ht
      intro e
      have := hq.disj y hyq
      rw [h3, ← e] at this
      exact this (List.mem_map_of_mem _ ht)
    · by_cases hS : S = x.1
      · have := hd.start
        rw [hS, h1] at this
        cases this
        exact absurd h2 (not_lt.2 hd0)
      · rw [hnd.2.2 S hS]
        exact hd.start
    · intro e he
      rcases List.mem_cons.1 (h6.subset he) with he | he
      · subst he
        exact hd0
      · exact hd.q_nonneg e (hsub e he)
    · intro e he
      rcases List.mem_cons.1 (h6.subset he) with he | he
      · subst he
        exact hdr
      · exact hd.q_rep e (hsub e he)
    · intro e he
      rcases List.mem_cons.1 (h6.subset he) with he | he
      · subst he
        exact hnew_walk
      · exact hd.q_walk e (hsub e he)
  | keep old h1 h2 h3 h4 =>
    subst h3 h4
    exact hd

theorem relax_edge_ne_none_fp (U : List Nat) (n : Graph) (w : double) (S : Nat) (it : node)
    (x : Nat × edge_info) (q : List node) (nd : List (Nat × double)) (T : List node)
    (hq : queue_inv U q nd (T.map node.node_id)) (hd : dist_inv n w S q nd T)
    (hw : double.fin 0 ≤ edge_weight w x.2) (hle : ∀ t ∈ T, t.d ≤ it.d)
    (h0 : double.fin 0 ≤ it.d) (hr : it.d.representable = true) :
    relax_edge w it.node_id it.d it.real_d (q, nd) x ≠ none := by
  intro h
  obtain ⟨old, h1, h2, h3⟩ :=
    relax_edge_none_fp w _ _ _ q nd x (queue_inv_q_ok U q nd _ hq) h
  obtain ⟨hd1, _, _, _⟩ := relax_d1_facts w it.d x h0 hr hw
  rcases hq.seen x.1 (by rw [h1]; rfl) with hE | hQ
  · obtain ⟨t, ht, e⟩ := List.mem_map.1 hE
    have := hd.t_nd t ht
    rw [e, h1] at this
    cases this
    exact absurd h2 (not_lt.2 (le_trans (hle t ht) hd1))
  · obtain ⟨y, hy, e⟩ := List.mem_map.1 hQ
    have := hq.q_nd y hy
    rw [e, h1] at this
    cases this
    exact h3 y hy ⟨rfl, e⟩

theorem edge_weight_nonneg (w : double) (e : edge_info) (he : 0 ≤ e.d)
    (hw : (double.fin 0).lt w = true ∨ e.is_improved = false) :
    double.fin 0 ≤ edge_weight w e := by
  unfold edge_weight
  split
  · rename_i hi
    rcases hw with hw | hw
    · exact double.nonneg_div _ _ he hw
    · rw [hw] at hi
      cases hi
  · exact (double.fin_le_fin _ _).2 he

theorem weights_nonneg_of_pos_fp (n : Graph) (w : double) (hn : dist_nonneg n)
    (hw : (double.fin 0).lt w = true) : weights_nonneg n w :=
  fun x hx y hy => edge_weight_nonneg w y.2 (hn x hx y hy) (Or.inl hw)

theorem weights_nonneg_of_plain_fp (n : Graph) (w : double) (hn : dist_nonneg n)
    (hi : no_improved n) : weights_nonneg n w :=
  fun x hx y hy => edge_weight_nonneg w y.2 (hn x hx y hy) (Or.inr (hi x hx y hy))

theorem adj_weight_nonneg_fp (n : Graph) (w : double) (hwn : weights_nonneg n w) (a : Nat)
    (x : Nat × edge_info) (h : x ∈ adj n a) : double.fin 0 ≤ edge_weight w x.2 :=
  hwn _ (adj_mem n a x h) x h

theorem find_edge_nonneg_fp (n : Graph) (w : double) (hwn : weights_nonneg n w) (a b : Nat)
    (e : edge_info) (h : find_edge n a b = some e) : double.fin 0 ≤ edge_weight w e :=
  adj_weight_nonneg_fp n w hwn a (b, e) (map_find_mem _ _ _ h)

theorem relax_ok_fp (U : List Nat) (n : Graph) (w : double) (S : Nat) (it : node)
    (T : List node)
    (hwalk : walk n w S it.node_id it.d it.real_d) (hle : ∀ t ∈ T, t.d ≤ it.d)
    (h0 : double.fin 0 ≤ it.d) (hr : it.d.representable = true) :
    ∀ (xs : List (Nat × edge_info)) (q : List node) (nd : List (Nat × double)),
    queue_inv U q nd (T.map node.node_id) → dist_inv n w S q nd T →
    (∀ x ∈ xs, find_edge n it.node_id x.1 = some x.2 ∧
      double.fin 0 ≤ edge_weight w x.2 ∧ x.1 ∈ U) →
    ∃ s1, relax w it.node_id it.d it.real_d xs (q, nd) = some s1 ∧
      queue_inv U s1.1 s1.2 (T.map node.node_id) ∧ dist_inv n w S s1.1 s1.2 T ∧
      nd_le nd s1.2 ∧
      ∀ x ∈ xs, ∃ dv, map_find s1.2 x.1 = some dv ∧ dv ≤ it.d + edge_weight w x.2 := by
  intro xs
  induction xs with
  | nil =>
    intro q nd hq hd _
    exact ⟨(q, nd), rfl, hq, hd, nd_le_refl_fp _, by simp⟩
  | cons x xs ih =>
    intro q nd hq hd hxs
    obtain ⟨hx1, hx2, hx3⟩ := hxs x (List.mem_cons_self _ _)
    obtain ⟨_, _, _, hnn⟩ := relax_d1_facts w it.d x h0 hr hx2
    cases hr1 : relax_edge w it.node_id it.d it.real_d (q, nd) x with
    | none => exact absurd hr1 (relax_edge_ne_none_fp U n w S it x q nd T hq hd hx2 hle h0 hr)
    | some s =>
      obtain ⟨hcase, hsorted⟩ := relax_edge_some_fp U w _ _ _ q nd _ x s hq hnn hr1
      have hq1 := relax_case_queue_inv_fp U w _ _ _ q nd _ x s.1 s.2 hq hx3 hnn hsorted hcase
      have hd1 := relax_case_dist_inv_fp U n w S it x q nd T s.1 s.2 hq hd hwalk hx1 hx2 hle
        h0 hr hcase
      have hnd := relax_case_nd_fp w _ _ _ x q nd s.1 s.2 hcase
      obtain ⟨s1, hs1, hq2, hd2, hle2, hall⟩ :=
        ih s.1 s.2 hq1 hd1 (fun y hy => hxs y (List.mem_cons_of_mem _ hy))
      refine ⟨s1, ?_, hq2, hd2, nd_le_trans_fp _ _ _ hnd.1 hle2, ?_⟩
      · simp only [relax, hr1]
        exact hs1
      · intro y hy
        rcases List.mem_cons.1 hy with hy | hy
        · subst hy
          obtain ⟨dv, h1, h2⟩ := hnd.2.1
          obtain ⟨dv1, h3, h4⟩ := hle2 _ _ h1
          exact ⟨dv1, h3, le_trans h4 h2⟩
        · exact hall y hy

/-- No path costs less than the least distance that is still open: the cost of a path,
accumulated from a double `acc` that some extracted or queued entry does not exceed, is
not exceeded by some extracted or queued entry either. -/
theorem lower_bound_fp (U : List Nat) (n : Graph) (w : double) (S : Nat) (q : List node)
    (nd : List (Nat × double)) (T : List node)
    (hq : queue_inv U q nd (T.map node.node_id)) (hd : dist_inv n w S q nd T)
    (hcl : ∀ t ∈ T, closed_at n w nd t)
    (hw : ∀ a b e, find_edge n a b = some e → double.fin 0 ≤ edge_weight w e) :
    ∀ (p : List Nat) (a : Nat) (acc c : double),
    ((∃ t ∈ T, t.node_id = a ∧ t.d ≤ acc) ∨ (∃ e ∈ q, e.d ≤ acc)) →
    double.fin 0 ≤ acc → acc.representable = true →
    path_cost n w acc a p = some c →
    (∃ t ∈ T, t.node_id = path_last a p ∧ t.d ≤ c) ∨ (∃ e ∈ q, e.d ≤ c) := by
  intro p
  induction p with
  | nil =>
    intro a acc c h _ _ hc
    simp only [path_cost, Option.some.injEq] at hc
    subst hc
    simpa [path_last] using h
  | cons b p ih =>
    intro a acc c h ha0 har hc
    simp only [path_cost] at hc
    cases he : find_edge n a b with
    | none => simp [he] at hc
    | some e =>
      simp only [he] at hc
      have hwe := hw a b e he
      have hacc : acc ≤ acc + edge_weight w e := double.le_add _ _ ha0 har hwe
      have hb : (∃ t ∈ T, t.node_id = b ∧ t.d ≤ acc + edge_weight w e) ∨
          (∃ y ∈ q, y.d ≤ acc + edge_weight w e) := by
        rcases h with ⟨t, ht, hta, htd⟩ | ⟨y, hy, hyd⟩
        · rw [← hta] at he
          obtain ⟨dv, h1, h2⟩ := hcl t ht b e he
          have h3 : dv ≤ acc + edge_weight w e :=
            le_trans h2 (double.add_mono _ _ _ _ (hd.t_nonneg t ht) htd hwe (le_refl _))
          rcases hq.seen b (by rw [h1]; rfl) with hE | hQ
          · obtain ⟨t1, ht1, e1⟩ := List.mem_map.1 hE
            have := hd.t_nd t1 ht1
            rw [e1, h1] at this
            cases this
            exact Or.inl ⟨t1, ht1, e1, h3⟩
          · obtain ⟨y, hy, e1⟩ := List.mem_map.1 hQ
            have := hq.q_nd y hy
            rw [e1, h1] at this
            cases this
            exact Or.inr ⟨y, hy, h3⟩
        · exact Or.inr ⟨y, hy, le_trans hyd hacc⟩
      have := ih b (acc + edge_weight w e) c hb (double.nonneg_add _ _ ha0 hwe)
        (double.representable_add _ _ ha0 hwe) hc
      simpa [path_last] using this

theorem lower_bound_start_fp (U : List Nat) (n : Graph) (w : double) (S : Nat)
    (q : List node)
    (nd : List (Nat × double)) (T : List node)
    (hq : queue_inv U q nd (T.map node.node_id)) (hd : dist_inv n w S q nd T)
    (hcl : ∀ t ∈ T, closed_at n w nd t)
    (hw : ∀ a b e, find_edge n a b = some e → double.fin 0 ≤ edge_weight w e)
    (p : List Nat) (c : double) (hc : path_cost n w (double.fin 0) S p = some c) :
    (∃ t ∈ T, t.node_id = path_last S p ∧ t.d ≤ c) ∨ (∃ e ∈ q, e.d ≤ c) := by
  have hS : (∃ t ∈ T, t.node_id = S ∧ t.d ≤ double.fin 0) ∨
      (∃ e ∈ q, e.d ≤ double.fin 0) := by
    rcases hq.seen S (by rw [hd.start]; rfl) with hE | hQ
    · obtain ⟨t1, ht1, e1⟩ := List.mem_map.1 hE
      have := hd.t_nd t1 ht1
      rw [e1, hd.start, Option.some.injEq] at this
      exact Or.inl ⟨t1, ht1, e1, le_of_eq this.symm⟩
    · obtain ⟨y, hy, e1⟩ := List.mem_map.1 hQ
      have := hq.q_nd y hy
      rw [e1, hd.start, Option.some.injEq] at this
      exact Or.inr ⟨y, hy, le_of_eq this.symm⟩
  exact lower_bound_fp U n w S q nd T hq hd hcl hw p S (double.fin 0) c hS (le_refl _)
    double.representable_zero hc

theorem path_cost_isSome_fp (n : Graph) (w : double) :
    ∀ (p : List Nat) (a : Nat) (acc acc1 : double),
    (path_cost n w acc a p).isSome = (path_real n acc1 a p).isSome := by
  intro p
  induction p with
  | nil => intro a acc acc1; rfl
  | cons b p ih =>
    intro a acc acc1
    simp only [path_cost, path_real]
    cases find_edge n a b with
    | none => rfl
    | some e => exact ih b _ _

theorem closed_reach_fp (U : List Nat) (n : Graph) (w : double) (nd : List (Nat × double))
    (T : List node) (hq : queue_inv U [] nd (T.map node.node_id))
    (hcl : ∀ t ∈ T, closed_at n w nd t) :
    ∀ (p : List Nat) (a : Nat) (acc : double), a ∈ T.map node.node_id →
    (path_real n acc a p).isSome = true →
    path_last a p ∈ T.map node.node_id := by
  intro p
  induction p with
  | nil =>
    intro a _ ha _
    exact ha
  | cons b p ih =>
    intro a acc ha hp
    simp only [path_real] at hp
    cases he : find_edge n a b with
    | none => simp [he] at hp
    | some e =>
      simp only [he] at hp
      obtain ⟨t, ht, hta⟩ := List.mem_map.1 ha
      rw [← hta] at he
      obtain ⟨dv, h1, _⟩ := hcl t ht b e he
      rcases hq.seen b (by rw [h1]; rfl) with hE | hQ
      · exact ih b _ hE hp
      · simp at hQ

/-! ### Double precision: the loop invariant and the result of a search -/

theorem search_loop_rule_fp (n : Graph) (w : double) (nodes_points : Points) (npoints : Nat)
    (xs : List (Nat × ℚ)) (I : SearchState → Prop) (P : SearchEnd → Prop)
    (B : Nat)
    (hnext : ∀ st st1, I st → search_step n w nodes_points npoints xs st = Step.next st1 →
      I st1 ∧ st1.trace.length = st.trace.length + 1)
    (hdone : ∀ st r, I st → search_step n w nodes_points npoints xs st = Step.done r → P r)
    (hbound : ∀ st, I st → st.trace.length ≤ B) :
    ∀ (fuel : Nat) (st : SearchState), I st → B + 1 ≤ fuel + st.trace.length →
      P (search_loop n w nodes_points npoints xs fuel st) := by
  intro fuel
  induction fuel with
  | zero =>
    intro st hI hf
    have := hbound st hI
    omega
  | succ fuel ih =>
    intro st hI hf
    simp only [search_loop]
    cases hs : search_step n w nodes_points npoints xs st with
    | done r => exact hdone st r hI hs
    | next st1 =>
      obtain ⟨h1, h2⟩ := hnext st st1 hI hs
      exact ih st1 h1 (by omega)

theorem after_loop_cases_fp (npoints : Nat) (st : SearchState) :
    (after_loop npoints st).st = st ∧
    (((after_loop npoints st).status = Status.ok ∧ st.found = npoints) ∨
     ((after_loop npoints st).status = Status.not_all_found ∧ st.found ≠ npoints)) := by
  unfold after_loop
  by_cases h : st.found = npoints
  · simp [h]
  · simp [h]

theorem head_inv_init_fp (n : Graph) (w : double) (S : Nat) (nodes_points : Points)
    (xs : List (Nat × ℚ)) : head_inv n w S nodes_points xs (init_state S) := by
  refine ⟨⟨?_, ?_, ?_, ?_, ?_, ?_⟩, ⟨?_, ?_, ?_, ?_, ?_, ?_, ?_, ?_, ?_⟩,
    ⟨?_, ?_, ?_, ?_, ?_, ?_, ?_⟩, ?_⟩ <;>
    simp [init_state, sorted, map_find, double.representable_zero]
  exact walk_refl_fp n w S

theorem head_inv_length_fp (n : Graph) (w : double) (S : Nat) (nodes_points : Points)
    (xs : List (Nat × ℚ)) (st : SearchState) (h : head_inv n w S nodes_points xs st) :
    st.trace.length ≤ graph_size n + 1 := by
  have hsub : st.trace.map node.node_id ⊆ S :: all_neighbors n :=
    fun k hk => h.qi.univ k (h.qi.e_seen k hk)
  have := (List.subperm_of_subset h.tr.ids_nodup hsub).length_le
  simpa [all_neighbors_length] using this

theorem extract_inv_fp (n : Graph) (w : double) (S : Nat) (nodes_points : Points)
    (xs : List (Nat × ℚ)) (st : SearchState) (it : node) (q1 : List node)
    (hw : ∀ a b e, find_edge n a b = some e → double.fin 0 ≤ edge_weight w e)
    (h : head_inv n w S nodes_points xs st) (hq : st.q = it :: q1) :
    trace_ok n w S nodes_points xs
      ⟨q1, st.node_distances, st.found + (points_at nodes_points it.node_id).length,
        st.out ++ emit xs (points_at nodes_points it.node_id) it.d it.real_d,
        st.trace ++ [it]⟩ ∧
    queue_inv (S :: all_neighbors n) q1 st.node_distances
      ((st.trace ++ [it]).map node.node_id) ∧
    dist_inv n w S q1 st.node_distances (st.trace ++ [it]) ∧
    (∀ t ∈ st.trace ++ [it], t.d ≤ it.d) ∧ double.fin 0 ≤ it.d ∧
    it.d.representable = true ∧
    walk n w S it.node_id it.d it.real_d := by
  have hqi := h.qi
  have hdi := h.di
  rw [hq] at hqi hdi
  have hit : it ∈ it :: q1 := List.mem_cons_self _ _
  have hsub : ∀ e ∈ q1, e ∈ it :: q1 := fun e he => List.mem_cons_of_mem _ he
  have hnd := hqi.q_nodup
  rw [List.map_cons, List.nodup_cons] at hnd
  have hwalk := hdi.q_walk it hit
  have hle : ∀ t ∈ st.trace ++ [it], t.d ≤ it.d := by
    intro t ht
    rcases List.mem_append.1 ht with ht | ht
    · exact hdi.mono t ht it hit
    · rw [List.mem_singleton.1 ht]
  have hpos : ∀ t ∈ st.trace ++ [it], double.fin 0 ≤ t.d := by
    intro t ht
    rcases List.mem_append.1 ht with ht | ht
    · exact hdi.t_nonneg t ht
    · rw [List.mem_singleton.1 ht]
      exact hdi.q_nonneg it hit
  refine ⟨⟨?_, ?_, ?_, hpos, ?_, ?_⟩, ⟨?_, hnd.2, ?_, ?_, ?_, ?_, ?_, hqi.univ, hqi.nd_ok⟩,
    ⟨?_, ?_, hpos, hdi.start, ?_, ?_, ?_⟩, hle, hdi.q_nonneg it hit, hdi.q_rep it hit, hwalk⟩
  · show ((st.trace ++ [it]).map node.node_id).Nodup
    rw [List.map_append, List.nodup_append]
    refine ⟨h.tr.ids_nodup, by simp, ?_⟩
    intro a ha hb
    simp only [List.map_cons, List.map_nil, List.mem_singleton] at hb
    subst hb
    exact hqi.disj it hit ha
  · intro t ht
    rcases List.mem_append.1 ht with ht | ht
    · exact h.tr.t_walk t ht
    · rw [List.mem_singleton.1 ht]
      exact hwalk
  · intro t ht
    rcases List.mem_append.1 ht with ht | ht
    · exact h.tr.t_min t ht
    · rw [List.mem_singleton.1 ht]
      intro p c hp hc
      rcases lower_bound_start_fp _ n w S _ _ _ hqi hdi h.cl hw p c hc with
        ⟨t1, ht1, e1, _⟩ | ⟨y, hy, hyc⟩
      · rw [hp] at e1
        exact absurd (e1 ▸ List.mem_map_of_mem node.node_id ht1) (hqi.disj it hit)
      · rcases List.mem_cons.1 hy with hy | hy
        · rw [← hy]
          exact hyc
        · exact le_trans (sorted_head_le_fp it q1 hqi.sorted y hy) hyc
  · show st.found + _ = ((st.trace ++ [it]).map _).sum
    rw [List.map_append, List.sum_append, ← h.tr.found_eq]
    simp
  · show st.out ++ _ = (st.trace ++ [it]).flatMap _
    rw [List.flatMap_append, ← h.tr.out_eq]
    simp
  · exact (List.pairwise_cons.1 hqi.sorted).2
  · exact fun e he => hqi.q_nd e (hsub e he)
  · rw [List.map_append, List.nodup_append]
    refine ⟨hqi.e_nodup, by simp, ?_⟩
    intro a ha hb
    simp only [List.map_cons, List.map_nil, List.mem_singleton] at hb
    subst hb
    exact hqi.disj it hit ha
  · intro e he hm
    rw [List.map_append, List.mem_append] at hm
    rcases hm with hm | hm
    · exact hqi.disj e (hsub e he) hm
    · simp only [List.map_cons, List.map_nil, List.mem_singleton] at hm
      exact hnd.1 (hm ▸ List.mem_map_of_mem node.node_id he)
  · intro k hk
    rcases hqi.seen k hk with h1 | h1
    · exact Or.inl (by rw [List.map_append]; exact List.mem_append_left _ h1)
    · rw [List.map_cons, List.mem_cons] at h1
      rcases h1 with h1 | h1
      · exact Or.inl (by rw [List.map_append, h1]; simp)
      · exact Or.inr h1
  · intro k hk
    rw [List.map_append, List.mem_append] at hk
    rcases hk with hk | hk
    · exact hqi.e_seen k hk
    · simp only [List.map_cons, List.map_nil, List.mem_singleton] at hk
      rw [hk, hqi.q_nd it hit]
      rfl
  · intro t ht e he
    rcases List.mem_append.1 ht with ht | ht
    · exact hdi.mono t ht e (hsub e he)
    · rw [List.mem_singleton.1 ht]
      exact sorted_head_le_fp it q1 hqi.sorted e he
  · intro t ht
    rcases List.mem_append.1 ht with ht | ht
    · exact hdi.t_nd t ht
    · rw [List.mem_singleton.1 ht]
      exact hqi.q_nd it hit
  · exact fun e he => hdi.q_nonneg e (hsub e he)
  · exact fun e he => hdi.q_rep e (hsub e he)
  · exact fun e he => hdi.q_walk e (hsub e he)

theorem search_step_spec_fp (n : Graph) (w : double) (S : Nat) (nodes_points : Points)
    (npoints : Nat) (xs : List (Nat × ℚ)) (st : SearchState)
    (hk : adj_keys_distinct n) (hwn : weights_nonneg n w)
    (h : head_inv n w S nodes_points xs st) :
    step_case n w S nodes_points npoints xs st := by
  cases hq : st.q with
  | nil =>
    refine step_case.empty hq ?_
    simp only [search_step, hq]
  | cons it q1 =>
    have hwe : ∀ a b e, find_edge n a b = some e → double.fin 0 ≤ edge_weight w e :=
      fun a b e he => find_edge_nonneg_fp n w hwn a b e he
    obtain ⟨htr, hqi, hdi, hle, h0, hr, hwalk⟩ :=
      extract_inv_fp n w S nodes_points xs st it q1 hwe h hq
    by_cases hb : st.found + (points_at nodes_points it.node_id).length = npoints
    · refine step_case.stop it q1 hq htr hb ?_
      simp only [search_step, hq, hb, if_true, extracted_state]
    · have hadj : ∀ x ∈ adj n it.node_id, find_edge n it.node_id x.1 = some x.2 ∧
          double.fin 0 ≤ edge_weight w x.2 ∧ x.1 ∈ S :: all_neighbors n := by
        intro x hx
        exact ⟨adj_find_edge n hk _ x hx,
          adj_weight_nonneg_fp n w hwn _ x hx,
          List.mem_cons_of_mem _ (adj_neighbor n _ x hx)⟩
      obtain ⟨s, hs, hq2, hd2, hnd, hall⟩ :=
        relax_ok_fp _ n w S it (st.trace ++ [it]) hwalk hle h0 hr _ q1 st.node_distances
          hqi hdi hadj
      refine step_case.go it q1 s hq htr hb hs ?_ ⟨?_, hq2, hd2, ?_⟩
      · simp only [search_step, hq, hb, hs, relaxed_state]
        rfl
      · exact ⟨htr.ids_nodup, htr.t_walk, htr.t_min, htr.t_pos, htr.found_eq, htr.out_eq⟩
      · intro t ht
        show closed_at n w s.2 t
        rcases List.mem_append.1 ht with ht | ht
        · exact closed_at_mono_fp n w _ _ t hnd (h.cl t ht)
        · rw [List.mem_singleton.1 ht]
          intro v e he
          exact hall (v, e) (map_find_mem _ _ _ he)

theorem search_step_next_fp (n : Graph) (w : double) (S : Nat) (nodes_points : Points)
    (npoints : Nat) (xs : List (Nat × ℚ)) (st st1 : SearchState)
    (hk : adj_keys_distinct n) (hwn : weights_nonneg n w)
    (h : head_inv n w S nodes_points xs st)
    (hs : search_step n w nodes_points npoints xs st = Step.next st1) :
    head_inv n w S nodes_points xs st1 ∧ st1.trace.length = st.trace.length + 1 := by
  cases search_step_spec_fp n w S nodes_points npoints xs st hk hwn h with
  | empty h1 h2 => rw [h2] at hs; cases hs
  | stop it q1 h1 h2 h4 h5 => rw [h5] at hs; cases hs
  | go it q1 s h1 h2 h3 h4 h5 h6 =>
    rw [h5] at hs
    cases hs
    exact ⟨h6, by simp [relaxed_state]⟩

theorem search_step_done_fp (n : Graph) (w : double) (S : Nat) (nodes_points : Points)
    (npoints : Nat) (xs : List (Nat × ℚ)) (st : SearchState) (r : SearchEnd)
    (hk : adj_keys_distinct n) (hwn : weights_nonneg n w)
    (h : head_inv n w S nodes_points xs st)
    (hs : search_step n w nodes_points npoints xs st = Step.done r) :
    end_ok n w S nodes_points xs npoints r := by
  cases search_step_spec_fp n w S nodes_points npoints xs st hk hwn h with
  | empty h1 h2 =>
    rw [h2] at hs
    cases hs
    obtain ⟨e1, e2⟩ := after_loop_cases_fp npoints st
    refine ⟨by rw [e1]; exact h.tr, by rw [e1]; exact e2, fun _ => ?_⟩
    rw [e1]
    exact ⟨h1, h⟩
  | stop it q1 h1 h2 h4 h5 =>
    rw [h5] at hs
    cases hs
    obtain ⟨e1, e2⟩ := after_loop_cases_fp npoints (extracted_state nodes_points xs st it q1)
    refine ⟨by rw [e1]; exact h2, by rw [e1]; exact e2, fun hc => ?_⟩
    rw [e1] at hc
    exact absurd h4 hc
  | go it q1 s h1 h2 h3 h4 h5 h6 => rw [h5] at hs; cases hs

/-- The search in double precision ends normally or with `not_all_found`, and the log of
its extracted entries satisfies `trace_ok`. -/
theorem search_end_ok_fp (n : Graph) (w : double) (nodes_points : Points)
    (x : Nat × List (Nat × ℚ)) (hk : adj_keys_distinct n) (hwn : weights_nonneg n w) :
    end_ok n w x.1 nodes_points x.2 (count_points nodes_points)
      (search n w nodes_points x) := by
  unfold search
  refine search_loop_rule_fp n w nodes_points _ x.2 (head_inv n w x.1 nodes_points x.2)
    _ (graph_size n + 1) ?_ ?_ ?_ _ _ (head_inv_init_fp n w x.1 nodes_points x.2) ?_
  · exact fun st st1 h hs => search_step_next_fp n w x.1 nodes_points _ x.2 st st1 hk hwn h hs
  · exact fun st r h hs => search_step_done_fp n w x.1 nodes_points _ x.2 st r hk hwn h hs
  · exact fun st h => head_inv_length_fp n w x.1 nodes_points x.2 st h
  · simp [init_state]

end fp
end nodes_distances
end Bustrips

set_option maxRecDepth 100000
namespace Bustrips
namespace nodes_distances
namespace fp

/-! ### Claims C1 and C20: the distances of a record, in double precision -/

theorem mem_emit_fp (xs ys : List (Nat × ℚ)) (d real_d : double) (r : Record)
    (h : r ∈ emit xs ys d real_d) :
    (r.id1, r.off1) ∈ xs ∧ (r.id2, r.off2) ∈ ys ∧ r.id1 < r.id2 ∧ r.d = d ∧
      r.real_d = real_d := by
  simp only [emit, List.mem_flatMap, List.mem_map, List.mem_filter, decide_eq_true_eq] at h
  obtain ⟨n1, h1, n2, ⟨h2, h3⟩, h4⟩ := h
  subst h4
  exact ⟨h1, h2, h3, rfl, rfl⟩

theorem plain_cost_eq_real_fp (n : Graph) (w : double) (hi : no_improved n) :
    ∀ (p : List Nat) (a : Nat) (acc : double),
      path_cost n w acc a p = path_real n acc a p := by
  intro p
  induction p with
  | nil => intro a acc; rfl
  | cons x p ih =>
    intro a acc
    simp only [path_cost, path_real]
    cases he : find_edge n a x with
    | none => rfl
    | some e =>
      have hm : (x, e) ∈ adj n a := map_find_mem _ _ _ he
      have : edge_weight w e = double.fin e.d := by
        unfold edge_weight
        rw [hi _ (adj_mem n a _ hm) _ hm]
        rfl
      simp only [this]
      exact ih x _

theorem trace_min_cost_fp (n : Graph) (w : double) (S : Nat) (nodes_points : Points)
    (xs : List (Nat × ℚ)) (st : SearchState) (h : trace_ok n w S nodes_points xs st) :
    ∀ t ∈ st.trace, is_min_cost n w S t.node_id t.d ∧ (double.fin 0).le t.d = true := by
  intro t ht
  obtain ⟨p, hp1, hp2, _⟩ := h.t_walk t ht
  have h0 := h.t_pos t ht
  have hn := double.ne_nan_of_nonneg _ h0
  refine ⟨⟨⟨p, hp1, hp2⟩, fun q c hq hc => ?_⟩, ?_⟩
  · have hle := h.t_min t ht q c hq hc
    exact (double.le_iff _ _ hn (double.ne_nan_of_nonneg _ (le_trans h0 hle))).2 hle
  · exact (double.le_iff _ _ (by simp) hn).2 h0

/-- C1, counterexample. On the network 1 - 2 - 3 - 4 with the lengths 1, 1 and 10^16 (all
at least 0, no improved edge, factor 2) the search from node 4 writes, for the point at
node 1, the weighted distance `10^16`, while the least sum of the costs of the edges of a
path from node 4 to node 1 is `10^16 + 2`: each of the two additions of 1 to `10^16` is
rounded away. -/
theorem record_cost_not_exact_sum :
    adj_keys_distinct chain_graph ∧ dist_nonneg chain_graph ∧
    (double.fin 0).lt (double.fin 2) = true ∧
    (search chain_graph (double.fin 2) chain_points (4, [(100, 0)])).st.out =
      [⟨100, 200, double.fin 10000000000000000, double.fin 10000000000000000, 0, 0⟩] ∧
    points_at chain_points 1 = [(200, 0)] ∧
    nodes_distances.is_min_cost chain_graph 2 4 1 10000000000000002 ∧
    double.fin 10000000000000000 ≠ double.fin 10000000000000002 := by
  refine ⟨by decide!, by decide!, by decide!, by decide!, by decide!, ?_, by decide!⟩
  exact (nodes_distances.search_record_min_cost chain_graph 2 chain_points (4, [(100, 0)])
    (by decide!) (by decide!) (by norm_num)).2.2.2
    ⟨10000000000000002, 10000000000000002, 1, 2⟩ (by decide!)

/-- C1, amended. In a graph whose adjacencies are maps, with all edge distances at least 0
and an improved-edge factor above 0 (a comparison of doubles, so the factor is not NaN),
the search from the node `x.1` ends normally or with "not all points found"; every record
it writes is written for a point of `x.2` and a point located at some node `current`,
with a weighted distance `d` that is the least cost of a path from `x.1` to `current`,
where the cost of a path is the one the program accumulates: starting from 0 at `x.1`,
one addition of doubles per edge in the order of the path, of the distance of the edge,
divided (as doubles) by the factor when the edge is improved. Some path has exactly the
cost `d`, and `d <= c` holds for the cost `c` of every path. The records are, in order,
those written at the extraction of each entry of the log, and every extracted entry
carries such a least cost, which is a double at least 0. -/
theorem record_min_cost_double (n : Graph) (w : double) (nodes_points : Points)
    (x : Nat × List (Nat × ℚ)) (hk : adj_keys_distinct n) (hn : dist_nonneg n)
    (hw : (double.fin 0).lt w = true) :
    ((search n w nodes_points x).status = Status.ok ∨
      (search n w nodes_points x).status = Status.not_all_found) ∧
    (∀ r ∈ (search n w nodes_points x).st.out, ∃ current,
      (r.id1, r.off1) ∈ x.2 ∧ (r.id2, r.off2) ∈ points_at nodes_points current ∧
      is_min_cost n w x.1 current r.d) ∧
    (search n w nodes_points x).st.out =
      (search n w nodes_points x).st.trace.flatMap
        (fun t => emit x.2 (points_at nodes_points t.node_id) t.d t.real_d) ∧
    ∀ t ∈ (search n w nodes_points x).st.trace,
      is_min_cost n w x.1 t.node_id t.d ∧ (double.fin 0).le t.d = true := by
  obtain ⟨htr, hst, _⟩ := search_end_ok_fp n w nodes_points x hk
    (weights_nonneg_of_pos_fp n w hn hw)
  have hmin := trace_min_cost_fp n w x.1 nodes_points x.2 _ htr
  refine ⟨?_, ?_, htr.out_eq, hmin⟩
  · rcases hst with h | h
    · exact Or.inl h.1
    · exact Or.inr h.1
  · intro r hr
    rw [htr.out_eq, List.mem_flatMap] at hr
    obtain ⟨t, ht, hrt⟩ := hr
    obtain ⟨h1, h2, _, h4, _⟩ := mem_emit_fp _ _ _ _ r hrt
    refine ⟨t.node_id, h1, h2, ?_⟩
    rw [h4]
    exact (hmin t ht).1

/-- Witness of the amended C1 on the network 1 - 2 - 3 - 4 with the lengths 1, 1 and
10^16: the record written by the search from node 4 for the point at node 1 carries
`10^16`, the least cost accumulated in double precision. -/
theorem record_min_cost_double_witness :
    (search chain_graph (double.fin 2) chain_points (4, [(100, 0)])).st.out =
      [⟨100, 200, double.fin 10000000000000000, double.fin 10000000000000000, 0, 0⟩] ∧
    path_cost chain_graph (double.fin 2) (double.fin 0) 4 [3, 2, 1] =
      some (double.fin 10000000000000000) ∧
    ∀ r ∈ (search chain_graph (double.fin 2) chain_points (4, [(100, 0)])).st.out,
      ∃ current, (r.id1, r.off1) ∈ [((100 : Nat), (0 : ℚ))] ∧
        (r.id2, r.off2) ∈ points_at chain_points current ∧
        is_min_cost chain_graph (double.fin 2) 4 current r.d :=
  ⟨by decide!, by decide!,
   (record_min_cost_double chain_graph (double.fin 2) chain_points (4, [(100, 0)])
      (by decide!) (by decide!) (by decide!)).2.1⟩

/-- C20, counterexample. On the network 1 - 2 - 3 - 4 with the lengths 1, 1 and 10^16 (all
at least 0, no improved edge, factor 2) node 1 is extracted in the search from node 4
with the real distance `10^16`; the only path of weighted cost at most `10^16 + 2` from
node 4 to node 1 is 4, 3, 2, 1, and the sum of the raw distances of its edges is
`10^16 + 2`. -/
theorem real_distance_not_exact_sum :
    adj_keys_distinct chain_graph ∧ dist_nonneg chain_graph ∧
    (double.fin 0).lt (double.fin 2) = true ∧
    (search chain_graph (double.fin 2) chain_points (4, [(100, 0)])).st.trace.map
      (fun t => (t.node_id, t.d, t.real_d)) =
      [(4, double.fin 0, double.fin 0),
       (3, double.fin 10000000000000000, double.fin 10000000000000000),
       (2, double.fin 10000000000000000, double.fin 10000000000000000),
       (1, double.fin 10000000000000000, double.fin 10000000000000000)] ∧
    nodes_distances.path_real chain_graph 4 [3, 2, 1] = some 10000000000000002 ∧
    (∀ p r, path_last 4 p = 1 → nodes_distances.path_real chain_graph 4 p = some r →
      10000000000000002 ≤ r) ∧
    double.fin 10000000000000000 ≠ double.fin 10000000000000002 := by
  refine ⟨by decide!, by decide!, by decide!, by decide!, by decide!, ?_, by decide!⟩
  intro p r hp hr
  have hmin := (nodes_distances.search_record_min_cost chain_graph 2 chain_points
    (4, [(100, 0)]) (by decide!) (by decide!) (by norm_num)).2.2.2
    ⟨10000000000000002, 10000000000000002, 1, 2⟩ (by decide!)
  have hplain := nodes_distances.plain_cost_eq_real chain_graph 2
    (nodes_distances.edge_weight_plain chain_graph 2 (Or.inl (by decide!))) p 4
  exact hmin.2 p r hp (hplain.trans hr)

/-- C20, amended. On a graph whose adjacencies are maps, with all edge distances at least
0 and a factor above 0 (a comparison of doubles), every entry extracted by the search
from `x.1` carries a weighted distance `d` and a real distance `real_d` such that some
path from `x.1` to the node of the entry has the weighted cost `d` and the raw length
`real_d`, both as the program accumulates them: starting from 0 at `x.1`, one addition of
doubles per edge in the order of the path (of the cost of the edge for `d`, of its raw
distance for `real_d`). Every record written carries the two distances of such an entry.
When no edge is marked improved, the real distance equals the weighted distance in every
extracted entry and in every record written (as values, and for the comparison `==` of
doubles). -/
theorem real_distance_path_double (n : Graph) (w : double) (nodes_points : Points)
    (x : Nat × List (Nat × ℚ)) (hk : adj_keys_distinct n) (hn : dist_nonneg n)
    (hw : (double.fin 0).lt w = true) :
    (∀ t ∈ (search n w nodes_points x).st.trace, ∃ p, path_last x.1 p = t.node_id ∧
      path_cost n w (double.fin 0) x.1 p = some t.d ∧
      path_real n (double.fin 0) x.1 p = some t.real_d) ∧
    (∀ r ∈ (search n w nodes_points x).st.out, ∃ t ∈ (search n w nodes_points x).st.trace,
      r.d = t.d ∧ r.real_d = t.real_d ∧
      (r.id2, r.off2) ∈ points_at nodes_points t.node_id) ∧
    (no_improved n →
      (∀ t ∈ (search n w nodes_points x).st.trace,
        t.real_d = t.d ∧ t.real_d.eq t.d = true) ∧
      ∀ r ∈ (search n w nodes_points x).st.out, r.real_d = r.d ∧ r.real_d.eq r.d = true) := by
  obtain ⟨htr, _, _⟩ := search_end_ok_fp n w nodes_points x hk
    (weights_nonneg_of_pos_fp n w hn hw)
  have hrec : ∀ r ∈ (search n w nodes_points x).st.out,
      ∃ t ∈ (search n w nodes_points x).st.trace,
      r.d = t.d ∧ r.real_d = t.real_d ∧
      (r.id2, r.off2) ∈ points_at nodes_points t.node_id := by
    intro r hr
    rw [htr.out_eq, List.mem_flatMap] at hr
    obtain ⟨t, ht, hrt⟩ := hr
    obtain ⟨_, h2, _, h4, h5⟩ := mem_emit_fp _ _ _ _ r hrt
    exact ⟨t, ht, h4, h5, h2⟩
  refine ⟨fun t ht => htr.t_walk t ht, hrec, fun hni => ?_⟩
  have ht : ∀ t ∈ (search n w nodes_points x).st.trace,
      t.real_d = t.d ∧ t.real_d.eq t.d = true := by
    intro t ht
    obtain ⟨p, _, hp2, hp3⟩ := htr.t_walk t ht
    have := plain_cost_eq_real_fp n w hni p x.1 (double.fin 0)
    rw [hp2, hp3] at this
    have e : t.real_d = t.d := (Option.some.inj this).symm
    refine ⟨e, ?_⟩
    rw [e, double.eq_true_iff]
    exact ⟨double.ne_nan_of_nonneg _ (htr.t_pos t ht), rfl⟩
  refine ⟨ht, fun r hr => ?_⟩
  obtain ⟨t, hmem, h1, h2, _⟩ := hrec r hr
  rw [h1, h2]
  exact ht t hmem

/-- Witness of the amended C20 on the scenario with the improved edge 1 - 2 and the
factor 2: the record carries the weighted distance 9.5 and the real distance 12 of the
path 1, 2, 3. -/
theorem real_distance_path_double_witness :
    (search improved_graph (double.fin 2) [(1, [(100, 0)]), (3, [(200, 0)])]
        (1, [(100, 0)])).st.out =
      [⟨100, 200, double.fin (19 / 2), double.fin 12, 0, 0⟩] ∧
    path_cost improved_graph (double.fin 2) (double.fin 0) 1 [2, 3] =
      some (double.fin (19 / 2)) ∧
    path_real improved_graph (double.fin 0) 1 [2, 3] = some (double.fin 12) ∧
    ∀ t ∈ (search improved_graph (double.fin 2) [(1, [(100, 0)]), (3, [(200, 0)])]
        (1, [(100, 0)])).st.trace,
      ∃ p, path_last 1 p = t.node_id ∧
        path_cost improved_graph (double.fin 2) (double.fin 0) 1 p = some t.d ∧
        path_real improved_graph (double.fin 0) 1 p = some t.real_d :=
  ⟨by decide!, by decide!, by decide!,
   (real_distance_path_double improved_graph (double.fin 2)
      [(1, [(100, 0)]), (3, [(200, 0)])] (1, [(100, 0)])
      (by decide!) (by decide!) (by decide!)).1⟩

/-! ### Claim C18: the order of the queue and the least entry -/

theorem relax_edge_nd_ok_back (w : double) (current : Nat) (d real_d : double)
    (q : List node) (nd : List (Nat × double)) (x : Nat × edge_info)
    (s1 : List node × List (Nat × double))
    (h : relax_edge w current d real_d (q, nd) x = some s1) (hok : nd_ok s1.2) :
    nd_ok nd := by
  rw [relax_edge_eq_fp] at h
  intro k v hk
  cases hf : map_find nd x.1 with
  | none =>
    simp only [hf] at h
    cases h
    exact hok k v (by rw [map_find_append, hk]; rfl)
  | some old =>
    simp only [hf] at h
    by_cases hlt : (relax_d1 w d x).lt old = true
    · simp only [hlt, if_true] at h
      by_cases hc : (set_erase ⟨old, double.fin 0, x.1, 0⟩ q).2 = 1
      · simp only [hc, ne_eq, not_true_eq_false, if_false] at h
        cases h
        by_cases hkx : x.1 = k
        · subst hkx
          rw [hf] at hk
          cases hk
          exact (double.lt_ne_nan _ _ hlt).2
        · exact hok k v (by rw [map_find_set_other _ _ _ _ hkx]; exact hk)
      · simp [hc] at h
    · simp only [hlt, if_false] at h
      cases h
      exact hok k v hk

theorem relax_edge_queue_inv_any (U : List Nat) (w : double) (current : Nat)
    (d real_d : double) (q : List node) (nd : List (Nat × double)) (E : List Nat)
    (x : Nat × edge_info) (s1 : List node × List (Nat × double))
    (hinv : queue_inv U q nd E) (hx : x.1 ∈ U)
    (h : relax_edge w current d real_d (q, nd) x = some s1) (hok : nd_ok s1.2) :
    queue_inv U s1.1 s1.2 E := by
  by_cases hd1 : relax_d1 w d x = double.nan
  · rw [relax_edge_eq_fp] at h
    cases hf : map_find nd x.1 with
    | none =>
      simp only [hf] at h
      cases h
      have := hok x.1 (relax_d1 w d x) (by rw [map_find_append, hf]; simp [map_find])
      exact absurd hd1 this
    | some old =>
      simp only [hf] at h
      have hlt : (relax_d1 w d x).lt old = false := by
        rw [hd1]
        rfl
      simp only [hlt, Bool.false_eq_true, if_false] at h
      cases h
      exact hinv
  · obtain ⟨hcase, hsorted⟩ := relax_edge_some_fp U w current d real_d q nd E x s1 hinv hd1 h
    exact relax_case_queue_inv_fp U w current d real_d q nd E x s1.1 s1.2 hinv hx hd1
      hsorted hcase

theorem relax_queue_inv_any (U : List Nat) (w : double) (current : Nat) (d real_d : double)
    (E : List Nat) : ∀ (xs : List (Nat × edge_info)) (q : List node)
    (nd : List (Nat × double)) (s : List node × List (Nat × double)),
    relax w current d real_d xs (q, nd) = some s → nd_ok s.2 →
    nd_ok nd ∧ (queue_inv U q nd E → (∀ x ∈ xs, x.1 ∈ U) → queue_inv U s.1 s.2 E) := by
  intro xs
  induction xs with
  | nil =>
    intro q nd s hr hok
    simp only [relax, Option.some.injEq] at hr
    subst hr
    exact ⟨hok, fun h _ => h⟩
  | cons x xs ih =>
    intro q nd s hr hok
    simp only [relax] at hr
    cases he : relax_edge w current d real_d (q, nd) x with
    | none => rw [he] at hr; cases hr
    | some s1 =>
      rw [he] at hr
      obtain ⟨hok1, hfwd⟩ := ih s1.1 s1.2 s hr hok
      refine ⟨relax_edge_nd_ok_back w current d real_d q nd x s1 he hok1, fun h hx => ?_⟩
      exact hfwd (relax_edge_queue_inv_any U w current d real_d q nd E x s1 h
        (hx x (List.mem_cons_self _ _)) he hok1) (fun y hy => hx y (List.mem_cons_of_mem _ hy))

theorem search_step_shape_fp (n : Graph) (w : double) (nodes_points : Points)
    (npoints : Nat) (xs : List (Nat × ℚ)) (st : SearchState) (it : node) (q1 : List node)
    (hq : st.q = it :: q1) :
    search_step n w nodes_points npoints xs st =
        Step.done (after_loop npoints (extracted_state nodes_points xs st it q1)) ∨
    (relax w it.node_id it.d it.real_d (adj n it.node_id) (q1, st.node_distances) = none ∧
      search_step n w nodes_points npoints xs st =
        Step.done ⟨Status.queue_error, extracted_state nodes_points xs st it q1⟩) ∨
    (∃ s, relax w it.node_id it.d it.real_d (adj n it.node_id) (q1, st.node_distances) =
        some s ∧
      search_step n w nodes_points npoints xs st =
        Step.next (relaxed_state nodes_points xs st it s)) := by
  by_cases hb : st.found + (points_at nodes_points it.node_id).length = npoints
  · left
    simp only [search_step, hq, hb, if_true, extracted_state]
  · right
    cases hr : relax w it.node_id it.d it.real_d (adj n it.node_id) (q1, st.node_distances) with
    | none =>
      left
      refine ⟨rfl, ?_⟩
      simp only [search_step, hq, hb, hr, extracted_state]
      rfl
    | some s =>
      right
      refine ⟨s, rfl, ?_⟩
      simp only [search_step, hq, hb, hr, relaxed_state]
      rfl

theorem search_step_empty_fp (n : Graph) (w : double) (nodes_points : Points)
    (npoints : Nat) (xs : List (Nat × ℚ)) (st : SearchState) (hq : st.q = []) :
    search_step n w nodes_points npoints xs st = Step.done (after_loop npoints st) := by
  simp only [search_step, hq]

theorem after_loop_st_fp (npoints : Nat) (st : SearchState) :
    (after_loop npoints st).st = st :=
  (after_loop_cases_fp npoints st).1

theorem queue_inv_extract_fp (U : List Nat) (it : node) (q1 : List node)
    (nd : List (Nat × double)) (E : List Nat) (h : queue_inv U (it :: q1) nd E) :
    queue_inv U q1 nd (E ++ [it.node_id]) := by
  have hit : it ∈ it :: q1 := List.mem_cons_self _ _
  have hsub : ∀ e ∈ q1, e ∈ it :: q1 := fun e he => List.mem_cons_of_mem _ he
  have hnd := h.q_nodup
  rw [List.map_cons, List.nodup_cons] at hnd
  refine ⟨(List.pairwise_cons.1 h.sorted).2, hnd.2, fun e he => h.q_nd e (hsub e he), ?_, ?_,
    ?_, ?_, h.univ, h.nd_ok⟩
  · rw [List.nodup_append]
    refine ⟨h.e_nodup, by simp, ?_⟩
    intro a ha hb
    rw [List.mem_singleton] at hb
    subst hb
    exact h.disj it hit ha
  · intro e he hm
    rw [List.mem_append] at hm
    rcases hm with hm | hm
    · exact h.disj e (hsub e he) hm
    · rw [List.mem_singleton] at hm
      exact hnd.1 (hm ▸ List.mem_map_of_mem node.node_id he)
  · intro k hk
    rcases h.seen k hk with h1 | h1
    · exact Or.inl (List.mem_append_left _ h1)
    · rw [List.map_cons, List.mem_cons] at h1
      rcases h1 with h1 | h1
      · exact Or.inl (by rw [h1]; simp)
      · exact Or.inr h1
  · intro k hk
    rw [List.mem_append] at hk
    rcases hk with hk | hk
    · exact h.e_seen k hk
    · rw [List.mem_singleton] at hk
      rw [hk, h.q_nd it hit]
      rfl

theorem struct_inv_init_fp (n : Graph) (S : Nat) : struct_inv n S (init_state S) := by
  unfold struct_inv
  refine ⟨?_, ?_, ?_, ?_, ?_, ?_, ?_, ?_, ?_⟩ <;> simp [init_state, sorted, map_find]

theorem struct_inv_extracted_fp (n : Graph) (S : Nat) (nodes_points : Points)
    (xs : List (Nat × ℚ)) (st : SearchState) (it : node) (q1 : List node)
    (h : struct_inv n S st) (hq : st.q = it :: q1) :
    struct_inv n S (extracted_state nodes_points xs st it q1) := by
  unfold struct_inv at h ⊢
  rw [hq] at h
  have := queue_inv_extract_fp _ it q1 _ _ h
  simpa [extracted_state] using this

theorem search_step_struct_fp (n : Graph) (w : double) (S : Nat) (nodes_points : Points)
    (npoints : Nat) (xs : List (Nat × ℚ)) (st : SearchState)
    (h : nd_ok st.node_distances → struct_inv n S st)
    (hok : nd_ok (step_state (search_step n w nodes_points npoints xs st)).node_distances) :
    struct_inv n S (step_state (search_step n w nodes_points npoints xs st)) := by
  cases hq : st.q with
  | nil =>
    rw [search_step_empty_fp n w nodes_points npoints xs st hq] at hok ⊢
    simp only [step_state, after_loop_st_fp] at hok ⊢
    exact h hok
  | cons it q1 =>
    rcases search_step_shape_fp n w nodes_points npoints xs st it q1 hq with
      h1 | ⟨_, h1⟩ | ⟨s, hs, h1⟩
    · rw [h1] at hok ⊢
      simp only [step_state, after_loop_st_fp] at hok ⊢
      exact struct_inv_extracted_fp n S nodes_points xs st it q1 (h hok) hq
    · rw [h1] at hok ⊢
      exact struct_inv_extracted_fp n S nodes_points xs st it q1 (h hok) hq
    · rw [h1] at hok ⊢
      simp only [step_state, relaxed_state] at hok
      obtain ⟨hok0, hfwd⟩ := relax_queue_inv_any (S :: all_neighbors n) w it.node_id it.d
        it.real_d ((st.trace ++ [it]).map node.node_id) (adj n it.node_id) q1
        st.node_distances s hs hok
      have hex := struct_inv_extracted_fp n S nodes_points xs st it q1 (h hok0) hq
      unfold struct_inv at hex ⊢
      have := hfwd (by simpa [extracted_state] using hex)
        (fun x hx => List.mem_cons_of_mem _ (adj_neighbor n _ x hx))
      simpa [step_state, relaxed_state] using this

theorem search_loop_struct_fp (n : Graph) (w : double) (S : Nat) (nodes_points : Points)
    (npoints : Nat) (xs : List (Nat × ℚ)) :
    ∀ (fuel : Nat) (st : SearchState), (nd_ok st.node_distances → struct_inv n S st) →
      nd_ok (search_loop n w nodes_points npoints xs fuel st).st.node_distances →
      struct_inv n S (search_loop n w nodes_points npoints xs fuel st).st := by
  intro fuel
  induction fuel with
  | zero => intro st h hok; exact h hok
  | succ fuel ih =>
    intro st h
    have hs := search_step_struct_fp n w S nodes_points npoints xs st h
    simp only [search_loop]
    cases hstep : search_step n w nodes_points npoints xs st with
    | done r =>
      rw [hstep] at hs
      exact hs
    | next st1 =>
      rw [hstep] at hs
      exact ih st1 hs

theorem after_passes_struct_fp (n : Graph) (w : double) (nodes_points : Points)
    (x : Nat × List (Nat × ℚ)) (k : Nat)
    (hok : nd_ok (after_passes n w nodes_points x k).st.node_distances) :
    struct_inv n x.1 (after_passes n w nodes_points x k).st :=
  search_loop_struct_fp n w x.1 nodes_points _ x.2 k _ (fun _ => struct_inv_init_fp n x.1) hok

theorem step_state_extract_fp (n : Graph) (w : double) (nodes_points : Points)
    (npoints : Nat) (xs : List (Nat × ℚ)) (st : SearchState) (it : node) (q1 : List node)
    (hq : st.q = it :: q1) :
    (step_state (search_step n w nodes_points npoints xs st)).trace = st.trace ++ [it] := by
  rcases search_step_shape_fp n w nodes_points npoints xs st it q1 hq with
    h1 | ⟨_, h1⟩ | ⟨s, _, h1⟩
  · rw [h1]
    simp only [step_state, after_loop_st_fp]
    rfl
  · rw [h1]
    rfl
  · rw [h1]
    rfl

theorem search_loop_nd_ok (n : Graph) (w : double) (S : Nat) (nodes_points : Points)
    (npoints : Nat) (xs : List (Nat × ℚ)) (hk : adj_keys_distinct n)
    (hwn : weights_nonneg n w) :
    ∀ (fuel : Nat) (st : SearchState), head_inv n w S nodes_points xs st →
      nd_ok (search_loop n w nodes_points npoints xs fuel st).st.node_distances := by
  intro fuel
  induction fuel with
  | zero => intro st h; exact h.qi.nd_ok
  | succ fuel ih =>
    intro st h
    simp only [search_loop]
    cases hs : search_step n w nodes_points npoints xs st with
    | done r =>
      cases search_step_spec_fp n w S nodes_points npoints xs st hk hwn h with
      | empty h1 h2 =>
        rw [h2] at hs
        cases hs
        simp only [after_loop_st_fp]
        exact h.qi.nd_ok
      | stop it q1 h1 h2 h4 h5 =>
        rw [h5] at hs
        cases hs
        simp only [after_loop_st_fp]
        exact h.qi.nd_ok
      | go it q1 s h1 h2 h3 h4 h5 h6 => rw [h5] at hs; cases hs
    | next st1 =>
      exact ih st1 (search_step_next_fp n w S nodes_points npoints xs st st1 hk hwn h hs).1

/-- C18, counterexample. An entry whose weighted distance is NaN is not comparable with
any other entry: for the entries (NaN, node 1) and (1.0, node 2) neither is less than the
other although the pairs differ, and the entry (NaN, node 1) does not have a weighted
distance equal (`==`) to its own. Such entries are queued: the value NaN of the option
`-I` passes the test `improved_edge_weight <= 0` of line 134, and in the search from node
1 on the network 1 - 2 with the improved edge 1 - 2 the first pass queues node 2 with the
weighted distance `0 + 5 / NaN`, which is NaN. -/
theorem node_lt_not_total :
    (node.lt ⟨double.nan, double.fin 0, 1, 0⟩ ⟨double.fin 1, double.fin 0, 2, 0⟩ = false ∧
     node.lt ⟨double.fin 1, double.fin 0, 2, 0⟩ ⟨double.nan, double.fin 0, 1, 0⟩ = false ∧
     double.eq double.nan double.nan = false) ∧
    read_improved_edges (read_network [(1, 2, 5)]) double.nan (some [(1, 2)]) =
      Except.ok marked_edge ∧
    (step_state (search_step marked_edge double.nan [(1, [(100, 0)]), (2, [(200, 0)])] 2
      [(100, 0)] (init_state 1))).q = [⟨double.nan, double.fin 5, 2, 1⟩] := by
  refine ⟨⟨by decide!, by decide!, by decide!⟩, by rfl, by decide!⟩

/-- C18, amended. The comparison `node::operator<` is the lexicographic comparison of the
pair (weighted distance, node id) with the comparisons `<` and `==` of doubles; it does
not look at the real distance or the ancestor; it is irreflexive and transitive; and on
entries whose weighted distance is not NaN it is total: of two such entries one is less
than the other, or they have the same weighted distance and the same node id. In every
search, on any graph and for any factor, as long as no value of `node_distances` is NaN,
the queue is strictly increasing for this order, so the entry taken by a pass of the
loop, the first one, is below every other queued entry: no queued entry has a smaller
weighted distance, and among entries at that distance its node id is the smallest. On a
graph whose adjacencies are maps, with all edge distances at least 0 and a factor above
0, no value of `node_distances` is ever NaN. -/
theorem extract_least_double (n : Graph) (w : double) (nodes_points : Points)
    (x : Nat × List (Nat × ℚ)) :
    (∀ a b : node, a.lt b =
      (a.d.lt b.d || (a.d.eq b.d && decide (a.node_id < b.node_id)))) ∧
    (∀ (a b : node) (r1 r2 : double) (c1 c2 : Nat),
      node.lt ⟨a.d, r1, a.node_id, c1⟩ ⟨b.d, r2, b.node_id, c2⟩ = a.lt b) ∧
    (∀ a : node, a.lt a = false) ∧
    (∀ a b c : node, a.lt b = true → b.lt c = true → a.lt c = true) ∧
    (∀ a b : node, a.d ≠ double.nan → b.d ≠ double.nan →
      a.lt b = true ∨ b.lt a = true ∨ (a.d.eq b.d = true ∧ a.node_id = b.node_id)) ∧
    (∀ k it q1, nd_ok (after_passes n w nodes_points x k).st.node_distances →
      (after_passes n w nodes_points x k).st.q = it :: q1 →
      (step_state (search_step n w nodes_points (count_points nodes_points) x.2
        (after_passes n w nodes_points x k).st)).trace =
        (after_passes n w nodes_points x k).st.trace ++ [it] ∧
      ∀ e ∈ q1, it.lt e = true ∧ e.d.lt it.d = false ∧
        (it.d.eq e.d = true → it.node_id < e.node_id)) ∧
    (adj_keys_distinct n → dist_nonneg n → (double.fin 0).lt w = true →
      ∀ k, nd_ok (after_passes n w nodes_points x k).st.node_distances) := by
  refine ⟨fun _ _ => rfl, fun _ _ _ _ _ _ => rfl, node_lt_irrefl_fp, node_lt_trans_fp, ?_, ?_,
    ?_⟩
  · intro a b ha hb
    rw [node_lt_iff_fp a b ha hb, node_lt_iff_fp b a hb ha, double.eq_iff _ _ ha]
    rcases lt_trichotomy a.d b.d with h | h | h
    · exact Or.inl (Or.inl h)
    · rcases Nat.lt_trichotomy a.node_id b.node_id with h2 | h2 | h2
      · exact Or.inl (Or.inr ⟨h, h2⟩)
      · exact Or.inr (Or.inr ⟨h, h2⟩)
      · exact Or.inr (Or.inl (Or.inr ⟨h.symm, h2⟩))
    · exact Or.inr (Or.inl (Or.inl h))
  · intro k it q1 hok hq
    refine ⟨step_state_extract_fp n w nodes_points _ x.2 _ it q1 hq, ?_⟩
    have hst := after_passes_struct_fp n w nodes_points x k hok
    have hs := hst.sorted
    have hqok := queue_inv_q_ok _ _ _ _ hst
    rw [hq] at hs hqok
    intro e he
    have hlt := (List.pairwise_cons.1 hs).1 e he
    have hi := hqok it (List.mem_cons_self _ _)
    have hen := hqok e (List.mem_cons_of_mem _ he)
    refine ⟨hlt, ?_, fun heq => ?_⟩
    · rw [double.lt_false_iff _ _ hen hi]
      exact node_lt_le_fp _ _ hlt
    · rcases (node_lt_iff_fp it e hi hen).1 hlt with h | h
      · exact absurd ((double.eq_iff _ _ hi).1 heq) (ne_of_lt h)
      · exact h.2
  · intro hk hn hw k
    exact search_loop_nd_ok n w x.1 nodes_points _ x.2 hk (weights_nonneg_of_pos_fp n w hn hw)
      k _ (head_inv_init_fp n w x.1 nodes_points x.2)

/-! ### Claims C8 and C9: symmetry of the real distance, improved edges -/

theorem extracted_mem_fp (r : SearchEnd) (v : Nat) (t : node) (h : extracted r v = some t) :
    t ∈ r.st.trace ∧ t.node_id = v := by
  unfold extracted at h
  exact ⟨List.mem_of_find?_eq_some h, by simpa using List.find?_some h⟩

theorem pos_of_one_lt (w : double) (hw : (double.fin 1).lt w = true) :
    (double.fin 0).lt w = true := by
  rcases w with _ | (_ | _) | q
  · simp [double.lt] at hw
  · rfl
  · simp [double.lt] at hw
  · simp only [double.lt, decide_eq_true_eq] at hw ⊢
    linarith

theorem edge_weight_improve_le_fp (w : double) (hw : (double.fin 1).lt w = true)
    (e : edge_info) (he : 0 ≤ e.d) (hr : double.round64 e.d = double.fin e.d) :
    edge_weight w (improve e) ≤ edge_weight w e := by
  unfold edge_weight improve
  simp only [if_true]
  split
  · exact le_refl _
  · exact double.div_le e.d w he hr (by simp [double.le, hw])

/-- Marking an edge improved with a factor above 1 does not increase the cost of any path
in double precision. -/
theorem path_cost_mark_improved_fp (n n1 : Graph) (w : double) (a b : Nat)
    (hn : dist_nonneg n) (hr : dist_representable n) (hw : (double.fin 1).lt w = true)
    (h : mark_improved n (a, b) = some n1) :
    ∀ (p : List Nat) (u : Nat) (acc acc1 c : double), double.fin 0 ≤ acc1 → acc1 ≤ acc →
      path_cost n w acc u p = some c →
      ∃ c1, path_cost n1 w acc1 u p = some c1 ∧ c1 ≤ c ∧ double.fin 0 ≤ c1 := by
  have hpos := pos_of_one_lt w hw
  intro p
  induction p with
  | nil =>
    intro u acc acc1 c h0 hle hc
    simp only [path_cost, Option.some.injEq] at hc
    subst hc
    exact ⟨acc1, rfl, hle, h0⟩
  | cons x p ih =>
    intro u acc acc1 c h0 hle hc
    simp only [path_cost] at hc
    cases he : find_edge n u x with
    | none => simp [he] at hc
    | some e =>
      simp only [he] at hc
      have hm : (x, e) ∈ adj n u := map_find_mem _ _ _ he
      have hd : 0 ≤ e.d := hn _ (adj_mem n u _ hm) _ hm
      have hrep : double.round64 e.d = double.fin e.d :=
        hr (u, adj n u) (adj_mem n u _ hm) (x, e) hm
      have hfe := find_edge_mark_improved n n1 a b u x h
      rw [he] at hfe
      by_cases hmk : (u = a ∧ x = b) ∨ (u = b ∧ x = a)
      · rw [if_pos hmk] at hfe
        have hd1 : 0 ≤ (improve e).d := by simpa [improve] using hd
        have hw1 : double.fin 0 ≤ edge_weight w (improve e) :=
          edge_weight_nonneg w (improve e) hd1 (Or.inl hpos)
        obtain ⟨c1, e1, e2, e3⟩ := ih x (acc + edge_weight w e)
          (acc1 + edge_weight w (improve e)) c (double.nonneg_add _ _ h0 hw1)
          (double.add_mono _ _ _ _ h0 hle hw1 (edge_weight_improve_le_fp w hw e hd hrep)) hc
        refine ⟨c1, ?_, e2, e3⟩
        simp only [path_cost, hfe, Option.map_some']
        exact e1
      · rw [if_neg hmk] at hfe
        have hw1 : double.fin 0 ≤ edge_weight w e := edge_weight_nonneg w e hd (Or.inl hpos)
        obtain ⟨c1, e1, e2, e3⟩ := ih x (acc + edge_weight w e) (acc1 + edge_weight w e) c
          (double.nonneg_add _ _ h0 hw1) (double.add_mono _ _ _ _ h0 hle hw1 (le_refl _)) hc
        refine ⟨c1, ?_, e2, e3⟩
        simp only [path_cost, hfe]
        exact e1

/-- Marking an edge improved does not change the raw length of any path. -/
theorem path_real_mark_improved_fp (n n1 : Graph) (a b : Nat)
    (h : mark_improved n (a, b) = some n1) :
    ∀ (p : List Nat) (u : Nat) (acc : double), path_real n1 acc u p = path_real n acc u p := by
  intro p
  induction p with
  | nil => intro u acc; rfl
  | cons x p ih =>
    intro u acc
    simp only [path_real]
    have hfe := find_edge_mark_improved n n1 a b u x h
    cases he : find_edge n u x with
    | none =>
      rw [he] at hfe
      simp only [Option.map_none', ite_self] at hfe
      rw [hfe]
    | some e =>
      rw [he] at hfe
      by_cases hmk : (u = a ∧ x = b) ∨ (u = b ∧ x = a)
      · rw [if_pos hmk] at hfe
        simp only [hfe, Option.map_some']
        exact ih x _
      · rw [if_neg hmk] at hfe
        simp only [hfe]
        exact ih x _

/-- C9, counterexample. (a) With the edge 1 - 3 of the detour network marked improved and
factor 4, the record for the points at nodes 1 and 2 changes from weighted 3, real 3 to
weighted 2.5, real 4: the real distance is not left unchanged. (b) On the network with the
single edge 1 - 2 of length 0, the shortest path uses that edge, and marking it improved
with factor 2 leaves the weighted distance at 0: no strict decrease. (c) On the network
1 - 2 - 3 with the lengths 10^16 and 1, the only path between the nodes 1 and 3 uses the
edge 2 - 3, of positive length and not improved; marking it improved with factor 2
leaves the weighted distance at `10^16`, because `10^16 + 1` and `10^16 + 0.5` are both
rounded to `10^16`: no strict decrease. -/
theorem improved_edge_counterexample_double :
    (dist_nonneg detour_graph ∧ dist_representable detour_graph ∧
     (double.fin 1).lt (double.fin 4) = true ∧
     (search detour_graph (double.fin 4) two_points (1, points_at two_points 1)).st.out =
       [⟨100, 200, double.fin 3, double.fin 3, 0, 0⟩] ∧
     (mark_improved detour_graph (1, 3)).map
         (fun n1 => (search n1 (double.fin 4) two_points
           (1, points_at two_points 1)).st.out) =
       some [⟨100, 200, double.fin (5 / 2), double.fin 4, 0, 0⟩]) ∧
    (dist_nonneg zero_graph ∧ dist_representable zero_graph ∧
     path_cost zero_graph (double.fin 2) (double.fin 0) 1 [2] = some (double.fin 0) ∧
     uses_edge 1 2 1 [2] = true ∧
     (search zero_graph (double.fin 2) two_points (1, points_at two_points 1)).st.out =
       [⟨100, 200, double.fin 0, double.fin 0, 0, 0⟩] ∧
     (mark_improved zero_graph (1, 2)).map
         (fun n1 => (search n1 (double.fin 2) two_points
           (1, points_at two_points 1)).st.out) =
       some [⟨100, 200, double.fin 0, double.fin 0, 0, 0⟩]) ∧
    (dist_nonneg absorb_graph ∧ dist_representable absorb_graph ∧
     find_edge absorb_graph 2 3 = some ⟨1, 0, 0, false⟩ ∧
     find_edge absorb_graph 3 2 = some ⟨1, 0, 0, false⟩ ∧
     path_cost absorb_graph (double.fin 2) (double.fin 0) 1 [2, 3] =
       some (double.fin 10000000000000000) ∧
     uses_edge 2 3 1 [2, 3] = true ∧
     (search absorb_graph (double.fin 2) absorb_points
         (1, points_at absorb_points 1)).st.out =
       [⟨100, 200, double.fin 10000000000000000, double.fin 10000000000000000, 0, 0⟩] ∧
     (mark_improved absorb_graph (2, 3)).map
         (fun n1 => (search n1 (double.fin 2) absorb_points
           (1, points_at absorb_points 1)).st.out) =
       some [⟨100, 200, double.fin 10000000000000000, double.fin 10000000000000000,
         0, 0⟩]) := by
  refine ⟨⟨by decide!, by decide!, by decide!, by decide!, by decide!⟩,
    ⟨by decide!, by decide!, by decide!, by decide!, by decide!, by decide!⟩,
    ⟨by decide!, by decide!, by decide!, by decide!, by decide!, by decide!, by decide!,
      by decide!⟩⟩

/-- C9, amended. On a graph whose adjacencies are maps, with edge distances that are
doubles at least 0 and a factor above 1 (a comparison of doubles), let `tv` and `tv1` be
the entries with which `v` is extracted in the search from `u` before and after the edge
between `a` and `b` is marked improved. The weighted distance does not increase
(`tv1.d <= tv.d`); indeed the cost of every path, accumulated in double precision, does
not increase. The weighted distance strictly decreases whenever some path of least cost
from `u` to `v` has, after the marking, a cost that is smaller in double precision. The
raw length of every path is unchanged by the marking; the real distance reported before
is the raw length of a path of least cost before the marking, the one reported after is
the raw length of a path of least cost after the marking; so the real distance is
unchanged whenever all paths of least cost from `u` to `v`, before and after the marking,
have one and the same raw length. -/
theorem improved_edge_monotone_double (n n1 : Graph) (w : double) (nodes_points : Points)
    (a b u v : Nat) (tv tv1 : node)
    (hk : adj_keys_distinct n) (hn : dist_nonneg n) (hr : dist_representable n)
    (hw : (double.fin 1).lt w = true)
    (hm : mark_improved n (a, b) = some n1)
    (h1 : extracted (search n w nodes_points (u, points_at nodes_points u)) v = some tv)
    (h2 : extracted (search n1 w nodes_points (u, points_at nodes_points u)) v = some tv1) :
    tv1.d.le tv.d = true ∧
    (∀ p c, path_cost n w (double.fin 0) u p = some c →
      ∃ c1, path_cost n1 w (double.fin 0) u p = some c1 ∧ c1.le c = true) ∧
    (∀ p c1, path_last u p = v → path_cost n w (double.fin 0) u p = some tv.d →
      path_cost n1 w (double.fin 0) u p = some c1 → c1.lt tv.d = true →
      tv1.d.lt tv.d = true) ∧
    (∀ p, path_real n1 (double.fin 0) u p = path_real n (double.fin 0) u p) ∧
    (∃ p, path_last u p = v ∧ path_cost n w (double.fin 0) u p = some tv.d ∧
      path_real n (double.fin 0) u p = some tv.real_d) ∧
    (∃ p, path_last u p = v ∧ path_cost n1 w (double.fin 0) u p = some tv1.d ∧
      path_real n (double.fin 0) u p = some tv1.real_d) ∧
    (∀ R : double,
      (∀ p, path_last u p = v → path_cost n w (double.fin 0) u p = some tv.d →
        path_real n (double.fin 0) u p = some R) →
      (∀ p, path_last u p = v → path_cost n1 w (double.fin 0) u p = some tv1.d →
        path_real n (double.fin 0) u p = some R) →
      tv1.real_d = tv.real_d) := by
  have hw0 := pos_of_one_lt w hw
  obtain ⟨ht, _, _⟩ := search_end_ok_fp n w nodes_points (u, points_at nodes_points u) hk
    (weights_nonneg_of_pos_fp n w hn hw0)
  obtain ⟨ht1, _, _⟩ := search_end_ok_fp n1 w nodes_points (u, points_at nodes_points u)
    (mark_improved_keys_distinct n n1 a b hk hm)
    (weights_nonneg_of_pos_fp n1 w (mark_improved_dist_nonneg n n1 a b hn hm) hw0)
  obtain ⟨m, e⟩ := extracted_mem_fp _ _ _ h1
  obtain ⟨m1, e1⟩ := extracted_mem_fp _ _ _ h2
  have hmin := ht1.t_min tv1 m1
  rw [e1] at hmin
  simp only at hmin
  have hpos := ht.t_pos tv m
  have hpos1 := ht1.t_pos tv1 m1
  have hmono := path_cost_mark_improved_fp n n1 w a b hn hr hw hm
  have hraw := path_real_mark_improved_fp n n1 a b hm
  obtain ⟨p0, hp1, hp2, hp3⟩ := ht.t_walk tv m
  obtain ⟨q0, hq1, hq2, hq3⟩ := ht1.t_walk tv1 m1
  simp only at hp1 hp2 hp3 hq1 hq2 hq3
  rw [e] at hp1
  rw [e1] at hq1
  rw [hraw] at hq3
  refine ⟨?_, ?_, ?_, fun p => hraw p u _, ⟨p0, hp1, hp2, hp3⟩, ⟨q0, hq1, hq2, hq3⟩, ?_⟩
  · obtain ⟨c1, hc1, hle, _⟩ := hmono p0 u _ _ tv.d (le_refl _) (le_refl _) hp2
    exact (double.le_iff _ _ (double.ne_nan_of_nonneg _ hpos1)
      (double.ne_nan_of_nonneg _ hpos)).2 (le_trans (hmin p0 c1 hp1 hc1) hle)
  · intro p c hc
    obtain ⟨c1, hc1, hle, h0⟩ := hmono p u _ _ c (le_refl _) (le_refl _) hc
    exact ⟨c1, hc1, (double.le_iff _ _ (double.ne_nan_of_nonneg _ h0)
      (double.ne_nan_of_nonneg _ (le_trans h0 hle))).2 hle⟩
  · intro p c1 hp _ hc1 hlt
    have hnn := double.lt_ne_nan _ _ hlt
    have h3 : tv1.d < tv.d :=
      lt_of_le_of_lt (hmin p c1 hp hc1) ((double.lt_iff _ _ hnn.1 hnn.2).1 hlt)
    exact (double.lt_iff _ _ (double.ne_nan_of_nonneg _ hpos1) hnn.2).2 h3
  · intro R hR hR1
    have r : tv.real_d = R := Option.some.inj (hp3.symm.trans (hR p0 hp1 hp2))
    have r1 : tv1.real_d = R := Option.some.inj (hq3.symm.trans (hR1 q0 hq1 hq2))
    exact r1.trans r.symm

/-- Witness of the amended C9 on the network 1 - 2 - 3 with the edge 1 - 2 improved and
factor 2: the weighted distance of node 3 from node 1 drops from 12 to 9.5, the path
1, 2, 3 costs 12 before and 9.5 after the marking, and its raw length stays 12. -/
theorem improved_edge_monotone_double_witness :
    mark_improved (read_network [(1, 2, 5), (2, 3, 7)]) (1, 2) = some improved_graph ∧
    path_cost (read_network [(1, 2, 5), (2, 3, 7)]) (double.fin 2) (double.fin 0) 1 [2, 3] =
      some (double.fin 12) ∧
    path_cost improved_graph (double.fin 2) (double.fin 0) 1 [2, 3] =
      some (double.fin (19 / 2)) ∧
    (double.fin (19 / 2)).lt (double.fin 12) = true ∧
    (⟨double.fin (19 / 2), double.fin 12, 3, 2⟩ : node).d.le
      (⟨double.fin 12, double.fin 12, 3, 2⟩ : node).d = true ∧
    (⟨double.fin (19 / 2), double.fin 12, 3, 2⟩ : node).d.lt
      (⟨double.fin 12, double.fin 12, 3, 2⟩ : node).d = true :=
  ⟨by decide!, by decide!, by decide!, by decide!,
   (improved_edge_monotone_double (read_network [(1, 2, 5), (2, 3, 7)]) improved_graph
      (double.fin 2) [(1, [(100, 0)]), (3, [(200, 0)])] 1 2 1 3
      ⟨double.fin 12, double.fin 12, 3, 2⟩ ⟨double.fin (19 / 2), double.fin 12, 3, 2⟩
      (by decide!) (by decide!) (by decide!) (by decide!) (by decide!) (by decide!)
      (by decide!)).1,
   (improved_edge_monotone_double (read_network [(1, 2, 5), (2, 3, 7)]) improved_graph
      (double.fin 2) [(1, [(100, 0)]), (3, [(200, 0)])] 1 2 1 3
      ⟨double.fin 12, double.fin 12, 3, 2⟩ ⟨double.fin (19 / 2), double.fin 12, 3, 2⟩
      (by decide!) (by decide!) (by decide!) (by decide!) (by decide!) (by decide!)
      (by decide!)).2.2.1 [2, 3] (double.fin (19 / 2)) (by decide!) (by decide!)
      (by decide!) (by decide!)⟩

end fp
end nodes_distances
end Bustrips

set_option maxRecDepth 100000
namespace Bustrips
namespace nodes_distances

/-! ### Claim C7: an unreachable point aborts the run -/

theorem run_searches_cons (n : Graph) (w : ℚ) (nodes_points : Points)
    (x : Nat × List (Nat × ℚ)) (rest : List (Nat × List (Nat × ℚ))) (out : List Record) :
    run_searches n w nodes_points (count_points nodes_points) (x :: rest) out =
      match (search n w nodes_points x).status with
      | Status.ok => run_searches n w nodes_points (count_points nodes_points) rest
          (out ++ (search n w nodes_points x).st.out)
      | Status.not_all_found =>
          (out ++ (search n w nodes_points x).st.out, some Error.not_all_found)
      | Status.queue_error =>
          (out ++ (search n w nodes_points x).st.out, some Error.queue_error)
      | Status.out_of_fuel =>
          (out ++ (search n w nodes_points x).st.out, some Error.out_of_fuel) := rfl

theorem run_searches_all_ok (n : Graph) (w : ℚ) (nodes_points : Points) :
    ∀ (l : List (Nat × List (Nat × ℚ))) (out : List Record),
      (∀ y ∈ l, (search n w nodes_points y).status = Status.ok) →
      run_searches n w nodes_points (count_points nodes_points) l out =
        (out ++ l.flatMap (fun y => (search n w nodes_points y).st.out), none) := by
  intro l
  induction l with
  | nil => intro out _; simp [run_searches]
  | cons y l ih =>
    intro out h
    rw [run_searches_cons, h y (List.mem_cons_self _ _)]
    simp only
    rw [ih _ (fun z hz => h z (List.mem_cons_of_mem _ hz)), List.flatMap_cons,
      List.append_assoc]

theorem run_searches_stop (n : Graph) (w : ℚ) (nodes_points : Points)
    (x : Nat × List (Nat × ℚ)) (l2 : List (Nat × List (Nat × ℚ)))
    (hx : (search n w nodes_points x).status = Status.not_all_found) :
    ∀ (l1 : List (Nat × List (Nat × ℚ))) (out : List Record),
      (∀ y ∈ l1, (search n w nodes_points y).status = Status.ok) →
      run_searches n w nodes_points (count_points nodes_points) (l1 ++ x :: l2) out =
        (out ++ l1.flatMap (fun y => (search n w nodes_points y).st.out) ++
          (search n w nodes_points x).st.out, some Error.not_all_found) := by
  intro l1
  induction l1 with
  | nil =>
    intro out _
    rw [List.nil_append, run_searches_cons, hx]
    simp
  | cons y l ih =>
    intro out h
    rw [List.cons_append, run_searches_cons, h y (List.mem_cons_self _ _)]
    simp only
    rw [ih _ (fun z hz => h z (List.mem_cons_of_mem _ hz)), List.flatMap_cons]
    simp only [List.append_assoc]

theorem run_searches_error (n : Graph) (w : ℚ) (nodes_points : Points)
    (hs : ∀ y, (search n w nodes_points y).status = Status.ok ∨
      (search n w nodes_points y).status = Status.not_all_found) :
    ∀ (l : List (Nat × List (Nat × ℚ))) (out : List Record),
      ((run_searches n w nodes_points (count_points nodes_points) l out).2 = none ↔
        ∀ y ∈ l, (search n w nodes_points y).status = Status.ok) ∧
      ((run_searches n w nodes_points (count_points nodes_points) l out).2 ≠ none →
        (run_searches n w nodes_points (count_points nodes_points) l out).2 =
          some Error.not_all_found) := by
  intro l
  induction l with
  | nil => intro out; simp [run_searches]
  | cons y l ih =>
    intro out
    rw [run_searches_cons]
    rcases hs y with h | h
    · rw [h]
      simp only
      obtain ⟨h1, h2⟩ := ih (out ++ (search n w nodes_points y).st.out)
      refine ⟨?_, h2⟩
      rw [h1]
      constructor
      · intro hall z hz
        rcases List.mem_cons.1 hz with e | e
        · rw [e]
          exact h
        · exact hall z e
      · exact fun hall z hz => hall z (List.mem_cons_of_mem _ hz)
    · rw [h]
      simp only
      refine ⟨?_, fun _ => trivial⟩
      constructor
      · intro hc
        cases hc
      · intro hall
        have := hall y (List.mem_cons_self _ _)
        rw [h] at this
        cases this

end nodes_distances
end Bustrips
